import Mathlib

/-!
Inter-pod affinity priority
(`plugin/pkg/scheduler/algorithm/priorities/interpod_affinity.go`)

A shallow embedding of `CalculateInterPodAffinityPriority` and of the
`podAffinityPriorityMap` it accumulates into.

Modelling conventions

* Mutable state (`podAffinityPriorityMap`) is passed explicitly.
* A `float64` value is the rational number it denotes.  Every `float64`
  operation, and every conversion of an integer to `float64`, gives the exact
  result rounded to the nearest number with a significand of 53 bits, ties
  going to the even significand (`round64`).  The range of the exponent is not
  modelled: with `hardPodAffinityWeight` in the range of a 64-bit `int`, the
  counts of a run are integers of magnitude at most `2^117` (`counts_bounded`)
  and the scores are formed from a quotient of two of their differences, so no
  operation of the scorer overflows or underflows.
* An `int` is an integer; `hardPodAffinityWeight` is read only through its sign
  and its conversion to `float64`.
* `int32` values are integers, with the wrap-around of the multiplication in
  `processTerms` made explicit (`toInt32`).
* A Go `error` is a message; `nil` is `none`.  A function returning
  `(value, error)` returns `Except`.
* `workqueue.Parallelize` runs `processNode` for every index; every update of
  the shared map happens under its mutex, so a run is a sequence of atomic
  steps.  `CalculateInterPodAffinityPriority` is the run in index order; other
  schedules are treated through `Step` and `runSteps`.
* Functions of other packages that the file calls but that are not part of the
  embedded source are parameters, bundled in `Lib`.
-/

namespace Priorities

/-- A Go `error` value. -/
abbrev Error := String

/-- A `float64` value, given by the rational number it denotes. -/
abbrev float64 := ℚ

/-- The integer nearest to `x`; of two nearest integers, the even one. -/
def roundToEven (x : ℚ) : Int :=
  if x - ⌊x⌋ < 1 / 2 then ⌊x⌋
  else if 1 / 2 < x - ⌊x⌋ then ⌊x⌋ + 1
  else if ⌊x⌋ % 2 = 0 then ⌊x⌋ else ⌊x⌋ + 1

/-- The position of the leading bit of `n`, found in at most `fuel` halvings. -/
def leadingBitAux : Nat → Nat → Nat
  | 0, _ => 0
  | fuel + 1, n => if n < 2 then 0 else leadingBitAux fuel (n / 2) + 1

/-- The position of the leading bit of a positive natural number. -/
def leadingBit (n : Nat) : Nat := leadingBitAux n n

/-- The binary exponent of a non-zero rational `x`: the `e` with
`2^e ≤ |x| < 2^(e+1)`. -/
def exponent (x : ℚ) : Int :=
  if (2 : ℚ) ^ ((leadingBit x.num.natAbs : Int) - (leadingBit x.den : Int)) ≤ |x| then
    (leadingBit x.num.natAbs : Int) - (leadingBit x.den : Int)
  else (leadingBit x.num.natAbs : Int) - (leadingBit x.den : Int) - 1

/-- The positive `float64` nearest to the positive rational `x`: `x` is
rounded to a multiple of `2^(e-52)`, `e` being its exponent, which leaves a
significand of 53 bits. -/
def roundMagnitude (x : ℚ) : ℚ :=
  (roundToEven (x / (2 : ℚ) ^ (exponent x - 52)) : ℚ) * (2 : ℚ) ^ (exponent x - 52)

/-- Rounding to `float64`: to nearest, ties to even. -/
def round64 (x : ℚ) : float64 :=
  if x = 0 then 0 else if x < 0 then -roundMagnitude (-x) else roundMagnitude x

/-- The `float64` sum `x + y`. -/
def fadd (x y : float64) : float64 := round64 (x + y)

/-- The `float64` difference `x - y`. -/
def fsub (x y : float64) : float64 := round64 (x - y)

/-- The `float64` product `x * y`. -/
def fmul (x y : float64) : float64 := round64 (x * y)

/-- The `float64` quotient `x / y`, for `y` other than 0. -/
def fdiv (x y : float64) : float64 := round64 (x / y)

/-- The conversion `float64(z)` of an integer. -/
def ofInt (z : Int) : float64 := round64 (z : ℚ)

/-- A `metav1.LabelSelector`. -/
structure LabelSelector where
  MatchLabels : List (String × String)
  MatchExpressions : List (String × String × List String)
deriving DecidableEq, Repr

/-- A `labels.Selector`, an interface value given by its `Matches` method. -/
structure Selector where
  Matches : List (String × String) → Bool

/-- The type `api.PodAffinityTerm`. -/
structure PodAffinityTerm where
  LabelSelector : Option LabelSelector
  Namespaces : List String
  TopologyKey : String
deriving DecidableEq, Repr

/-- The type `api.WeightedPodAffinityTerm`; `Weight` is an `int32`. -/
structure WeightedPodAffinityTerm where
  Weight : Int
  PodAffinityTerm : PodAffinityTerm
deriving DecidableEq, Repr

/-- The type `api.PodAffinity`. -/
structure PodAffinity where
  RequiredDuringSchedulingIgnoredDuringExecution : List PodAffinityTerm
  PreferredDuringSchedulingIgnoredDuringExecution : List WeightedPodAffinityTerm
deriving DecidableEq, Repr

/-- The type `api.PodAntiAffinity`. -/
structure PodAntiAffinity where
  RequiredDuringSchedulingIgnoredDuringExecution : List PodAffinityTerm
  PreferredDuringSchedulingIgnoredDuringExecution : List WeightedPodAffinityTerm
deriving DecidableEq, Repr

/-- The type `api.Affinity`, restricted to the two fields the scorer reads. -/
structure Affinity where
  PodAffinity : Option PodAffinity
  PodAntiAffinity : Option PodAntiAffinity
deriving DecidableEq, Repr

/-- The type `api.Pod`, restricted to the fields the scorer and its helpers
read.  `A` is the type of annotation maps (decoded by
`Lib.GetAffinityFromPodAnnotations`); `NodeName` is `Spec.NodeName`. -/
structure Pod (A : Type) where
  Name : String
  Namespace : String
  Labels : List (String × String)
  Annotations : A
  NodeName : String

/-- The type `api.Node`. -/
structure Node where
  Name : String
  Labels : List (String × String)
deriving DecidableEq, Repr

/-- The type `priorityutil.Topologies`. -/
structure Topologies where
  DefaultKeys : List String
deriving DecidableEq, Repr

/-- The type `schedulerapi.HostPriority`. -/
structure HostPriority where
  Host : String
  Score : Int
deriving DecidableEq, Repr

/-- The type `schedulerapi.HostPriorityList`. -/
abbrev HostPriorityList := List HostPriority

/-- The functions of other packages called by the scorer. -/
structure Lib (A : Type) where
  /-- The function `api.GetAffinityFromPodAnnotations`; `none` is a nil affinity. -/
  GetAffinityFromPodAnnotations : A → Except Error (Option Affinity)
  /-- The function `metav1.LabelSelectorAsSelector`. -/
  LabelSelectorAsSelector : Option LabelSelector → Except Error Selector
  /-- The function `priorityutil.GetNamespacesFromPodAffinityTerm`. -/
  GetNamespacesFromPodAffinityTerm : Pod A → PodAffinityTerm → List String
  /-- The function `priorityutil.PodMatchesTermsNamespaceAndSelector`. -/
  PodMatchesTermsNamespaceAndSelector : Pod A → List String → Selector → Bool
  /-- The method `priorityutil.Topologies.NodesHaveSameTopologyKey`. -/
  NodesHaveSameTopologyKey : Topologies → Node → Node → String → Bool

/-- Modelled from the spec: `schedulercache.NodeInfo`, a node's resident pods
(`Pods()`).  The type is declared outside the embedded source. -/
structure NodeInfo (A : Type) where
  pods : List (Pod A)

/-- Whether a pod's decoded affinity has `PodAffinity` or `PodAntiAffinity`
set. -/
def hasPodAffinityConstraints {A : Type} (lib : Lib A) (pod : Pod A) : Bool :=
  match lib.GetAffinityFromPodAnnotations pod.Annotations with
  | .ok (some affinity) => affinity.PodAffinity.isSome || affinity.PodAntiAffinity.isSome
  | _ => false

/-- The method `NodeInfo.Pods`. -/
def NodeInfo.Pods {A : Type} (n : NodeInfo A) : List (Pod A) := n.pods

/-- Modelled from the spec: `NodeInfo.PodsWithAffinity`, the resident pods
that themselves declare affinity constraints. -/
def NodeInfo.PodsWithAffinity {A : Type} (lib : Lib A) (n : NodeInfo A) : List (Pod A) :=
  n.pods.filter (hasPodAffinityConstraints lib)

/-- The type `InterPodAffinity`; `info` is `predicates.NodeInfo.GetNodeInfo`.
The two listers are never read by the scorer. -/
structure InterPodAffinity where
  info : String → Except Error Node
  hardPodAffinityWeight : Int
  failureDomains : Topologies

/-- The type `podAffinityPriorityMap`.  `counts` is a Go map read with the
zero default, hence a total function. -/
structure podAffinityPriorityMap where
  nodes : List Node
  counts : String → float64
  failureDomains : Topologies
  firstError : Option Error

/-- The constructor `newPodAffinityPriorityMap`. -/
def newPodAffinityPriorityMap (nodes : List Node) (failureDomains : Topologies) :
    podAffinityPriorityMap :=
  { nodes := nodes, counts := fun _ => 0, failureDomains := failureDomains, firstError := none }

/-- The method `setError`: the first error wins. -/
def setError (p : podAffinityPriorityMap) (err : Error) : podAffinityPriorityMap :=
  if p.firstError = none then { p with firstError := some err } else p

/-- The statement `counts[name] += weight`. -/
def addCount (counts : String → float64) (name : String) (weight : float64) : String → float64 :=
  fun k => if k = name then fadd (counts k) weight else counts k

/-- The locked loop of `processTerm`: add `weight` for every node of `p.nodes`
that has the same topology key value as `fixedNode`. -/
def addToMatchingNodes {A : Type} (lib : Lib A) (p : podAffinityPriorityMap)
    (fixedNode : Node) (topologyKey : String) (weight : float64) : podAffinityPriorityMap :=
  p.nodes.foldl
    (fun q node =>
      if lib.NodesHaveSameTopologyKey p.failureDomains node fixedNode topologyKey then
        { q with counts := addCount q.counts node.Name weight }
      else q)
    p

/-- The method `processTerm`. -/
def processTerm {A : Type} (lib : Lib A) (p : podAffinityPriorityMap) (term : PodAffinityTerm)
    (podDefiningAffinityTerm podToCheck : Pod A) (fixedNode : Node) (weight : float64) :
    podAffinityPriorityMap :=
  let namespaces := lib.GetNamespacesFromPodAffinityTerm podDefiningAffinityTerm term
  match lib.LabelSelectorAsSelector term.LabelSelector with
  | .error err => setError p err
  | .ok selector =>
    if lib.PodMatchesTermsNamespaceAndSelector podToCheck namespaces selector then
      addToMatchingNodes lib p fixedNode term.TopologyKey weight
    else p

/-- Conversion to `int32`: wrap into `[-2^31, 2^31)`. -/
def toInt32 (x : Int) : Int := (x + 2147483648) % 4294967296 - 2147483648

/-- The method `processTerms`; the weight is
`float64(term.Weight*int32(multiplier))`. -/
def processTerms {A : Type} (lib : Lib A) (p : podAffinityPriorityMap)
    (terms : List WeightedPodAffinityTerm) (podDefiningAffinityTerm podToCheck : Pod A)
    (fixedNode : Node) (multiplier : Int) : podAffinityPriorityMap :=
  terms.foldl
    (fun q term =>
      processTerm lib q term.PodAffinityTerm podDefiningAffinityTerm podToCheck fixedNode
        (ofInt (toInt32 (term.Weight * toInt32 multiplier))))
    p

/-- The closure `processPod` of `CalculateInterPodAffinityPriority`: the
updated map and the returned error. -/
def processPod {A : Type} (lib : Lib A) (ipa : InterPodAffinity) (pod : Pod A)
    (affinity : Option Affinity) (pm : podAffinityPriorityMap) (existingPod : Pod A) :
    podAffinityPriorityMap × Option Error :=
  match ipa.info existingPod.NodeName with
  | .error err => (pm, some err)
  | .ok existingPodNode =>
    match lib.GetAffinityFromPodAnnotations existingPod.Annotations with
    | .error err => (pm, some err)
    | .ok existingPodAffinity =>
      let pm1 :=
        match affinity.bind (·.PodAffinity) with
        | some a =>
          processTerms lib pm a.PreferredDuringSchedulingIgnoredDuringExecution
            pod existingPod existingPodNode 1
        | none => pm
      let pm2 :=
        match affinity.bind (·.PodAntiAffinity) with
        | some a =>
          processTerms lib pm1 a.PreferredDuringSchedulingIgnoredDuringExecution
            pod existingPod existingPodNode (-1)
        | none => pm1
      let pm3 :=
        match existingPodAffinity.bind (·.PodAffinity) with
        | some a =>
          let pmHard :=
            if ipa.hardPodAffinityWeight > 0 then
              a.RequiredDuringSchedulingIgnoredDuringExecution.foldl
                (fun q term =>
                  processTerm lib q term existingPod pod existingPodNode
                    (ofInt ipa.hardPodAffinityWeight))
                pm2
            else pm2
          processTerms lib pmHard a.PreferredDuringSchedulingIgnoredDuringExecution
            existingPod pod existingPodNode 1
        | none => pm2
      let pm4 :=
        match existingPodAffinity.bind (·.PodAntiAffinity) with
        | some a =>
          processTerms lib pm3 a.PreferredDuringSchedulingIgnoredDuringExecution
            existingPod pod existingPodNode (-1)
        | none => pm3
      (pm4, none)

/-- The loop body of `processNode`: `processPod`, then `setError` on failure. -/
def processPodAndRecord {A : Type} (lib : Lib A) (ipa : InterPodAffinity) (pod : Pod A)
    (affinity : Option Affinity) (pm : podAffinityPriorityMap) (existingPod : Pod A) :
    podAffinityPriorityMap :=
  match processPod lib ipa pod affinity pm existingPod with
  | (pm1, some err) => setError pm1 err
  | (pm1, none) => pm1

/-- The index expression `nodeNameToInfo[name]`; a missing key gives the nil
`NodeInfo`, which has no pods. -/
def nodeInfoAt {A : Type} (nodeNameToInfo : List (String × NodeInfo A)) (name : String) :
    NodeInfo A :=
  (nodeNameToInfo.lookup name).getD { pods := [] }

/-- The pods `processNode` visits on one node: all of them when the scored
pod has affinity or anti-affinity constraints, else those with affinity. -/
def podsToProcess {A : Type} (lib : Lib A) (affinity : Option Affinity)
    (nodeInfo : NodeInfo A) : List (Pod A) :=
  if (affinity.bind (·.PodAffinity)).isSome || (affinity.bind (·.PodAntiAffinity)).isSome then
    nodeInfo.Pods
  else
    nodeInfo.PodsWithAffinity lib

/-- The closure `processNode`, for the node called `name`
(`allNodeNames[i]`). -/
def processNode {A : Type} (lib : Lib A) (ipa : InterPodAffinity) (pod : Pod A)
    (affinity : Option Affinity) (nodeNameToInfo : List (String × NodeInfo A))
    (pm : podAffinityPriorityMap) (name : String) : podAffinityPriorityMap :=
  (podsToProcess lib affinity (nodeInfoAt nodeNameToInfo name)).foldl
    (processPodAndRecord lib ipa pod affinity) pm

/-- The first loop over `nodes`: `(maxCount, minCount)`, both starting at 0. -/
def countBounds (counts : String → float64) (nodes : List Node) : float64 × float64 :=
  nodes.foldl
    (fun b node =>
      let maxCount := if counts node.Name > b.1 then counts node.Name else b.1
      let minCount := if counts node.Name < b.2 then counts node.Name else b.2
      (maxCount, minCount))
    (0, 0)

/-- The value `fScore` of one node. -/
def fScore (count maxCount minCount : float64) : float64 :=
  if fsub maxCount minCount > 0 then
    fmul 10 (fdiv (fsub count minCount) (fsub maxCount minCount))
  else 0

/-- The conversion `int(f)`: truncation toward zero. -/
def truncToInt (f : float64) : Int := if 0 ≤ f then ⌊f⌋ else ⌈f⌉

/-- The second loop over `nodes`: the result list. -/
def scoreNodes (counts : String → float64) (nodes : List Node) : HostPriorityList :=
  let b := countBounds counts nodes
  nodes.map (fun node => { Host := node.Name, Score := truncToInt (fScore (counts node.Name) b.1 b.2) })

/-- The map after `workqueue.Parallelize(16, len(allNodeNames), processNode)`,
run in index order; `allNodeNames` are the keys of `nodeNameToInfo`. -/
def processAllNodes {A : Type} (lib : Lib A) (ipa : InterPodAffinity) (pod : Pod A)
    (affinity : Option Affinity) (nodeNameToInfo : List (String × NodeInfo A))
    (nodes : List Node) : podAffinityPriorityMap :=
  (nodeNameToInfo.map Prod.fst).foldl
    (processNode lib ipa pod affinity nodeNameToInfo)
    (newPodAffinityPriorityMap nodes ipa.failureDomains)

/-- The part of `CalculateInterPodAffinityPriority` after the workers have
finished: the first error, or the scores. -/
def finish (pm : podAffinityPriorityMap) (nodes : List Node) : Except Error HostPriorityList :=
  match pm.firstError with
  | some err => .error err
  | none => .ok (scoreNodes pm.counts nodes)

/-- The method `CalculateInterPodAffinityPriority`.  The map
`nodeNameToInfo` is given by its entries, in the order of the `range` loop. -/
def CalculateInterPodAffinityPriority {A : Type} (lib : Lib A) (ipa : InterPodAffinity)
    (pod : Pod A) (nodeNameToInfo : List (String × NodeInfo A)) (nodes : List Node) :
    Except Error HostPriorityList :=
  match lib.GetAffinityFromPodAnnotations pod.Annotations with
  | .error err => .error err
  | .ok affinity =>
    finish (processAllNodes lib ipa pod affinity nodeNameToInfo nodes) nodes

/-- Equality of `(value, error)` results is decidable. -/
instance instDecidableEqExcept {ε α : Type} [DecidableEq ε] [DecidableEq α] :
    DecidableEq (Except ε α) := fun a b =>
  match a, b with
  | .ok x, .ok y =>
    if h : x = y then isTrue (by rw [h]) else isFalse (by intro h1; cases h1; exact h rfl)
  | .error x, .error y =>
    if h : x = y then isTrue (by rw [h]) else isFalse (by intro h1; cases h1; exact h rfl)
  | .ok _, .error _ => isFalse (by intro h; cases h)
  | .error _, .ok _ => isFalse (by intro h; cases h)

/-! ## Runs as sequences of atomic steps -/

/-- An atomic update of the shared map, made under its mutex: the counting
loop of a matching `processTerm`, or a `setError`. -/
inductive Step where
  | add (fixedNode : Node) (topologyKey : String) (weight : float64)
  | fail (err : Error)

/-- The effect of one step on the map. -/
def applyStep {A : Type} (lib : Lib A) (p : podAffinityPriorityMap) : Step → podAffinityPriorityMap
  | .add fixedNode topologyKey weight => addToMatchingNodes lib p fixedNode topologyKey weight
  | .fail err => setError p err

/-- The effect of a schedule of steps. -/
def runSteps {A : Type} (lib : Lib A) (p : podAffinityPriorityMap) (steps : List Step) :
    podAffinityPriorityMap :=
  steps.foldl (applyStep lib) p

/-- The steps of one `processTerm` call. -/
def termSteps {A : Type} (lib : Lib A) (term : PodAffinityTerm)
    (podDefiningAffinityTerm podToCheck : Pod A) (fixedNode : Node) (weight : float64) :
    List Step :=
  match lib.LabelSelectorAsSelector term.LabelSelector with
  | .error err => [.fail err]
  | .ok selector =>
    if lib.PodMatchesTermsNamespaceAndSelector podToCheck
        (lib.GetNamespacesFromPodAffinityTerm podDefiningAffinityTerm term) selector then
      [.add fixedNode term.TopologyKey weight]
    else []

/-- The steps of one `processTerms` call. -/
def termsSteps {A : Type} (lib : Lib A) (terms : List WeightedPodAffinityTerm)
    (podDefiningAffinityTerm podToCheck : Pod A) (fixedNode : Node) (multiplier : Int) :
    List Step :=
  terms.flatMap (fun term =>
    termSteps lib term.PodAffinityTerm podDefiningAffinityTerm podToCheck fixedNode
      (ofInt (toInt32 (term.Weight * toInt32 multiplier))))

/-- The steps of the hard affinity loop of `processPod`. -/
def hardSteps {A : Type} (lib : Lib A) (ipa : InterPodAffinity) (pod existingPod : Pod A)
    (existingPodNode : Node) (a : PodAffinity) : List Step :=
  if ipa.hardPodAffinityWeight > 0 then
    a.RequiredDuringSchedulingIgnoredDuringExecution.flatMap (fun term =>
      termSteps lib term existingPod pod existingPodNode (ofInt ipa.hardPodAffinityWeight))
  else []

/-- The steps of processing one resident pod (`processPod` and the `setError`
of its caller). -/
def podSteps {A : Type} (lib : Lib A) (ipa : InterPodAffinity) (pod : Pod A)
    (affinity : Option Affinity) (existingPod : Pod A) : List Step :=
  match ipa.info existingPod.NodeName with
  | .error err => [.fail err]
  | .ok existingPodNode =>
    match lib.GetAffinityFromPodAnnotations existingPod.Annotations with
    | .error err => [.fail err]
    | .ok existingPodAffinity =>
      (match affinity.bind (·.PodAffinity) with
        | some a => termsSteps lib a.PreferredDuringSchedulingIgnoredDuringExecution
            pod existingPod existingPodNode 1
        | none => [])
      ++ (match affinity.bind (·.PodAntiAffinity) with
        | some a => termsSteps lib a.PreferredDuringSchedulingIgnoredDuringExecution
            pod existingPod existingPodNode (-1)
        | none => [])
      ++ (match existingPodAffinity.bind (·.PodAffinity) with
        | some a => hardSteps lib ipa pod existingPod existingPodNode a
            ++ termsSteps lib a.PreferredDuringSchedulingIgnoredDuringExecution
              existingPod pod existingPodNode 1
        | none => [])
      ++ (match existingPodAffinity.bind (·.PodAntiAffinity) with
        | some a => termsSteps lib a.PreferredDuringSchedulingIgnoredDuringExecution
            existingPod pod existingPodNode (-1)
        | none => [])

/-- The resident pods visited by a run, in index order. -/
def scannedPods {A : Type} (lib : Lib A) (affinity : Option Affinity)
    (nodeNameToInfo : List (String × NodeInfo A)) : List (Pod A) :=
  (nodeNameToInfo.map Prod.fst).flatMap (fun name =>
    podsToProcess lib affinity (nodeInfoAt nodeNameToInfo name))

/-- The steps of a whole run, in index order. -/
def allSteps {A : Type} (lib : Lib A) (ipa : InterPodAffinity) (pod : Pod A)
    (affinity : Option Affinity) (nodeNameToInfo : List (String × NodeInfo A)) : List Step :=
  (scannedPods lib affinity nodeNameToInfo).flatMap (podSteps lib ipa pod affinity)

/-- The errors recorded by a schedule, in order. -/
def stepErrors (steps : List Step) : List Error :=
  steps.filterMap (fun s => match s with
    | .fail err => some err
    | .add _ _ _ => none)

/-- What one step adds to the count stored under `name`, for the node list
`nodes`, when no addition rounds: the weight, once for every listed node called
`name` that has the same topology key value as the fixed node. -/
def stepDelta {A : Type} (lib : Lib A) (failureDomains : Topologies) (nodes : List Node)
    (name : String) : Step → ℚ
  | .add fixedNode topologyKey weight =>
    (nodes.map (fun node =>
      if lib.NodesHaveSameTopologyKey failureDomains node fixedNode topologyKey = true
          ∧ node.Name = name then weight else 0)).sum
  | .fail _ => 0

/-- The weights that a schedule adds to the count stored under `name`, in
order, for the node list `nodes`: the weight of a counting step, once for every
listed node called `name` that has the same topology key value as the fixed
node. -/
def addedWeights {A : Type} (lib : Lib A) (failureDomains : Topologies) (nodes : List Node)
    (name : String) (steps : List Step) : List float64 :=
  steps.flatMap (fun s =>
    match s with
    | .add fixedNode topologyKey weight =>
      List.replicate
        (nodes.countP (fun node =>
          decide (lib.NodesHaveSameTopologyKey failureDomains node fixedNode topologyKey = true
            ∧ node.Name = name)))
        weight
    | .fail _ => [])

/-- The sum of the absolute values of the weights that a schedule adds to the
count stored under `name`. -/
def load {A : Type} (lib : Lib A) (failureDomains : Topologies) (nodes : List Node)
    (name : String) (steps : List Step) : ℚ :=
  ((addedWeights lib failureDomains nodes name steps).map (fun w => |w|)).sum

/-- Every weight of the schedule is an integer. -/
def integerWeights (steps : List Step) : Prop :=
  ∀ s ∈ steps, match s with
    | .add _ _ weight => ∃ z : Int, weight = (z : ℚ)
    | .fail _ => True

/-- The terms whose selector a `processPod` call parses, for a resident pod
whose affinity decoded to `existingPodAffinity`. -/
def evaluatedTerms (ipa : InterPodAffinity) (affinity existingPodAffinity : Option Affinity) :
    List PodAffinityTerm :=
  (match affinity.bind (·.PodAffinity) with
    | some a => a.PreferredDuringSchedulingIgnoredDuringExecution.map (·.PodAffinityTerm)
    | none => [])
  ++ (match affinity.bind (·.PodAntiAffinity) with
    | some a => a.PreferredDuringSchedulingIgnoredDuringExecution.map (·.PodAffinityTerm)
    | none => [])
  ++ (match existingPodAffinity.bind (·.PodAffinity) with
    | some a =>
      (if ipa.hardPodAffinityWeight > 0 then a.RequiredDuringSchedulingIgnoredDuringExecution
        else [])
      ++ a.PreferredDuringSchedulingIgnoredDuringExecution.map (·.PodAffinityTerm)
    | none => [])
  ++ (match existingPodAffinity.bind (·.PodAntiAffinity) with
    | some a => a.PreferredDuringSchedulingIgnoredDuringExecution.map (·.PodAffinityTerm)
    | none => [])

/-- An error met while processing the resident pod `existingPod`: its
node-info lookup fails, or its affinity annotation fails to parse, or the label
selector of a term evaluated for it fails to parse. -/
inductive Encountered {A : Type} (lib : Lib A) (ipa : InterPodAffinity)
    (affinity : Option Affinity) (existingPod : Pod A) (err : Error) : Prop where
  | nodeInfo (h : ipa.info existingPod.NodeName = .error err)
  | affinityParse (node : Node) (hn : ipa.info existingPod.NodeName = .ok node)
      (h : lib.GetAffinityFromPodAnnotations existingPod.Annotations = .error err)
  | selector (node : Node) (hn : ipa.info existingPod.NodeName = .ok node)
      (existingPodAffinity : Option Affinity)
      (ha : lib.GetAffinityFromPodAnnotations existingPod.Annotations = .ok existingPodAffinity)
      (term : PodAffinityTerm) (ht : term ∈ evaluatedTerms ipa affinity existingPodAffinity)
      (h : lib.LabelSelectorAsSelector term.LabelSelector = .error err)

/-- Whether `podToCheck` matches the namespaces and the selector of `term`,
as `processTerm` computes it; a selector that fails to parse matches nothing. -/
def termMatches {A : Type} (lib : Lib A) (term : PodAffinityTerm)
    (podDefiningAffinityTerm podToCheck : Pod A) : Bool :=
  match lib.LabelSelectorAsSelector term.LabelSelector with
  | .ok selector =>
    lib.PodMatchesTermsNamespaceAndSelector podToCheck
      (lib.GetNamespacesFromPodAffinityTerm podDefiningAffinityTerm term) selector
  | .error _ => false

/-- Specification of what processing the resident pod `existingPod`, of
decoded affinity `existingPodAffinity`, contributes for the scored pod `pod`:
the list of (topology key, weight) pairs, namely
`+Weight` for each preferred affinity term of `pod` that `existingPod` matches,
`-Weight` for each preferred anti-affinity term of `pod` that it matches,
`+hardPodAffinityWeight` for each required affinity term of `existingPod` that
`pod` matches, only when `hardPodAffinityWeight > 0`,
`+Weight` for each preferred affinity term of `existingPod` that `pod` matches,
`-Weight` for each preferred anti-affinity term of `existingPod` that `pod`
matches. -/
def specContributions {A : Type} (lib : Lib A) (ipa : InterPodAffinity) (pod : Pod A)
    (affinity : Option Affinity) (existingPod : Pod A) (existingPodAffinity : Option Affinity) :
    List (String × ℚ) :=
  (match affinity.bind (·.PodAffinity) with
    | some a =>
      (a.PreferredDuringSchedulingIgnoredDuringExecution.filter
        (fun t => termMatches lib t.PodAffinityTerm pod existingPod)).map
        (fun t => (t.PodAffinityTerm.TopologyKey, (t.Weight : ℚ)))
    | none => [])
  ++ (match affinity.bind (·.PodAntiAffinity) with
    | some a =>
      (a.PreferredDuringSchedulingIgnoredDuringExecution.filter
        (fun t => termMatches lib t.PodAffinityTerm pod existingPod)).map
        (fun t => (t.PodAffinityTerm.TopologyKey, -(t.Weight : ℚ)))
    | none => [])
  ++ (match existingPodAffinity.bind (·.PodAffinity) with
    | some a =>
      (if ipa.hardPodAffinityWeight > 0 then
        (a.RequiredDuringSchedulingIgnoredDuringExecution.filter
          (fun t => termMatches lib t existingPod pod)).map
          (fun t => (t.TopologyKey, (ipa.hardPodAffinityWeight : ℚ)))
      else [])
      ++ (a.PreferredDuringSchedulingIgnoredDuringExecution.filter
        (fun t => termMatches lib t.PodAffinityTerm existingPod pod)).map
        (fun t => (t.PodAffinityTerm.TopologyKey, (t.Weight : ℚ)))
    | none => [])
  ++ (match existingPodAffinity.bind (·.PodAntiAffinity) with
    | some a =>
      (a.PreferredDuringSchedulingIgnoredDuringExecution.filter
        (fun t => termMatches lib t.PodAffinityTerm existingPod pod)).map
        (fun t => (t.PodAffinityTerm.TopologyKey, -(t.Weight : ℚ)))
    | none => [])

/-- What a contribution `(topologyKey, weight)` of a resident pod on node
`fixedNode` adds to the count stored under `name`: the weight, once for every
listed node of that name sharing the topology key value with `fixedNode`. -/
def contributionAt {A : Type} (lib : Lib A) (failureDomains : Topologies) (nodes : List Node)
    (fixedNode : Node) (name : String) (c : String × ℚ) : ℚ :=
  (nodes.countP (fun node =>
    decide (lib.NodesHaveSameTopologyKey failureDomains node fixedNode c.1 = true
      ∧ node.Name = name)) : ℚ) * c.2

/-- The `float64` weights that the contributions `cs` of a resident pod on
node `fixedNode` add to the count stored under `name`, in order: each weight
converted to `float64`, once for every listed node of that name sharing the
topology key value with `fixedNode`. -/
def contributionWeights {A : Type} (lib : Lib A) (failureDomains : Topologies)
    (nodes : List Node) (fixedNode : Node) (name : String) (cs : List (String × ℚ)) :
    List float64 :=
  cs.flatMap (fun c =>
    List.replicate
      (nodes.countP (fun node =>
        decide (lib.NodesHaveSameTopologyKey failureDomains node fixedNode c.1 = true
          ∧ node.Name = name)))
      (round64 c.2))

/-- The weights of the preferred pod affinity terms of a decoded affinity. -/
def affinityWeights (affinity : Option Affinity) : List Int :=
  match affinity.bind (·.PodAffinity) with
  | some a => a.PreferredDuringSchedulingIgnoredDuringExecution.map (·.Weight)
  | none => []

/-- The weights of the preferred pod anti-affinity terms of a decoded
affinity. -/
def antiAffinityWeights (affinity : Option Affinity) : List Int :=
  match affinity.bind (·.PodAntiAffinity) with
  | some a => a.PreferredDuringSchedulingIgnoredDuringExecution.map (·.Weight)
  | none => []

/-- How many times a listed node called `name` lies in the topology domain
(for the key of `term`) of the resident pod `existingPod`, when that pod is
processed without error and matches `term` of the scored pod; 0 otherwise. -/
def matchGain {A : Type} (lib : Lib A) (ipa : InterPodAffinity) (pod : Pod A)
    (term : PodAffinityTerm) (failureDomains : Topologies) (nodes : List Node) (name : String)
    (existingPod : Pod A) : ℚ :=
  match ipa.info existingPod.NodeName with
  | .error _ => 0
  | .ok existingPodNode =>
    match lib.GetAffinityFromPodAnnotations existingPod.Annotations with
    | .error _ => 0
    | .ok _ =>
      if termMatches lib term pod existingPod then
        (nodes.countP (fun node =>
          decide (lib.NodesHaveSameTopologyKey failureDomains node existingPodNode
            term.TopologyKey = true ∧ node.Name = name)) : ℚ)
      else 0

/-- How many times the listed nodes called `name` lie in the topology domain
(for the key of `term`) of a resident pod among `residents` that is processed
without error and matches `term` of the scored pod. -/
def matchCount {A : Type} (lib : Lib A) (ipa : InterPodAffinity) (pod : Pod A)
    (term : PodAffinityTerm) (nodes : List Node) (name : String) (residents : List (Pod A)) :
    ℚ :=
  (residents.map (matchGain lib ipa pod term ipa.failureDomains nodes name)).sum

/-- Whether `node` lies in the topology domain, for the key of `term`, of some
resident pod that matches `term` of the scored pod. -/
def inMatchingDomain {A : Type} (lib : Lib A) (ipa : InterPodAffinity) (pod : Pod A)
    (term : PodAffinityTerm) (residents : List (Pod A)) (node : Node) : Bool :=
  residents.any (fun existingPod =>
    match ipa.info existingPod.NodeName with
    | .error _ => false
    | .ok existingPodNode =>
      termMatches lib term pod existingPod
        && lib.NodesHaveSameTopologyKey ipa.failureDomains node existingPodNode term.TopologyKey)

/-- The score a result gives to `host`; 0 when there is none. -/
def scoreOf (r : Except Error HostPriorityList) (host : String) : Int :=
  match r with
  | .ok l => ((l.find? (fun hp => hp.Host == host)).map (·.Score)).getD 0
  | .error _ => 0

/-- The decoded affinity whose preferred pod affinity terms are
`pre ++ [(w, t)] ++ post`. -/
def affinityWith (req : List PodAffinityTerm) (pre post : List WeightedPodAffinityTerm)
    (t : PodAffinityTerm) (anti : Option PodAntiAffinity) (w : Int) : Option Affinity :=
  some
    { PodAffinity := some
        { RequiredDuringSchedulingIgnoredDuringExecution := req,
          PreferredDuringSchedulingIgnoredDuringExecution :=
            pre ++ { Weight := w, PodAffinityTerm := t } :: post },
      PodAntiAffinity := anti }

/-- The decoded affinity whose preferred pod anti-affinity terms are
`pre ++ [(w, t)] ++ post`. -/
def antiAffinityWith (aff : Option PodAffinity) (req : List PodAffinityTerm)
    (pre post : List WeightedPodAffinityTerm) (t : PodAffinityTerm) (w : Int) : Option Affinity :=
  some
    { PodAffinity := aff,
      PodAntiAffinity := some
        { RequiredDuringSchedulingIgnoredDuringExecution := req,
          PreferredDuringSchedulingIgnoredDuringExecution :=
            pre ++ { Weight := w, PodAffinityTerm := t } :: post } }

/-- All resident pods of the node-info map, in index order. -/
def allResidents {A : Type} (nodeNameToInfo : List (String × NodeInfo A)) : List (Pod A) :=
  (nodeNameToInfo.map Prod.fst).flatMap (fun name => (nodeInfoAt nodeNameToInfo name).Pods)

/-- The run that visits every resident pod of every node, as the first branch
of `processNode` does, whatever the constraints of the scored pod. -/
def processAllResidents {A : Type} (lib : Lib A) (ipa : InterPodAffinity) (pod : Pod A)
    (affinity : Option Affinity) (nodeNameToInfo : List (String × NodeInfo A))
    (nodes : List Node) : podAffinityPriorityMap :=
  (nodeNameToInfo.map Prod.fst).foldl
    (fun pm name =>
      (nodeInfoAt nodeNameToInfo name).Pods.foldl (processPodAndRecord lib ipa pod affinity) pm)
    (newPodAffinityPriorityMap nodes ipa.failureDomains)

/-! ## A concrete instance -/

/-- One `matchExpressions` requirement on a label map; `none` for an operator
that is not a selector operator. -/
def requirementMatches (labels : List (String × String)) :
    String × String × List String → Option Bool
  | (key, "In", values) => some (match labels.lookup key with
      | some v => values.contains v
      | none => false)
  | (key, "NotIn", values) => some (match labels.lookup key with
      | some v => !values.contains v
      | none => true)
  | (key, "Exists", _) => some (labels.lookup key).isSome
  | (key, "DoesNotExist", _) => some (labels.lookup key).isNone
  | _ => none

/-- Two nodes carry the same non-empty value for a label key. -/
def nodesHaveSameLabel (nodeA nodeB : Node) (key : String) : Bool :=
  match nodeA.Labels.lookup key, nodeB.Labels.lookup key with
  | some a, some b => a != "" && a == b
  | _, _ => false

/-- An instance of the helper functions on label maps, for evaluating the
scorer on concrete inputs.  An annotation map is represented by what it
decodes to. -/
def labelLib : Lib (Except Error (Option Affinity)) where
  GetAffinityFromPodAnnotations := fun annotations => annotations
  LabelSelectorAsSelector := fun ls =>
    match ls with
    | none => .ok { Matches := fun _ => false }
    | some sel =>
      if sel.MatchExpressions.all (fun r => (requirementMatches [] r).isSome) then
        .ok { Matches := fun labels =>
          sel.MatchLabels.all (fun kv => labels.lookup kv.1 == some kv.2)
            && sel.MatchExpressions.all (fun r => requirementMatches labels r == some true) }
      else .error "not a valid pod selector operator"
  GetNamespacesFromPodAffinityTerm := fun pod term =>
    if term.Namespaces.isEmpty then [pod.Namespace] else term.Namespaces
  PodMatchesTermsNamespaceAndSelector := fun pod namespaces selector =>
    (namespaces.isEmpty || namespaces.contains pod.Namespace) && selector.Matches pod.Labels
  NodesHaveSameTopologyKey := fun tps nodeA nodeB topologyKey =>
    if topologyKey = "" then tps.DefaultKeys.any (nodesHaveSameLabel nodeA nodeB)
    else nodesHaveSameLabel nodeA nodeB topologyKey

/-- A node labelled with its zone. -/
def zoneNode (name zone : String) : Node :=
  { Name := name, Labels := [("zone", zone)] }

/-- A pod of namespace `default` without affinity, carrying one `app` label. -/
def appPod (name app nodeName : String) : Pod (Except Error (Option Affinity)) :=
  { Name := name, Namespace := "default", Labels := [("app", app)],
    Annotations := .ok none, NodeName := nodeName }

/-- A preferred term selecting the pods labelled `app`, per zone. -/
def appTerm (weight : Int) (app : String) : WeightedPodAffinityTerm :=
  { Weight := weight,
    PodAffinityTerm :=
      { LabelSelector := some { MatchLabels := [("app", app)], MatchExpressions := [] },
        Namespaces := [], TopologyKey := "zone" } }

/-- The node getter of a cache holding `nodes`. -/
def infoOf (nodes : List Node) : String → Except Error Node := fun name =>
  match nodes.find? (fun node => node.Name == name) with
  | some node => .ok node
  | none => .error ("node not found: " ++ name)

/-- Three nodes in three zones. -/
def threeNodes : List Node := [zoneNode "m" "z1", zoneNode "n" "z2", zoneNode "p" "z3"]

/-- A scorer over `threeNodes` with hard affinity weight 1. -/
def threeNodeScorer : InterPodAffinity :=
  { info := infoOf threeNodes, hardPodAffinityWeight := 1,
    failureDomains := { DefaultKeys := ["zone"] } }

/-- Residents of `threeNodes`: one pod `a` and one pod `b` on `m`, two pods
`a` on `p`, none on `n`. -/
def threeNodeInfos : List (String × NodeInfo (Except Error (Option Affinity))) :=
  [("m", { pods := [appPod "m1" "a" "m", appPod "m2" "b" "m"] }),
   ("n", { pods := [] }),
   ("p", { pods := [appPod "p1" "a" "p", appPod "p2" "a" "p"] })]

/-- A preference, with weight `w`, for the zones of pods `a` and, with weight
1, for the zones of pods `b`. -/
def softAffinity (w : Int) : Option Affinity :=
  some
    { PodAffinity := some
        { RequiredDuringSchedulingIgnoredDuringExecution := [],
          PreferredDuringSchedulingIgnoredDuringExecution := [appTerm w "a", appTerm 1 "b"] },
      PodAntiAffinity := none }

/-- A pod with the affinity `softAffinity w`. -/
def affinityPod (w : Int) : Pod (Except Error (Option Affinity)) :=
  { Name := "new", Namespace := "default", Labels := [],
    Annotations := .ok (softAffinity w),
    NodeName := "" }

/-- A pod preferring, with weight `w`, to avoid the zones of pods `a` and,
with weight 1, the zones of pods `b`. -/
def antiAffinityPod (w : Int) : Pod (Except Error (Option Affinity)) :=
  { Name := "new", Namespace := "default", Labels := [],
    Annotations := .ok (antiAffinityWith none [] [] [appTerm 1 "b"]
      (appTerm w "a").PodAffinityTerm w),
    NodeName := "" }

/-- Two nodes in two zones. -/
def twoNodes : List Node := [zoneNode "x" "z1", zoneNode "y" "z2"]

/-- A scorer over `twoNodes` with hard affinity weight `hard`. -/
def twoNodeScorer (hard : Int) : InterPodAffinity :=
  { info := infoOf twoNodes, hardPodAffinityWeight := hard,
    failureDomains := { DefaultKeys := ["zone"] } }

/-- The decoded affinity that requires, `hard` times over, the zone of the
pods labelled `web` and prefers it with the weights `soft`. -/
def clinging (hard : Nat) (soft : List Int) : Option Affinity :=
  some
    { PodAffinity := some
        { RequiredDuringSchedulingIgnoredDuringExecution :=
            List.replicate hard (appTerm 1 "web").PodAffinityTerm,
          PreferredDuringSchedulingIgnoredDuringExecution :=
            soft.map (fun w => appTerm w "web") },
      PodAntiAffinity := none }

/-- A resident pod with the affinity `clinging hard soft`. -/
def clingingPod (name nodeName : String) (hard : Nat) (soft : List Int) :
    Pod (Except Error (Option Affinity)) :=
  { Name := name, Namespace := "default", Labels := [],
    Annotations := .ok (clinging hard soft),
    NodeName := nodeName }

/-- Residents of `twoNodes`: on `x` a pod requiring the zone of the pods `web`
five times over and preferring it with weight 2, on `y` a pod requiring it
three times over and preferring it with weight 1. -/
def twoNodeInfos : List (String × NodeInfo (Except Error (Option Affinity))) :=
  [("x", { pods := [clingingPod "x1" "x" 5 [2]] }),
   ("y", { pods := [clingingPod "y1" "y" 3 [1]] })]

/-- Residents of `twoNodes`: on `x` a pod requiring the zone of the pods `web`
and preferring it with weight 1 and a pod preferring it with weight 2, on `y` a
pod requiring it and preferring it with weight 2. -/
def orderInfos : List (String × NodeInfo (Except Error (Option Affinity))) :=
  [("x", { pods := [clingingPod "x1" "x" 1 [1], clingingPod "x2" "x" 0 [2]] }),
   ("y", { pods := [clingingPod "y1" "y" 1 [2]] })]

/-- A map over `twoNodes` with count `2^53` for `x` and 0 for `y`. -/
def bigMap : podAffinityPriorityMap :=
  { nodes := twoNodes,
    counts := fun name => if name = "x" then 9007199254740992 else 0,
    failureDomains := { DefaultKeys := ["zone"] },
    firstError := none }

/-- A scorer over `threeNodes` with hard affinity weight `2^53 - 1`. -/
def heavyScorer : InterPodAffinity :=
  { info := infoOf threeNodes, hardPodAffinityWeight := 9007199254740991,
    failureDomains := { DefaultKeys := ["zone"] } }

/-- A pod labelled `web` with the decoded affinity `affinity`. -/
def webPod (affinity : Option Affinity) : Pod (Except Error (Option Affinity)) :=
  { Name := "new", Namespace := "default", Labels := [("app", "web")],
    Annotations := .ok affinity, NodeName := "" }

/-- A pod labelled `web` preferring, with weight `w`, the zones of pods `a`. -/
def heavyPod (w : Int) : Pod (Except Error (Option Affinity)) :=
  webPod (affinityWith [] [] [] (appTerm 1 "a").PodAffinityTerm none w)

/-- A pod labelled `web` preferring, with weight `w`, to avoid the zones of
pods `a`. -/
def heavyAntiPod (w : Int) : Pod (Except Error (Option Affinity)) :=
  webPod (antiAffinityWith none [] [] [] (appTerm 1 "a").PodAffinityTerm w)

/-- Residents of `threeNodes`: on `m` a pod requiring the zone of the pods
`web` three times over, followed by a pod `a` without affinity; on `p` one pod
`a` requiring the zone of the pods `web` three times over; none on `n`. -/
def heavyInfos : List (String × NodeInfo (Except Error (Option Affinity))) :=
  [("m", { pods := [clingingPod "m1" "m" 3 [], appPod "m2" "a" "m"] }),
   ("n", { pods := [] }),
   ("p", { pods := [{ Name := "p1", Namespace := "default", Labels := [("app", "a")],
                      Annotations := .ok (clinging 3 []), NodeName := "p" }] })]

/-- All resident pods of `heavyInfos`. -/
def heavyResidents : List (Pod (Except Error (Option Affinity))) :=
  heavyInfos.flatMap (fun entry => entry.2.pods)

/-- All resident pods of `threeNodeInfos`. -/
def threeNodeResidents : List (Pod (Except Error (Option Affinity))) :=
  threeNodeInfos.flatMap (fun entry => entry.2.pods)

/-- A resident pod, without affinity, of a node `gone` that the node getter of
`threeNodeScorer` does not hold. -/
def strayPod : Pod (Except Error (Option Affinity)) := appPod "stray" "c" "gone"

/-- Node infos that still list the node `gone` with its resident `strayPod`. -/
def strayInfos : List (String × NodeInfo (Except Error (Option Affinity))) :=
  [("gone", { pods := [strayPod] })]

/-- A map over `threeNodes` plus a fourth node in the zone of `m`, with
counts 5 for `m` and 0 elsewhere. -/
def fourNodeMap : podAffinityPriorityMap :=
  { nodes := threeNodes ++ [zoneNode "q" "z1"],
    counts := fun name => if name = "m" then 5 else 0,
    failureDomains := { DefaultKeys := ["zone"] },
    firstError := none }
/-! ## Rounding to `float64` -/

theorem leadingBitAux_spec (fuel n : Nat) (hf : n ≤ fuel) (hn : 0 < n) :
    2 ^ leadingBitAux fuel n ≤ n ∧ n < 2 ^ (leadingBitAux fuel n + 1) := by
  induction fuel generalizing n with
  | zero => omega
  | succ fuel ih =>
    unfold leadingBitAux
    split_ifs with h
    · constructor
      · simpa using hn
      · simpa using h
    · obtain ⟨h1, h2⟩ := ih (n / 2) (by omega) (by omega)
      generalize leadingBitAux fuel (n / 2) = k at h1 h2
      rw [pow_succ] at h2
      constructor
      · rw [pow_succ]; omega
      · rw [pow_succ]; omega

theorem leadingBit_spec (n : Nat) (hn : 0 < n) :
    2 ^ leadingBit n ≤ n ∧ n < 2 ^ (leadingBit n + 1) :=
  leadingBitAux_spec n n le_rfl hn

theorem exponent_bounds_aux (x : ℚ) (n d a b : Nat) (hx : x = (n : ℚ) / (d : ℚ)) (hd : 0 < d)
    (a1 : 2 ^ a ≤ n) (a2 : n < 2 ^ (a + 1)) (b1 : 2 ^ b ≤ d) (b2 : d < 2 ^ (b + 1)) :
    (2 : ℚ) ^ ((a : Int) - (b : Int) - 1) ≤ x ∧ x < (2 : ℚ) ^ ((a : Int) - (b : Int) + 1) := by
  have hd0 : (0 : ℚ) < (d : ℚ) := by exact_mod_cast hd
  have a1q : (2 : ℚ) ^ a ≤ (n : ℚ) := by exact_mod_cast a1
  have a2q : (n : ℚ) < (2 : ℚ) ^ (a + 1) := by exact_mod_cast a2
  have b1q : (2 : ℚ) ^ b ≤ (d : ℚ) := by exact_mod_cast b1
  have b2q : (d : ℚ) < (2 : ℚ) ^ (b + 1) := by exact_mod_cast b2
  have hp : ∀ k : Nat, (0 : ℚ) < (2 : ℚ) ^ k := fun k => pow_pos (by norm_num) k
  have hn0 : (0 : ℚ) ≤ (n : ℚ) := Nat.cast_nonneg _
  constructor
  · have e1 : (2 : ℚ) ^ ((a : Int) - (b : Int) - 1) = (2 : ℚ) ^ a / (2 : ℚ) ^ (b + 1) := by
      rw [show (a : Int) - (b : Int) - 1 = (a : Int) - ((b + 1 : Nat) : Int) by push_cast; ring,
        zpow_sub₀ (by norm_num : (2 : ℚ) ≠ 0), zpow_natCast, zpow_natCast]
    rw [e1, hx, div_le_div_iff₀ (hp _) hd0]
    calc (2 : ℚ) ^ a * (d : ℚ) ≤ (n : ℚ) * (d : ℚ) :=
          mul_le_mul_of_nonneg_right a1q (le_of_lt hd0)
      _ ≤ (n : ℚ) * (2 : ℚ) ^ (b + 1) := mul_le_mul_of_nonneg_left (le_of_lt b2q) hn0
  · have e1 : (2 : ℚ) ^ ((a : Int) - (b : Int) + 1) = (2 : ℚ) ^ (a + 1) / (2 : ℚ) ^ b := by
      rw [show (a : Int) - (b : Int) + 1 = ((a + 1 : Nat) : Int) - (b : Int) by push_cast; ring,
        zpow_sub₀ (by norm_num : (2 : ℚ) ≠ 0), zpow_natCast, zpow_natCast]
    rw [e1, hx, div_lt_div_iff₀ hd0 (hp _)]
    calc (n : ℚ) * (2 : ℚ) ^ b ≤ (n : ℚ) * (d : ℚ) := mul_le_mul_of_nonneg_left b1q hn0
      _ < (2 : ℚ) ^ (a + 1) * (d : ℚ) := mul_lt_mul_of_pos_right a2q hd0

/-- The exponent `e` of a positive rational `x` satisfies `2^e ≤ x < 2^(e+1)`. -/
theorem exponent_spec (x : ℚ) (hx : 0 < x) :
    (2 : ℚ) ^ exponent x ≤ x ∧ x < (2 : ℚ) ^ (exponent x + 1) := by
  have hnum : 0 < x.num := Rat.num_pos.mpr hx
  have hn0 : 0 < x.num.natAbs := Int.natAbs_pos.mpr (ne_of_gt hnum)
  obtain ⟨a1, a2⟩ := leadingBit_spec x.num.natAbs hn0
  obtain ⟨b1, b2⟩ := leadingBit_spec x.den x.den_pos
  have hc : (x.num.natAbs : ℚ) = (x.num : ℚ) := by
    rw [Nat.cast_natAbs, abs_of_pos hnum]
  have hxe : x = (x.num.natAbs : ℚ) / (x.den : ℚ) := by
    rw [hc, Rat.num_div_den]
  obtain ⟨hlow, hhigh⟩ := exponent_bounds_aux x _ _ _ _ hxe x.den_pos a1 a2 b1 b2
  unfold exponent
  rw [abs_of_pos hx]
  split_ifs with h
  · exact ⟨h, hhigh⟩
  · refine ⟨hlow, ?_⟩
    rw [sub_add_cancel]
    exact not_le.mp h

theorem floor_le_roundToEven (x : ℚ) : ⌊x⌋ ≤ roundToEven x := by
  unfold roundToEven
  split_ifs <;> omega

theorem roundToEven_le_floor_add_one (x : ℚ) : roundToEven x ≤ ⌊x⌋ + 1 := by
  unfold roundToEven
  split_ifs <;> omega

theorem roundToEven_intCast (z : Int) : roundToEven (z : ℚ) = z := by
  unfold roundToEven
  simp

theorem roundToEven_mono {x y : ℚ} (h : x ≤ y) : roundToEven x ≤ roundToEven y := by
  rcases lt_or_eq_of_le (Int.floor_le_floor h) with hlt | heq
  · calc roundToEven x ≤ ⌊x⌋ + 1 := roundToEven_le_floor_add_one x
      _ ≤ ⌊y⌋ := hlt
      _ ≤ roundToEven y := floor_le_roundToEven y
  · unfold roundToEven
    rw [← heq]
    have hxy : x - ⌊x⌋ ≤ y - ⌊x⌋ := by linarith
    split_ifs <;> first | omega | (exfalso; linarith)

/-- Rounding moves a number by at most one half. -/
theorem roundToEven_bounds (x : ℚ) (lo hi : Int) (h1 : (lo : ℚ) ≤ x) (h2 : x ≤ (hi : ℚ)) :
    lo ≤ roundToEven x ∧ roundToEven x ≤ hi := by
  have a := roundToEven_mono h1
  have b := roundToEven_mono h2
  rw [roundToEven_intCast] at a b
  exact ⟨a, b⟩
theorem two_zpow_pos (e : Int) : (0 : ℚ) < (2 : ℚ) ^ e := zpow_pos (by norm_num) e

theorem exponent_mono {x y : ℚ} (hx : 0 < x) (h : x ≤ y) : exponent x ≤ exponent y := by
  have h1 := (exponent_spec x hx).1
  have h2 := (exponent_spec y (lt_of_lt_of_le hx h)).2
  have h3 : (2 : ℚ) ^ exponent x < (2 : ℚ) ^ (exponent y + 1) :=
    lt_of_le_of_lt (le_trans h1 h) h2
  have h4 := (zpow_lt_zpow_iff_right₀ (by norm_num : (1 : ℚ) < 2)).mp h3
  omega

/-- The exponent is determined by the binade. -/
theorem exponent_eq (x : ℚ) (e : Int) (h1 : (2 : ℚ) ^ e ≤ x) (h2 : x < (2 : ℚ) ^ (e + 1)) :
    exponent x = e := by
  have hx : 0 < x := lt_of_lt_of_le (two_zpow_pos e) h1
  obtain ⟨a1, a2⟩ := exponent_spec x hx
  have b1 := (zpow_lt_zpow_iff_right₀ (by norm_num : (1 : ℚ) < 2)).mp (lt_of_le_of_lt h1 a2)
  have b2 := (zpow_lt_zpow_iff_right₀ (by norm_num : (1 : ℚ) < 2)).mp (lt_of_le_of_lt a1 h2)
  omega

theorem two_zpow_lo (e : Int) :
    (2 : ℚ) ^ e = ((2 ^ 52 : Int) : ℚ) * (2 : ℚ) ^ (e - 52) := by
  have h : (((2 : Int) ^ 52 : Int) : ℚ) = (2 : ℚ) ^ (52 : Int) := by norm_num
  rw [h, ← zpow_add₀ (by norm_num : (2 : ℚ) ≠ 0)]
  congr 1
  ring

theorem two_zpow_hi (e : Int) :
    (2 : ℚ) ^ (e + 1) = ((2 ^ 53 : Int) : ℚ) * (2 : ℚ) ^ (e - 52) := by
  have h : (((2 : Int) ^ 53 : Int) : ℚ) = (2 : ℚ) ^ (53 : Int) := by norm_num
  rw [h, ← zpow_add₀ (by norm_num : (2 : ℚ) ≠ 0)]
  congr 1
  ring

/-- The significand of a positive rational, scaled to an integer range, lies
between `2^52` and `2^53`. -/
theorem significand_bounds (x : ℚ) (hx : 0 < x) :
    ((2 ^ 52 : Int) : ℚ) ≤ x / (2 : ℚ) ^ (exponent x - 52) ∧
      x / (2 : ℚ) ^ (exponent x - 52) ≤ ((2 ^ 53 : Int) : ℚ) := by
  obtain ⟨h1, h2⟩ := exponent_spec x hx
  have hu := two_zpow_pos (exponent x - 52)
  constructor
  · rw [le_div_iff₀ hu, ← two_zpow_lo]
    exact h1
  · rw [div_le_iff₀ hu, ← two_zpow_hi]
    exact le_of_lt h2

theorem roundMagnitude_bounds (x : ℚ) (hx : 0 < x) :
    (2 : ℚ) ^ exponent x ≤ roundMagnitude x ∧ roundMagnitude x ≤ (2 : ℚ) ^ (exponent x + 1) := by
  obtain ⟨h1, h2⟩ := significand_bounds x hx
  obtain ⟨a, b⟩ := roundToEven_bounds _ _ _ h1 h2
  have hu := two_zpow_pos (exponent x - 52)
  have aq : ((2 ^ 52 : Int) : ℚ) ≤ (roundToEven (x / (2 : ℚ) ^ (exponent x - 52)) : ℚ) :=
    Int.cast_le.mpr a
  have bq : (roundToEven (x / (2 : ℚ) ^ (exponent x - 52)) : ℚ) ≤ ((2 ^ 53 : Int) : ℚ) :=
    Int.cast_le.mpr b
  unfold roundMagnitude
  constructor
  · rw [two_zpow_lo]
    exact mul_le_mul_of_nonneg_right aq (le_of_lt hu)
  · rw [two_zpow_hi]
    exact mul_le_mul_of_nonneg_right bq (le_of_lt hu)

theorem roundMagnitude_pos (x : ℚ) (hx : 0 < x) : 0 < roundMagnitude x :=
  lt_of_lt_of_le (two_zpow_pos _) (roundMagnitude_bounds x hx).1

theorem roundMagnitude_mono {x y : ℚ} (hx : 0 < x) (h : x ≤ y) :
    roundMagnitude x ≤ roundMagnitude y := by
  have hy : 0 < y := lt_of_lt_of_le hx h
  rcases lt_or_eq_of_le (exponent_mono hx h) with hlt | heq
  · calc roundMagnitude x ≤ (2 : ℚ) ^ (exponent x + 1) := (roundMagnitude_bounds x hx).2
      _ ≤ (2 : ℚ) ^ exponent y := zpow_le_zpow_right₀ (by norm_num) (by omega)
      _ ≤ roundMagnitude y := (roundMagnitude_bounds y hy).1
  · unfold roundMagnitude
    rw [heq]
    have hu := two_zpow_pos (exponent y - 52)
    apply mul_le_mul_of_nonneg_right _ (le_of_lt hu)
    have : x / (2 : ℚ) ^ (exponent y - 52) ≤ y / (2 : ℚ) ^ (exponent y - 52) :=
      div_le_div_of_nonneg_right h (le_of_lt hu)
    exact_mod_cast roundToEven_mono this

/-- A positive multiple of the unit of its binade is a `float64` value. -/
theorem roundMagnitude_of_multiple (x : ℚ) (k : Int)
    (h : x / (2 : ℚ) ^ (exponent x - 52) = (k : ℚ)) : roundMagnitude x = x := by
  unfold roundMagnitude
  rw [h, roundToEven_intCast, ← h]
  exact div_mul_cancel₀ _ (ne_of_gt (two_zpow_pos _))

theorem round64_zero : round64 0 = 0 := by
  simp [round64]

theorem round64_of_pos {x : ℚ} (hx : 0 < x) : round64 x = roundMagnitude x := by
  unfold round64
  rw [if_neg (ne_of_gt hx), if_neg (not_lt.mpr (le_of_lt hx))]

theorem round64_of_neg {x : ℚ} (hx : x < 0) : round64 x = -roundMagnitude (-x) := by
  unfold round64
  rw [if_neg (ne_of_lt hx), if_pos hx]

theorem round64_neg (x : ℚ) : round64 (-x) = -round64 x := by
  rcases lt_trichotomy x 0 with h | h | h
  · rw [round64_of_neg h, round64_of_pos (by linarith : 0 < -x), neg_neg]
  · subst h
    simp [round64_zero]
  · rw [round64_of_pos h, round64_of_neg (by linarith : -x < 0), neg_neg]

theorem round64_pos {x : ℚ} (hx : 0 < x) : 0 < round64 x := by
  rw [round64_of_pos hx]
  exact roundMagnitude_pos x hx

theorem round64_nonneg {x : ℚ} (hx : 0 ≤ x) : 0 ≤ round64 x := by
  rcases lt_or_eq_of_le hx with h | h
  · exact le_of_lt (round64_pos h)
  · rw [← h, round64_zero]

theorem round64_neg_of_neg {x : ℚ} (hx : x < 0) : round64 x < 0 := by
  rw [round64_of_neg hx]
  have := roundMagnitude_pos (-x) (by linarith)
  linarith

/-- Rounding is monotone. -/
theorem round64_mono {x y : ℚ} (h : x ≤ y) : round64 x ≤ round64 y := by
  rcases lt_trichotomy x 0 with hx | hx | hx
  · rcases lt_trichotomy y 0 with hy | hy | hy
    · rw [round64_of_neg hx, round64_of_neg hy]
      have := roundMagnitude_mono (by linarith : 0 < -y) (by linarith : -y ≤ -x)
      linarith
    · subst hy
      rw [round64_zero]
      exact le_of_lt (round64_neg_of_neg hx)
    · exact le_trans (le_of_lt (round64_neg_of_neg hx)) (le_of_lt (round64_pos hy))
  · subst hx
    rw [round64_zero]
    exact round64_nonneg h
  · rw [round64_of_pos hx, round64_of_pos (lt_of_lt_of_le hx h)]
    exact roundMagnitude_mono hx h

/-- A positive integer of at most 53 bits, and `2^53`, is a `float64` value. -/
theorem roundMagnitude_natCast (n : Nat) (hn : 0 < n) (h : n ≤ 2 ^ 53) :
    roundMagnitude (n : ℚ) = (n : ℚ) := by
  have hx : (0 : ℚ) < (n : ℚ) := by exact_mod_cast hn
  obtain ⟨h1, h2⟩ := exponent_spec (n : ℚ) hx
  have hle : exponent (n : ℚ) ≤ 53 := by
    have h3 : (2 : ℚ) ^ exponent (n : ℚ) ≤ (2 : ℚ) ^ (53 : Int) := by
      refine le_trans h1 ?_
      have h53 : (2 : ℚ) ^ (53 : Int) = ((2 ^ 53 : Nat) : ℚ) := by norm_num
      rw [h53]
      exact Nat.cast_le.mpr h
    exact (zpow_le_zpow_iff_right₀ (by norm_num : (1 : ℚ) < 2)).mp h3
  rcases lt_or_eq_of_le hle with hlt | heq
  · obtain ⟨j, hj⟩ : ∃ j : Nat, (j : Int) = 52 - exponent (n : ℚ) := ⟨(52 - exponent (n : ℚ)).toNat, by omega⟩
    apply roundMagnitude_of_multiple _ ((n : Int) * 2 ^ j)
    have : exponent (n : ℚ) - 52 = -(j : Int) := by omega
    rw [this, zpow_neg, zpow_natCast, div_inv_eq_mul]
    push_cast
    rfl
  · apply roundMagnitude_of_multiple _ (2 ^ 52)
    have h53 : (2 : ℚ) ^ (53 : Int) = ((2 ^ 53 : Nat) : ℚ) := by norm_num
    have hn53 : (n : ℚ) = ((2 ^ 53 : Nat) : ℚ) := by
      apply le_antisymm
      · exact Nat.cast_le.mpr h
      · rw [heq, h53] at h1
        exact h1
    rw [heq, hn53]
    norm_num

/-- An integer `z` with `|z| ≤ 2^53` converts to `float64` exactly. -/
theorem round64_intCast (z : Int) (h : |z| ≤ 2 ^ 53) : round64 (z : ℚ) = (z : ℚ) := by
  obtain ⟨hlo, hhi⟩ := abs_le.mp h
  rcases lt_trichotomy z 0 with hz | hz | hz
  · have hq : ((z : ℚ)) < 0 := by exact_mod_cast hz
    rw [round64_of_neg hq]
    have hn : (-(z : ℚ)) = ((z.natAbs : Nat) : ℚ) := by
      rw [Nat.cast_natAbs, abs_of_neg hz]
      push_cast
      rfl
    rw [hn, roundMagnitude_natCast _ (Int.natAbs_pos.mpr (ne_of_lt hz)) (by omega), ← hn, neg_neg]
  · subst hz
    simp [round64_zero]
  · have hq : (0 : ℚ) < (z : ℚ) := by exact_mod_cast hz
    rw [round64_of_pos hq]
    have hn : ((z : ℚ)) = ((z.natAbs : Nat) : ℚ) := by
      rw [Nat.cast_natAbs, abs_of_pos hz]
    rw [hn, roundMagnitude_natCast _ (Int.natAbs_pos.mpr (ne_of_gt hz)) (by omega)]
theorem round64_one : round64 1 = 1 := by
  have h := round64_intCast 1 (by decide)
  simpa using h

theorem round64_ten : round64 10 = 10 := by
  have h := round64_intCast 10 (by decide)
  simpa using h

/-- Rounding an integer gives an integer. -/
theorem roundMagnitude_isInt (z : Int) (hz : 0 < z) : ∃ k : Int, roundMagnitude (z : ℚ) = (k : ℚ) := by
  by_cases h : z ≤ 2 ^ 53
  · refine ⟨z, ?_⟩
    have hq : (0 : ℚ) < (z : ℚ) := by exact_mod_cast hz
    rw [← round64_of_pos hq]
    exact round64_intCast z (abs_le.mpr ⟨by omega, h⟩)
  · have hq : (0 : ℚ) < (z : ℚ) := by exact_mod_cast hz
    obtain ⟨-, h2⟩ := exponent_spec (z : ℚ) hq
    have h53 : (2 : ℚ) ^ (53 : Int) = ((2 ^ 53 : Int) : ℚ) := by norm_num
    have h3 : (2 : ℚ) ^ (53 : Int) < (2 : ℚ) ^ (exponent (z : ℚ) + 1) := by
      refine lt_trans ?_ h2
      rw [h53]
      exact Int.cast_lt.mpr (by omega)
    have h4 := (zpow_lt_zpow_iff_right₀ (by norm_num : (1 : ℚ) < 2)).mp h3
    obtain ⟨j, hj⟩ : ∃ j : Nat, (j : Int) = exponent (z : ℚ) - 52 :=
      ⟨(exponent (z : ℚ) - 52).toNat, by omega⟩
    refine ⟨roundToEven ((z : ℚ) / (2 : ℚ) ^ (exponent (z : ℚ) - 52)) * 2 ^ j, ?_⟩
    unfold roundMagnitude
    rw [← hj, zpow_natCast]
    push_cast
    rfl

theorem round64_isInt (z : Int) : ∃ k : Int, round64 (z : ℚ) = (k : ℚ) := by
  rcases lt_trichotomy z 0 with hz | hz | hz
  · have hq : ((z : ℚ)) < 0 := by exact_mod_cast hz
    obtain ⟨k, hk⟩ := roundMagnitude_isInt (-z) (by omega)
    refine ⟨-k, ?_⟩
    rw [round64_of_neg hq]
    push_cast at hk ⊢
    rw [hk]
  · subst hz
    exact ⟨0, by simp [round64_zero]⟩
  · have hq : (0 : ℚ) < (z : ℚ) := by exact_mod_cast hz
    obtain ⟨k, hk⟩ := roundMagnitude_isInt z hz
    exact ⟨k, by rw [round64_of_pos hq, hk]⟩

theorem ofInt_of_small (z : Int) (h : |z| ≤ 2 ^ 53) : ofInt z = (z : ℚ) :=
  round64_intCast z h

theorem ofInt_isInt (z : Int) : ∃ k : Int, ofInt z = (k : ℚ) := round64_isInt z

theorem ofInt_mono {a b : Int} (h : a ≤ b) : ofInt a ≤ ofInt b :=
  round64_mono (Int.cast_le.mpr h)

theorem ofInt_neg (z : Int) : ofInt (-z) = -ofInt z := by
  unfold ofInt
  rw [Int.cast_neg, round64_neg]

theorem ofInt_pos {z : Int} (h : 0 < z) : 0 < ofInt z :=
  round64_pos (Int.cast_pos.mpr h)

theorem fadd_mono {x y v w : float64} (h1 : x ≤ y) (h2 : v ≤ w) : fadd x v ≤ fadd y w :=
  round64_mono (add_le_add h1 h2)

/-- The `float64` sum of two integers is an integer. -/
theorem fadd_isInt (a b : Int) : ∃ k : Int, fadd (a : ℚ) (b : ℚ) = (k : ℚ) := by
  unfold fadd
  rw [← Int.cast_add]
  exact round64_isInt _

/-- The `float64` sum of two integers is their sum when that has magnitude at
most `2^53`. -/
theorem fadd_exact (a b : Int) (h : |a + b| ≤ 2 ^ 53) :
    fadd (a : ℚ) (b : ℚ) = (a : ℚ) + (b : ℚ) := by
  unfold fadd
  rw [← Int.cast_add]
  exact round64_intCast _ h

theorem fsub_exact (a b : Int) (h : |a - b| ≤ 2 ^ 53) :
    fsub (a : ℚ) (b : ℚ) = (a : ℚ) - (b : ℚ) := by
  unfold fsub
  rw [← Int.cast_sub]
  exact round64_intCast _ h

theorem fsub_pos_iff (x y : float64) : 0 < fsub x y ↔ y < x := by
  unfold fsub
  constructor
  · intro h
    by_contra hn
    have h1 := round64_mono (by linarith : x - y ≤ 0)
    rw [round64_zero] at h1
    linarith
  · intro h
    exact round64_pos (by linarith)

/-! ## Normalisation: the two loops over `nodes` -/

theorem countBounds_foldl (counts : String → float64) (nodes : List Node) (b0 : float64 × float64) :
    nodes.foldl
      (fun b node =>
        let maxCount := if counts node.Name > b.1 then counts node.Name else b.1
        let minCount := if counts node.Name < b.2 then counts node.Name else b.2
        (maxCount, minCount))
      b0
      = ((nodes.map (fun n => counts n.Name)).foldl max b0.1,
         (nodes.map (fun n => counts n.Name)).foldl min b0.2) := by
  induction nodes generalizing b0 with
  | nil => rfl
  | cons n ns ih =>
    simp only [List.foldl_cons, List.map_cons]
    rw [ih]
    have h1 : (if counts n.Name > b0.1 then counts n.Name else b0.1) = max b0.1 (counts n.Name) := by
      split_ifs with h
      · exact (max_eq_right (le_of_lt h)).symm
      · exact (max_eq_left (not_lt.mp h)).symm
    have h2 : (if counts n.Name < b0.2 then counts n.Name else b0.2) = min b0.2 (counts n.Name) := by
      split_ifs with h
      · exact (min_eq_right (le_of_lt h)).symm
      · exact (min_eq_left (not_lt.mp h)).symm
    simp only [h1, h2]

theorem countBounds_eq (counts : String → float64) (nodes : List Node) :
    countBounds counts nodes
      = ((nodes.map (fun n => counts n.Name)).foldr max 0,
         (nodes.map (fun n => counts n.Name)).foldr min 0) := by
  unfold countBounds
  rw [countBounds_foldl, List.foldl_eq_foldr, List.foldl_eq_foldr]

theorem foldr_max_bounds (l : List float64) :
    0 ≤ l.foldr max 0 ∧ ∀ x ∈ l, x ≤ l.foldr max 0 := by
  induction l with
  | nil => simp
  | cons a l ih =>
    refine ⟨le_trans ih.1 (le_max_right _ _), ?_⟩
    intro x hx
    rcases List.mem_cons.mp hx with rfl | hx
    · exact le_max_left _ _
    · exact le_trans (ih.2 x hx) (le_max_right _ _)

theorem foldr_min_bounds (l : List float64) :
    l.foldr min 0 ≤ 0 ∧ ∀ x ∈ l, l.foldr min 0 ≤ x := by
  induction l with
  | nil => simp
  | cons a l ih =>
    refine ⟨le_trans (min_le_right _ _) ih.1, ?_⟩
    intro x hx
    rcases List.mem_cons.mp hx with rfl | hx
    · exact min_le_left _ _
    · exact le_trans (min_le_right _ _) (ih.2 x hx)

theorem foldr_max_le_of (l : List float64) (b : float64) (hb : 0 ≤ b) (h : ∀ x ∈ l, x ≤ b) :
    l.foldr max 0 ≤ b := by
  induction l with
  | nil => simpa using hb
  | cons a l ih =>
    simp only [List.foldr_cons]
    exact max_le (h a (List.mem_cons_self _ _)) (ih (fun x hx => h x (List.mem_cons_of_mem _ hx)))

theorem foldr_min_ge_of (l : List float64) (b : float64) (hb : b ≤ 0) (h : ∀ x ∈ l, b ≤ x) :
    b ≤ l.foldr min 0 := by
  induction l with
  | nil => simpa using hb
  | cons a l ih =>
    simp only [List.foldr_cons]
    exact le_min (h a (List.mem_cons_self _ _)) (ih (fun x hx => h x (List.mem_cons_of_mem _ hx)))

theorem countBounds_spec (counts : String → float64) (nodes : List Node) :
    (countBounds counts nodes).2 ≤ 0 ∧ 0 ≤ (countBounds counts nodes).1 ∧
      ∀ node ∈ nodes, (countBounds counts nodes).2 ≤ counts node.Name ∧
        counts node.Name ≤ (countBounds counts nodes).1 := by
  rw [countBounds_eq]
  refine ⟨(foldr_min_bounds _).1, (foldr_max_bounds _).1, ?_⟩
  intro node hn
  have hm : counts node.Name ∈ nodes.map (fun n => counts n.Name) :=
    List.mem_map.mpr ⟨node, hn, rfl⟩
  exact ⟨(foldr_min_bounds _).2 _ hm, (foldr_max_bounds _).2 _ hm⟩

theorem fScore_bounds (c mx mn : float64) (h1 : mn ≤ c) (h2 : c ≤ mx) :
    0 ≤ fScore c mx mn ∧ fScore c mx mn ≤ 10 := by
  unfold fScore
  split_ifs with h
  · have ha : 0 ≤ fsub c mn := round64_nonneg (by linarith)
    have hab : fsub c mn ≤ fsub mx mn := round64_mono (by linarith)
    have hq0 : 0 ≤ fdiv (fsub c mn) (fsub mx mn) := round64_nonneg (div_nonneg ha (le_of_lt h))
    have hq1 : fdiv (fsub c mn) (fsub mx mn) ≤ 1 := by
      have := round64_mono ((div_le_one h).mpr hab)
      rwa [round64_one] at this
    constructor
    · exact round64_nonneg (by linarith)
    · have := round64_mono (by linarith : 10 * fdiv (fsub c mn) (fsub mx mn) ≤ 10)
      rwa [round64_ten] at this
  · norm_num

theorem truncToInt_bounds (f : float64) (h0 : 0 ≤ f) (h10 : f ≤ 10) :
    0 ≤ truncToInt f ∧ truncToInt f ≤ 10 := by
  unfold truncToInt
  rw [if_pos h0]
  refine ⟨Int.floor_nonneg.mpr h0, ?_⟩
  have : ⌊f⌋ ≤ ⌊(10 : ℚ)⌋ := Int.floor_le_floor h10
  simpa using this

theorem scoreNodes_forall₂ (counts : String → float64) (nodes : List Node) :
    List.Forall₂ (fun (hp : HostPriority) (node : Node) =>
        hp.Host = node.Name ∧ 0 ≤ hp.Score ∧ hp.Score ≤ 10)
      (scoreNodes counts nodes) nodes := by
  have hb := countBounds_spec counts nodes
  unfold scoreNodes
  simp only
  generalize countBounds counts nodes = b at hb
  obtain ⟨-, -, hb⟩ := hb
  induction nodes with
  | nil => exact List.Forall₂.nil
  | cons n ns ih =>
    refine List.Forall₂.cons ⟨rfl, ?_⟩ (ih (fun node hn => hb node (List.mem_cons_of_mem _ hn)))
    have hn := hb n (List.mem_cons_self _ _)
    have hf := fScore_bounds (counts n.Name) b.1 b.2 hn.1 hn.2
    exact truncToInt_bounds _ hf.1 hf.2

/-! ## The source functions as step sequences -/

section Steps

variable {A : Type} (lib : Lib A)

theorem runSteps_append (p : podAffinityPriorityMap) (s t : List Step) :
    runSteps lib p (s ++ t) = runSteps lib (runSteps lib p s) t := by
  simp [runSteps, List.foldl_append]

theorem runSteps_nil (p : podAffinityPriorityMap) : runSteps lib p [] = p := rfl

theorem foldl_runSteps_flatMap {β : Type} (f : β → List Step) (l : List β)
    (p : podAffinityPriorityMap) :
    l.foldl (fun q b => runSteps lib q (f b)) p = runSteps lib p (l.flatMap f) := by
  induction l generalizing p with
  | nil => rfl
  | cons b l ih => simp only [List.foldl_cons, List.flatMap_cons, runSteps_append, ih]

theorem processTerm_eq_runSteps (p : podAffinityPriorityMap) (term : PodAffinityTerm)
    (podDefiningAffinityTerm podToCheck : Pod A) (fixedNode : Node) (weight : float64) :
    processTerm lib p term podDefiningAffinityTerm podToCheck fixedNode weight
      = runSteps lib p (termSteps lib term podDefiningAffinityTerm podToCheck fixedNode weight) := by
  unfold processTerm termSteps
  cases lib.LabelSelectorAsSelector term.LabelSelector with
  | error err => rfl
  | ok selector =>
    simp only
    split_ifs <;> rfl

theorem processTerms_eq_runSteps (p : podAffinityPriorityMap)
    (terms : List WeightedPodAffinityTerm) (podDefiningAffinityTerm podToCheck : Pod A)
    (fixedNode : Node) (multiplier : Int) :
    processTerms lib p terms podDefiningAffinityTerm podToCheck fixedNode multiplier
      = runSteps lib p
          (termsSteps lib terms podDefiningAffinityTerm podToCheck fixedNode multiplier) := by
  unfold processTerms termsSteps
  simp only [processTerm_eq_runSteps]
  exact foldl_runSteps_flatMap lib _ terms p

theorem processPodAndRecord_eq_runSteps (ipa : InterPodAffinity) (pod : Pod A)
    (affinity : Option Affinity) (pm : podAffinityPriorityMap) (existingPod : Pod A) :
    processPodAndRecord lib ipa pod affinity pm existingPod
      = runSteps lib pm (podSteps lib ipa pod affinity existingPod) := by
  unfold processPodAndRecord processPod podSteps hardSteps
  cases ipa.info existingPod.NodeName with
  | error err => rfl
  | ok existingPodNode =>
    cases lib.GetAffinityFromPodAnnotations existingPod.Annotations with
    | error err => rfl
    | ok existingPodAffinity =>
      simp only [processTerms_eq_runSteps, processTerm_eq_runSteps, runSteps_append]
      cases affinity.bind (·.PodAffinity) <;> cases affinity.bind (·.PodAntiAffinity) <;>
        cases existingPodAffinity.bind (·.PodAffinity) <;>
        cases existingPodAffinity.bind (·.PodAntiAffinity) <;>
        simp only [runSteps_nil, runSteps_append] <;>
        split_ifs <;>
        simp only [runSteps_nil, foldl_runSteps_flatMap]

theorem processNode_eq_runSteps (ipa : InterPodAffinity) (pod : Pod A)
    (affinity : Option Affinity) (nodeNameToInfo : List (String × NodeInfo A))
    (pm : podAffinityPriorityMap) (name : String) :
    processNode lib ipa pod affinity nodeNameToInfo pm name
      = runSteps lib pm
          ((podsToProcess lib affinity (nodeInfoAt nodeNameToInfo name)).flatMap
            (podSteps lib ipa pod affinity)) := by
  unfold processNode
  have h : processPodAndRecord lib ipa pod affinity
      = fun q e => runSteps lib q (podSteps lib ipa pod affinity e) := by
    funext q e
    exact processPodAndRecord_eq_runSteps lib ipa pod affinity q e
  rw [h]
  exact foldl_runSteps_flatMap lib _ _ pm

theorem processAllNodes_eq_runSteps (ipa : InterPodAffinity) (pod : Pod A)
    (affinity : Option Affinity) (nodeNameToInfo : List (String × NodeInfo A))
    (nodes : List Node) :
    processAllNodes lib ipa pod affinity nodeNameToInfo nodes
      = runSteps lib (newPodAffinityPriorityMap nodes ipa.failureDomains)
          (allSteps lib ipa pod affinity nodeNameToInfo) := by
  unfold processAllNodes allSteps scannedPods
  have h : processNode lib ipa pod affinity nodeNameToInfo
      = fun q name => runSteps lib q
          ((podsToProcess lib affinity (nodeInfoAt nodeNameToInfo name)).flatMap
            (podSteps lib ipa pod affinity)) := by
    funext q name
    exact processNode_eq_runSteps lib ipa pod affinity nodeNameToInfo q name
  rw [h, foldl_runSteps_flatMap, List.flatMap_assoc]

end Steps

/-! ## What a schedule does to the map -/

section Schedules

variable {A : Type} (lib : Lib A)

theorem addToMatchingNodes_foldl (fd : Topologies) (fixedNode : Node) (topologyKey : String)
    (weight : float64) (l : List Node) (q : podAffinityPriorityMap) :
    let r := l.foldl
      (fun q node =>
        if lib.NodesHaveSameTopologyKey fd node fixedNode topologyKey then
          { q with counts := addCount q.counts node.Name weight }
        else q)
      q
    r.nodes = q.nodes ∧ r.failureDomains = q.failureDomains ∧ r.firstError = q.firstError ∧
      ∀ name, r.counts name =
        (List.replicate
          (l.countP (fun node =>
            decide (lib.NodesHaveSameTopologyKey fd node fixedNode topologyKey = true
              ∧ node.Name = name)))
          weight).foldl fadd (q.counts name) := by
  induction l generalizing q with
  | nil => simp
  | cons node l ih =>
    simp only [List.foldl_cons]
    by_cases h : lib.NodesHaveSameTopologyKey fd node fixedNode topologyKey = true
    · obtain ⟨h1, h2, h3, h4⟩ := ih { q with counts := addCount q.counts node.Name weight }
      simp only [h, if_true]
      refine ⟨h1, h2, h3, fun name => ?_⟩
      rw [h4 name]
      simp only [addCount]
      by_cases hn : name = node.Name
      · subst hn
        simp [List.countP_cons, h, List.replicate_succ]
      · have hn2 : ¬ node.Name = name := fun e => hn e.symm
        simp [List.countP_cons, hn, hn2]
    · obtain ⟨h1, h2, h3, h4⟩ := ih q
      rw [Bool.not_eq_true] at h
      simp only [h, Bool.false_eq_true, if_false]
      refine ⟨h1, h2, h3, fun name => ?_⟩
      rw [h4 name]
      simp [List.countP_cons, h]

theorem addedWeights_nil (fd : Topologies) (nodes : List Node) (name : String) :
    addedWeights lib fd nodes name [] = [] := rfl

theorem addedWeights_cons (fd : Topologies) (nodes : List Node) (name : String) (s : Step)
    (steps : List Step) :
    addedWeights lib fd nodes name (s :: steps)
      = addedWeights lib fd nodes name [s] ++ addedWeights lib fd nodes name steps := by
  simp [addedWeights]

theorem addedWeights_append (fd : Topologies) (nodes : List Node) (name : String)
    (s t : List Step) :
    addedWeights lib fd nodes name (s ++ t)
      = addedWeights lib fd nodes name s ++ addedWeights lib fd nodes name t := by
  simp [addedWeights]

theorem addedWeights_flatMap {β : Type} (fd : Topologies) (nodes : List Node) (name : String)
    (l : List β) (f : β → List Step) :
    addedWeights lib fd nodes name (l.flatMap f)
      = l.flatMap (fun b => addedWeights lib fd nodes name (f b)) := by
  unfold addedWeights
  rw [List.flatMap_assoc]

theorem applyStep_spec (p : podAffinityPriorityMap) (s : Step) :
    (applyStep lib p s).nodes = p.nodes ∧
      (applyStep lib p s).failureDomains = p.failureDomains ∧
      (applyStep lib p s).firstError = (p.firstError <|> (stepErrors [s]).head?) ∧
      ∀ name, (applyStep lib p s).counts name
        = (addedWeights lib p.failureDomains p.nodes name [s]).foldl fadd (p.counts name) := by
  cases s with
  | add fixedNode topologyKey weight =>
    obtain ⟨h1, h2, h3, h4⟩ :=
      addToMatchingNodes_foldl lib p.failureDomains fixedNode topologyKey weight p.nodes p
    refine ⟨h1, h2, ?_, fun name => ?_⟩
    · simp only [applyStep, addToMatchingNodes, stepErrors, List.filterMap_cons,
        List.filterMap_nil, List.head?_nil]
      rw [h3]
      cases p.firstError <;> rfl
    · simp only [applyStep, addToMatchingNodes, addedWeights, List.flatMap_cons,
        List.flatMap_nil, List.append_nil]
      exact h4 name
  | fail err =>
    refine ⟨?_, ?_, ?_, fun name => ?_⟩
    · simp only [applyStep, setError]
      split_ifs <;> rfl
    · simp only [applyStep, setError]
      split_ifs <;> rfl
    · simp only [applyStep, setError, stepErrors]
      cases h : p.firstError <;> simp [h]
    · simp only [applyStep, setError, addedWeights, List.flatMap_cons, List.flatMap_nil,
        List.append_nil, List.foldl_nil]
      split_ifs <;> rfl

/-- The state after a schedule: the node list and the failure domains are
kept, the first error of the schedule is recorded unless one was recorded
before, and the count stored under a name is the `float64` sum, from left to
right, of the old count and the weights the schedule adds under that name. -/
theorem runSteps_spec (p : podAffinityPriorityMap) (steps : List Step) :
    (runSteps lib p steps).nodes = p.nodes ∧
      (runSteps lib p steps).failureDomains = p.failureDomains ∧
      (runSteps lib p steps).firstError = (p.firstError <|> (stepErrors steps).head?) ∧
      ∀ name, (runSteps lib p steps).counts name
        = (addedWeights lib p.failureDomains p.nodes name steps).foldl fadd (p.counts name) := by
  induction steps generalizing p with
  | nil =>
    refine ⟨rfl, rfl, ?_, fun name => by simp [runSteps, addedWeights]⟩
    simp only [runSteps, List.foldl_nil, stepErrors, List.filterMap_nil, List.head?_nil]
    cases p.firstError <;> rfl
  | cons s steps ih =>
    obtain ⟨a1, a2, a3, a4⟩ := applyStep_spec lib p s
    obtain ⟨b1, b2, b3, b4⟩ := ih (applyStep lib p s)
    have hr : runSteps lib p (s :: steps) = runSteps lib (applyStep lib p s) steps := rfl
    rw [hr]
    refine ⟨b1.trans a1, b2.trans a2, ?_, fun name => ?_⟩
    · rw [b3, a3]
      cases s with
      | add fixedNode topologyKey weight =>
        simp only [stepErrors, List.filterMap_cons, List.filterMap_nil, List.head?_nil]
        cases p.firstError <;> rfl
      | fail err =>
        simp only [stepErrors, List.filterMap_cons, List.filterMap_nil, List.head?_cons]
        cases p.firstError <;> rfl
    · rw [b4 name, a4 name, a1, a2, addedWeights_cons lib _ _ _ s steps, List.foldl_append]

/-! ## Sums of `float64` additions -/

/-- Left-to-right `float64` summation of integers is exact while the absolute
values sum to at most `2^53`. -/
theorem foldl_fadd_exact (ws : List float64) (a : float64)
    (ha : ∃ z : Int, a = (z : ℚ)) (hint : ∀ w ∈ ws, ∃ z : Int, w = (z : ℚ))
    (hb : |a| + (ws.map (fun w => |w|)).sum ≤ 2 ^ 53) :
    ws.foldl fadd a = a + ws.sum := by
  induction ws generalizing a with
  | nil => simp
  | cons w ws ih =>
    obtain ⟨za, rfl⟩ := ha
    obtain ⟨zw, hzw⟩ := hint w (List.mem_cons_self _ _)
    subst hzw
    simp only [List.map_cons, List.sum_cons] at hb
    have hs : (0 : ℚ) ≤ (ws.map (fun w => |w|)).sum :=
      List.sum_nonneg (fun x hx => by
        obtain ⟨y, -, rfl⟩ := List.mem_map.mp hx
        exact abs_nonneg y)
    have habs : |(za : ℚ) + (zw : ℚ)| ≤ 2 ^ 53 := by
      have := abs_add (za : ℚ) (zw : ℚ)
      linarith
    have hz : |za + zw| ≤ 2 ^ 53 := by
      have h1 : ((|za + zw| : Int) : ℚ) ≤ ((2 ^ 53 : Int) : ℚ) := by
        push_cast
        exact habs
      exact Int.cast_le.mp h1
    have hexact := fadd_exact za zw hz
    simp only [List.foldl_cons, List.sum_cons]
    rw [hexact, ih ((za : ℚ) + (zw : ℚ)) ⟨za + zw, by push_cast; rfl⟩
      (fun x hx => hint x (List.mem_cons_of_mem _ hx))
      (by have := abs_add (za : ℚ) (zw : ℚ); linarith)]
    ring

/-- Left-to-right `float64` summation of integers gives an integer. -/
theorem foldl_fadd_isInt (ws : List float64) (a : float64)
    (ha : ∃ z : Int, a = (z : ℚ)) (hint : ∀ w ∈ ws, ∃ z : Int, w = (z : ℚ)) :
    ∃ z : Int, ws.foldl fadd a = (z : ℚ) := by
  induction ws generalizing a with
  | nil => simpa using ha
  | cons w ws ih =>
    obtain ⟨za, rfl⟩ := ha
    obtain ⟨zw, hzw⟩ := hint w (List.mem_cons_self _ _)
    subst hzw
    simp only [List.foldl_cons]
    exact ih _ (fadd_isInt za zw) (fun x hx => hint x (List.mem_cons_of_mem _ hx))

/-- Left-to-right `float64` summation is monotone in the summands. -/
theorem foldl_fadd_mono (ws ws1 : List float64) (h : List.Forall₂ (· ≤ ·) ws ws1)
    (a a1 : float64) (ha : a ≤ a1) : ws.foldl fadd a ≤ ws1.foldl fadd a1 := by
  induction h generalizing a a1 with
  | nil => simpa using ha
  | cons hw _ ih =>
    simp only [List.foldl_cons]
    exact ih _ _ (fadd_mono ha hw)

end Schedules
/-! ## The result of a successful call -/

theorem calculate_ok_iff {A : Type} (lib : Lib A) (ipa : InterPodAffinity) (pod : Pod A)
    (nodeNameToInfo : List (String × NodeInfo A)) (nodes : List Node) (result : HostPriorityList) :
    CalculateInterPodAffinityPriority lib ipa pod nodeNameToInfo nodes = .ok result ↔
      ∃ affinity, lib.GetAffinityFromPodAnnotations pod.Annotations = .ok affinity ∧
        (processAllNodes lib ipa pod affinity nodeNameToInfo nodes).firstError = none ∧
        result = scoreNodes (processAllNodes lib ipa pod affinity nodeNameToInfo nodes).counts nodes := by
  unfold CalculateInterPodAffinityPriority finish
  cases lib.GetAffinityFromPodAnnotations pod.Annotations with
  | error err => simp
  | ok affinity =>
    cases h : (processAllNodes lib ipa pod affinity nodeNameToInfo nodes).firstError with
    | none => simp [h, eq_comm]
    | some err => simp [h]

theorem scoreNodes_formula (counts : String → float64) (nodes : List Node) :
    scoreNodes counts nodes = nodes.map (fun node =>
      { Host := node.Name,
        Score :=
          if (nodes.map (fun n => counts n.Name)).foldr max 0
              = (nodes.map (fun n => counts n.Name)).foldr min 0 then 0
          else truncToInt (fmul 10
            (fdiv (fsub (counts node.Name) ((nodes.map (fun n => counts n.Name)).foldr min 0))
              (fsub ((nodes.map (fun n => counts n.Name)).foldr max 0)
                ((nodes.map (fun n => counts n.Name)).foldr min 0)))) }) := by
  unfold scoreNodes
  simp only [countBounds_eq]
  have hmx := (foldr_max_bounds (nodes.map (fun n => counts n.Name))).1
  have hmn := (foldr_min_bounds (nodes.map (fun n => counts n.Name))).1
  generalize (nodes.map (fun n => counts n.Name)).foldr max 0 = mx at hmx
  generalize (nodes.map (fun n => counts n.Name)).foldr min 0 = mn at hmn
  apply List.map_congr_left
  intro node _
  congr 1
  unfold fScore
  by_cases h : mx = mn
  · subst h
    have hz : ¬ fsub mx mx > 0 := by
      rw [gt_iff_lt, fsub_pos_iff]
      exact lt_irrefl _
    simp [truncToInt, hz]
  · have hpos : fsub mx mn > 0 := by
      rw [gt_iff_lt, fsub_pos_iff]
      rcases lt_or_eq_of_le (le_trans hmn hmx) with h1 | h1
      · exact h1
      · exact absurd h1.symm h
    rw [if_pos hpos, if_neg h]

/-! ## The quotient of two integers -/

/-- The `float64` value `10 * (k / 10)` is `k`, for `k` from 0 to 10. -/
theorem fmul_fdiv_tenth (k : Int) (h0 : 0 ≤ k) (h10 : k ≤ 10) :
    round64 (10 * round64 ((k : ℚ) / 10)) = (k : ℚ) := by
  interval_cases k <;> decide!

/-- Just below `(k + 1) / 10`, by `1 / (10 * 2^49)` or more, the `float64`
value of ten times the quotient stays below `k + 1`. -/
theorem fmul_fdiv_below (k : Int) (h0 : 0 ≤ k) (h9 : k ≤ 9) :
    round64 (10 * round64 (((k : ℚ) + 1) / 10 - 1 / (10 * 2 ^ 49))) < (k : ℚ) + 1 := by
  interval_cases k <;> decide!

/-- For integers `0 ≤ a ≤ b` with `0 < b ≤ 2^49`, the score computed in
`float64` from the quotient `a / b` is the integer part of `10 * a / b`. -/
theorem score_exact (a b : Int) (ha : 0 ≤ a) (hab : a ≤ b) (hb : 0 < b) (hb49 : b ≤ 2 ^ 49) :
    truncToInt (fmul 10 (fdiv (a : ℚ) (b : ℚ))) = truncToInt (10 * (a : ℚ) / (b : ℚ)) := by
  have hbq : (0 : ℚ) < (b : ℚ) := Int.cast_pos.mpr hb
  have haq : (0 : ℚ) ≤ (a : ℚ) := Int.cast_nonneg.mpr ha
  have hr0 : (0 : ℚ) ≤ 10 * (a : ℚ) / (b : ℚ) := div_nonneg (by linarith) (le_of_lt hbq)
  have hs0 : (0 : ℚ) ≤ fmul 10 (fdiv (a : ℚ) (b : ℚ)) :=
    round64_nonneg (mul_nonneg (by norm_num) (round64_nonneg (div_nonneg haq (le_of_lt hbq))))
  unfold truncToInt
  rw [if_pos hs0, if_pos hr0]
  have hk0 : 0 ≤ ⌊10 * (a : ℚ) / (b : ℚ)⌋ := Int.floor_nonneg.mpr hr0
  have hk10 : ⌊10 * (a : ℚ) / (b : ℚ)⌋ ≤ 10 := by
    have h1 : 10 * (a : ℚ) / (b : ℚ) ≤ 10 := by
      rw [div_le_iff₀ hbq]
      have : (a : ℚ) ≤ (b : ℚ) := Int.cast_le.mpr hab
      linarith
    have := Int.floor_le_floor h1
    simpa using this
  have hfl := Int.floor_le (10 * (a : ℚ) / (b : ℚ))
  have hlt := Int.lt_floor_add_one (10 * (a : ℚ) / (b : ℚ))
  generalize ⌊10 * (a : ℚ) / (b : ℚ)⌋ = k at hk0 hk10 hfl hlt
  rw [Int.floor_eq_iff]
  have hlow : (k : ℚ) / 10 ≤ (a : ℚ) / (b : ℚ) := by
    rw [div_le_div_iff₀ (by norm_num) hbq]
    rw [le_div_iff₀ hbq] at hfl
    linarith
  constructor
  · have h1 := round64_mono hlow
    have h2 : 10 * round64 ((k : ℚ) / 10) ≤ 10 * round64 ((a : ℚ) / (b : ℚ)) := by linarith
    have h3 := round64_mono h2
    rw [fmul_fdiv_tenth k hk0 hk10] at h3
    exact h3
  · rcases eq_or_lt_of_le hk10 with h10 | h9
    · subst h10
      have h1 : (a : ℚ) / (b : ℚ) ≤ 1 := by
        rw [div_le_one hbq]
        exact Int.cast_le.mpr hab
      have h2 := round64_mono h1
      rw [round64_one] at h2
      have h3 := round64_mono (by linarith : 10 * round64 ((a : ℚ) / (b : ℚ)) ≤ 10)
      rw [round64_ten] at h3
      unfold fmul fdiv
      push_cast
      linarith
    · have hk9 : k ≤ 9 := by omega
      have hint : 10 * a + 1 ≤ (k + 1) * b := by
        have h1 : (10 * a : ℚ) < ((k + 1) * b : ℚ) := by
          rw [div_lt_iff₀ hbq] at hlt
          exact hlt
        have h2 : 10 * a < (k + 1) * b := by exact_mod_cast h1
        omega
      have hint2 : (10 * (a : ℚ) + 1) ≤ ((k : ℚ) + 1) * (b : ℚ) := by exact_mod_cast hint
      have hb49q : (b : ℚ) ≤ 2 ^ 49 := by exact_mod_cast hb49
      have hup : (a : ℚ) / (b : ℚ) ≤ ((k : ℚ) + 1) / 10 - 1 / (10 * 2 ^ 49) := by
        rw [div_le_iff₀ hbq]
        have e1 : (((k : ℚ) + 1) / 10 - 1 / (10 * 2 ^ 49)) * (b : ℚ)
            = (((k : ℚ) + 1) * (b : ℚ)) / 10 - (b : ℚ) / (10 * 2 ^ 49) := by ring
        rw [e1]
        have e2 : (b : ℚ) / (10 * 2 ^ 49) ≤ 1 / 10 := by
          rw [div_le_div_iff₀ (by positivity) (by norm_num)]
          linarith
        linarith
      have h1 := round64_mono hup
      have h2 : 10 * round64 ((a : ℚ) / (b : ℚ))
          ≤ 10 * round64 (((k : ℚ) + 1) / 10 - 1 / (10 * 2 ^ 49)) := by linarith
      have h3 := round64_mono h2
      exact lt_of_le_of_lt h3 (fmul_fdiv_below k hk0 hk9)
/-! ## Integer weights and exact sums -/

section Exact

variable {A : Type} (lib : Lib A)

theorem integerWeights_nil : integerWeights [] := by
  intro s hs
  cases hs

theorem integerWeights_append {s t : List Step} (hs : integerWeights s) (ht : integerWeights t) :
    integerWeights (s ++ t) := by
  intro x hx
  rcases List.mem_append.mp hx with h | h
  · exact hs x h
  · exact ht x h

theorem integerWeights_flatMap {β : Type} (l : List β) (f : β → List Step)
    (h : ∀ b ∈ l, integerWeights (f b)) : integerWeights (l.flatMap f) := by
  intro x hx
  obtain ⟨b, hb, hxb⟩ := List.mem_flatMap.mp hx
  exact h b hb x hxb

theorem integerWeights_termSteps (term : PodAffinityTerm)
    (podDefiningAffinityTerm podToCheck : Pod A) (fixedNode : Node) (weight : float64)
    (hw : ∃ z : Int, weight = (z : ℚ)) :
    integerWeights (termSteps lib term podDefiningAffinityTerm podToCheck fixedNode weight) := by
  unfold termSteps
  cases lib.LabelSelectorAsSelector term.LabelSelector with
  | error err =>
    intro s hs
    rw [List.mem_singleton] at hs
    subst hs
    trivial
  | ok selector =>
    simp only
    split_ifs
    · intro s hs
      rw [List.mem_singleton] at hs
      subst hs
      exact hw
    · exact integerWeights_nil

theorem integerWeights_termsSteps (terms : List WeightedPodAffinityTerm)
    (podDefiningAffinityTerm podToCheck : Pod A) (fixedNode : Node) (multiplier : Int) :
    integerWeights
      (termsSteps lib terms podDefiningAffinityTerm podToCheck fixedNode multiplier) :=
  integerWeights_flatMap _ _ (fun _ _ => integerWeights_termSteps lib _ _ _ _ _ (ofInt_isInt _))

theorem integerWeights_hardSteps (ipa : InterPodAffinity) (pod existingPod : Pod A)
    (existingPodNode : Node) (a : PodAffinity) :
    integerWeights (hardSteps lib ipa pod existingPod existingPodNode a) := by
  unfold hardSteps
  split_ifs
  · exact integerWeights_flatMap _ _
      (fun _ _ => integerWeights_termSteps lib _ _ _ _ _ (ofInt_isInt _))
  · exact integerWeights_nil

theorem integerWeights_podSteps (ipa : InterPodAffinity) (pod : Pod A)
    (affinity : Option Affinity) (existingPod : Pod A) :
    integerWeights (podSteps lib ipa pod affinity existingPod) := by
  unfold podSteps
  cases ipa.info existingPod.NodeName with
  | error err =>
    intro s hs
    rw [List.mem_singleton] at hs
    subst hs
    trivial
  | ok existingPodNode =>
    cases lib.GetAffinityFromPodAnnotations existingPod.Annotations with
    | error err =>
      intro s hs
      rw [List.mem_singleton] at hs
      subst hs
      trivial
    | ok existingPodAffinity =>
      simp only
      refine integerWeights_append (integerWeights_append (integerWeights_append ?_ ?_) ?_) ?_
      · cases affinity.bind (·.PodAffinity) with
        | none => exact integerWeights_nil
        | some a => exact integerWeights_termsSteps lib _ _ _ _ _
      · cases affinity.bind (·.PodAntiAffinity) with
        | none => exact integerWeights_nil
        | some a => exact integerWeights_termsSteps lib _ _ _ _ _
      · cases existingPodAffinity.bind (·.PodAffinity) with
        | none => exact integerWeights_nil
        | some a =>
          exact integerWeights_append (integerWeights_hardSteps lib _ _ _ _ _)
            (integerWeights_termsSteps lib _ _ _ _ _)
      · cases existingPodAffinity.bind (·.PodAntiAffinity) with
        | none => exact integerWeights_nil
        | some a => exact integerWeights_termsSteps lib _ _ _ _ _

theorem integerWeights_allSteps (ipa : InterPodAffinity) (pod : Pod A)
    (affinity : Option Affinity) (nodeNameToInfo : List (String × NodeInfo A)) :
    integerWeights (allSteps lib ipa pod affinity nodeNameToInfo) :=
  integerWeights_flatMap _ _ (fun _ _ => integerWeights_podSteps lib ipa pod affinity _)

theorem integerWeights_perm {s t : List Step} (h : s.Perm t) (ht : integerWeights t) :
    integerWeights s :=
  fun x hx => ht x (h.subset hx)

theorem addedWeights_isInt (fd : Topologies) (nodes : List Node) (name : String)
    (steps : List Step) (h : integerWeights steps) :
    ∀ w ∈ addedWeights lib fd nodes name steps, ∃ z : Int, w = (z : ℚ) := by
  intro w hw
  unfold addedWeights at hw
  obtain ⟨s, hs, hws⟩ := List.mem_flatMap.mp hw
  have hi := h s hs
  cases s with
  | add fixedNode topologyKey weight =>
    simp only at hws hi
    rw [(List.mem_replicate.mp hws).2]
    exact hi
  | fail err => cases hws

/-- The count stored under a name after a schedule of integer weights is an
integer, when it was one before. -/
theorem runSteps_counts_isInt (p : podAffinityPriorityMap) (steps : List Step)
    (h : integerWeights steps) (name : String) (ha : ∃ z : Int, p.counts name = (z : ℚ)) :
    ∃ z : Int, (runSteps lib p steps).counts name = (z : ℚ) := by
  rw [(runSteps_spec lib p steps).2.2.2 name]
  exact foldl_fadd_isInt _ _ ha (addedWeights_isInt lib _ _ name steps h)

theorem sum_replicate_eq (n : Nat) (w : ℚ) : (List.replicate n w).sum = (n : ℚ) * w := by
  induction n with
  | zero => simp
  | succ n ih =>
    rw [List.replicate_succ, List.sum_cons, ih]
    push_cast
    ring

theorem sum_map_ite_eq_countP {β : Type} (l : List β) (P : β → Prop) [DecidablePred P]
    (w : ℚ) :
    (l.map (fun x => if P x then w else 0)).sum = (l.countP (fun x => decide (P x)) : ℚ) * w := by
  induction l with
  | nil => simp
  | cons x l ih =>
    simp only [List.map_cons, List.sum_cons, ih, List.countP_cons]
    by_cases h : P x
    · simp [h]; ring
    · simp [h]

/-- The exact sum of the weights a schedule adds under a name is the sum of
what its steps add. -/
theorem sum_addedWeights (fd : Topologies) (nodes : List Node) (name : String)
    (steps : List Step) :
    (addedWeights lib fd nodes name steps).sum
      = (steps.map (stepDelta lib fd nodes name)).sum := by
  induction steps with
  | nil => rfl
  | cons s steps ih =>
    rw [addedWeights_cons, List.sum_append, ih, List.map_cons, List.sum_cons]
    congr 1
    cases s with
    | add fixedNode topologyKey weight =>
      simp only [addedWeights, List.flatMap_cons, List.flatMap_nil, List.append_nil, stepDelta]
      rw [sum_replicate_eq, sum_map_ite_eq_countP]
    | fail err => simp [addedWeights, stepDelta]

theorem load_nonneg (fd : Topologies) (nodes : List Node) (name : String) (steps : List Step) :
    0 ≤ load lib fd nodes name steps := by
  unfold load
  apply List.sum_nonneg
  intro x hx
  obtain ⟨y, -, rfl⟩ := List.mem_map.mp hx
  exact abs_nonneg y

theorem load_append (fd : Topologies) (nodes : List Node) (name : String) (s t : List Step) :
    load lib fd nodes name (s ++ t) = load lib fd nodes name s + load lib fd nodes name t := by
  unfold load
  rw [addedWeights_append, List.map_append, List.sum_append]

theorem load_perm (fd : Topologies) (nodes : List Node) (name : String) {s t : List Step}
    (h : s.Perm t) : load lib fd nodes name s = load lib fd nodes name t := by
  unfold load addedWeights
  exact ((h.flatMap_right _).map _).sum_eq

/-- While the absolute values of the integer weights added under a name sum to
at most `2^53`, together with the count before, no addition rounds: the count
after the schedule is the count before plus the exact sum of what the steps
add. -/
theorem runSteps_counts_exact (p : podAffinityPriorityMap) (steps : List Step)
    (h : integerWeights steps) (name : String) (ha : ∃ z : Int, p.counts name = (z : ℚ))
    (hb : |p.counts name| + load lib p.failureDomains p.nodes name steps ≤ 2 ^ 53) :
    (runSteps lib p steps).counts name
      = p.counts name + (steps.map (stepDelta lib p.failureDomains p.nodes name)).sum := by
  rw [(runSteps_spec lib p steps).2.2.2 name, ← sum_addedWeights]
  exact foldl_fadd_exact _ _ ha (addedWeights_isInt lib _ _ name steps h) hb

theorem processAllNodes_counts_isInt (ipa : InterPodAffinity) (pod : Pod A)
    (affinity : Option Affinity) (nodeNameToInfo : List (String × NodeInfo A))
    (nodes : List Node) (name : String) :
    ∃ z : Int, (processAllNodes lib ipa pod affinity nodeNameToInfo nodes).counts name
      = (z : ℚ) := by
  rw [processAllNodes_eq_runSteps]
  exact runSteps_counts_isInt lib _ _ (integerWeights_allSteps lib ipa pod affinity nodeNameToInfo)
    name ⟨0, by simp [newPodAffinityPriorityMap]⟩

end Exact

theorem foldr_max_isInt (l : List ℚ) (h : ∀ x ∈ l, ∃ z : Int, x = (z : ℚ)) :
    ∃ z : Int, l.foldr max 0 = (z : ℚ) := by
  induction l with
  | nil => exact ⟨0, by simp⟩
  | cons a l ih =>
    obtain ⟨z, hz⟩ := ih (fun x hx => h x (List.mem_cons_of_mem _ hx))
    obtain ⟨za, hza⟩ := h a (List.mem_cons_self _ _)
    simp only [List.foldr_cons, hz, hza]
    rcases le_total (za : ℚ) (z : ℚ) with hle | hle
    · exact ⟨z, max_eq_right hle⟩
    · exact ⟨za, max_eq_left hle⟩

theorem foldr_min_isInt (l : List ℚ) (h : ∀ x ∈ l, ∃ z : Int, x = (z : ℚ)) :
    ∃ z : Int, l.foldr min 0 = (z : ℚ) := by
  induction l with
  | nil => exact ⟨0, by simp⟩
  | cons a l ih =>
    obtain ⟨z, hz⟩ := ih (fun x hx => h x (List.mem_cons_of_mem _ hx))
    obtain ⟨za, hza⟩ := h a (List.mem_cons_self _ _)
    simp only [List.foldr_cons, hz, hza]
    rcases le_total (za : ℚ) (z : ℚ) with hle | hle
    · exact ⟨za, min_eq_left hle⟩
    · exact ⟨z, min_eq_right hle⟩

/-- For integer counts whose bounds differ by at most `2^49`, the scores are
the integer parts of the exact quotients. -/
theorem scoreNodes_exact (counts : String → float64) (nodes : List Node)
    (hint : ∀ node ∈ nodes, ∃ z : Int, counts node.Name = (z : ℚ))
    (hb : (nodes.map (fun n => counts n.Name)).foldr max 0
      - (nodes.map (fun n => counts n.Name)).foldr min 0 ≤ 2 ^ 49) :
    scoreNodes counts nodes = nodes.map (fun node =>
      { Host := node.Name,
        Score :=
          if (nodes.map (fun n => counts n.Name)).foldr max 0
              = (nodes.map (fun n => counts n.Name)).foldr min 0 then 0
          else truncToInt (10 * (counts node.Name - (nodes.map (fun n => counts n.Name)).foldr min 0)
            / ((nodes.map (fun n => counts n.Name)).foldr max 0
              - (nodes.map (fun n => counts n.Name)).foldr min 0)) }) := by
  rw [scoreNodes_formula]
  have hmem : ∀ x ∈ nodes.map (fun n => counts n.Name), ∃ z : Int, x = (z : ℚ) := by
    intro x hx
    obtain ⟨n, hn, rfl⟩ := List.mem_map.mp hx
    exact hint n hn
  obtain ⟨zmx, hzmx⟩ := foldr_max_isInt _ hmem
  obtain ⟨zmn, hzmn⟩ := foldr_min_isInt _ hmem
  have hbnd : ∀ node ∈ nodes, (nodes.map (fun n => counts n.Name)).foldr min 0 ≤ counts node.Name ∧
      counts node.Name ≤ (nodes.map (fun n => counts n.Name)).foldr max 0 := by
    intro node hn
    have hm : counts node.Name ∈ nodes.map (fun n => counts n.Name) :=
      List.mem_map.mpr ⟨node, hn, rfl⟩
    exact ⟨(foldr_min_bounds _).2 _ hm, (foldr_max_bounds _).2 _ hm⟩
  rw [hzmx, hzmn] at hb hbnd ⊢
  apply List.map_congr_left
  intro node hn
  congr 1
  by_cases heq : (zmx : ℚ) = (zmn : ℚ)
  · rw [if_pos heq, if_pos heq]
  · rw [if_neg heq, if_neg heq]
    obtain ⟨zc, hzc⟩ := hint node hn
    obtain ⟨h1, h2⟩ := hbnd node hn
    rw [hzc] at h1 h2 ⊢
    have h1z : zmn ≤ zc := Int.cast_le.mp h1
    have h2z : zc ≤ zmx := Int.cast_le.mp h2
    have hbz : zmx - zmn ≤ 2 ^ 49 := by
      have : ((zmx - zmn : Int) : ℚ) ≤ ((2 ^ 49 : Int) : ℚ) := by
        push_cast
        exact hb
      exact Int.cast_le.mp this
    have hne : zmx ≠ zmn := fun e => heq (by rw [e])
    have hpos : 0 < zmx - zmn := by omega
    rw [fsub_exact zc zmn (abs_le.mpr ⟨by omega, by omega⟩),
      fsub_exact zmx zmn (abs_le.mpr ⟨by omega, by omega⟩)]
    have := score_exact (zc - zmn) (zmx - zmn) (by omega) (by omega) hpos hbz
    push_cast at this
    exact this
/-! ## The magnitude of the counts -/

theorem toInt32_bounds (x : Int) : -2147483648 ≤ toInt32 x ∧ toInt32 x < 2147483648 := by
  unfold toInt32
  have h1 := Int.emod_nonneg (x + 2147483648) (by norm_num : (4294967296 : Int) ≠ 0)
  have h2 := Int.emod_lt_of_pos (x + 2147483648) (by norm_num : (0 : Int) < 4294967296)
  constructor <;> omega

/-- An integer of the range of `int` converts to a `float64` of magnitude at most
`2^63`. -/
theorem ofInt_abs_le (z : Int) (h : |z| ≤ 2 ^ 63) : |ofInt z| ≤ 2 ^ 63 := by
  obtain ⟨hlo, hhi⟩ := abs_le.mp h
  have hu : ofInt (2 ^ 63) = 2 ^ 63 := by decide!
  have hl : ofInt (-2 ^ 63) = -2 ^ 63 := by decide!
  refine abs_le.mpr ⟨?_, ?_⟩
  · rw [← hl]
    exact ofInt_mono hlo
  · rw [← hu]
    exact ofInt_mono hhi

/-- Adding a weight of magnitude at most `2^63` to a count of magnitude at most
`2^117` gives a count of magnitude at most `2^117`: at that magnitude the weight
is less than half the distance between two neighbouring `float64` values. -/
theorem fadd_abs_le (a w : float64) (ha : |a| ≤ 2 ^ 117) (hw : |w| ≤ 2 ^ 63) :
    |fadd a w| ≤ 2 ^ 117 := by
  obtain ⟨hal, hau⟩ := abs_le.mp ha
  obtain ⟨hwl, hwu⟩ := abs_le.mp hw
  have hu : round64 (2 ^ 117 + 2 ^ 63) = 2 ^ 117 := by decide!
  have hl : round64 (-2 ^ 117 + -2 ^ 63) = -2 ^ 117 := by decide!
  unfold fadd
  refine abs_le.mpr ⟨?_, ?_⟩
  · rw [← hl]
    exact round64_mono (add_le_add hal hwl)
  · rw [← hu]
    exact round64_mono (add_le_add hau hwu)

theorem foldl_fadd_abs_le (ws : List float64) (a : float64) (ha : |a| ≤ 2 ^ 117)
    (hw : ∀ w ∈ ws, |w| ≤ 2 ^ 63) : |ws.foldl fadd a| ≤ 2 ^ 117 := by
  induction ws generalizing a with
  | nil => simpa using ha
  | cons w ws ih =>
    simp only [List.foldl_cons]
    exact ih _ (fadd_abs_le a w ha (hw w (List.mem_cons_self _ _)))
      (fun v hv => hw v (List.mem_cons_of_mem _ hv))

section Magnitude

variable {A : Type} (lib : Lib A)

theorem weight_of_termSteps (term : PodAffinityTerm)
    (podDefiningAffinityTerm podToCheck : Pod A) (fixedNode : Node) (weight : float64)
    (fixed : Node) (key : String) (w : float64)
    (h : Step.add fixed key w
      ∈ termSteps lib term podDefiningAffinityTerm podToCheck fixedNode weight) :
    w = weight := by
  unfold termSteps at h
  cases hsel : lib.LabelSelectorAsSelector term.LabelSelector with
  | error err =>
    rw [hsel] at h
    simp at h
  | ok selector =>
    rw [hsel] at h
    simp only at h
    split_ifs at h
    · rw [List.mem_singleton] at h
      cases h
      rfl
    · cases h

theorem weight_of_termsSteps (terms : List WeightedPodAffinityTerm)
    (podDefiningAffinityTerm podToCheck : Pod A) (fixedNode : Node) (multiplier : Int)
    (fixed : Node) (key : String) (w : float64)
    (h : Step.add fixed key w
      ∈ termsSteps lib terms podDefiningAffinityTerm podToCheck fixedNode multiplier) :
    |w| ≤ 2 ^ 63 := by
  unfold termsSteps at h
  obtain ⟨term, _, hw⟩ := List.mem_flatMap.mp h
  rw [weight_of_termSteps lib _ _ _ _ _ _ _ _ hw]
  obtain ⟨h1, h2⟩ := toInt32_bounds (term.Weight * toInt32 multiplier)
  exact ofInt_abs_le _ (abs_le.mpr ⟨by omega, by omega⟩)

theorem weight_of_hardSteps (ipa : InterPodAffinity) (pod existingPod : Pod A)
    (existingPodNode : Node) (a : PodAffinity)
    (hH : |ipa.hardPodAffinityWeight| ≤ 2 ^ 63)
    (fixed : Node) (key : String) (w : float64)
    (h : Step.add fixed key w ∈ hardSteps lib ipa pod existingPod existingPodNode a) :
    |w| ≤ 2 ^ 63 := by
  unfold hardSteps at h
  split_ifs at h
  · obtain ⟨term, _, hw⟩ := List.mem_flatMap.mp h
    rw [weight_of_termSteps lib _ _ _ _ _ _ _ _ hw]
    exact ofInt_abs_le _ hH
  · cases h

theorem weight_of_podSteps (ipa : InterPodAffinity) (pod : Pod A)
    (affinity : Option Affinity) (existingPod : Pod A)
    (hH : |ipa.hardPodAffinityWeight| ≤ 2 ^ 63)
    (fixed : Node) (key : String) (w : float64)
    (h : Step.add fixed key w ∈ podSteps lib ipa pod affinity existingPod) :
    |w| ≤ 2 ^ 63 := by
  unfold podSteps at h
  cases hinfo : ipa.info existingPod.NodeName with
  | error err =>
    rw [hinfo] at h
    simp at h
  | ok existingPodNode =>
    rw [hinfo] at h
    cases haff : lib.GetAffinityFromPodAnnotations existingPod.Annotations with
    | error err =>
      rw [haff] at h
      simp at h
    | ok existingPodAffinity =>
      rw [haff] at h
      simp only at h
      rcases List.mem_append.mp h with h | h
      · rcases List.mem_append.mp h with h | h
        · rcases List.mem_append.mp h with h | h
          · cases hb : affinity.bind (·.PodAffinity) with
            | none =>
              rw [hb] at h
              cases h
            | some a =>
              rw [hb] at h
              exact weight_of_termsSteps lib _ _ _ _ _ _ _ _ h
          · cases hb : affinity.bind (·.PodAntiAffinity) with
            | none =>
              rw [hb] at h
              cases h
            | some a =>
              rw [hb] at h
              exact weight_of_termsSteps lib _ _ _ _ _ _ _ _ h
        · cases hb : existingPodAffinity.bind (·.PodAffinity) with
          | none =>
            rw [hb] at h
            cases h
          | some a =>
            rw [hb] at h
            rcases List.mem_append.mp h with h | h
            · exact weight_of_hardSteps lib _ _ _ _ _ hH _ _ _ h
            · exact weight_of_termsSteps lib _ _ _ _ _ _ _ _ h
      · cases hb : existingPodAffinity.bind (·.PodAntiAffinity) with
        | none =>
          rw [hb] at h
          cases h
        | some a =>
          rw [hb] at h
          exact weight_of_termsSteps lib _ _ _ _ _ _ _ _ h

theorem addedWeights_abs_le (ipa : InterPodAffinity) (pod : Pod A)
    (affinity : Option Affinity) (nodeNameToInfo : List (String × NodeInfo A))
    (hH : |ipa.hardPodAffinityWeight| ≤ 2 ^ 63)
    (fd : Topologies) (nodes : List Node) (name : String) :
    ∀ w ∈ addedWeights lib fd nodes name (allSteps lib ipa pod affinity nodeNameToInfo),
      |w| ≤ 2 ^ 63 := by
  intro w hw
  unfold addedWeights at hw
  obtain ⟨s, hs, hws⟩ := List.mem_flatMap.mp hw
  cases s with
  | add fixedNode topologyKey weight =>
    simp only at hws
    rw [(List.mem_replicate.mp hws).2]
    unfold allSteps at hs
    obtain ⟨existingPod, _, hp⟩ := List.mem_flatMap.mp hs
    exact weight_of_podSteps lib ipa pod affinity existingPod hH _ _ _ hp
  | fail err => cases hws

/-- The counts of a run are integers of magnitude at most `2^117`, whatever the
number of resident pods and terms, when `hardPodAffinityWeight` is in the range
of a 64-bit `int`: every weight added has magnitude at most `2^63`, and a count
that reached `2^117` is not changed by such a weight. -/
theorem counts_bounded (ipa : InterPodAffinity) (pod : Pod A)
    (affinity : Option Affinity) (nodeNameToInfo : List (String × NodeInfo A))
    (nodes : List Node) (hH : |ipa.hardPodAffinityWeight| ≤ 2 ^ 63) (name : String) :
    (∃ z : Int, (processAllNodes lib ipa pod affinity nodeNameToInfo nodes).counts name
        = (z : ℚ))
      ∧ |(processAllNodes lib ipa pod affinity nodeNameToInfo nodes).counts name|
          ≤ 2 ^ 117 := by
  refine ⟨processAllNodes_counts_isInt lib ipa pod affinity nodeNameToInfo nodes name, ?_⟩
  rw [processAllNodes_eq_runSteps, (runSteps_spec lib _ _).2.2.2 name]
  refine foldl_fadd_abs_le _ _ ?_
    (addedWeights_abs_le lib ipa pod affinity nodeNameToInfo hH _ _ name)
  simp [newPodAffinityPriorityMap]

end Magnitude
/-- C1: whenever `CalculateInterPodAffinityPriority` returns no error, its
result has exactly one entry per element of the node list, in the same order,
each with `Host` equal to the name of that node and `0 ≤ Score ≤ 10`. -/
theorem calculate_result_shape {A : Type} (lib : Lib A) (ipa : InterPodAffinity) (pod : Pod A)
    (nodeNameToInfo : List (String × NodeInfo A)) (nodes : List Node) (result : HostPriorityList)
    (h : CalculateInterPodAffinityPriority lib ipa pod nodeNameToInfo nodes = .ok result) :
    result.length = nodes.length ∧
      List.Forall₂ (fun (hp : HostPriority) (node : Node) =>
        hp.Host = node.Name ∧ 0 ≤ hp.Score ∧ hp.Score ≤ 10) result nodes := by
  obtain ⟨affinity, -, -, rfl⟩ := (calculate_ok_iff lib ipa pod nodeNameToInfo nodes result).mp h
  have hf := scoreNodes_forall₂
    (processAllNodes lib ipa pod affinity nodeNameToInfo nodes).counts nodes
  exact ⟨hf.length_eq, hf⟩

theorem calculate_result_shape_witness :
    CalculateInterPodAffinityPriority labelLib threeNodeScorer (affinityPod 2) threeNodeInfos
        threeNodes = .ok [⟨"m", 7⟩, ⟨"n", 0⟩, ⟨"p", 10⟩] ∧
      ([⟨"m", 7⟩, ⟨"n", 0⟩, ⟨"p", 10⟩] : HostPriorityList).length = threeNodes.length ∧
      List.Forall₂ (fun (hp : HostPriority) (node : Node) =>
        hp.Host = node.Name ∧ 0 ≤ hp.Score ∧ hp.Score ≤ 10)
        [⟨"m", 7⟩, ⟨"n", 0⟩, ⟨"p", 10⟩] threeNodes :=
  ⟨by decide!,
   calculate_result_shape labelLib threeNodeScorer (affinityPod 2) threeNodeInfos threeNodes
     [⟨"m", 7⟩, ⟨"n", 0⟩, ⟨"p", 10⟩] (by decide!)⟩

/-- C2, as stated, fails for counts of large magnitude: with hard affinity
weight `2^49`, a resident pod on `x` that requires the zone of the scored pod
five times over and prefers it with weight 2, and one on `y` that requires it
three times over and prefers it with weight 1, the counts are `5 * 2^49 + 2`
and `3 * 2^49 + 1`, `maxCount` is the former and `minCount` is 0; the scorer
returns 6 for `y`, while `trunc(10 * (count - minCount) / (maxCount - minCount))`
is 5. -/
theorem score_formula_counterexample :
    CalculateInterPodAffinityPriority labelLib (twoNodeScorer (2 ^ 49)) (appPod "new" "web" "")
        twoNodeInfos twoNodes = .ok [⟨"x", 10⟩, ⟨"y", 6⟩] ∧
      (processAllNodes labelLib (twoNodeScorer (2 ^ 49)) (appPod "new" "web" "") none
        twoNodeInfos twoNodes).counts "x" = 5 * 2 ^ 49 + 2 ∧
      (processAllNodes labelLib (twoNodeScorer (2 ^ 49)) (appPod "new" "web" "") none
        twoNodeInfos twoNodes).counts "y" = 3 * 2 ^ 49 + 1 ∧
      countBounds (processAllNodes labelLib (twoNodeScorer (2 ^ 49)) (appPod "new" "web" "") none
        twoNodeInfos twoNodes).counts twoNodes = (5 * 2 ^ 49 + 2, 0) ∧
      truncToInt (10 * ((3 * 2 ^ 49 + 1 : ℚ) - 0) / ((5 * 2 ^ 49 + 2 : ℚ) - 0)) = 5 :=
  ⟨by decide!, by decide!, by decide!, by decide!, by decide!⟩

/-- C2, amended: on success the score of every listed node is the integer
part of the `float64` value `10 * ((count - minCount) / (maxCount - minCount))`,
each of the four operations rounding to `float64`, where `count` is the
accumulated count of the node, `maxCount` is the maximum of 0 and the counts of
the listed nodes and `minCount` the minimum of 0 and those counts; when
`maxCount = minCount` every score is 0 and no quotient is formed.  When
`maxCount - minCount` is at most `2^49`, the score is
`trunc(10 * (count - minCount) / (maxCount - minCount))` in exact arithmetic. -/
theorem calculate_score_formula {A : Type} (lib : Lib A) (ipa : InterPodAffinity) (pod : Pod A)
    (nodeNameToInfo : List (String × NodeInfo A)) (nodes : List Node)
    (affinity : Option Affinity) (result : HostPriorityList)
    (ha : lib.GetAffinityFromPodAnnotations pod.Annotations = .ok affinity)
    (h : CalculateInterPodAffinityPriority lib ipa pod nodeNameToInfo nodes = .ok result) :
    let counts := (processAllNodes lib ipa pod affinity nodeNameToInfo nodes).counts
    let maxCount := (nodes.map (fun n => counts n.Name)).foldr max 0
    let minCount := (nodes.map (fun n => counts n.Name)).foldr min 0
    result = nodes.map (fun node =>
        { Host := node.Name,
          Score := if maxCount = minCount then 0
            else truncToInt
              (fmul 10 (fdiv (fsub (counts node.Name) minCount) (fsub maxCount minCount))) }) ∧
      (maxCount = minCount → ∀ hp ∈ result, hp.Score = 0) ∧
      (maxCount - minCount ≤ 2 ^ 49 →
        result = nodes.map (fun node =>
          { Host := node.Name,
            Score := if maxCount = minCount then 0
              else truncToInt (10 * (counts node.Name - minCount) / (maxCount - minCount)) })) := by
  intro counts maxCount minCount
  obtain ⟨affinity2, ha2, -, hr⟩ :=
    (calculate_ok_iff lib ipa pod nodeNameToInfo nodes result).mp h
  rw [ha] at ha2
  cases ha2
  have hres := hr.trans (scoreNodes_formula counts nodes)
  refine ⟨hres, fun heq => ?_, fun hb => ?_⟩
  · intro hp hmem
    rw [hres] at hmem
    obtain ⟨node, -, rfl⟩ := List.mem_map.mp hmem
    exact if_pos heq
  · exact hr.trans (scoreNodes_exact counts nodes
      (fun node _ => processAllNodes_counts_isInt lib ipa pod affinity nodeNameToInfo nodes
        node.Name) hb)

theorem calculate_score_formula_witness :
    (labelLib.GetAffinityFromPodAnnotations (affinityPod 2).Annotations
        = .ok (softAffinity 2) ∧
      CalculateInterPodAffinityPriority labelLib threeNodeScorer (affinityPod 2) threeNodeInfos
        threeNodes = .ok [⟨"m", 7⟩, ⟨"n", 0⟩, ⟨"p", 10⟩]) ∧
    (let counts := (processAllNodes labelLib threeNodeScorer (affinityPod 2)
        (softAffinity 2) threeNodeInfos threeNodes).counts
     let maxCount := (threeNodes.map (fun n => counts n.Name)).foldr max 0
     let minCount := (threeNodes.map (fun n => counts n.Name)).foldr min 0
     ([⟨"m", 7⟩, ⟨"n", 0⟩, ⟨"p", 10⟩] : HostPriorityList) = threeNodes.map (fun node =>
        { Host := node.Name,
          Score := if maxCount = minCount then 0
            else truncToInt (10 * (counts node.Name - minCount) / (maxCount - minCount)) })) :=
  ⟨⟨rfl, by decide!⟩,
   (calculate_score_formula labelLib threeNodeScorer (affinityPod 2) threeNodeInfos threeNodes
     _ [⟨"m", 7⟩, ⟨"n", 0⟩, ⟨"p", 10⟩] rfl (by decide!)).2.2 (by decide!)⟩
/-! ## Errors -/

section Errors

variable {A : Type} (lib : Lib A)

theorem stepErrors_append (s t : List Step) :
    stepErrors (s ++ t) = stepErrors s ++ stepErrors t := by
  simp [stepErrors, List.filterMap_append]

theorem stepErrors_nil : stepErrors [] = [] := rfl

theorem stepErrors_flatMap {β : Type} (f : β → List Step) (l : List β) :
    stepErrors (l.flatMap f) = l.flatMap (fun b => stepErrors (f b)) := by
  induction l with
  | nil => rfl
  | cons b l ih => simp only [List.flatMap_cons, stepErrors_append, ih]

/-- The error of parsing the selector of one term, if any. -/
theorem stepErrors_termSteps (term : PodAffinityTerm)
    (podDefiningAffinityTerm podToCheck : Pod A) (fixedNode : Node) (weight : float64) (err : Error) :
    err ∈ stepErrors (termSteps lib term podDefiningAffinityTerm podToCheck fixedNode weight) ↔
      lib.LabelSelectorAsSelector term.LabelSelector = .error err := by
  unfold termSteps
  cases lib.LabelSelectorAsSelector term.LabelSelector with
  | error e => simp [stepErrors, eq_comm]
  | ok selector =>
    simp only
    split_ifs <;> simp [stepErrors]

theorem stepErrors_termsSteps (terms : List WeightedPodAffinityTerm)
    (podDefiningAffinityTerm podToCheck : Pod A) (fixedNode : Node) (multiplier : Int)
    (err : Error) :
    err ∈ stepErrors
        (termsSteps lib terms podDefiningAffinityTerm podToCheck fixedNode multiplier) ↔
      ∃ term ∈ terms.map (·.PodAffinityTerm),
        lib.LabelSelectorAsSelector term.LabelSelector = .error err := by
  unfold termsSteps
  rw [stepErrors_flatMap]
  simp only [List.mem_flatMap, stepErrors_termSteps, List.mem_map]
  constructor
  · rintro ⟨t, ht, h⟩
    exact ⟨t.PodAffinityTerm, ⟨t, ht, rfl⟩, h⟩
  · rintro ⟨_, ⟨t, ht, rfl⟩, h⟩
    exact ⟨t, ht, h⟩

theorem stepErrors_hardSteps (ipa : InterPodAffinity) (pod existingPod : Pod A)
    (existingPodNode : Node) (a : PodAffinity) (err : Error) :
    err ∈ stepErrors (hardSteps lib ipa pod existingPod existingPodNode a) ↔
      ∃ term ∈ (if ipa.hardPodAffinityWeight > 0
          then a.RequiredDuringSchedulingIgnoredDuringExecution else []),
        lib.LabelSelectorAsSelector term.LabelSelector = .error err := by
  unfold hardSteps
  split_ifs
  · rw [stepErrors_flatMap]
    simp only [List.mem_flatMap, stepErrors_termSteps]
  · simp [stepErrors]

theorem mem_stepErrors_podSteps (ipa : InterPodAffinity) (pod : Pod A)
    (affinity : Option Affinity) (existingPod : Pod A) (err : Error) :
    err ∈ stepErrors (podSteps lib ipa pod affinity existingPod) ↔
      Encountered lib ipa affinity existingPod err := by
  unfold podSteps
  cases hn : ipa.info existingPod.NodeName with
  | error e =>
    simp only [stepErrors, List.filterMap_cons, List.filterMap_nil, List.mem_singleton]
    constructor
    · rintro rfl
      exact .nodeInfo hn
    · intro h
      cases h with
      | nodeInfo h => rw [hn] at h; cases h; rfl
      | affinityParse node h1 _ => rw [hn] at h1; cases h1
      | selector node h1 _ _ _ _ _ => rw [hn] at h1; cases h1
  | ok node =>
    cases ha : lib.GetAffinityFromPodAnnotations existingPod.Annotations with
    | error e =>
      simp only [stepErrors, List.filterMap_cons, List.filterMap_nil, List.mem_singleton]
      constructor
      · rintro rfl
        exact .affinityParse node hn ha
      · intro h
        cases h with
        | nodeInfo h => rw [hn] at h; cases h
        | affinityParse _ _ h2 => rw [ha] at h2; cases h2; rfl
        | selector _ _ _ h2 _ _ _ => rw [ha] at h2; cases h2
    | ok existingPodAffinity =>
      have key : err ∈ stepErrors
          ((match affinity.bind (·.PodAffinity) with
            | some a => termsSteps lib a.PreferredDuringSchedulingIgnoredDuringExecution
                pod existingPod node 1
            | none => [])
          ++ (match affinity.bind (·.PodAntiAffinity) with
            | some a => termsSteps lib a.PreferredDuringSchedulingIgnoredDuringExecution
                pod existingPod node (-1)
            | none => [])
          ++ (match existingPodAffinity.bind (·.PodAffinity) with
            | some a => hardSteps lib ipa pod existingPod node a
                ++ termsSteps lib a.PreferredDuringSchedulingIgnoredDuringExecution
                  existingPod pod node 1
            | none => [])
          ++ (match existingPodAffinity.bind (·.PodAntiAffinity) with
            | some a => termsSteps lib a.PreferredDuringSchedulingIgnoredDuringExecution
                existingPod pod node (-1)
            | none => [])) ↔
          ∃ term ∈ evaluatedTerms ipa affinity existingPodAffinity,
            lib.LabelSelectorAsSelector term.LabelSelector = .error err := by
        unfold evaluatedTerms
        cases affinity.bind (·.PodAffinity) <;> cases affinity.bind (·.PodAntiAffinity) <;>
          cases existingPodAffinity.bind (·.PodAffinity) <;>
          cases existingPodAffinity.bind (·.PodAntiAffinity) <;>
          simp only [stepErrors_append, List.mem_append, stepErrors_termsSteps,
            stepErrors_hardSteps, or_and_right, exists_or, List.append_nil, List.nil_append,
            List.not_mem_nil, false_and, exists_false, or_false, false_or, stepErrors_nil]
      simp only
      rw [key]
      constructor
      · rintro ⟨term, ht, h⟩
        exact .selector node hn existingPodAffinity ha term ht h
      · intro h
        cases h with
        | nodeInfo h => rw [hn] at h; cases h
        | affinityParse _ _ h2 => rw [ha] at h2; cases h2
        | selector _ _ ea h2 term ht h =>
          rw [ha] at h2; cases h2
          exact ⟨term, ht, h⟩

theorem processAllNodes_firstError (ipa : InterPodAffinity) (pod : Pod A)
    (affinity : Option Affinity) (nodeNameToInfo : List (String × NodeInfo A))
    (nodes : List Node) :
    (processAllNodes lib ipa pod affinity nodeNameToInfo nodes).firstError
      = (stepErrors (allSteps lib ipa pod affinity nodeNameToInfo)).head? := by
  rw [processAllNodes_eq_runSteps, (runSteps_spec lib _ _).2.2.1]
  rfl

theorem mem_stepErrors_allSteps (ipa : InterPodAffinity) (pod : Pod A)
    (affinity : Option Affinity) (nodeNameToInfo : List (String × NodeInfo A)) (err : Error) :
    err ∈ stepErrors (allSteps lib ipa pod affinity nodeNameToInfo) ↔
      ∃ name ∈ nodeNameToInfo.map Prod.fst,
        ∃ existingPod ∈ podsToProcess lib affinity (nodeInfoAt nodeNameToInfo name),
          Encountered lib ipa affinity existingPod err := by
  unfold allSteps scannedPods
  rw [stepErrors_flatMap]
  simp only [List.mem_flatMap, mem_stepErrors_podSteps]
  constructor
  · rintro ⟨e, ⟨name, hname, he⟩, h⟩
    exact ⟨name, hname, e, he, h⟩
  · rintro ⟨name, hname, e, he, h⟩
    exact ⟨e, ⟨name, hname, he⟩, h⟩

end Errors

/-- C3: if, while a resident pod of some node is processed, its node-info
lookup fails, its affinity annotation fails to parse or a label selector fails
to parse, then `CalculateInterPodAffinityPriority` returns an error and no
score list, and the returned error is one of the errors met while processing
the resident pods.  The same holds for every schedule of the atomic map
updates, whichever error comes first in it. -/
theorem calculate_error_of_failure {A : Type} (lib : Lib A) (ipa : InterPodAffinity)
    (pod : Pod A) (nodeNameToInfo : List (String × NodeInfo A)) (nodes : List Node)
    (affinity : Option Affinity)
    (ha : lib.GetAffinityFromPodAnnotations pod.Annotations = .ok affinity)
    (name : String) (hname : name ∈ nodeNameToInfo.map Prod.fst)
    (existingPod : Pod A)
    (hpod : existingPod ∈ podsToProcess lib affinity (nodeInfoAt nodeNameToInfo name))
    (err0 : Error) (hfail : Encountered lib ipa affinity existingPod err0) :
    (∃ err, CalculateInterPodAffinityPriority lib ipa pod nodeNameToInfo nodes = .error err ∧
      ∃ name1 ∈ nodeNameToInfo.map Prod.fst,
        ∃ pod1 ∈ podsToProcess lib affinity (nodeInfoAt nodeNameToInfo name1),
          Encountered lib ipa affinity pod1 err) ∧
    (∀ schedule : List Step, schedule.Perm (allSteps lib ipa pod affinity nodeNameToInfo) →
      ∃ err, finish (runSteps lib (newPodAffinityPriorityMap nodes ipa.failureDomains) schedule)
          nodes = .error err ∧
        ∃ name1 ∈ nodeNameToInfo.map Prod.fst,
          ∃ pod1 ∈ podsToProcess lib affinity (nodeInfoAt nodeNameToInfo name1),
            Encountered lib ipa affinity pod1 err) := by
  have hmem : err0 ∈ stepErrors (allSteps lib ipa pod affinity nodeNameToInfo) :=
    (mem_stepErrors_allSteps lib ipa pod affinity nodeNameToInfo err0).mpr
      ⟨name, hname, existingPod, hpod, hfail⟩
  have hsched : ∀ schedule : List Step,
      schedule.Perm (allSteps lib ipa pod affinity nodeNameToInfo) →
      ∃ err, finish (runSteps lib (newPodAffinityPriorityMap nodes ipa.failureDomains) schedule)
          nodes = .error err ∧
        ∃ name1 ∈ nodeNameToInfo.map Prod.fst,
          ∃ pod1 ∈ podsToProcess lib affinity (nodeInfoAt nodeNameToInfo name1),
            Encountered lib ipa affinity pod1 err := by
    intro schedule hperm
    have hp : (stepErrors schedule).Perm
        (stepErrors (allSteps lib ipa pod affinity nodeNameToInfo)) := hperm.filterMap _
    have hmem2 : err0 ∈ stepErrors schedule := hp.symm.subset hmem
    cases hl : stepErrors schedule with
    | nil => rw [hl] at hmem2; cases hmem2
    | cons err rest =>
      refine ⟨err, ?_, ?_⟩
      · unfold finish
        rw [(runSteps_spec lib _ schedule).2.2.1, hl]
        rfl
      · apply (mem_stepErrors_allSteps lib ipa pod affinity nodeNameToInfo err).mp
        apply hp.subset
        rw [hl]
        exact List.mem_cons_self _ _
  refine ⟨?_, hsched⟩
  have hcalc : CalculateInterPodAffinityPriority lib ipa pod nodeNameToInfo nodes
      = finish (runSteps lib (newPodAffinityPriorityMap nodes ipa.failureDomains)
          (allSteps lib ipa pod affinity nodeNameToInfo)) nodes := by
    unfold CalculateInterPodAffinityPriority
    rw [ha]
    simp only [processAllNodes_eq_runSteps]
  rw [hcalc]
  exact hsched _ (List.Perm.refl _)

theorem calculate_error_of_failure_witness :
    (labelLib.GetAffinityFromPodAnnotations (affinityPod 1).Annotations
        = (affinityPod 1).Annotations ∧
      "gone" ∈ strayInfos.map Prod.fst ∧
      strayPod ∈ podsToProcess labelLib (softAffinity 1) (nodeInfoAt strayInfos "gone") ∧
      threeNodeScorer.info strayPod.NodeName = .error "node not found: gone") ∧
    ∃ err, CalculateInterPodAffinityPriority labelLib threeNodeScorer (affinityPod 1) strayInfos
        threeNodes = .error err ∧
      ∃ name1 ∈ strayInfos.map Prod.fst,
        ∃ pod1 ∈ podsToProcess labelLib (softAffinity 1) (nodeInfoAt strayInfos name1),
          Encountered labelLib threeNodeScorer (softAffinity 1) pod1 err :=
  ⟨⟨rfl, by decide, List.mem_singleton.mpr rfl, by decide⟩,
   (calculate_error_of_failure labelLib threeNodeScorer (affinityPod 1) strayInfos threeNodes
     _ rfl "gone" (by decide) strayPod (List.mem_singleton.mpr rfl) "node not found: gone"
     (.nodeInfo (by decide))).1⟩

/-! ## The effect of one term -/

theorem countP_name_of_nodup (l : List Node) (hnd : (l.map (·.Name)).Nodup)
    (P : Node → Bool) (node : Node) (hn : node ∈ l) :
    l.countP (fun x => decide (P x = true ∧ x.Name = node.Name)) = if P node then 1 else 0 := by
  induction l with
  | nil => cases hn
  | cons x l ih =>
    rw [List.map_cons, List.nodup_cons] at hnd
    rcases List.mem_cons.mp hn with rfl | hmem
    · have hzero : l.countP (fun x => decide (P x = true ∧ x.Name = node.Name)) = 0 := by
        rw [List.countP_eq_zero]
        intro y hy
        have hne : y.Name ≠ node.Name := fun e => hnd.1 (e ▸ List.mem_map_of_mem _ hy)
        simp [hne]
      rw [List.countP_cons, hzero]
      cases P node <;> simp
    · have hne : x.Name ≠ node.Name := fun e => hnd.1 (e ▸ List.mem_map_of_mem _ hmem)
      rw [List.countP_cons, ih hnd.2 hmem]
      simp [hne]

theorem countP_name_of_not_mem (l : List Node) (P : Node → Bool) (name : String)
    (hn : name ∉ l.map (·.Name)) :
    l.countP (fun x => decide (P x = true ∧ x.Name = name)) = 0 := by
  rw [List.countP_eq_zero]
  intro y hy
  have hne : y.Name ≠ name := fun e => hn (e ▸ List.mem_map_of_mem _ hy)
  simp [hne]

theorem addedWeights_termSteps {A : Type} (lib : Lib A) (fd : Topologies) (nodes : List Node)
    (name : String) (term : PodAffinityTerm) (podDefiningAffinityTerm podToCheck : Pod A)
    (fixedNode : Node) (weight : float64) :
    addedWeights lib fd nodes name
        (termSteps lib term podDefiningAffinityTerm podToCheck fixedNode weight)
      = if termMatches lib term podDefiningAffinityTerm podToCheck then
          List.replicate
            (nodes.countP (fun node =>
              decide (lib.NodesHaveSameTopologyKey fd node fixedNode term.TopologyKey = true
                ∧ node.Name = name)))
            weight
        else [] := by
  unfold termSteps termMatches
  cases lib.LabelSelectorAsSelector term.LabelSelector with
  | error err => simp [addedWeights]
  | ok selector =>
    simp only
    split_ifs <;> simp [addedWeights]

theorem processTerm_counts {A : Type} (lib : Lib A) (p : podAffinityPriorityMap)
    (term : PodAffinityTerm) (podDefiningAffinityTerm podToCheck : Pod A) (fixedNode : Node)
    (weight : float64) (name : String) :
    (processTerm lib p term podDefiningAffinityTerm podToCheck fixedNode weight).counts name
      = if termMatches lib term podDefiningAffinityTerm podToCheck then
          (List.replicate
            (p.nodes.countP (fun node =>
              decide (lib.NodesHaveSameTopologyKey p.failureDomains node fixedNode
                term.TopologyKey = true ∧ node.Name = name)))
            weight).foldl fadd (p.counts name)
        else p.counts name := by
  rw [processTerm_eq_runSteps, (runSteps_spec lib p _).2.2.2 name, addedWeights_termSteps]
  split_ifs <;> rfl

/-- C4, as stated, fails for counts of large magnitude: the node `x` holds
the count `2^53` and lies in the topology domain of the fixed node, the pod
matches the term, and `processTerm` with weight 1 leaves the count of `x` at
`2^53`. -/
theorem processTerm_rounding_counterexample :
    termMatches labelLib (appTerm 1 "a").PodAffinityTerm (affinityPod 1)
        (appPod "x1" "a" "x") = true ∧
      labelLib.NodesHaveSameTopologyKey bigMap.failureDomains (zoneNode "x" "z1")
        (zoneNode "x" "z1") (appTerm 1 "a").PodAffinityTerm.TopologyKey = true ∧
      bigMap.counts "x" = 2 ^ 53 ∧
      (processTerm labelLib bigMap (appTerm 1 "a").PodAffinityTerm (affinityPod 1)
          (appPod "x1" "a" "x") (zoneNode "x" "z1") 1).counts "x" = 2 ^ 53 ∧
      (processTerm labelLib bigMap (appTerm 1 "a").PodAffinityTerm (affinityPod 1)
          (appPod "x1" "a" "x") (zoneNode "x" "z1") 1).counts "x" ≠ bigMap.counts "x" + 1 :=
  ⟨by decide, by decide, by decide!, by decide!, by decide!⟩

/-- C4, amended: `processTerm` changes the counts only when `podToCheck`
matches the namespaces and the selector of the term.  When it matches, the
count stored under every name becomes its `float64` sum with `weight`, formed
once for each listed node of that name that has the same topology key value as
`fixedNode`; with pairwise distinct node names, the count of every such listed
node becomes the `float64` sum of the count and `weight`, which is their exact
sum when both are integers and the sum has magnitude at most `2^53`, and the
count of every other listed node, and of every name not listed, is unchanged.
When it does not match, no count changes. -/
theorem processTerm_frame {A : Type} (lib : Lib A) (p : podAffinityPriorityMap)
    (term : PodAffinityTerm) (podDefiningAffinityTerm podToCheck : Pod A) (fixedNode : Node)
    (weight : float64) :
    (termMatches lib term podDefiningAffinityTerm podToCheck = true →
      (∀ name,
        (processTerm lib p term podDefiningAffinityTerm podToCheck fixedNode weight).counts name
          = (List.replicate
              (p.nodes.countP (fun node =>
                decide (lib.NodesHaveSameTopologyKey p.failureDomains node fixedNode
                  term.TopologyKey = true ∧ node.Name = name)))
              weight).foldl fadd (p.counts name)) ∧
      ((p.nodes.map (·.Name)).Nodup →
        ∀ node ∈ p.nodes,
          (processTerm lib p term podDefiningAffinityTerm podToCheck fixedNode weight).counts
              node.Name
            = (if lib.NodesHaveSameTopologyKey p.failureDomains node fixedNode term.TopologyKey
              then fadd (p.counts node.Name) weight else p.counts node.Name) ∧
          (lib.NodesHaveSameTopologyKey p.failureDomains node fixedNode term.TopologyKey
              = true →
            ∀ a b : Int, p.counts node.Name = (a : ℚ) → weight = (b : ℚ) → |a + b| ≤ 2 ^ 53 →
              (processTerm lib p term podDefiningAffinityTerm podToCheck fixedNode
                weight).counts node.Name = p.counts node.Name + weight)) ∧
      (∀ name, name ∉ p.nodes.map (·.Name) →
        (processTerm lib p term podDefiningAffinityTerm podToCheck fixedNode weight).counts name
          = p.counts name)) ∧
    (termMatches lib term podDefiningAffinityTerm podToCheck = false →
      (processTerm lib p term podDefiningAffinityTerm podToCheck fixedNode weight).counts
        = p.counts) := by
  constructor
  · intro hm
    have hc := fun name => processTerm_counts lib p term podDefiningAffinityTerm podToCheck
      fixedNode weight name
    simp only [hm, if_true] at hc
    have hnode : (p.nodes.map (·.Name)).Nodup → ∀ node ∈ p.nodes,
        (processTerm lib p term podDefiningAffinityTerm podToCheck fixedNode weight).counts
            node.Name
          = (if lib.NodesHaveSameTopologyKey p.failureDomains node fixedNode term.TopologyKey
            then fadd (p.counts node.Name) weight else p.counts node.Name) := by
      intro hnd node hn
      rw [hc, countP_name_of_nodup p.nodes hnd
        (fun x => lib.NodesHaveSameTopologyKey p.failureDomains x fixedNode term.TopologyKey)
        node hn]
      cases lib.NodesHaveSameTopologyKey p.failureDomains node fixedNode term.TopologyKey <;> simp
    refine ⟨hc, fun hnd node hn => ⟨hnode hnd node hn, ?_⟩, fun name hn => ?_⟩
    · intro hsame a b ha hb hab
      rw [hnode hnd node hn, hsame, if_pos rfl, ha, hb]
      exact fadd_exact a b hab
    · rw [hc, countP_name_of_not_mem p.nodes
        (fun x => lib.NodesHaveSameTopologyKey p.failureDomains x fixedNode term.TopologyKey)
        name hn]
      simp
  · intro hm
    funext name
    rw [processTerm_counts, hm]
    simp

theorem processTerm_frame_witness :
    (termMatches labelLib (appTerm 1 "a").PodAffinityTerm (affinityPod 1)
        (appPod "m1" "a" "m") = true ∧
      (fourNodeMap.nodes.map (·.Name)).Nodup) ∧
    ∀ node ∈ fourNodeMap.nodes,
      (processTerm labelLib fourNodeMap (appTerm 1 "a").PodAffinityTerm (affinityPod 1)
          (appPod "m1" "a" "m") (zoneNode "m" "z1") 3).counts node.Name
        = (if labelLib.NodesHaveSameTopologyKey fourNodeMap.failureDomains node
              (zoneNode "m" "z1") (appTerm 1 "a").PodAffinityTerm.TopologyKey
          then fadd (fourNodeMap.counts node.Name) 3 else fourNodeMap.counts node.Name) ∧
        (labelLib.NodesHaveSameTopologyKey fourNodeMap.failureDomains node
              (zoneNode "m" "z1") (appTerm 1 "a").PodAffinityTerm.TopologyKey = true →
          ∀ a b : Int, fourNodeMap.counts node.Name = (a : ℚ) → (3 : ℚ) = (b : ℚ) →
            |a + b| ≤ 2 ^ 53 →
            (processTerm labelLib fourNodeMap (appTerm 1 "a").PodAffinityTerm (affinityPod 1)
              (appPod "m1" "a" "m") (zoneNode "m" "z1") 3).counts node.Name
              = fourNodeMap.counts node.Name + 3) :=
  ⟨⟨by decide, by decide⟩,
   ((processTerm_frame labelLib fourNodeMap (appTerm 1 "a").PodAffinityTerm (affinityPod 1)
      (appPod "m1" "a" "m") (zoneNode "m" "z1") 3).1 (by decide)).2.1 (by decide)⟩
/-! ## The effect of one resident pod -/

theorem toInt32_of_range (x : Int) (h1 : -2147483648 ≤ x) (h2 : x < 2147483648) :
    toInt32 x = x := by
  unfold toInt32
  rw [Int.emod_eq_of_lt (by linarith) (by linarith)]
  ring

theorem toInt32_mul_one (w : Int) (h1 : -2147483648 ≤ w) (h2 : w < 2147483648) :
    toInt32 (w * toInt32 1) = w := by
  have h : toInt32 1 = 1 := by decide
  rw [h, mul_one, toInt32_of_range w h1 h2]

theorem toInt32_mul_neg_one (w : Int) (h1 : -2147483648 < w) (h2 : w < 2147483648) :
    toInt32 (w * toInt32 (-1)) = -w := by
  have h : toInt32 (-1) = -1 := by decide
  rw [h, mul_neg_one, toInt32_of_range (-w) (by linarith) (by linarith)]

/-- An `int32` value converts to `float64` exactly. -/
theorem ofInt_of_int32 (w : Int) (h1 : -2147483648 ≤ w) (h2 : w < 2147483648) :
    ofInt w = (w : ℚ) :=
  ofInt_of_small w (abs_le.mpr ⟨by omega, by omega⟩)

section PodEffect

variable {A : Type} (lib : Lib A)

theorem stepDelta_termSteps (fd : Topologies) (nodes : List Node) (name : String)
    (term : PodAffinityTerm) (podDefiningAffinityTerm podToCheck : Pod A) (fixedNode : Node)
    (weight : float64) :
    ((termSteps lib term podDefiningAffinityTerm podToCheck fixedNode weight).map
        (stepDelta lib fd nodes name)).sum
      = if termMatches lib term podDefiningAffinityTerm podToCheck then
          contributionAt lib fd nodes fixedNode name (term.TopologyKey, weight)
        else 0 := by
  unfold termSteps termMatches contributionAt
  cases lib.LabelSelectorAsSelector term.LabelSelector with
  | error err => simp [stepDelta]
  | ok selector =>
    simp only
    split_ifs
    · simp only [List.map_cons, List.map_nil, List.sum_cons, List.sum_nil, add_zero, stepDelta]
      rw [sum_map_ite_eq_countP]
    · simp

theorem contributionWeights_append (fd : Topologies) (nodes : List Node) (fixedNode : Node)
    (name : String) (cs ds : List (String × ℚ)) :
    contributionWeights lib fd nodes fixedNode name (cs ++ ds)
      = contributionWeights lib fd nodes fixedNode name cs
        ++ contributionWeights lib fd nodes fixedNode name ds := by
  simp [contributionWeights]

theorem contributionWeights_nil (fd : Topologies) (nodes : List Node) (fixedNode : Node)
    (name : String) : contributionWeights lib fd nodes fixedNode name [] = [] := rfl

/-- The weights added by a loop of `processTerm` calls whose weights are the
`float64` conversions of `exact`. -/
theorem addedWeights_flatMap_termSteps {β : Type} (fd : Topologies) (nodes : List Node)
    (name : String) (l : List β) (term : β → PodAffinityTerm) (exact : β → ℚ)
    (podDefiningAffinityTerm podToCheck : Pod A) (fixedNode : Node) :
    addedWeights lib fd nodes name
        (l.flatMap (fun t =>
          termSteps lib (term t) podDefiningAffinityTerm podToCheck fixedNode
            (round64 (exact t))))
      = contributionWeights lib fd nodes fixedNode name
          ((l.filter (fun t => termMatches lib (term t) podDefiningAffinityTerm podToCheck)).map
            (fun t => ((term t).TopologyKey, exact t))) := by
  induction l with
  | nil => rfl
  | cons t l ih =>
    rw [List.flatMap_cons, addedWeights_append, ih, addedWeights_termSteps, List.filter_cons]
    by_cases h : termMatches lib (term t) podDefiningAffinityTerm podToCheck = true
    · simp [h, contributionWeights]
    · simp [h]

theorem flatMap_termSteps_congr (terms : List WeightedPodAffinityTerm) (f g : Int → float64)
    (h : ∀ w ∈ terms.map (·.Weight), f w = g w)
    (podDefiningAffinityTerm podToCheck : Pod A) (fixedNode : Node) :
    terms.flatMap (fun t =>
        termSteps lib t.PodAffinityTerm podDefiningAffinityTerm podToCheck fixedNode (f t.Weight))
      = terms.flatMap (fun t =>
        termSteps lib t.PodAffinityTerm podDefiningAffinityTerm podToCheck fixedNode
          (g t.Weight)) := by
  induction terms with
  | nil => rfl
  | cons t l ih =>
    simp only [List.flatMap_cons]
    rw [h t.Weight (by simp), ih (fun w hw => h w (by
      rw [List.map_cons]
      exact List.mem_cons_of_mem _ hw))]

theorem addedWeights_termsSteps_pos (fd : Topologies) (nodes : List Node) (name : String)
    (terms : List WeightedPodAffinityTerm) (podDefiningAffinityTerm podToCheck : Pod A)
    (fixedNode : Node)
    (hw : ∀ w ∈ terms.map (·.Weight), -2147483648 ≤ w ∧ w < 2147483648) :
    addedWeights lib fd nodes name
        (termsSteps lib terms podDefiningAffinityTerm podToCheck fixedNode 1)
      = contributionWeights lib fd nodes fixedNode name
          ((terms.filter
            (fun t => termMatches lib t.PodAffinityTerm podDefiningAffinityTerm podToCheck)).map
            (fun t => (t.PodAffinityTerm.TopologyKey, (t.Weight : ℚ)))) := by
  unfold termsSteps
  rw [flatMap_termSteps_congr lib terms (fun w => ofInt (toInt32 (w * toInt32 1)))
    (fun w => round64 (w : ℚ))
    (fun w hmem => by
      simp only [toInt32_mul_one w (hw w hmem).1 (hw w hmem).2]
      rfl)]
  exact addedWeights_flatMap_termSteps lib fd nodes name terms (·.PodAffinityTerm)
    (fun t => (t.Weight : ℚ)) podDefiningAffinityTerm podToCheck fixedNode

theorem addedWeights_termsSteps_neg (fd : Topologies) (nodes : List Node) (name : String)
    (terms : List WeightedPodAffinityTerm) (podDefiningAffinityTerm podToCheck : Pod A)
    (fixedNode : Node)
    (hw : ∀ w ∈ terms.map (·.Weight), -2147483648 < w ∧ w < 2147483648) :
    addedWeights lib fd nodes name
        (termsSteps lib terms podDefiningAffinityTerm podToCheck fixedNode (-1))
      = contributionWeights lib fd nodes fixedNode name
          ((terms.filter
            (fun t => termMatches lib t.PodAffinityTerm podDefiningAffinityTerm podToCheck)).map
            (fun t => (t.PodAffinityTerm.TopologyKey, -(t.Weight : ℚ)))) := by
  unfold termsSteps
  rw [flatMap_termSteps_congr lib terms (fun w => ofInt (toInt32 (w * toInt32 (-1))))
    (fun w => round64 (-(w : ℚ)))
    (fun w hmem => by
      simp only [toInt32_mul_neg_one w (hw w hmem).1 (hw w hmem).2]
      unfold ofInt
      rw [Int.cast_neg])]
  exact addedWeights_flatMap_termSteps lib fd nodes name terms (·.PodAffinityTerm)
    (fun t => -(t.Weight : ℚ)) podDefiningAffinityTerm podToCheck fixedNode

theorem addedWeights_hardSteps (fd : Topologies) (nodes : List Node) (name : String)
    (ipa : InterPodAffinity) (pod existingPod : Pod A) (existingPodNode : Node)
    (a : PodAffinity) :
    addedWeights lib fd nodes name (hardSteps lib ipa pod existingPod existingPodNode a)
      = contributionWeights lib fd nodes existingPodNode name
          (if ipa.hardPodAffinityWeight > 0 then
            (a.RequiredDuringSchedulingIgnoredDuringExecution.filter
              (fun t => termMatches lib t existingPod pod)).map
              (fun t => (t.TopologyKey, (ipa.hardPodAffinityWeight : ℚ)))
          else []) := by
  unfold hardSteps
  split_ifs
  · exact addedWeights_flatMap_termSteps lib fd nodes name
      a.RequiredDuringSchedulingIgnoredDuringExecution (fun t => t)
      (fun _ => (ipa.hardPodAffinityWeight : ℚ)) existingPod pod existingPodNode
  · rfl

theorem addedWeights_podSteps (fd : Topologies) (nodes : List Node) (name : String)
    (ipa : InterPodAffinity) (pod : Pod A) (affinity : Option Affinity) (existingPod : Pod A)
    (existingPodNode : Node) (existingPodAffinity : Option Affinity)
    (hn : ipa.info existingPod.NodeName = .ok existingPodNode)
    (hea : lib.GetAffinityFromPodAnnotations existingPod.Annotations = .ok existingPodAffinity)
    (hw : ∀ w ∈ affinityWeights affinity ++ affinityWeights existingPodAffinity,
      -2147483648 ≤ w ∧ w < 2147483648)
    (hwn : ∀ w ∈ antiAffinityWeights affinity ++ antiAffinityWeights existingPodAffinity,
      -2147483648 < w ∧ w < 2147483648) :
    addedWeights lib fd nodes name (podSteps lib ipa pod affinity existingPod)
      = contributionWeights lib fd nodes existingPodNode name
          (specContributions lib ipa pod affinity existingPod existingPodAffinity) := by
  unfold podSteps specContributions
  rw [hn]
  simp only
  rw [hea]
  simp only
  unfold affinityWeights at hw
  unfold antiAffinityWeights at hwn
  cases h1 : affinity.bind (·.PodAffinity) <;> cases h2 : affinity.bind (·.PodAntiAffinity) <;>
    cases h3 : existingPodAffinity.bind (·.PodAffinity) <;>
    cases h4 : existingPodAffinity.bind (·.PodAntiAffinity) <;>
    simp only [h1, h2, h3, h4, List.append_nil, List.nil_append, List.mem_append,
      List.not_mem_nil, false_or, or_false] at hw hwn ⊢ <;>
    (try simp only [addedWeights_append, contributionWeights_append, addedWeights_nil,
      contributionWeights_nil, List.append_nil, List.nil_append, addedWeights_hardSteps]) <;>
    (try rw [addedWeights_termsSteps_pos lib fd nodes name _ pod existingPod existingPodNode
      (fun w hmem => hw w (by simp only [hmem, true_or, or_true]))]) <;>
    (try rw [addedWeights_termsSteps_neg lib fd nodes name _ pod existingPod existingPodNode
      (fun w hmem => hwn w (by simp only [hmem, true_or, or_true]))]) <;>
    (try rw [addedWeights_termsSteps_pos lib fd nodes name _ existingPod pod existingPodNode
      (fun w hmem => hw w (by simp only [hmem, true_or, or_true]))]) <;>
    (try rw [addedWeights_termsSteps_neg lib fd nodes name _ existingPod pod existingPodNode
      (fun w hmem => hwn w (by simp only [hmem, true_or, or_true]))])

/-- The contributions the specification lists are integers; their magnitude
is at most `2^53` when that of the hard weight is. -/
theorem specContributions_small (ipa : InterPodAffinity) (pod : Pod A)
    (affinity : Option Affinity) (existingPod : Pod A) (existingPodAffinity : Option Affinity)
    (hw : ∀ w ∈ affinityWeights affinity ++ affinityWeights existingPodAffinity,
      -2147483648 ≤ w ∧ w < 2147483648)
    (hwn : ∀ w ∈ antiAffinityWeights affinity ++ antiAffinityWeights existingPodAffinity,
      -2147483648 < w ∧ w < 2147483648)
    (hh : |ipa.hardPodAffinityWeight| ≤ 2 ^ 53) :
    ∀ c ∈ specContributions lib ipa pod affinity existingPod existingPodAffinity,
      ∃ z : Int, c.2 = (z : ℚ) ∧ |z| ≤ 2 ^ 53 := by
  intro c hc
  unfold specContributions at hc
  unfold affinityWeights at hw
  unfold antiAffinityWeights at hwn
  have hsoft : ∀ w : Int, -2147483648 ≤ w ∧ w < 2147483648 → |w| ≤ 2 ^ 53 :=
    fun w h => abs_le.mpr ⟨by omega, by omega⟩
  have hsoftn : ∀ w : Int, -2147483648 < w ∧ w < 2147483648 → |-w| ≤ 2 ^ 53 :=
    fun w h => abs_le.mpr ⟨by omega, by omega⟩
  simp only [List.mem_append] at hc hw hwn
  rcases hc with ((hc | hc) | hc) | hc
  · cases h1 : affinity.bind (·.PodAffinity) with
    | none => rw [h1] at hc; cases hc
    | some a =>
      rw [h1] at hc hw
      obtain ⟨t, ht, rfl⟩ := List.mem_map.mp hc
      exact ⟨t.Weight, rfl, hsoft _ (hw _ (Or.inl (List.mem_map_of_mem _
        (List.mem_of_mem_filter ht))))⟩
  · cases h1 : affinity.bind (·.PodAntiAffinity) with
    | none => rw [h1] at hc; cases hc
    | some a =>
      rw [h1] at hc hwn
      obtain ⟨t, ht, rfl⟩ := List.mem_map.mp hc
      exact ⟨-t.Weight, by push_cast; rfl, hsoftn _ (hwn _ (Or.inl (List.mem_map_of_mem _
        (List.mem_of_mem_filter ht))))⟩
  · cases h1 : existingPodAffinity.bind (·.PodAffinity) with
    | none => rw [h1] at hc; cases hc
    | some a =>
      rw [h1] at hc hw
      simp only [List.mem_append] at hc
      rcases hc with hc | hc
      · split_ifs at hc
        · obtain ⟨t, -, rfl⟩ := List.mem_map.mp hc
          exact ⟨ipa.hardPodAffinityWeight, rfl, hh⟩
        · cases hc
      · obtain ⟨t, ht, rfl⟩ := List.mem_map.mp hc
        exact ⟨t.Weight, rfl, hsoft _ (hw _ (Or.inr (List.mem_map_of_mem _
          (List.mem_of_mem_filter ht))))⟩
  · cases h1 : existingPodAffinity.bind (·.PodAntiAffinity) with
    | none => rw [h1] at hc; cases hc
    | some a =>
      rw [h1] at hc hwn
      obtain ⟨t, ht, rfl⟩ := List.mem_map.mp hc
      exact ⟨-t.Weight, by push_cast; rfl, hsoftn _ (hwn _ (Or.inr (List.mem_map_of_mem _
        (List.mem_of_mem_filter ht))))⟩

/-- Contributions that are integers of magnitude at most `2^53` convert to
`float64` exactly. -/
theorem contributionWeights_exact (fd : Topologies) (nodes : List Node) (fixedNode : Node)
    (name : String) (cs : List (String × ℚ))
    (h : ∀ c ∈ cs, ∃ z : Int, c.2 = (z : ℚ) ∧ |z| ≤ 2 ^ 53) :
    (∀ w ∈ contributionWeights lib fd nodes fixedNode name cs, ∃ z : Int, w = (z : ℚ)) ∧
      (contributionWeights lib fd nodes fixedNode name cs).sum
        = (cs.map (contributionAt lib fd nodes fixedNode name)).sum ∧
      ((contributionWeights lib fd nodes fixedNode name cs).map (fun w => |w|)).sum
        = (cs.map (fun c => |contributionAt lib fd nodes fixedNode name c|)).sum := by
  induction cs with
  | nil => exact ⟨fun w hw => absurd hw (List.not_mem_nil _), rfl, rfl⟩
  | cons c cs ih =>
    obtain ⟨i1, i2, i3⟩ := ih (fun x hx => h x (List.mem_cons_of_mem _ hx))
    obtain ⟨z, hz, hzb⟩ := h c (List.mem_cons_self _ _)
    have hr : round64 c.2 = c.2 := by
      rw [hz]
      exact round64_intCast z hzb
    have hsplit : contributionWeights lib fd nodes fixedNode name (c :: cs)
        = List.replicate
            (nodes.countP (fun node =>
              decide (lib.NodesHaveSameTopologyKey fd node fixedNode c.1 = true
                ∧ node.Name = name))) c.2
          ++ contributionWeights lib fd nodes fixedNode name cs := by
      simp [contributionWeights, hr]
    rw [hsplit]
    refine ⟨fun w hw => ?_, ?_, ?_⟩
    · rcases List.mem_append.mp hw with hw1 | hw1
      · rw [(List.mem_replicate.mp hw1).2]
        exact ⟨z, hz⟩
      · exact i1 w hw1
    · rw [List.sum_append, i2, List.map_cons, List.sum_cons, sum_replicate_eq]
      rfl
    · rw [List.map_append, List.sum_append, i3, List.map_cons, List.sum_cons,
        List.map_replicate, sum_replicate_eq]
      congr 1
      unfold contributionAt
      rw [abs_mul, Nat.abs_cast]

end PodEffect

/-- C5, as stated, fails for a hard weight of large magnitude: with
`hardPodAffinityWeight = 2^53 + 1`, processing a resident pod on `x` that
requires the zone of the scored pod makes the count of `x` `2^53`, while the
contribution the specification lists is `+hardPodAffinityWeight`. -/
theorem hard_weight_rounding_counterexample :
    (processPod labelLib (twoNodeScorer (2 ^ 53 + 1)) (appPod "new" "web" "") none
        (newPodAffinityPriorityMap twoNodes (twoNodeScorer (2 ^ 53 + 1)).failureDomains)
        (clingingPod "x1" "x" 1 [])).2 = none ∧
      specContributions labelLib (twoNodeScorer (2 ^ 53 + 1)) (appPod "new" "web" "") none
        (clingingPod "x1" "x" 1 []) (clinging 1 []) = [("zone", 2 ^ 53 + 1)] ∧
      (processPod labelLib (twoNodeScorer (2 ^ 53 + 1)) (appPod "new" "web" "") none
        (newPodAffinityPriorityMap twoNodes (twoNodeScorer (2 ^ 53 + 1)).failureDomains)
        (clingingPod "x1" "x" 1 [])).1.counts "x" = 2 ^ 53 ∧
      (newPodAffinityPriorityMap twoNodes (twoNodeScorer (2 ^ 53 + 1)).failureDomains).counts "x"
          + contributionAt labelLib { DefaultKeys := ["zone"] } twoNodes (zoneNode "x" "z1") "x"
            ("zone", 2 ^ 53 + 1)
        = 2 ^ 53 + 1 :=
  ⟨by decide!, by decide!, by decide!, by decide!⟩

/-- C5, amended: processing a resident pod whose node `N` is found and whose
affinity decodes changes the counts by the contributions the specification
lists (`specContributions`): `+Weight` per matched preferred affinity term and
`-Weight` per matched preferred anti-affinity term of the scored pod,
`+hardPodAffinityWeight` per required affinity term of the resident pod that
the scored pod matches (only when that weight is positive), `+Weight` and
`-Weight` per preferred affinity and anti-affinity term of the resident pod
that the scored pod matches; each is converted to `float64` and added, in this
order and in `float64` arithmetic, for the listed nodes sharing the topology
key value of the term with `N`, and nothing else is added.  When the hard
weight has magnitude at most `2^53` and the magnitudes of the count before and
of the contributions to a node sum to at most `2^53`, the count of the node
grows by the exact sum of the contributions.  Weights are `int32` values, and a
negated weight is not the least `int32`. -/
theorem processPod_contributions {A : Type} (lib : Lib A) (ipa : InterPodAffinity)
    (pod : Pod A) (affinity : Option Affinity) (pm : podAffinityPriorityMap)
    (existingPod : Pod A) (existingPodNode : Node) (existingPodAffinity : Option Affinity)
    (hn : ipa.info existingPod.NodeName = .ok existingPodNode)
    (hea : lib.GetAffinityFromPodAnnotations existingPod.Annotations = .ok existingPodAffinity)
    (hw : ∀ w ∈ affinityWeights affinity ++ affinityWeights existingPodAffinity,
      -2147483648 ≤ w ∧ w < 2147483648)
    (hwn : ∀ w ∈ antiAffinityWeights affinity ++ antiAffinityWeights existingPodAffinity,
      -2147483648 < w ∧ w < 2147483648) :
    (processPod lib ipa pod affinity pm existingPod).2 = none ∧
      (∀ name, (processPod lib ipa pod affinity pm existingPod).1.counts name
        = (contributionWeights lib pm.failureDomains pm.nodes existingPodNode name
            (specContributions lib ipa pod affinity existingPod existingPodAffinity)).foldl
            fadd (pm.counts name)) ∧
      (|ipa.hardPodAffinityWeight| ≤ 2 ^ 53 →
        ∀ name, (∃ z : Int, pm.counts name = (z : ℚ)) →
          |pm.counts name|
              + ((specContributions lib ipa pod affinity existingPod existingPodAffinity).map
                (fun c => |contributionAt lib pm.failureDomains pm.nodes existingPodNode name
                  c|)).sum ≤ 2 ^ 53 →
          (processPod lib ipa pod affinity pm existingPod).1.counts name
            = pm.counts name +
              ((specContributions lib ipa pod affinity existingPod existingPodAffinity).map
                (contributionAt lib pm.failureDomains pm.nodes existingPodNode name)).sum) := by
  have h2 : (processPod lib ipa pod affinity pm existingPod).2 = none := by
    unfold processPod
    rw [hn]
    simp only
    rw [hea]
  have h1 : (processPod lib ipa pod affinity pm existingPod).1
      = processPodAndRecord lib ipa pod affinity pm existingPod := by
    unfold processPodAndRecord
    generalize processPod lib ipa pod affinity pm existingPod = r at h2
    obtain ⟨pm1, e⟩ := r
    simp only at h2
    subst h2
    rfl
  have hgen : ∀ name, (processPod lib ipa pod affinity pm existingPod).1.counts name
      = (contributionWeights lib pm.failureDomains pm.nodes existingPodNode name
          (specContributions lib ipa pod affinity existingPod existingPodAffinity)).foldl
          fadd (pm.counts name) := by
    intro name
    rw [h1, processPodAndRecord_eq_runSteps, (runSteps_spec lib pm _).2.2.2 name,
      addedWeights_podSteps lib pm.failureDomains pm.nodes name ipa pod affinity existingPod
        existingPodNode existingPodAffinity hn hea hw hwn]
  refine ⟨h2, hgen, fun hh name hint hb => ?_⟩
  obtain ⟨e1, e2, e3⟩ := contributionWeights_exact lib pm.failureDomains pm.nodes existingPodNode
    name _ (specContributions_small lib ipa pod affinity existingPod existingPodAffinity hw hwn hh)
  rw [hgen name, foldl_fadd_exact _ _ hint e1 (by rw [e3]; exact hb), e2]

theorem processPod_contributions_witness :
    (threeNodeScorer.info (appPod "m1" "a" "m").NodeName = .ok (zoneNode "m" "z1") ∧
      labelLib.GetAffinityFromPodAnnotations (appPod "m1" "a" "m").Annotations = .ok none ∧
      (∀ w ∈ affinityWeights
            (softAffinity 2) ++ affinityWeights none,
        -2147483648 ≤ w ∧ w < 2147483648) ∧
      (∀ w ∈ antiAffinityWeights
            (softAffinity 2) ++ antiAffinityWeights none,
        -2147483648 < w ∧ w < 2147483648)) ∧
    ((processPod labelLib threeNodeScorer (affinityPod 2)
        (softAffinity 2)
        (newPodAffinityPriorityMap threeNodes threeNodeScorer.failureDomains)
        (appPod "m1" "a" "m")).1.counts "m"
      = (newPodAffinityPriorityMap threeNodes threeNodeScorer.failureDomains).counts "m" +
        ((specContributions labelLib threeNodeScorer (affinityPod 2)
            (softAffinity 2)
            (appPod "m1" "a" "m") none).map
          (contributionAt labelLib
            (newPodAffinityPriorityMap threeNodes threeNodeScorer.failureDomains).failureDomains
            (newPodAffinityPriorityMap threeNodes threeNodeScorer.failureDomains).nodes
            (zoneNode "m" "z1") "m")).sum) :=
  ⟨⟨by decide, rfl, by decide, by decide⟩,
   (processPod_contributions labelLib threeNodeScorer (affinityPod 2) _ _
     (appPod "m1" "a" "m") (zoneNode "m" "z1") none (by decide) rfl (by decide)
     (by decide)).2.2 (by decide) "m" ⟨0, by decide!⟩ (by decide!)⟩
/-! ## Inputs without affinity -/

theorem mem_of_lookup {β : Type} (l : List (String × β)) (name : String) (b : β)
    (h : l.lookup name = some b) : (name, b) ∈ l := by
  induction l with
  | nil => simp at h
  | cons x l ih =>
    obtain ⟨k, v⟩ := x
    by_cases hk : name = k
    · subst hk
      simp only [List.lookup_cons, beq_self_eq_true] at h
      cases h
      exact List.mem_cons_self _ _
    · have hk2 : (name == k) = false := by simpa using hk
      simp only [List.lookup_cons, hk2] at h
      exact List.mem_cons_of_mem _ (ih h)

theorem nodeInfoAt_pods {A : Type} (nodeNameToInfo : List (String × NodeInfo A)) (name : String)
    (e : Pod A) (he : e ∈ (nodeInfoAt nodeNameToInfo name).pods) :
    ∃ entry ∈ nodeNameToInfo, e ∈ entry.2.pods := by
  unfold nodeInfoAt at he
  cases h : nodeNameToInfo.lookup name with
  | none => rw [h] at he; cases he
  | some ni =>
    rw [h] at he
    exact ⟨(name, ni), mem_of_lookup nodeNameToInfo name ni h, he⟩

theorem foldr_max_zeros (nodes : List Node) :
    (nodes.map (fun _ : Node => (0 : float64))).foldr max 0 = 0 := by
  induction nodes with
  | nil => rfl
  | cons n ns ih => simp only [List.map_cons, List.foldr_cons, ih, max_self]

theorem foldr_min_zeros (nodes : List Node) :
    (nodes.map (fun _ : Node => (0 : float64))).foldr min 0 = 0 := by
  induction nodes with
  | nil => rfl
  | cons n ns ih => simp only [List.map_cons, List.foldr_cons, ih, min_self]

theorem foldr_max_min_zero (nodes : List Node) :
    (nodes.map (fun _ : Node => (0 : float64))).foldr max 0
      = (nodes.map (fun _ : Node => (0 : float64))).foldr min 0 := by
  rw [foldr_max_zeros, foldr_min_zeros]

theorem scoreNodes_zero (nodes : List Node) :
    scoreNodes (fun _ => 0) nodes = nodes.map (fun node => { Host := node.Name, Score := 0 }) := by
  rw [scoreNodes_formula]
  apply List.map_congr_left
  intro node _
  rw [if_pos (foldr_max_min_zero nodes)]

/-- C6: if the scored pod declares neither pod affinity nor pod anti-affinity
(its annotation decodes, to an affinity without either) and no node holds a
resident pod that declares affinity or anti-affinity, then
`CalculateInterPodAffinityPriority` succeeds and the score of every node is 0. -/
theorem calculate_zero_without_affinity {A : Type} (lib : Lib A) (ipa : InterPodAffinity)
    (pod : Pod A) (nodeNameToInfo : List (String × NodeInfo A)) (nodes : List Node)
    (affinity : Option Affinity)
    (ha : lib.GetAffinityFromPodAnnotations pod.Annotations = .ok affinity)
    (h1 : affinity.bind (·.PodAffinity) = none)
    (h2 : affinity.bind (·.PodAntiAffinity) = none)
    (h3 : ∀ entry ∈ nodeNameToInfo, ∀ e ∈ entry.2.Pods, hasPodAffinityConstraints lib e = false) :
    CalculateInterPodAffinityPriority lib ipa pod nodeNameToInfo nodes
      = .ok (nodes.map (fun node => { Host := node.Name, Score := 0 })) := by
  have hscan : scannedPods lib affinity nodeNameToInfo = [] := by
    unfold scannedPods
    rw [List.flatMap_eq_nil_iff]
    intro name _
    unfold podsToProcess NodeInfo.PodsWithAffinity
    rw [h1, h2]
    simp only [Option.isSome_none, Bool.or_self, Bool.false_eq_true, if_false]
    rw [List.filter_eq_nil_iff]
    intro e he
    obtain ⟨entry, hentry, hmem⟩ := nodeInfoAt_pods nodeNameToInfo name e he
    rw [h3 entry hentry e hmem]
    simp
  have hrun : processAllNodes lib ipa pod affinity nodeNameToInfo nodes
      = newPodAffinityPriorityMap nodes ipa.failureDomains := by
    rw [processAllNodes_eq_runSteps]
    unfold allSteps
    rw [hscan]
    rfl
  unfold CalculateInterPodAffinityPriority finish
  rw [ha]
  simp only [hrun, newPodAffinityPriorityMap, scoreNodes_zero]

theorem calculate_zero_without_affinity_witness :
    (labelLib.GetAffinityFromPodAnnotations (appPod "new" "a" "").Annotations = .ok none ∧
      (none : Option Affinity).bind (·.PodAffinity) = none ∧
      (none : Option Affinity).bind (·.PodAntiAffinity) = none ∧
      ∀ entry ∈ threeNodeInfos, ∀ e ∈ entry.2.Pods,
        hasPodAffinityConstraints labelLib e = false) ∧
    CalculateInterPodAffinityPriority labelLib threeNodeScorer (appPod "new" "a" "")
        threeNodeInfos threeNodes
      = .ok (threeNodes.map (fun node => { Host := node.Name, Score := 0 })) :=
  ⟨⟨rfl, rfl, rfl, by
      intro entry hentry e he
      simp only [threeNodeInfos, List.mem_cons, List.mem_singleton, List.not_mem_nil,
        or_false] at hentry
      rcases hentry with rfl | rfl | rfl <;>
        simp only [NodeInfo.Pods, List.mem_cons, List.mem_singleton, List.not_mem_nil,
          or_false] at he
      · rcases he with rfl | rfl <;> rfl
      · rcases he with rfl | rfl <;> rfl⟩,
   calculate_zero_without_affinity labelLib threeNodeScorer (appPod "new" "a" "")
     threeNodeInfos threeNodes none rfl rfl rfl (by
      intro entry hentry e he
      simp only [threeNodeInfos, List.mem_cons, List.mem_singleton, List.not_mem_nil,
        or_false] at hentry
      rcases hentry with rfl | rfl | rfl <;>
        simp only [NodeInfo.Pods, List.mem_cons, List.mem_singleton, List.not_mem_nil,
          or_false] at he
      · rcases he with rfl | rfl <;> rfl
      · rcases he with rfl | rfl <;> rfl)⟩

/-! ## Changing the weight of one term -/

section WeightChange

variable {A : Type} (lib : Lib A)

theorem sum_stepDelta_flatMap {β : Type} (fd : Topologies) (nodes : List Node) (name : String)
    (l : List β) (f : β → List Step) :
    ((l.flatMap f).map (stepDelta lib fd nodes name)).sum
      = (l.map (fun b => ((f b).map (stepDelta lib fd nodes name)).sum)).sum := by
  induction l with
  | nil => rfl
  | cons b l ih =>
    simp only [List.flatMap_cons, List.map_append, List.sum_append, List.map_cons,
      List.sum_cons, ih]

theorem termsSteps_split (pre post : List WeightedPodAffinityTerm) (x : WeightedPodAffinityTerm)
    (podDefiningAffinityTerm podToCheck : Pod A) (fixedNode : Node) (multiplier : Int) :
    termsSteps lib (pre ++ x :: post) podDefiningAffinityTerm podToCheck fixedNode multiplier
      = termsSteps lib pre podDefiningAffinityTerm podToCheck fixedNode multiplier
        ++ (termSteps lib x.PodAffinityTerm podDefiningAffinityTerm podToCheck fixedNode
              (ofInt (toInt32 (x.Weight * toInt32 multiplier)))
            ++ termsSteps lib post podDefiningAffinityTerm podToCheck fixedNode multiplier) := by
  unfold termsSteps
  rw [List.flatMap_append, List.flatMap_cons]

/-- Replacing the weight `w` of one term of a `processTerms` call by `w1`
changes the sum added under `name` by the difference of the converted weights,
once per listed node of that name in the domain, when the term matches. -/
theorem sum_termsSteps_change (fd : Topologies) (nodes : List Node) (name : String)
    (pre post : List WeightedPodAffinityTerm) (t : PodAffinityTerm) (w w1 : Int)
    (podDefiningAffinityTerm podToCheck : Pod A) (fixedNode : Node) (multiplier : Int) :
    ((termsSteps lib (pre ++ { Weight := w1, PodAffinityTerm := t } :: post)
        podDefiningAffinityTerm podToCheck fixedNode multiplier).map
        (stepDelta lib fd nodes name)).sum
      = ((termsSteps lib (pre ++ { Weight := w, PodAffinityTerm := t } :: post)
          podDefiningAffinityTerm podToCheck fixedNode multiplier).map
          (stepDelta lib fd nodes name)).sum
        + (ofInt (toInt32 (w1 * toInt32 multiplier))
            - (ofInt (toInt32 (w * toInt32 multiplier))))
          * (if termMatches lib t podDefiningAffinityTerm podToCheck then
              (nodes.countP (fun node =>
                decide (lib.NodesHaveSameTopologyKey fd node fixedNode t.TopologyKey = true
                  ∧ node.Name = name)) : ℚ)
            else 0) := by
  rw [termsSteps_split, termsSteps_split]
  simp only [List.map_append, List.sum_append, stepDelta_termSteps, contributionAt]
  split_ifs <;> ring

theorem sum_map_add_mul {β : Type} (l : List β) (f f1 g : β → ℚ) (k : ℚ)
    (h : ∀ b ∈ l, f1 b = f b + k * g b) :
    (l.map f1).sum = (l.map f).sum + k * (l.map g).sum := by
  induction l with
  | nil => simp
  | cons b l ih =>
    simp only [List.map_cons, List.sum_cons, h b (List.mem_cons_self _ _),
      ih (fun x hx => h x (List.mem_cons_of_mem _ hx))]
    ring

theorem sum_podSteps_affinityWith (fd : Topologies) (nodes : List Node) (name : String)
    (ipa : InterPodAffinity) (pod : Pod A) (req : List PodAffinityTerm)
    (pre post : List WeightedPodAffinityTerm) (t : PodAffinityTerm)
    (anti : Option PodAntiAffinity) (w w1 : Int) (existingPod : Pod A) :
    ((podSteps lib ipa pod (affinityWith req pre post t anti w1) existingPod).map
        (stepDelta lib fd nodes name)).sum
      = ((podSteps lib ipa pod (affinityWith req pre post t anti w) existingPod).map
          (stepDelta lib fd nodes name)).sum
        + (ofInt (toInt32 (w1 * toInt32 1)) - (ofInt (toInt32 (w * toInt32 1))))
          * matchGain lib ipa pod t fd nodes name existingPod := by
  unfold podSteps matchGain
  cases ipa.info existingPod.NodeName with
  | error err => simp
  | ok existingPodNode =>
    cases lib.GetAffinityFromPodAnnotations existingPod.Annotations with
    | error err => simp
    | ok existingPodAffinity =>
      simp only [affinityWith, Option.some_bind, List.map_append, List.sum_append]
      rw [sum_termsSteps_change lib fd nodes name pre post t w w1 pod existingPod
        existingPodNode 1]
      ring

theorem sum_podSteps_antiAffinityWith (fd : Topologies) (nodes : List Node) (name : String)
    (ipa : InterPodAffinity) (pod : Pod A) (aff : Option PodAffinity)
    (req : List PodAffinityTerm) (pre post : List WeightedPodAffinityTerm)
    (t : PodAffinityTerm) (w w1 : Int) (existingPod : Pod A) :
    ((podSteps lib ipa pod (antiAffinityWith aff req pre post t w1) existingPod).map
        (stepDelta lib fd nodes name)).sum
      = ((podSteps lib ipa pod (antiAffinityWith aff req pre post t w) existingPod).map
          (stepDelta lib fd nodes name)).sum
        + (ofInt (toInt32 (w1 * toInt32 (-1)))
            - (ofInt (toInt32 (w * toInt32 (-1)))))
          * matchGain lib ipa pod t fd nodes name existingPod := by
  unfold podSteps matchGain
  cases ipa.info existingPod.NodeName with
  | error err => simp
  | ok existingPodNode =>
    cases lib.GetAffinityFromPodAnnotations existingPod.Annotations with
    | error err => simp
    | ok existingPodAffinity =>
      simp only [antiAffinityWith, Option.some_bind, List.map_append, List.sum_append]
      rw [sum_termsSteps_change lib fd nodes name pre post t w w1 pod existingPod
        existingPodNode (-1)]
      ring

theorem scannedPods_affinityWith (req : List PodAffinityTerm)
    (pre post : List WeightedPodAffinityTerm) (t : PodAffinityTerm)
    (anti : Option PodAntiAffinity) (w : Int) (nodeNameToInfo : List (String × NodeInfo A)) :
    scannedPods lib (affinityWith req pre post t anti w) nodeNameToInfo
      = (nodeNameToInfo.map Prod.fst).flatMap (fun name => (nodeInfoAt nodeNameToInfo name).pods) := by
  unfold scannedPods podsToProcess
  simp [affinityWith, NodeInfo.Pods]

theorem scannedPods_antiAffinityWith (aff : Option PodAffinity) (req : List PodAffinityTerm)
    (pre post : List WeightedPodAffinityTerm) (t : PodAffinityTerm) (w : Int)
    (nodeNameToInfo : List (String × NodeInfo A)) :
    scannedPods lib (antiAffinityWith aff req pre post t w) nodeNameToInfo
      = (nodeNameToInfo.map Prod.fst).flatMap (fun name => (nodeInfoAt nodeNameToInfo name).pods) := by
  unfold scannedPods podsToProcess
  simp [antiAffinityWith, NodeInfo.Pods]

/-- While the absolute values of the weights added under a name sum to at
most `2^53`, its count after the run is the exact sum of what the steps add. -/
theorem processAllNodes_counts (ipa : InterPodAffinity) (pod : Pod A)
    (affinity : Option Affinity) (nodeNameToInfo : List (String × NodeInfo A))
    (nodes : List Node) (name : String)
    (hb : load lib ipa.failureDomains nodes name (allSteps lib ipa pod affinity nodeNameToInfo)
      ≤ 2 ^ 53) :
    (processAllNodes lib ipa pod affinity nodeNameToInfo nodes).counts name
      = ((scannedPods lib affinity nodeNameToInfo).map (fun e =>
          ((podSteps lib ipa pod affinity e).map
            (stepDelta lib ipa.failureDomains nodes name)).sum)).sum := by
  rw [processAllNodes_eq_runSteps,
    runSteps_counts_exact lib _ _ (integerWeights_allSteps lib ipa pod affinity nodeNameToInfo)
      name ⟨0, by simp [newPodAffinityPriorityMap]⟩
      (by simpa [newPodAffinityPriorityMap] using hb)]
  unfold allSteps
  rw [sum_stepDelta_flatMap]
  simp [newPodAffinityPriorityMap]

theorem abs_sum_le_sum_abs_list (l : List ℚ) : |l.sum| ≤ (l.map (fun w => |w|)).sum := by
  induction l with
  | nil => simp
  | cons a l ih =>
    simp only [List.sum_cons, List.map_cons]
    exact le_trans (abs_add a l.sum) (by linarith)

/-- The magnitude of a count is at most the sum of the absolute values of the
weights added to it, while that sum is at most `2^53`. -/
theorem processAllNodes_counts_abs_le (ipa : InterPodAffinity) (pod : Pod A)
    (affinity : Option Affinity) (nodeNameToInfo : List (String × NodeInfo A))
    (nodes : List Node) (name : String)
    (hb : load lib ipa.failureDomains nodes name (allSteps lib ipa pod affinity nodeNameToInfo)
      ≤ 2 ^ 53) :
    |(processAllNodes lib ipa pod affinity nodeNameToInfo nodes).counts name|
      ≤ load lib ipa.failureDomains nodes name (allSteps lib ipa pod affinity nodeNameToInfo) := by
  rw [processAllNodes_eq_runSteps,
    runSteps_counts_exact lib _ _ (integerWeights_allSteps lib ipa pod affinity nodeNameToInfo)
      name ⟨0, by simp [newPodAffinityPriorityMap]⟩
      (by simpa [newPodAffinityPriorityMap] using hb),
    ← sum_addedWeights]
  simp only [newPodAffinityPriorityMap, zero_add]
  exact abs_sum_le_sum_abs_list _

theorem counts_affinityWith (ipa : InterPodAffinity) (pod : Pod A) (req : List PodAffinityTerm)
    (pre post : List WeightedPodAffinityTerm) (t : PodAffinityTerm)
    (anti : Option PodAntiAffinity) (w w1 : Int) (nodeNameToInfo : List (String × NodeInfo A))
    (nodes : List Node) (name : String)
    (hb : load lib ipa.failureDomains nodes name
      (allSteps lib ipa pod (affinityWith req pre post t anti w) nodeNameToInfo) ≤ 2 ^ 53)
    (hb1 : load lib ipa.failureDomains nodes name
      (allSteps lib ipa pod (affinityWith req pre post t anti w1) nodeNameToInfo) ≤ 2 ^ 53) :
    (processAllNodes lib ipa pod (affinityWith req pre post t anti w1) nodeNameToInfo
        nodes).counts name
      = (processAllNodes lib ipa pod (affinityWith req pre post t anti w) nodeNameToInfo
          nodes).counts name
        + (ofInt (toInt32 (w1 * toInt32 1)) - (ofInt (toInt32 (w * toInt32 1))))
          * ((scannedPods lib (affinityWith req pre post t anti w) nodeNameToInfo).map
              (matchGain lib ipa pod t ipa.failureDomains nodes name)).sum := by
  rw [processAllNodes_counts lib _ _ _ _ _ _ hb, processAllNodes_counts lib _ _ _ _ _ _ hb1,
    scannedPods_affinityWith, scannedPods_affinityWith]
  exact sum_map_add_mul _ _ _ _ _ (fun e _ =>
    sum_podSteps_affinityWith lib ipa.failureDomains nodes name ipa pod req pre post t anti w w1 e)

theorem counts_antiAffinityWith (ipa : InterPodAffinity) (pod : Pod A)
    (aff : Option PodAffinity) (req : List PodAffinityTerm)
    (pre post : List WeightedPodAffinityTerm) (t : PodAffinityTerm) (w w1 : Int)
    (nodeNameToInfo : List (String × NodeInfo A)) (nodes : List Node) (name : String)
    (hb : load lib ipa.failureDomains nodes name
      (allSteps lib ipa pod (antiAffinityWith aff req pre post t w) nodeNameToInfo) ≤ 2 ^ 53)
    (hb1 : load lib ipa.failureDomains nodes name
      (allSteps lib ipa pod (antiAffinityWith aff req pre post t w1) nodeNameToInfo) ≤ 2 ^ 53) :
    (processAllNodes lib ipa pod (antiAffinityWith aff req pre post t w1) nodeNameToInfo
        nodes).counts name
      = (processAllNodes lib ipa pod (antiAffinityWith aff req pre post t w) nodeNameToInfo
          nodes).counts name
        + (ofInt (toInt32 (w1 * toInt32 (-1)))
            - (ofInt (toInt32 (w * toInt32 (-1)))))
          * ((scannedPods lib (antiAffinityWith aff req pre post t w) nodeNameToInfo).map
              (matchGain lib ipa pod t ipa.failureDomains nodes name)).sum := by
  rw [processAllNodes_counts lib _ _ _ _ _ _ hb, processAllNodes_counts lib _ _ _ _ _ _ hb1,
    scannedPods_antiAffinityWith, scannedPods_antiAffinityWith]
  exact sum_map_add_mul _ _ _ _ _ (fun e _ =>
    sum_podSteps_antiAffinityWith lib ipa.failureDomains nodes name ipa pod aff req pre post t
      w w1 e)

theorem matchGain_nonneg (ipa : InterPodAffinity) (pod : Pod A) (t : PodAffinityTerm)
    (fd : Topologies) (nodes : List Node) (name : String) (e : Pod A) :
    0 ≤ matchGain lib ipa pod t fd nodes name e := by
  unfold matchGain
  cases ipa.info e.NodeName with
  | error err => exact le_refl _
  | ok n =>
    cases lib.GetAffinityFromPodAnnotations e.Annotations with
    | error err => exact le_refl _
    | ok a =>
      simp only
      split_ifs
      · exact Nat.cast_nonneg _
      · exact le_refl _

theorem sum_matchGain_nonneg (ipa : InterPodAffinity) (pod : Pod A) (t : PodAffinityTerm)
    (fd : Topologies) (nodes : List Node) (name : String) (l : List (Pod A)) :
    0 ≤ (l.map (matchGain lib ipa pod t fd nodes name)).sum := by
  apply List.sum_nonneg
  intro x hx
  obtain ⟨e, -, rfl⟩ := List.mem_map.mp hx
  exact matchGain_nonneg lib ipa pod t fd nodes name e

/-- A listed node outside every matching domain gains nothing, when node names
are pairwise distinct. -/
theorem sum_matchGain_eq_zero (ipa : InterPodAffinity) (pod : Pod A) (t : PodAffinityTerm)
    (nodes : List Node) (hnd : (nodes.map (·.Name)).Nodup) (node : Node) (hn : node ∈ nodes)
    (l : List (Pod A)) (hout : inMatchingDomain lib ipa pod t l node = false) :
    (l.map (matchGain lib ipa pod t ipa.failureDomains nodes node.Name)).sum = 0 := by
  apply List.sum_eq_zero
  intro x hx
  obtain ⟨e, he, rfl⟩ := List.mem_map.mp hx
  unfold inMatchingDomain at hout
  rw [List.any_eq_false] at hout
  have h := hout e he
  unfold matchGain
  cases hi : ipa.info e.NodeName with
  | error err => rfl
  | ok n =>
    rw [hi] at h
    cases lib.GetAffinityFromPodAnnotations e.Annotations with
    | error err => rfl
    | ok a =>
      simp only
      split_ifs with hm
      · rw [countP_name_of_nodup nodes hnd
          (fun x => lib.NodesHaveSameTopologyKey ipa.failureDomains x n t.TopologyKey) node hn]
        simp only [hm, Bool.true_and] at h
        simp [h]
      · rfl

end WeightChange

/-! ## Schedules that differ in the weight of one term -/

section Related

variable {A : Type} (lib : Lib A)

theorem forall₂_same {β : Type} (R : β → β → Prop) (hrefl : ∀ b, R b b) (l : List β) :
    List.Forall₂ R l l := by
  induction l with
  | nil => exact List.Forall₂.nil
  | cons b l ih => exact List.Forall₂.cons (hrefl b) ih

theorem forall₂_flatMap_same {β γ : Type} (R : γ → γ → Prop) (l : List β) (f g : β → List γ)
    (h : ∀ b ∈ l, List.Forall₂ R (f b) (g b)) : List.Forall₂ R (l.flatMap f) (l.flatMap g) := by
  induction l with
  | nil => exact List.Forall₂.nil
  | cons b l ih =>
    simp only [List.flatMap_cons]
    exact List.rel_append (h b (List.mem_cons_self _ _))
      (ih (fun x hx => h x (List.mem_cons_of_mem _ hx)))

theorem forall₂_replicate {β : Type} (R : β → β → Prop) (n : Nat) (a b : β) (h : R a b) :
    List.Forall₂ R (List.replicate n a) (List.replicate n b) := by
  induction n with
  | zero => exact List.Forall₂.nil
  | succ n ih =>
    rw [List.replicate_succ, List.replicate_succ]
    exact List.Forall₂.cons h ih

theorem termSteps_related (R : Step → Step → Prop) (hrefl : ∀ s, R s s) (term : PodAffinityTerm)
    (podDefiningAffinityTerm podToCheck : Pod A) (fixedNode : Node) (v v1 : float64)
    (h : termMatches lib term podDefiningAffinityTerm podToCheck = true →
      R (.add fixedNode term.TopologyKey v) (.add fixedNode term.TopologyKey v1)) :
    List.Forall₂ R (termSteps lib term podDefiningAffinityTerm podToCheck fixedNode v)
      (termSteps lib term podDefiningAffinityTerm podToCheck fixedNode v1) := by
  unfold termSteps
  unfold termMatches at h
  cases hs : lib.LabelSelectorAsSelector term.LabelSelector with
  | error err => exact List.Forall₂.cons (hrefl _) List.Forall₂.nil
  | ok selector =>
    rw [hs] at h
    simp only at h ⊢
    split_ifs with hm
    · exact List.Forall₂.cons (h hm) List.Forall₂.nil
    · exact List.Forall₂.nil

theorem termsSteps_related (R : Step → Step → Prop) (hrefl : ∀ s, R s s)
    (pre post : List WeightedPodAffinityTerm) (t : PodAffinityTerm) (w w1 : Int)
    (podDefiningAffinityTerm podToCheck : Pod A) (fixedNode : Node) (multiplier : Int)
    (h : termMatches lib t podDefiningAffinityTerm podToCheck = true →
      R (.add fixedNode t.TopologyKey (ofInt (toInt32 (w * toInt32 multiplier))))
        (.add fixedNode t.TopologyKey (ofInt (toInt32 (w1 * toInt32 multiplier))))) :
    List.Forall₂ R
      (termsSteps lib (pre ++ { Weight := w, PodAffinityTerm := t } :: post)
        podDefiningAffinityTerm podToCheck fixedNode multiplier)
      (termsSteps lib (pre ++ { Weight := w1, PodAffinityTerm := t } :: post)
        podDefiningAffinityTerm podToCheck fixedNode multiplier) := by
  rw [termsSteps_split, termsSteps_split]
  exact List.rel_append (forall₂_same R hrefl _)
    (List.rel_append (termSteps_related lib R hrefl t _ _ _ _ _ h) (forall₂_same R hrefl _))

theorem podSteps_affinityWith_related (R : Step → Step → Prop) (hrefl : ∀ s, R s s)
    (ipa : InterPodAffinity) (pod : Pod A) (req : List PodAffinityTerm)
    (pre post : List WeightedPodAffinityTerm) (t : PodAffinityTerm)
    (anti : Option PodAntiAffinity) (w w1 : Int) (e : Pod A)
    (h : ∀ node, ipa.info e.NodeName = .ok node → termMatches lib t pod e = true →
      R (.add node t.TopologyKey (ofInt (toInt32 (w * toInt32 1))))
        (.add node t.TopologyKey (ofInt (toInt32 (w1 * toInt32 1))))) :
    List.Forall₂ R (podSteps lib ipa pod (affinityWith req pre post t anti w) e)
      (podSteps lib ipa pod (affinityWith req pre post t anti w1) e) := by
  unfold podSteps
  cases hi : ipa.info e.NodeName with
  | error err => exact forall₂_same R hrefl _
  | ok node =>
    cases lib.GetAffinityFromPodAnnotations e.Annotations with
    | error err => exact forall₂_same R hrefl _
    | ok ea =>
      simp only [affinityWith, Option.some_bind]
      exact List.rel_append (List.rel_append (List.rel_append
        (termsSteps_related lib R hrefl pre post t w w1 pod e node 1 (h node hi))
        (forall₂_same R hrefl _)) (forall₂_same R hrefl _)) (forall₂_same R hrefl _)

theorem podSteps_antiAffinityWith_related (R : Step → Step → Prop) (hrefl : ∀ s, R s s)
    (ipa : InterPodAffinity) (pod : Pod A) (aff : Option PodAffinity)
    (req : List PodAffinityTerm) (pre post : List WeightedPodAffinityTerm)
    (t : PodAffinityTerm) (w w1 : Int) (e : Pod A)
    (h : ∀ node, ipa.info e.NodeName = .ok node → termMatches lib t pod e = true →
      R (.add node t.TopologyKey (ofInt (toInt32 (w * toInt32 (-1)))))
        (.add node t.TopologyKey (ofInt (toInt32 (w1 * toInt32 (-1)))))) :
    List.Forall₂ R (podSteps lib ipa pod (antiAffinityWith aff req pre post t w) e)
      (podSteps lib ipa pod (antiAffinityWith aff req pre post t w1) e) := by
  unfold podSteps
  cases hi : ipa.info e.NodeName with
  | error err => exact forall₂_same R hrefl _
  | ok node =>
    cases lib.GetAffinityFromPodAnnotations e.Annotations with
    | error err => exact forall₂_same R hrefl _
    | ok ea =>
      simp only [antiAffinityWith, Option.some_bind]
      exact List.rel_append (List.rel_append (List.rel_append
        (forall₂_same R hrefl _)
        (termsSteps_related lib R hrefl pre post t w w1 pod e node (-1) (h node hi)))
        (forall₂_same R hrefl _)) (forall₂_same R hrefl _)

theorem allSteps_affinityWith_related (R : Step → Step → Prop) (hrefl : ∀ s, R s s)
    (ipa : InterPodAffinity) (pod : Pod A) (req : List PodAffinityTerm)
    (pre post : List WeightedPodAffinityTerm) (t : PodAffinityTerm)
    (anti : Option PodAntiAffinity) (w w1 : Int) (nodeNameToInfo : List (String × NodeInfo A))
    (h : ∀ e ∈ scannedPods lib (affinityWith req pre post t anti w) nodeNameToInfo,
      ∀ node, ipa.info e.NodeName = .ok node → termMatches lib t pod e = true →
        R (.add node t.TopologyKey (ofInt (toInt32 (w * toInt32 1))))
          (.add node t.TopologyKey (ofInt (toInt32 (w1 * toInt32 1))))) :
    List.Forall₂ R (allSteps lib ipa pod (affinityWith req pre post t anti w) nodeNameToInfo)
      (allSteps lib ipa pod (affinityWith req pre post t anti w1) nodeNameToInfo) := by
  unfold allSteps
  rw [scannedPods_affinityWith lib req pre post t anti w1,
    ← scannedPods_affinityWith lib req pre post t anti w]
  exact forall₂_flatMap_same R _ _ _
    (fun e he => podSteps_affinityWith_related lib R hrefl ipa pod req pre post t anti w w1 e
      (h e he))

theorem allSteps_antiAffinityWith_related (R : Step → Step → Prop) (hrefl : ∀ s, R s s)
    (ipa : InterPodAffinity) (pod : Pod A) (aff : Option PodAffinity)
    (req : List PodAffinityTerm) (pre post : List WeightedPodAffinityTerm)
    (t : PodAffinityTerm) (w w1 : Int) (nodeNameToInfo : List (String × NodeInfo A))
    (h : ∀ e ∈ scannedPods lib (antiAffinityWith aff req pre post t w) nodeNameToInfo,
      ∀ node, ipa.info e.NodeName = .ok node → termMatches lib t pod e = true →
        R (.add node t.TopologyKey (ofInt (toInt32 (w * toInt32 (-1)))))
          (.add node t.TopologyKey (ofInt (toInt32 (w1 * toInt32 (-1)))))) :
    List.Forall₂ R (allSteps lib ipa pod (antiAffinityWith aff req pre post t w) nodeNameToInfo)
      (allSteps lib ipa pod (antiAffinityWith aff req pre post t w1) nodeNameToInfo) := by
  unfold allSteps
  rw [scannedPods_antiAffinityWith lib aff req pre post t w1,
    ← scannedPods_antiAffinityWith lib aff req pre post t w]
  exact forall₂_flatMap_same R _ _ _
    (fun e he => podSteps_antiAffinityWith_related lib R hrefl ipa pod aff req pre post t w w1 e
      (h e he))

/-- Schedules whose steps add, one by one, at most as much under a name give
at most as large a count. -/
theorem addedWeights_le_of_related (fd : Topologies) (nodes : List Node) (name : String)
    (s s1 : List Step)
    (h : List.Forall₂ (fun x y => List.Forall₂ (· ≤ ·) (addedWeights lib fd nodes name [x])
      (addedWeights lib fd nodes name [y])) s s1) :
    List.Forall₂ (· ≤ ·) (addedWeights lib fd nodes name s) (addedWeights lib fd nodes name s1) := by
  induction h with
  | nil => exact List.Forall₂.nil
  | @cons x y l l1 hxy _ ih =>
    rw [addedWeights_cons lib fd nodes name x l, addedWeights_cons lib fd nodes name y l1]
    exact List.rel_append hxy ih

theorem addedWeights_eq_of_related (fd : Topologies) (nodes : List Node) (name : String)
    (s s1 : List Step)
    (h : List.Forall₂ (fun x y => addedWeights lib fd nodes name [x]
      = addedWeights lib fd nodes name [y]) s s1) :
    addedWeights lib fd nodes name s = addedWeights lib fd nodes name s1 := by
  induction h with
  | nil => rfl
  | @cons x y l l1 hxy _ ih =>
    rw [addedWeights_cons lib fd nodes name x l, addedWeights_cons lib fd nodes name y l1, hxy, ih]

theorem addedWeights_add (fd : Topologies) (nodes : List Node) (name : String)
    (fixedNode : Node) (topologyKey : String) (weight : float64) :
    addedWeights lib fd nodes name [.add fixedNode topologyKey weight]
      = List.replicate
          (nodes.countP (fun node =>
            decide (lib.NodesHaveSameTopologyKey fd node fixedNode topologyKey = true
              ∧ node.Name = name)))
          weight := by
  simp [addedWeights]

/-- A listed node outside every matching domain is not counted for a matching
resident pod, when node names are pairwise distinct. -/
theorem countP_eq_zero_of_outside (ipa : InterPodAffinity) (pod : Pod A) (t : PodAffinityTerm)
    (nodes : List Node) (hnd : (nodes.map (·.Name)).Nodup) (node : Node) (hn : node ∈ nodes)
    (l : List (Pod A)) (hout : inMatchingDomain lib ipa pod t l node = false)
    (e : Pod A) (he : e ∈ l) (eNode : Node) (hi : ipa.info e.NodeName = .ok eNode)
    (hm : termMatches lib t pod e = true) :
    nodes.countP (fun x =>
      decide (lib.NodesHaveSameTopologyKey ipa.failureDomains x eNode t.TopologyKey = true
        ∧ x.Name = node.Name)) = 0 := by
  unfold inMatchingDomain at hout
  rw [List.any_eq_false] at hout
  have h := hout e he
  rw [hi] at h
  simp only [hm, Bool.true_and] at h
  rw [countP_name_of_nodup nodes hnd
    (fun x => lib.NodesHaveSameTopologyKey ipa.failureDomains x eNode t.TopologyKey) node hn]
  simp [h]

end Related
/-! ## Scores under a change of counts -/

theorem find?_map_host (nodes : List Node) (hnd : (nodes.map (·.Name)).Nodup)
    (g : Node → Int) (node : Node) (hn : node ∈ nodes) :
    (nodes.map (fun x => ({ Host := x.Name, Score := g x } : HostPriority))).find?
        (fun hp => hp.Host == node.Name)
      = some { Host := node.Name, Score := g node } := by
  induction nodes with
  | nil => cases hn
  | cons x l ih =>
    rw [List.map_cons, List.nodup_cons] at hnd
    rcases List.mem_cons.mp hn with rfl | hmem
    · simp [List.find?_cons]
    · have hne : x.Name ≠ node.Name := fun e => hnd.1 (e ▸ List.mem_map_of_mem _ hmem)
      have hb : (x.Name == node.Name) = false := by simpa using hne
      simp only [List.map_cons, List.find?_cons, hb]
      exact ih hnd.2 hmem

theorem scoreOf_finish (pm : podAffinityPriorityMap) (nodes : List Node)
    (hnd : (nodes.map (·.Name)).Nodup) (node : Node) (hn : node ∈ nodes) :
    scoreOf (finish pm nodes) node.Name
      = if pm.firstError = none then
          truncToInt (fScore (pm.counts node.Name) (countBounds pm.counts nodes).1
            (countBounds pm.counts nodes).2)
        else 0 := by
  unfold finish scoreOf
  cases pm.firstError with
  | some e => simp
  | none =>
    simp only [scoreNodes, if_true]
    rw [find?_map_host nodes hnd _ node hn]
    rfl

theorem truncToInt_mono {x y : float64} (hx : 0 ≤ x) (h : x ≤ y) :
    truncToInt x ≤ truncToInt y := by
  unfold truncToInt
  rw [if_pos hx, if_pos (le_trans hx h)]
  exact Int.floor_le_floor h

theorem fScore_nonneg (c mx mn : float64) (h1 : mn ≤ c) (h2 : c ≤ mx) : 0 ≤ fScore c mx mn :=
  (fScore_bounds c mx mn h1 h2).1

theorem truncToInt_fScore_mono (c c1 mx mn : float64) (h0 : mn ≤ c) (h : c ≤ c1) :
    truncToInt (fScore c mx mn) ≤ truncToInt (fScore c1 mx mn) := by
  unfold fScore
  split_ifs with hpos
  · have ha : 0 ≤ fsub c mn := round64_nonneg (by linarith)
    have hab : fsub c mn ≤ fsub c1 mn := round64_mono (by linarith)
    have hq0 : 0 ≤ fdiv (fsub c mn) (fsub mx mn) := round64_nonneg (div_nonneg ha (le_of_lt hpos))
    have hq : fdiv (fsub c mn) (fsub mx mn) ≤ fdiv (fsub c1 mn) (fsub mx mn) :=
      round64_mono (div_le_div_of_nonneg_right hab (le_of_lt hpos))
    exact truncToInt_mono (round64_nonneg (by linarith)) (round64_mono (by linarith))
  · exact le_refl _

/-- With unchanged error state and unchanged `maxCount` and `minCount`, a
listed node whose count does not decrease keeps or improves its score. -/
theorem scoreOf_mono (pm pm1 : podAffinityPriorityMap) (nodes : List Node)
    (hnd : (nodes.map (·.Name)).Nodup) (node : Node) (hn : node ∈ nodes)
    (he : pm1.firstError = pm.firstError)
    (hb : countBounds pm1.counts nodes = countBounds pm.counts nodes)
    (hc : pm.counts node.Name ≤ pm1.counts node.Name) :
    scoreOf (finish pm nodes) node.Name ≤ scoreOf (finish pm1 nodes) node.Name := by
  rw [scoreOf_finish pm nodes hnd node hn, scoreOf_finish pm1 nodes hnd node hn, he, hb]
  split_ifs
  · exact truncToInt_fScore_mono _ _ _ _ ((countBounds_spec pm.counts nodes).2.2 node hn).1 hc
  · exact le_refl _

/-- The bounds of counts that grow, each by at most `K`, grow by at most
`K`. -/
theorem foldr_bounds_shift (counts counts1 : String → ℚ) (nodes : List Node) (K : ℚ)
    (hK : 0 ≤ K)
    (h : ∀ node ∈ nodes, counts node.Name ≤ counts1 node.Name ∧
      counts1 node.Name ≤ counts node.Name + K) :
    ((nodes.map (fun n => counts n.Name)).foldr max 0
        ≤ (nodes.map (fun n => counts1 n.Name)).foldr max 0 ∧
      (nodes.map (fun n => counts1 n.Name)).foldr max 0
        ≤ (nodes.map (fun n => counts n.Name)).foldr max 0 + K) ∧
    ((nodes.map (fun n => counts n.Name)).foldr min 0
        ≤ (nodes.map (fun n => counts1 n.Name)).foldr min 0 ∧
      (nodes.map (fun n => counts1 n.Name)).foldr min 0
        ≤ (nodes.map (fun n => counts n.Name)).foldr min 0 + K) := by
  induction nodes with
  | nil => simpa using hK
  | cons n ns ih =>
    obtain ⟨⟨a1, a2⟩, ⟨b1, b2⟩⟩ := ih (fun x hx => h x (List.mem_cons_of_mem _ hx))
    obtain ⟨c1, c2⟩ := h n (List.mem_cons_self _ _)
    simp only [List.map_cons, List.foldr_cons]
    refine ⟨⟨max_le_max c1 a1, ?_⟩, ⟨min_le_min c1 b1, ?_⟩⟩
    · apply max_le
      · exact le_trans c2 (add_le_add_right (le_max_left _ _) K)
      · exact le_trans a2 (add_le_add_right (le_max_right _ _) K)
    · rw [← min_add_add_right]
      apply le_min
      · exact le_trans (min_le_left _ _) c2
      · exact le_trans (min_le_right _ _) b2

/-- The `float64` score of integer counts does not decrease when the distance
of the count to the minimum does not decrease and its distance to the maximum
does not increase. -/
theorem fScore_le_of_shift (c mx mn c1 mx1 mn1 : Int)
    (h1 : mn ≤ c) (h2 : c ≤ mx) (h3 : mn1 ≤ c1) (h4 : c1 ≤ mx1)
    (hm : mx - mn ≤ 2 ^ 53) (hm1 : mx1 - mn1 ≤ 2 ^ 53)
    (ha : c - mn ≤ c1 - mn1) (hd : mx1 - c1 ≤ mx - c) :
    fScore (c : ℚ) (mx : ℚ) (mn : ℚ) ≤ fScore (c1 : ℚ) (mx1 : ℚ) (mn1 : ℚ) := by
  unfold fScore
  rw [fsub_exact c mn (abs_le.mpr ⟨by omega, by omega⟩),
    fsub_exact mx mn (abs_le.mpr ⟨by omega, by omega⟩),
    fsub_exact c1 mn1 (abs_le.mpr ⟨by omega, by omega⟩),
    fsub_exact mx1 mn1 (abs_le.mpr ⟨by omega, by omega⟩)]
  have e1 : (c : ℚ) - (mn : ℚ) = ((c - mn : Int) : ℚ) := by push_cast; rfl
  have e2 : (mx : ℚ) - (mn : ℚ) = ((mx - mn : Int) : ℚ) := by push_cast; rfl
  have e3 : (c1 : ℚ) - (mn1 : ℚ) = ((c1 - mn1 : Int) : ℚ) := by push_cast; rfl
  have e4 : (mx1 : ℚ) - (mn1 : ℚ) = ((mx1 - mn1 : Int) : ℚ) := by push_cast; rfl
  rw [e1, e2, e3, e4]
  have ha0 : 0 ≤ c - mn := by omega
  have hab : c - mn ≤ mx - mn := by omega
  have ha10 : 0 ≤ c1 - mn1 := by omega
  have hab1 : c1 - mn1 ≤ mx1 - mn1 := by omega
  have hdd : (mx1 - mn1) - (c1 - mn1) ≤ (mx - mn) - (c - mn) := by omega
  generalize c - mn = a at ha ha0 hab hdd ⊢
  generalize mx - mn = b at hab hdd ⊢
  generalize c1 - mn1 = a1 at ha ha10 hab1 hdd ⊢
  generalize mx1 - mn1 = b1 at hab1 hdd ⊢
  by_cases hb : ((b : ℚ)) > 0
  · rw [if_pos hb]
    by_cases hb1 : ((b1 : ℚ)) > 0
    · rw [if_pos hb1]
      have hq : (a : ℚ) / (b : ℚ) ≤ (a1 : ℚ) / (b1 : ℚ) := by
        rw [div_le_div_iff₀ hb hb1]
        have k1 : (0 : ℚ) ≤ (a : ℚ) := Int.cast_nonneg.mpr ha0
        have k2 : (a : ℚ) ≤ (a1 : ℚ) := Int.cast_le.mpr ha
        have k3 : (0 : ℚ) ≤ (b1 : ℚ) - (a1 : ℚ) := by
          have : (a1 : ℚ) ≤ (b1 : ℚ) := Int.cast_le.mpr hab1
          linarith
        have k4 : (b1 : ℚ) - (a1 : ℚ) ≤ (b : ℚ) - (a : ℚ) := by
          have : ((b1 - a1 : Int) : ℚ) ≤ ((b - a : Int) : ℚ) := Int.cast_le.mpr hdd
          push_cast at this
          exact this
        have k5 : (a : ℚ) * ((b1 : ℚ) - (a1 : ℚ)) ≤ (a1 : ℚ) * ((b : ℚ) - (a : ℚ)) :=
          mul_le_mul k2 k4 k3 (le_trans k1 k2)
        linarith
      have hq2 := round64_mono hq
      exact round64_mono (by unfold fdiv; linarith)
    · rw [if_neg hb1]
      have hb1z : b1 ≤ 0 := by
        have := not_lt.mp hb1
        exact_mod_cast this
      have haz : a = 0 := by omega
      subst haz
      simp [fmul, fdiv, round64_zero]
  · rw [if_neg hb]
    split_ifs with hb1
    · exact round64_nonneg (mul_nonneg (by norm_num)
        (round64_nonneg (div_nonneg (Int.cast_nonneg.mpr ha10) (le_of_lt hb1))))
    · exact le_refl _

/-- When every listed count grows, by at most `K`, the score of a listed node
whose count grows by `K` does not decrease and the score of a listed node whose
count is unchanged does not increase; the counts being integers of magnitude at
most `2^52`. -/
theorem fScore_shift (counts counts1 : String → float64) (nodes : List Node) (K : ℚ)
    (hK : 0 ≤ K)
    (hint : ∀ node ∈ nodes, ∃ z : Int, counts node.Name = (z : ℚ))
    (hint1 : ∀ node ∈ nodes, ∃ z : Int, counts1 node.Name = (z : ℚ))
    (hmag : ∀ node ∈ nodes, |counts node.Name| ≤ 2 ^ 52)
    (hmag1 : ∀ node ∈ nodes, |counts1 node.Name| ≤ 2 ^ 52)
    (h : ∀ node ∈ nodes, counts node.Name ≤ counts1 node.Name ∧
      counts1 node.Name ≤ counts node.Name + K) :
    (∀ node ∈ nodes, counts1 node.Name = counts node.Name + K →
      fScore (counts node.Name) (countBounds counts nodes).1 (countBounds counts nodes).2
        ≤ fScore (counts1 node.Name) (countBounds counts1 nodes).1
          (countBounds counts1 nodes).2) ∧
    (∀ node ∈ nodes, counts1 node.Name = counts node.Name →
      fScore (counts1 node.Name) (countBounds counts1 nodes).1 (countBounds counts1 nodes).2
        ≤ fScore (counts node.Name) (countBounds counts nodes).1 (countBounds counts nodes).2) := by
  obtain ⟨⟨s1, s2⟩, ⟨s3, s4⟩⟩ := foldr_bounds_shift counts counts1 nodes K hK h
  have hmem : ∀ x ∈ nodes.map (fun n => counts n.Name), ∃ z : Int, x = (z : ℚ) := by
    intro x hx
    obtain ⟨n, hn, rfl⟩ := List.mem_map.mp hx
    exact hint n hn
  have hmem1 : ∀ x ∈ nodes.map (fun n => counts1 n.Name), ∃ z : Int, x = (z : ℚ) := by
    intro x hx
    obtain ⟨n, hn, rfl⟩ := List.mem_map.mp hx
    exact hint1 n hn
  have hle : ∀ (f : String → float64), (∀ node ∈ nodes, |f node.Name| ≤ 2 ^ 52) →
      (nodes.map (fun n => f n.Name)).foldr max 0 ≤ 2 ^ 52 ∧
        -(2 ^ 52) ≤ (nodes.map (fun n => f n.Name)).foldr min 0 := by
    intro f hf
    constructor
    · apply foldr_max_le_of _ _ (by norm_num)
      intro x hx
      obtain ⟨n, hn, rfl⟩ := List.mem_map.mp hx
      exact (abs_le.mp (hf n hn)).2
    · apply foldr_min_ge_of _ _ (by norm_num)
      intro x hx
      obtain ⟨n, hn, rfl⟩ := List.mem_map.mp hx
      exact (abs_le.mp (hf n hn)).1
  obtain ⟨u1, u2⟩ := hle counts hmag
  obtain ⟨u3, u4⟩ := hle counts1 hmag1
  have hsp := countBounds_spec counts nodes
  have hsp1 := countBounds_spec counts1 nodes
  rw [countBounds_eq] at hsp ⊢
  rw [countBounds_eq] at hsp1 ⊢
  obtain ⟨zmx, hzmx⟩ := foldr_max_isInt _ hmem
  obtain ⟨zmn, hzmn⟩ := foldr_min_isInt _ hmem
  obtain ⟨zmx1, hzmx1⟩ := foldr_max_isInt _ hmem1
  obtain ⟨zmn1, hzmn1⟩ := foldr_min_isInt _ hmem1
  simp only [hzmx, hzmn, hzmx1, hzmn1] at *
  have v1 : zmx ≤ 2 ^ 52 := by exact_mod_cast u1
  have v2 : -(2 ^ 52) ≤ zmn := by exact_mod_cast u2
  have v3 : zmx1 ≤ 2 ^ 52 := by exact_mod_cast u3
  have v4 : -(2 ^ 52) ≤ zmn1 := by exact_mod_cast u4
  have w1 : zmn ≤ 0 := by exact_mod_cast hsp.1
  have w2 : 0 ≤ zmx := by exact_mod_cast hsp.2.1
  have w3 : zmn1 ≤ 0 := by exact_mod_cast hsp1.1
  have w4 : 0 ≤ zmx1 := by exact_mod_cast hsp1.2.1
  constructor
  · intro node hn hgain
    obtain ⟨zc, hzc⟩ := hint node hn
    obtain ⟨zc1, hzc1⟩ := hint1 node hn
    have b := hsp.2.2 node hn
    have b1 := hsp1.2.2 node hn
    rw [hzc] at b hgain ⊢
    rw [hzc1] at b1 hgain ⊢
    have q1 : zmn ≤ zc := by exact_mod_cast b.1
    have q2 : zc ≤ zmx := by exact_mod_cast b.2
    have q3 : zmn1 ≤ zc1 := by exact_mod_cast b1.1
    have q4 : zc1 ≤ zmx1 := by exact_mod_cast b1.2
    apply fScore_le_of_shift zc zmx zmn zc1 zmx1 zmn1 q1 q2 q3 q4 (by omega) (by omega)
    · have : ((zc : ℚ)) - (zmn : ℚ) ≤ (zc1 : ℚ) - (zmn1 : ℚ) := by linarith
      exact_mod_cast this
    · have : ((zmx1 : ℚ)) - (zc1 : ℚ) ≤ (zmx : ℚ) - (zc : ℚ) := by linarith
      exact_mod_cast this
  · intro node hn hsame
    obtain ⟨zc, hzc⟩ := hint node hn
    have b := hsp.2.2 node hn
    have b1 := hsp1.2.2 node hn
    rw [hsame] at b1 ⊢
    rw [hzc] at b b1 ⊢
    have q1 : zmn ≤ zc := by exact_mod_cast b.1
    have q2 : zc ≤ zmx := by exact_mod_cast b.2
    have q3 : zmn1 ≤ zc := by exact_mod_cast b1.1
    have q4 : zc ≤ zmx1 := by exact_mod_cast b1.2
    apply fScore_le_of_shift zc zmx1 zmn1 zc zmx zmn q3 q4 q1 q2 (by omega) (by omega)
    · have : ((zc : ℚ)) - (zmn1 : ℚ) ≤ (zc : ℚ) - (zmn : ℚ) := by linarith
      exact_mod_cast this
    · have : ((zmx : ℚ)) - (zc : ℚ) ≤ (zmx1 : ℚ) - (zc : ℚ) := by linarith
      exact_mod_cast this

section ErrorsAndWeights

variable {A : Type} (lib : Lib A)

theorem stepErrors_termSteps_weight (term : PodAffinityTerm)
    (podDefiningAffinityTerm podToCheck : Pod A) (fixedNode : Node) (w w1 : float64) :
    stepErrors (termSteps lib term podDefiningAffinityTerm podToCheck fixedNode w1)
      = stepErrors (termSteps lib term podDefiningAffinityTerm podToCheck fixedNode w) := by
  unfold termSteps
  cases lib.LabelSelectorAsSelector term.LabelSelector with
  | error err => rfl
  | ok selector =>
    simp only
    split_ifs <;> rfl

theorem stepErrors_termsSteps_weight (pre post : List WeightedPodAffinityTerm)
    (t : PodAffinityTerm) (w w1 : Int) (podDefiningAffinityTerm podToCheck : Pod A)
    (fixedNode : Node) (multiplier : Int) :
    stepErrors (termsSteps lib (pre ++ { Weight := w1, PodAffinityTerm := t } :: post)
        podDefiningAffinityTerm podToCheck fixedNode multiplier)
      = stepErrors (termsSteps lib (pre ++ { Weight := w, PodAffinityTerm := t } :: post)
        podDefiningAffinityTerm podToCheck fixedNode multiplier) := by
  rw [termsSteps_split, termsSteps_split]
  simp only [stepErrors_append]
  rw [stepErrors_termSteps_weight lib t podDefiningAffinityTerm podToCheck fixedNode
    (ofInt (toInt32 (w * toInt32 multiplier)))
    (ofInt (toInt32 (w1 * toInt32 multiplier)))]

theorem stepErrors_podSteps_affinityWith (ipa : InterPodAffinity) (pod : Pod A)
    (req : List PodAffinityTerm) (pre post : List WeightedPodAffinityTerm)
    (t : PodAffinityTerm) (anti : Option PodAntiAffinity) (w w1 : Int) (e : Pod A) :
    stepErrors (podSteps lib ipa pod (affinityWith req pre post t anti w1) e)
      = stepErrors (podSteps lib ipa pod (affinityWith req pre post t anti w) e) := by
  unfold podSteps
  cases ipa.info e.NodeName with
  | error err => rfl
  | ok node =>
    cases lib.GetAffinityFromPodAnnotations e.Annotations with
    | error err => rfl
    | ok ea =>
      simp only [affinityWith, Option.some_bind, stepErrors_append]
      rw [stepErrors_termsSteps_weight lib pre post t w w1 pod e node 1]

theorem stepErrors_podSteps_antiAffinityWith (ipa : InterPodAffinity) (pod : Pod A)
    (aff : Option PodAffinity) (req : List PodAffinityTerm)
    (pre post : List WeightedPodAffinityTerm) (t : PodAffinityTerm) (w w1 : Int) (e : Pod A) :
    stepErrors (podSteps lib ipa pod (antiAffinityWith aff req pre post t w1) e)
      = stepErrors (podSteps lib ipa pod (antiAffinityWith aff req pre post t w) e) := by
  unfold podSteps
  cases ipa.info e.NodeName with
  | error err => rfl
  | ok node =>
    cases lib.GetAffinityFromPodAnnotations e.Annotations with
    | error err => rfl
    | ok ea =>
      simp only [antiAffinityWith, Option.some_bind, stepErrors_append]
      rw [stepErrors_termsSteps_weight lib pre post t w w1 pod e node (-1)]

theorem firstError_affinityWith (ipa : InterPodAffinity) (pod : Pod A)
    (req : List PodAffinityTerm) (pre post : List WeightedPodAffinityTerm)
    (t : PodAffinityTerm) (anti : Option PodAntiAffinity) (w w1 : Int)
    (nodeNameToInfo : List (String × NodeInfo A)) (nodes : List Node) :
    (processAllNodes lib ipa pod (affinityWith req pre post t anti w1) nodeNameToInfo
        nodes).firstError
      = (processAllNodes lib ipa pod (affinityWith req pre post t anti w) nodeNameToInfo
        nodes).firstError := by
  rw [processAllNodes_firstError, processAllNodes_firstError]
  unfold allSteps
  rw [stepErrors_flatMap, stepErrors_flatMap, scannedPods_affinityWith,
    scannedPods_affinityWith]
  simp only [stepErrors_podSteps_affinityWith lib ipa pod req pre post t anti w w1]

theorem firstError_antiAffinityWith (ipa : InterPodAffinity) (pod : Pod A)
    (aff : Option PodAffinity) (req : List PodAffinityTerm)
    (pre post : List WeightedPodAffinityTerm) (t : PodAffinityTerm) (w w1 : Int)
    (nodeNameToInfo : List (String × NodeInfo A)) (nodes : List Node) :
    (processAllNodes lib ipa pod (antiAffinityWith aff req pre post t w1) nodeNameToInfo
        nodes).firstError
      = (processAllNodes lib ipa pod (antiAffinityWith aff req pre post t w) nodeNameToInfo
        nodes).firstError := by
  rw [processAllNodes_firstError, processAllNodes_firstError]
  unfold allSteps
  rw [stepErrors_flatMap, stepErrors_flatMap, scannedPods_antiAffinityWith,
    scannedPods_antiAffinityWith]
  simp only [stepErrors_podSteps_antiAffinityWith lib ipa pod aff req pre post t w w1]

end ErrorsAndWeights

/-! ## The scores before and after a change of weight -/

section ScoreChange

variable {A : Type} (lib : Lib A)

/-- Schedules whose steps add, one by one, at most as much under a name end
with at most as large a count under it. -/
theorem runSteps_counts_le (p : podAffinityPriorityMap) (s s1 : List Step) (name : String)
    (h : List.Forall₂ (fun x y => List.Forall₂ (· ≤ ·)
        (addedWeights lib p.failureDomains p.nodes name [x])
        (addedWeights lib p.failureDomains p.nodes name [y])) s s1) :
    (runSteps lib p s).counts name ≤ (runSteps lib p s1).counts name := by
  rw [(runSteps_spec lib p s).2.2.2 name, (runSteps_spec lib p s1).2.2.2 name]
  exact foldl_fadd_mono _ _ (addedWeights_le_of_related lib _ _ name s s1 h) _ _ le_rfl

theorem runSteps_counts_eq (p : podAffinityPriorityMap) (s s1 : List Step) (name : String)
    (h : List.Forall₂ (fun x y => addedWeights lib p.failureDomains p.nodes name [x]
        = addedWeights lib p.failureDomains p.nodes name [y]) s s1) :
    (runSteps lib p s).counts name = (runSteps lib p s1).counts name := by
  rw [(runSteps_spec lib p s).2.2.2 name, (runSteps_spec lib p s1).2.2.2 name,
    addedWeights_eq_of_related lib _ _ name s s1 h]

/-- Raising the weight of a preferred affinity term lowers no count. -/
theorem counts_affinityWith_le (ipa : InterPodAffinity) (pod : Pod A)
    (req : List PodAffinityTerm) (pre post : List WeightedPodAffinityTerm)
    (t : PodAffinityTerm) (anti : Option PodAntiAffinity) (w w1 : Int)
    (nodeNameToInfo : List (String × NodeInfo A)) (nodes : List Node) (name : String)
    (hw : -2147483648 ≤ w) (hle : w ≤ w1) (hw1 : w1 < 2147483648) :
    (processAllNodes lib ipa pod (affinityWith req pre post t anti w) nodeNameToInfo
        nodes).counts name
      ≤ (processAllNodes lib ipa pod (affinityWith req pre post t anti w1) nodeNameToInfo
        nodes).counts name := by
  rw [processAllNodes_eq_runSteps, processAllNodes_eq_runSteps]
  apply runSteps_counts_le
  apply allSteps_affinityWith_related lib _ (fun s => forall₂_same _ (fun _ => le_rfl) _)
  intro e _ node _ _
  rw [addedWeights_add, addedWeights_add, toInt32_mul_one w hw (by omega),
    toInt32_mul_one w1 (by omega) hw1]
  exact forall₂_replicate _ _ _ _ (ofInt_mono hle)

/-- Raising the weight of a preferred anti-affinity term raises no count. -/
theorem counts_antiAffinityWith_le (ipa : InterPodAffinity) (pod : Pod A)
    (aff : Option PodAffinity) (req : List PodAffinityTerm)
    (pre post : List WeightedPodAffinityTerm) (t : PodAffinityTerm) (w w1 : Int)
    (nodeNameToInfo : List (String × NodeInfo A)) (nodes : List Node) (name : String)
    (hw : -2147483648 < w) (hle : w ≤ w1) (hw1 : w1 < 2147483648) :
    (processAllNodes lib ipa pod (antiAffinityWith aff req pre post t w1) nodeNameToInfo
        nodes).counts name
      ≤ (processAllNodes lib ipa pod (antiAffinityWith aff req pre post t w) nodeNameToInfo
        nodes).counts name := by
  rw [processAllNodes_eq_runSteps, processAllNodes_eq_runSteps]
  apply runSteps_counts_le
  apply allSteps_antiAffinityWith_related lib _ (fun s => forall₂_same _ (fun _ => le_rfl) _)
  intro e _ node _ _
  rw [addedWeights_add, addedWeights_add, toInt32_mul_neg_one w hw (by omega),
    toInt32_mul_neg_one w1 (by omega) hw1]
  exact forall₂_replicate _ _ _ _ (ofInt_mono (by omega))

/-- Changing the weight of a preferred affinity term leaves the count of a
listed node outside every matching domain as it is. -/
theorem counts_affinityWith_outside (ipa : InterPodAffinity) (pod : Pod A)
    (req : List PodAffinityTerm) (pre post : List WeightedPodAffinityTerm)
    (t : PodAffinityTerm) (anti : Option PodAntiAffinity) (w w1 : Int)
    (nodeNameToInfo : List (String × NodeInfo A)) (nodes : List Node)
    (hnd : (nodes.map (·.Name)).Nodup) (node : Node) (hn : node ∈ nodes)
    (hout : inMatchingDomain lib ipa pod t
      (scannedPods lib (affinityWith req pre post t anti w) nodeNameToInfo) node = false) :
    (processAllNodes lib ipa pod (affinityWith req pre post t anti w1) nodeNameToInfo
        nodes).counts node.Name
      = (processAllNodes lib ipa pod (affinityWith req pre post t anti w) nodeNameToInfo
        nodes).counts node.Name := by
  rw [processAllNodes_eq_runSteps, processAllNodes_eq_runSteps]
  symm
  apply runSteps_counts_eq
  apply allSteps_affinityWith_related lib
    (fun x y => addedWeights lib (newPodAffinityPriorityMap nodes ipa.failureDomains).failureDomains
        (newPodAffinityPriorityMap nodes ipa.failureDomains).nodes node.Name [x]
      = addedWeights lib (newPodAffinityPriorityMap nodes ipa.failureDomains).failureDomains
        (newPodAffinityPriorityMap nodes ipa.failureDomains).nodes node.Name [y])
    (fun s => rfl)
  intro e he eNode hi hm
  rw [addedWeights_add, addedWeights_add]
  simp only [newPodAffinityPriorityMap]
  rw [countP_eq_zero_of_outside lib ipa pod t nodes hnd node hn _ hout e he eNode hi hm]
  rfl

theorem counts_antiAffinityWith_outside (ipa : InterPodAffinity) (pod : Pod A)
    (aff : Option PodAffinity) (req : List PodAffinityTerm)
    (pre post : List WeightedPodAffinityTerm) (t : PodAffinityTerm) (w w1 : Int)
    (nodeNameToInfo : List (String × NodeInfo A)) (nodes : List Node)
    (hnd : (nodes.map (·.Name)).Nodup) (node : Node) (hn : node ∈ nodes)
    (hout : inMatchingDomain lib ipa pod t
      (scannedPods lib (antiAffinityWith aff req pre post t w) nodeNameToInfo) node = false) :
    (processAllNodes lib ipa pod (antiAffinityWith aff req pre post t w1) nodeNameToInfo
        nodes).counts node.Name
      = (processAllNodes lib ipa pod (antiAffinityWith aff req pre post t w) nodeNameToInfo
        nodes).counts node.Name := by
  rw [processAllNodes_eq_runSteps, processAllNodes_eq_runSteps]
  symm
  apply runSteps_counts_eq
  apply allSteps_antiAffinityWith_related lib
    (fun x y => addedWeights lib (newPodAffinityPriorityMap nodes ipa.failureDomains).failureDomains
        (newPodAffinityPriorityMap nodes ipa.failureDomains).nodes node.Name [x]
      = addedWeights lib (newPodAffinityPriorityMap nodes ipa.failureDomains).failureDomains
        (newPodAffinityPriorityMap nodes ipa.failureDomains).nodes node.Name [y])
    (fun s => rfl)
  intro e he eNode hi hm
  rw [addedWeights_add, addedWeights_add]
  simp only [newPodAffinityPriorityMap]
  rw [countP_eq_zero_of_outside lib ipa pod t nodes hnd node hn _ hout e he eNode hi hm]
  rfl

end ScoreChange

/-- With the same error state, when every listed count is an integer of
magnitude at most `2^52` and grows, by at most `K`: a listed node whose count
grows by `K` keeps or improves its score, and a listed node whose count is
unchanged keeps or lowers its score. -/
theorem scoreOf_shift (pm pm1 : podAffinityPriorityMap) (nodes : List Node)
    (hnd : (nodes.map (·.Name)).Nodup) (he : pm1.firstError = pm.firstError) (K : ℚ)
    (hK : 0 ≤ K)
    (hint : ∀ node ∈ nodes, ∃ z : Int, pm.counts node.Name = (z : ℚ))
    (hint1 : ∀ node ∈ nodes, ∃ z : Int, pm1.counts node.Name = (z : ℚ))
    (hmag : ∀ node ∈ nodes, |pm.counts node.Name| ≤ 2 ^ 52)
    (hmag1 : ∀ node ∈ nodes, |pm1.counts node.Name| ≤ 2 ^ 52)
    (h : ∀ node ∈ nodes, pm.counts node.Name ≤ pm1.counts node.Name ∧
      pm1.counts node.Name ≤ pm.counts node.Name + K) :
    (∀ node ∈ nodes, pm1.counts node.Name = pm.counts node.Name + K →
      scoreOf (finish pm nodes) node.Name ≤ scoreOf (finish pm1 nodes) node.Name) ∧
    (∀ node ∈ nodes, pm1.counts node.Name = pm.counts node.Name →
      scoreOf (finish pm1 nodes) node.Name ≤ scoreOf (finish pm nodes) node.Name) := by
  obtain ⟨f1, f2⟩ := fScore_shift pm.counts pm1.counts nodes K hK hint hint1 hmag hmag1 h
  constructor
  · intro node hn hgain
    rw [scoreOf_finish pm nodes hnd node hn, scoreOf_finish pm1 nodes hnd node hn, he]
    split_ifs
    · exact truncToInt_mono
        (fScore_nonneg _ _ _ ((countBounds_spec pm.counts nodes).2.2 node hn).1
          ((countBounds_spec pm.counts nodes).2.2 node hn).2)
        (f1 node hn hgain)
    · exact le_refl _
  · intro node hn hsame
    rw [scoreOf_finish pm nodes hnd node hn, scoreOf_finish pm1 nodes hnd node hn, he]
    split_ifs
    · exact truncToInt_mono
        (fScore_nonneg _ _ _ ((countBounds_spec pm1.counts nodes).2.2 node hn).1
          ((countBounds_spec pm1.counts nodes).2.2 node hn).2)
        (f2 node hn hsame)
    · exact le_refl _

/-- The `float64` score of a count that is `maxCount`. -/
theorem fScore_top (mx mn : float64) :
    fScore mx mx mn = if fsub mx mn > 0 then 10 else 0 := by
  unfold fScore
  split_ifs with hp
  · unfold fmul fdiv
    rw [div_self (ne_of_gt hp), round64_one, mul_one, round64_ten]
  · rfl

/-- The `float64` score of a count that is `minCount`. -/
theorem fScore_bottom (mx mn : float64) : fScore mn mx mn = 0 := by
  unfold fScore
  split_ifs with hp
  · have hz : fsub mn mn = 0 := by
      unfold fsub
      rw [sub_self, round64_zero]
    unfold fmul fdiv
    rw [hz, zero_div, round64_zero, mul_zero, round64_zero]
  · rfl

theorem fScore_le_top (c mx mn : float64) (h1 : mn ≤ c) (h2 : c ≤ mx) :
    fScore c mx mn ≤ fScore mx mx mn := by
  rw [fScore_top]
  split_ifs with hp
  · exact (fScore_bounds c mx mn h1 h2).2
  · unfold fScore
    rw [if_neg hp]

/-- When no listed count falls, the counts being integers of magnitude at most
`2^52`, a listed node whose count is `maxCount` afterwards does not lose score
against a listed node whose count is unchanged. -/
theorem scoreOf_top (pm pm1 : podAffinityPriorityMap) (nodes : List Node)
    (hnd : (nodes.map (·.Name)).Nodup) (he : pm1.firstError = pm.firstError)
    (hint : ∀ node ∈ nodes, ∃ z : Int, pm.counts node.Name = (z : ℚ))
    (hint1 : ∀ node ∈ nodes, ∃ z : Int, pm1.counts node.Name = (z : ℚ))
    (hmag : ∀ node ∈ nodes, |pm.counts node.Name| ≤ 2 ^ 52)
    (hmag1 : ∀ node ∈ nodes, |pm1.counts node.Name| ≤ 2 ^ 52)
    (h : ∀ node ∈ nodes, pm.counts node.Name ≤ pm1.counts node.Name)
    (nodeM nodeN : Node) (hM : nodeM ∈ nodes) (hN : nodeN ∈ nodes)
    (htop : pm1.counts nodeM.Name = (countBounds pm1.counts nodes).1)
    (hsame : pm1.counts nodeN.Name = pm.counts nodeN.Name) :
    scoreOf (finish pm nodes) nodeM.Name - scoreOf (finish pm nodes) nodeN.Name
      ≤ scoreOf (finish pm1 nodes) nodeM.Name - scoreOf (finish pm1 nodes) nodeN.Name := by
  have hK : ∀ node ∈ nodes, pm.counts node.Name ≤ pm1.counts node.Name ∧
      pm1.counts node.Name ≤ pm.counts node.Name + 2 ^ 53 := by
    intro node hn
    refine ⟨h node hn, ?_⟩
    have a1 := (abs_le.mp (hmag node hn)).1
    have a2 := (abs_le.mp (hmag1 node hn)).2
    have : (2 : ℚ) ^ 53 = 2 ^ 52 + 2 ^ 52 := by norm_num
    linarith
  obtain ⟨_, s2⟩ := scoreOf_shift pm pm1 nodes hnd he (2 ^ 53) (by norm_num) hint hint1 hmag
    hmag1 hK
  have hn2 := s2 nodeN hN hsame
  obtain ⟨b1, b2, b3⟩ := countBounds_spec pm.counts nodes
  obtain ⟨c1, c2, c3⟩ := countBounds_spec pm1.counts nodes
  by_cases hp : fsub (countBounds pm1.counts nodes).1 (countBounds pm1.counts nodes).2 > 0
  · have hm1 : scoreOf (finish pm nodes) nodeM.Name ≤ scoreOf (finish pm1 nodes) nodeM.Name := by
      rw [scoreOf_finish pm nodes hnd nodeM hM, scoreOf_finish pm1 nodes hnd nodeM hM, he]
      split_ifs
      · rw [htop, fScore_top, if_pos hp]
        have hb := fScore_bounds _ _ _ (b3 nodeM hM).1 (b3 nodeM hM).2
        have ht : truncToInt (10 : ℚ) = 10 := by
          unfold truncToInt
          rw [if_pos (by norm_num)]
          simp
        rw [ht]
        exact (truncToInt_bounds _ hb.1 hb.2).2
      · exact le_refl _
    linarith
  · have hle : (countBounds pm1.counts nodes).1 ≤ (countBounds pm1.counts nodes).2 := by
      by_contra hn
      exact hp ((fsub_pos_iff _ _).mpr (not_le.mp hn))
    have hmx1 : (countBounds pm1.counts nodes).1 = 0 :=
      le_antisymm (le_trans hle c1) c2
    have hmx : (countBounds pm.counts nodes).1 = 0 := by
      refine le_antisymm ?_ b2
      rw [countBounds_eq]
      apply foldr_max_le_of _ _ (le_refl _)
      intro x hx
      obtain ⟨n, hn, rfl⟩ := List.mem_map.mp hx
      have := (c3 n hn).2
      rw [hmx1] at this
      exact le_trans (h n hn) this
    have hcn : pm.counts nodeN.Name = (countBounds pm.counts nodes).1 := by
      have u1 := (c3 nodeN hN).1
      have u2 := (c3 nodeN hN).2
      rw [hsame] at u1 u2
      rw [hmx1] at u2
      rw [hmx]
      exact le_antisymm u2 (le_trans (le_trans c2 (hmx1 ▸ hle)) u1)
    have hmn : scoreOf (finish pm nodes) nodeM.Name ≤ scoreOf (finish pm nodes) nodeN.Name := by
      rw [scoreOf_finish pm nodes hnd nodeM hM, scoreOf_finish pm nodes hnd nodeN hN]
      split_ifs
      · rw [hcn]
        exact truncToInt_mono (fScore_nonneg _ _ _ (b3 nodeM hM).1 (b3 nodeM hM).2)
          (fScore_le_top _ _ _ (b3 nodeM hM).1 (b3 nodeM hM).2)
      · exact le_refl _
    have hz : ∀ node ∈ nodes, scoreOf (finish pm1 nodes) node.Name = 0 := by
      intro node hn
      rw [scoreOf_finish pm1 nodes hnd node hn]
      split_ifs
      · unfold fScore
        rw [if_neg hp]
        simp [truncToInt]
      · rfl
    rw [hz nodeM hM, hz nodeN hN]
    linarith

/-- When no listed count rises, the counts being integers of magnitude at most
`2^52`, a listed node whose count is `minCount` afterwards does not gain score
against a listed node whose count is unchanged. -/
theorem scoreOf_bottom (pm pm1 : podAffinityPriorityMap) (nodes : List Node)
    (hnd : (nodes.map (·.Name)).Nodup) (he : pm1.firstError = pm.firstError)
    (hint : ∀ node ∈ nodes, ∃ z : Int, pm.counts node.Name = (z : ℚ))
    (hint1 : ∀ node ∈ nodes, ∃ z : Int, pm1.counts node.Name = (z : ℚ))
    (hmag : ∀ node ∈ nodes, |pm.counts node.Name| ≤ 2 ^ 52)
    (hmag1 : ∀ node ∈ nodes, |pm1.counts node.Name| ≤ 2 ^ 52)
    (h : ∀ node ∈ nodes, pm1.counts node.Name ≤ pm.counts node.Name)
    (nodeM nodeN : Node) (hM : nodeM ∈ nodes) (hN : nodeN ∈ nodes)
    (hbot : pm1.counts nodeM.Name = (countBounds pm1.counts nodes).2)
    (hsame : pm1.counts nodeN.Name = pm.counts nodeN.Name) :
    scoreOf (finish pm1 nodes) nodeM.Name - scoreOf (finish pm1 nodes) nodeN.Name
      ≤ scoreOf (finish pm nodes) nodeM.Name - scoreOf (finish pm nodes) nodeN.Name := by
  have hK : ∀ node ∈ nodes, pm1.counts node.Name ≤ pm.counts node.Name ∧
      pm.counts node.Name ≤ pm1.counts node.Name + 2 ^ 53 := by
    intro node hn
    refine ⟨h node hn, ?_⟩
    have a1 := (abs_le.mp (hmag1 node hn)).1
    have a2 := (abs_le.mp (hmag node hn)).2
    have : (2 : ℚ) ^ 53 = 2 ^ 52 + 2 ^ 52 := by norm_num
    linarith
  obtain ⟨_, s2⟩ := scoreOf_shift pm1 pm nodes hnd he.symm (2 ^ 53) (by norm_num) hint1 hint
    hmag1 hmag hK
  have hn2 := s2 nodeN hN hsame.symm
  obtain ⟨b1, b2, b3⟩ := countBounds_spec pm.counts nodes
  have hm0 : scoreOf (finish pm1 nodes) nodeM.Name = 0 := by
    rw [scoreOf_finish pm1 nodes hnd nodeM hM]
    split_ifs
    · rw [hbot, fScore_bottom]
      simp [truncToInt]
    · rfl
  have hm1 : 0 ≤ scoreOf (finish pm nodes) nodeM.Name := by
    rw [scoreOf_finish pm nodes hnd nodeM hM]
    split_ifs
    · have hb := fScore_bounds _ _ _ (b3 nodeM hM).1 (b3 nodeM hM).2
      exact (truncToInt_bounds _ hb.1 hb.2).1
    · exact le_refl _
  rw [hm0]
  linarith

/-- Raising the weight of a preferred affinity term can lower the score of a
node that lies in the domains of as many matching resident pods as any other,
when the counts are too large for the additions to be exact: with hard affinity
weight `2^53 - 1`, nodes `m` and `p` each lie in the zone of one resident pod
`a` and `n` in none, and raising the weight of the preferred affinity term for
pods `a` from 2 to 4 leaves the count of `m` at `3 * 2^53` while the count of
`p` rounds up from `3 * 2^53` to `3 * 2^53 + 4`, lowering `score(m) - score(n)`
from 10 to 9. -/
theorem affinity_weight_rounding_example :
    (∀ node ∈ threeNodes,
      matchCount labelLib heavyScorer (heavyPod 2) (appTerm 1 "a").PodAffinityTerm threeNodes
          node.Name heavyResidents
        ≤ matchCount labelLib heavyScorer (heavyPod 2) (appTerm 1 "a").PodAffinityTerm
          threeNodes "m" heavyResidents) ∧
      inMatchingDomain labelLib heavyScorer (heavyPod 2) (appTerm 1 "a").PodAffinityTerm
        heavyResidents (zoneNode "m" "z1") = true ∧
      inMatchingDomain labelLib heavyScorer (heavyPod 2) (appTerm 1 "a").PodAffinityTerm
        heavyResidents (zoneNode "n" "z2") = false ∧
      (["m", "n", "p"].map (processAllNodes labelLib heavyScorer (heavyPod 2)
          (affinityWith [] [] [] (appTerm 1 "a").PodAffinityTerm none 2)
          heavyInfos threeNodes).counts)
        = [27021597764222976, 0, 27021597764222976] ∧
      (["m", "n", "p"].map (processAllNodes labelLib heavyScorer (heavyPod 2)
          (affinityWith [] [] [] (appTerm 1 "a").PodAffinityTerm none 4)
          heavyInfos threeNodes).counts)
        = [27021597764222976, 0, 27021597764222980] ∧
      CalculateInterPodAffinityPriority labelLib heavyScorer (heavyPod 2) heavyInfos threeNodes
        = .ok [⟨"m", 10⟩, ⟨"n", 0⟩, ⟨"p", 10⟩] ∧
      CalculateInterPodAffinityPriority labelLib heavyScorer (heavyPod 4) heavyInfos threeNodes
        = .ok [⟨"m", 9⟩, ⟨"n", 0⟩, ⟨"p", 10⟩] :=
  ⟨by decide!, by decide, by decide, by decide!, by decide!, by decide!, by decide!⟩

/-- Raising the weight of a preferred anti-affinity term can raise the score
of a node that lies in the domains of as many matching resident pods as any
other, when the counts are too large for the additions to be exact: on the
nodes and residents of `affinity_weight_rounding_example`, raising the weight
of the preferred anti-affinity term for pods `a` from 2 to 4 leaves the count
of `m` at `3 * 2^53 - 8` while the count of `p` falls from `3 * 2^53 - 4` to
`3 * 2^53 - 8`, raising `score(m) - score(n)` from 9 to 10. -/
theorem anti_affinity_weight_rounding_example :
    (∀ node ∈ threeNodes,
      matchCount labelLib heavyScorer (heavyAntiPod 2) (appTerm 1 "a").PodAffinityTerm
          threeNodes node.Name heavyResidents
        ≤ matchCount labelLib heavyScorer (heavyAntiPod 2) (appTerm 1 "a").PodAffinityTerm
          threeNodes "m" heavyResidents) ∧
      inMatchingDomain labelLib heavyScorer (heavyAntiPod 2) (appTerm 1 "a").PodAffinityTerm
        heavyResidents (zoneNode "m" "z1") = true ∧
      inMatchingDomain labelLib heavyScorer (heavyAntiPod 2) (appTerm 1 "a").PodAffinityTerm
        heavyResidents (zoneNode "n" "z2") = false ∧
      (["m", "n", "p"].map (processAllNodes labelLib heavyScorer (heavyAntiPod 2)
          (antiAffinityWith none [] [] [] (appTerm 1 "a").PodAffinityTerm 2)
          heavyInfos threeNodes).counts)
        = [27021597764222968, 0, 27021597764222972] ∧
      (["m", "n", "p"].map (processAllNodes labelLib heavyScorer (heavyAntiPod 2)
          (antiAffinityWith none [] [] [] (appTerm 1 "a").PodAffinityTerm 4)
          heavyInfos threeNodes).counts)
        = [27021597764222968, 0, 27021597764222968] ∧
      CalculateInterPodAffinityPriority labelLib heavyScorer (heavyAntiPod 2) heavyInfos
          threeNodes
        = .ok [⟨"m", 9⟩, ⟨"n", 0⟩, ⟨"p", 10⟩] ∧
      CalculateInterPodAffinityPriority labelLib heavyScorer (heavyAntiPod 4) heavyInfos
          threeNodes
        = .ok [⟨"m", 10⟩, ⟨"n", 0⟩, ⟨"p", 10⟩] :=
  ⟨by decide!, by decide, by decide, by decide!, by decide!, by decide!, by decide!⟩
/-- C7, as stated, fails: on three nodes in three zones, with one resident
pod `a` and one pod `b` on `m`, two pods `a` on `p` and none on `n`, raising the
weight of the preferred affinity term for pods `a` from 1 to 2 (the term for
pods `b` keeps weight 1) lowers `score(m) - score(n)` from 10 to 7, although
`m` lies in the zone of a matching resident pod and `n` in none. -/
theorem affinity_weight_score_counterexample :
    softAffinity 1
        = affinityWith [] [] [appTerm 1 "b"] (appTerm 1 "a").PodAffinityTerm none 1 ∧
      softAffinity 2
        = affinityWith [] [] [appTerm 1 "b"] (appTerm 1 "a").PodAffinityTerm none 2 ∧
      inMatchingDomain labelLib threeNodeScorer (affinityPod 1) (appTerm 1 "a").PodAffinityTerm
        threeNodeResidents (zoneNode "m" "z1") = true ∧
      inMatchingDomain labelLib threeNodeScorer (affinityPod 1) (appTerm 1 "a").PodAffinityTerm
        threeNodeResidents (zoneNode "n" "z2") = false ∧
      CalculateInterPodAffinityPriority labelLib threeNodeScorer (affinityPod 1) threeNodeInfos
        threeNodes = .ok [⟨"m", 10⟩, ⟨"n", 0⟩, ⟨"p", 10⟩] ∧
      CalculateInterPodAffinityPriority labelLib threeNodeScorer (affinityPod 2) threeNodeInfos
        threeNodes = .ok [⟨"m", 7⟩, ⟨"n", 0⟩, ⟨"p", 10⟩] ∧
      scoreOf (CalculateInterPodAffinityPriority labelLib threeNodeScorer (affinityPod 2)
            threeNodeInfos threeNodes) "m"
          - scoreOf (CalculateInterPodAffinityPriority labelLib threeNodeScorer (affinityPod 2)
            threeNodeInfos threeNodes) "n"
        < scoreOf (CalculateInterPodAffinityPriority labelLib threeNodeScorer (affinityPod 1)
            threeNodeInfos threeNodes) "m"
          - scoreOf (CalculateInterPodAffinityPriority labelLib threeNodeScorer (affinityPod 1)
            threeNodeInfos threeNodes) "n" :=
  ⟨rfl, rfl, by decide, by decide, by decide!, by decide!, by decide!⟩

/-- C7, amended: when the weight of one preferred affinity term `t` of the
scored pod is raised from `w` to `w1` (both `int32` values) and everything else
is held fixed, then for every listed node `m` (in particular one in the
topology domain of a resident pod that matches `t`) and every listed node `n`
lying in no such domain, node names being pairwise distinct: the difference
`count(m) - count(n)` of the accumulated counts after the increase is at least
the difference before it; and so is the difference `score(m) - score(n)` of the
returned scores, whenever the increase leaves `maxCount` and `minCount`
unchanged, and also whenever, in both runs, the absolute values of the weights
added to the count of any listed node sum to at most `2^52` (so that no
`float64` operation on the counts rounds) and either no listed node lies in the
domains of more matching resident pods than `m` does or the count of `m` after
the increase is `maxCount` (with larger weights the additions round and the
difference of the scores can fall, `affinity_weight_rounding_example`). -/
theorem affinity_weight_monotone {A : Type} (lib : Lib A) (ipa : InterPodAffinity)
    (pod : Pod A) (req : List PodAffinityTerm) (pre post : List WeightedPodAffinityTerm)
    (t : PodAffinityTerm) (anti : Option PodAntiAffinity) (w w1 : Int)
    (nodeNameToInfo : List (String × NodeInfo A)) (nodes : List Node)
    (hw : -2147483648 ≤ w) (hle : w ≤ w1) (hw1 : w1 < 2147483648)
    (hnd : (nodes.map (·.Name)).Nodup) (nodeM nodeN : Node)
    (hM : nodeM ∈ nodes) (hN : nodeN ∈ nodes)
    (hout : inMatchingDomain lib ipa pod t
      (scannedPods lib (affinityWith req pre post t anti w) nodeNameToInfo) nodeN = false) :
    ((processAllNodes lib ipa pod (affinityWith req pre post t anti w1) nodeNameToInfo
          nodes).counts nodeM.Name
        - (processAllNodes lib ipa pod (affinityWith req pre post t anti w1) nodeNameToInfo
          nodes).counts nodeN.Name
      ≥ (processAllNodes lib ipa pod (affinityWith req pre post t anti w) nodeNameToInfo
          nodes).counts nodeM.Name
        - (processAllNodes lib ipa pod (affinityWith req pre post t anti w) nodeNameToInfo
          nodes).counts nodeN.Name) ∧
    ((countBounds (processAllNodes lib ipa pod (affinityWith req pre post t anti w1)
            nodeNameToInfo nodes).counts nodes
          = countBounds (processAllNodes lib ipa pod (affinityWith req pre post t anti w)
            nodeNameToInfo nodes).counts nodes) ∨
        (((∀ node ∈ nodes,
              matchCount lib ipa pod t nodes node.Name
                  (scannedPods lib (affinityWith req pre post t anti w) nodeNameToInfo)
                ≤ matchCount lib ipa pod t nodes nodeM.Name
                  (scannedPods lib (affinityWith req pre post t anti w) nodeNameToInfo)) ∨
            (processAllNodes lib ipa pod (affinityWith req pre post t anti w1) nodeNameToInfo
                nodes).counts nodeM.Name
              = (countBounds (processAllNodes lib ipa pod (affinityWith req pre post t anti w1)
                nodeNameToInfo nodes).counts nodes).1) ∧
          (∀ node ∈ nodes,
            load lib ipa.failureDomains nodes node.Name
                (allSteps lib ipa pod (affinityWith req pre post t anti w) nodeNameToInfo)
              ≤ 2 ^ 52 ∧
            load lib ipa.failureDomains nodes node.Name
                (allSteps lib ipa pod (affinityWith req pre post t anti w1) nodeNameToInfo)
              ≤ 2 ^ 52)) →
      scoreOf (finish (processAllNodes lib ipa pod (affinityWith req pre post t anti w1)
            nodeNameToInfo nodes) nodes) nodeM.Name
          - scoreOf (finish (processAllNodes lib ipa pod (affinityWith req pre post t anti w1)
            nodeNameToInfo nodes) nodes) nodeN.Name
        ≥ scoreOf (finish (processAllNodes lib ipa pod (affinityWith req pre post t anti w)
            nodeNameToInfo nodes) nodes) nodeM.Name
          - scoreOf (finish (processAllNodes lib ipa pod (affinityWith req pre post t anti w)
            nodeNameToInfo nodes) nodes) nodeN.Name) := by
  have hMc := counts_affinityWith_le lib ipa pod req pre post t anti w w1 nodeNameToInfo nodes
    nodeM.Name hw hle hw1
  have hNc := counts_affinityWith_outside lib ipa pod req pre post t anti w w1 nodeNameToInfo
    nodes hnd nodeN hN hout
  have hfe := firstError_affinityWith lib ipa pod req pre post t anti w w1 nodeNameToInfo nodes
  refine ⟨by rw [hNc]; linarith, fun hcase => ?_⟩
  rcases hcase with hb | ⟨hG | htop, hload⟩
  · have h1 := scoreOf_mono _ _ nodes hnd nodeM hM hfe hb hMc
    have h2 : scoreOf (finish (processAllNodes lib ipa pod
          (affinityWith req pre post t anti w1) nodeNameToInfo nodes) nodes) nodeN.Name
        = scoreOf (finish (processAllNodes lib ipa pod (affinityWith req pre post t anti w)
          nodeNameToInfo nodes) nodes) nodeN.Name := by
      rw [scoreOf_finish _ nodes hnd nodeN hN, scoreOf_finish _ nodes hnd nodeN hN, hfe, hb, hNc]
    rw [h2]
    linarith
  · have hd : (0 : ℚ) ≤ (w1 : ℚ) - (w : ℚ) := by
      have : (w : ℚ) ≤ (w1 : ℚ) := Int.cast_le.mpr hle
      linarith
    have hpow : (2 : ℚ) ^ 52 ≤ 2 ^ 53 := by norm_num
    have hcount : ∀ node ∈ nodes,
        (processAllNodes lib ipa pod (affinityWith req pre post t anti w1) nodeNameToInfo
            nodes).counts node.Name
          = (processAllNodes lib ipa pod (affinityWith req pre post t anti w) nodeNameToInfo
            nodes).counts node.Name
            + ((w1 : ℚ) - (w : ℚ)) * matchCount lib ipa pod t nodes node.Name
              (scannedPods lib (affinityWith req pre post t anti w) nodeNameToInfo) := by
      intro node hn
      rw [counts_affinityWith lib ipa pod req pre post t anti w w1 nodeNameToInfo nodes node.Name
          (le_trans (hload node hn).1 hpow) (le_trans (hload node hn).2 hpow),
        toInt32_mul_one w hw (by omega), toInt32_mul_one w1 (by omega) hw1,
        ofInt_of_int32 w hw (by omega), ofInt_of_int32 w1 (by omega) hw1]
      rfl
    have hGnn : ∀ name, 0 ≤ matchCount lib ipa pod t nodes name
        (scannedPods lib (affinityWith req pre post t anti w) nodeNameToInfo) :=
      fun name => sum_matchGain_nonneg lib ipa pod t ipa.failureDomains nodes name _
    obtain ⟨s1, s2⟩ := scoreOf_shift
      (processAllNodes lib ipa pod (affinityWith req pre post t anti w) nodeNameToInfo nodes)
      (processAllNodes lib ipa pod (affinityWith req pre post t anti w1) nodeNameToInfo nodes)
      nodes hnd hfe
      (((w1 : ℚ) - (w : ℚ)) * matchCount lib ipa pod t nodes nodeM.Name
        (scannedPods lib (affinityWith req pre post t anti w) nodeNameToInfo))
      (mul_nonneg hd (hGnn _))
      (fun node _ => processAllNodes_counts_isInt lib ipa pod _ nodeNameToInfo nodes node.Name)
      (fun node _ => processAllNodes_counts_isInt lib ipa pod _ nodeNameToInfo nodes node.Name)
      (fun node hn => le_trans
        (processAllNodes_counts_abs_le lib ipa pod _ nodeNameToInfo nodes node.Name
          (le_trans (hload node hn).1 hpow)) (hload node hn).1)
      (fun node hn => le_trans
        (processAllNodes_counts_abs_le lib ipa pod _ nodeNameToInfo nodes node.Name
          (le_trans (hload node hn).2 hpow)) (hload node hn).2)
      (fun node hn => by
        rw [hcount node hn]
        have h1 := mul_nonneg hd (hGnn node.Name)
        have h2 := mul_le_mul_of_nonneg_left (hG node hn) hd
        constructor <;> linarith)
    have h1 := s1 nodeM hM (hcount nodeM hM)
    have h2 := s2 nodeN hN hNc
    linarith
  · have hpow : (2 : ℚ) ^ 52 ≤ 2 ^ 53 := by norm_num
    exact scoreOf_top
      (processAllNodes lib ipa pod (affinityWith req pre post t anti w) nodeNameToInfo nodes)
      (processAllNodes lib ipa pod (affinityWith req pre post t anti w1) nodeNameToInfo nodes)
      nodes hnd hfe
      (fun node _ => processAllNodes_counts_isInt lib ipa pod _ nodeNameToInfo nodes node.Name)
      (fun node _ => processAllNodes_counts_isInt lib ipa pod _ nodeNameToInfo nodes node.Name)
      (fun node hn => le_trans
        (processAllNodes_counts_abs_le lib ipa pod _ nodeNameToInfo nodes node.Name
          (le_trans (hload node hn).1 hpow)) (hload node hn).1)
      (fun node hn => le_trans
        (processAllNodes_counts_abs_le lib ipa pod _ nodeNameToInfo nodes node.Name
          (le_trans (hload node hn).2 hpow)) (hload node hn).2)
      (fun node _ => counts_affinityWith_le lib ipa pod req pre post t anti w w1 nodeNameToInfo
        nodes node.Name hw hle hw1)
      nodeM nodeN hM hN htop hNc

theorem affinity_weight_monotone_witness :
    ((-2147483648 : Int) ≤ 1 ∧ (1 : Int) ≤ 2 ∧ (2 : Int) < 2147483648 ∧
      (threeNodes.map (·.Name)).Nodup ∧ zoneNode "m" "z1" ∈ threeNodes ∧
      zoneNode "n" "z2" ∈ threeNodes ∧
      inMatchingDomain labelLib threeNodeScorer (affinityPod 1) (appTerm 1 "b").PodAffinityTerm
        (scannedPods labelLib
          (affinityWith [] [] [] (appTerm 1 "b").PodAffinityTerm none 1)
          threeNodeInfos) (zoneNode "n" "z2") = false) ∧
    scoreOf (finish (processAllNodes labelLib threeNodeScorer (affinityPod 1)
          (affinityWith [] [] [] (appTerm 1 "b").PodAffinityTerm none 2)
          threeNodeInfos threeNodes) threeNodes) (zoneNode "m" "z1").Name
        - scoreOf (finish (processAllNodes labelLib threeNodeScorer (affinityPod 1)
          (affinityWith [] [] [] (appTerm 1 "b").PodAffinityTerm none 2)
          threeNodeInfos threeNodes) threeNodes) (zoneNode "n" "z2").Name
      ≥ scoreOf (finish (processAllNodes labelLib threeNodeScorer (affinityPod 1)
          (affinityWith [] [] [] (appTerm 1 "b").PodAffinityTerm none 1)
          threeNodeInfos threeNodes) threeNodes) (zoneNode "m" "z1").Name
        - scoreOf (finish (processAllNodes labelLib threeNodeScorer (affinityPod 1)
          (affinityWith [] [] [] (appTerm 1 "b").PodAffinityTerm none 1)
          threeNodeInfos threeNodes) threeNodes) (zoneNode "n" "z2").Name :=
  ⟨⟨by decide, by decide, by decide, by decide, by decide, by decide, by decide⟩,
   (affinity_weight_monotone labelLib threeNodeScorer (affinityPod 1) []
     [] [] (appTerm 1 "b").PodAffinityTerm none 1 2 threeNodeInfos threeNodes
     (by decide) (by decide) (by decide) (by decide) (zoneNode "m" "z1") (zoneNode "n" "z2")
     (by decide) (by decide) (by decide)).2 (Or.inr ⟨Or.inl (by decide!), by decide!⟩)⟩

/-- C8, as stated, fails: on the same three nodes, raising the weight of the
preferred anti-affinity term for pods `a` from 1 to 2 (the term for pods `b`
keeps weight 1) raises `score(m) - score(n)` from -10 to -8, although `m` lies
in the zone of a matching resident pod and `n` in none. -/
theorem anti_affinity_weight_score_counterexample :
    inMatchingDomain labelLib threeNodeScorer (antiAffinityPod 1)
        (appTerm 1 "a").PodAffinityTerm threeNodeResidents (zoneNode "m" "z1") = true ∧
      inMatchingDomain labelLib threeNodeScorer (antiAffinityPod 1)
        (appTerm 1 "a").PodAffinityTerm threeNodeResidents (zoneNode "n" "z2") = false ∧
      CalculateInterPodAffinityPriority labelLib threeNodeScorer (antiAffinityPod 1)
        threeNodeInfos threeNodes = .ok [⟨"m", 0⟩, ⟨"n", 10⟩, ⟨"p", 0⟩] ∧
      CalculateInterPodAffinityPriority labelLib threeNodeScorer (antiAffinityPod 2)
        threeNodeInfos threeNodes = .ok [⟨"m", 2⟩, ⟨"n", 10⟩, ⟨"p", 0⟩] ∧
      scoreOf (CalculateInterPodAffinityPriority labelLib threeNodeScorer (antiAffinityPod 2)
            threeNodeInfos threeNodes) "m"
          - scoreOf (CalculateInterPodAffinityPriority labelLib threeNodeScorer
            (antiAffinityPod 2) threeNodeInfos threeNodes) "n"
        > scoreOf (CalculateInterPodAffinityPriority labelLib threeNodeScorer (antiAffinityPod 1)
            threeNodeInfos threeNodes) "m"
          - scoreOf (CalculateInterPodAffinityPriority labelLib threeNodeScorer
            (antiAffinityPod 1) threeNodeInfos threeNodes) "n" :=
  ⟨by decide, by decide, by decide!, by decide!, by decide!⟩

/-- C8, amended: when the weight of one preferred anti-affinity term `t` of the
scored pod is raised from `w` to `w1` (both `int32` values whose negation does
not overflow) and everything else is held fixed, then for every listed node `m`
(in particular one in the topology domain of a resident pod that matches `t`)
and every listed node `n` lying in no such domain, node names being pairwise
distinct: the difference `count(m) - count(n)` of the accumulated counts after
the increase is at most the difference before it; and so is the difference
`score(m) - score(n)` of the returned scores, whenever the increase leaves
`maxCount` and `minCount` unchanged, and also whenever, in both runs, the
absolute values of the weights added to the count of any listed node sum to at
most `2^52` (so that no `float64` operation on the counts rounds) and either no
listed node lies in the domains of more matching resident pods than `m` does or
the count of `m` after the increase is `minCount` (with larger weights the
additions round and the difference of the scores can rise,
`anti_affinity_weight_rounding_example`). -/
theorem anti_affinity_weight_monotone {A : Type} (lib : Lib A) (ipa : InterPodAffinity)
    (pod : Pod A) (aff : Option PodAffinity) (req : List PodAffinityTerm)
    (pre post : List WeightedPodAffinityTerm) (t : PodAffinityTerm) (w w1 : Int)
    (nodeNameToInfo : List (String × NodeInfo A)) (nodes : List Node)
    (hw : -2147483648 < w) (hle : w ≤ w1) (hw1 : w1 < 2147483648)
    (hnd : (nodes.map (·.Name)).Nodup) (nodeM nodeN : Node)
    (hM : nodeM ∈ nodes) (hN : nodeN ∈ nodes)
    (hout : inMatchingDomain lib ipa pod t
      (scannedPods lib (antiAffinityWith aff req pre post t w) nodeNameToInfo) nodeN = false) :
    ((processAllNodes lib ipa pod (antiAffinityWith aff req pre post t w1) nodeNameToInfo
          nodes).counts nodeM.Name
        - (processAllNodes lib ipa pod (antiAffinityWith aff req pre post t w1) nodeNameToInfo
          nodes).counts nodeN.Name
      ≤ (processAllNodes lib ipa pod (antiAffinityWith aff req pre post t w) nodeNameToInfo
          nodes).counts nodeM.Name
        - (processAllNodes lib ipa pod (antiAffinityWith aff req pre post t w) nodeNameToInfo
          nodes).counts nodeN.Name) ∧
    ((countBounds (processAllNodes lib ipa pod (antiAffinityWith aff req pre post t w1)
            nodeNameToInfo nodes).counts nodes
          = countBounds (processAllNodes lib ipa pod (antiAffinityWith aff req pre post t w)
            nodeNameToInfo nodes).counts nodes) ∨
        (((∀ node ∈ nodes,
              matchCount lib ipa pod t nodes node.Name
                  (scannedPods lib (antiAffinityWith aff req pre post t w) nodeNameToInfo)
                ≤ matchCount lib ipa pod t nodes nodeM.Name
                  (scannedPods lib (antiAffinityWith aff req pre post t w) nodeNameToInfo)) ∨
            (processAllNodes lib ipa pod (antiAffinityWith aff req pre post t w1) nodeNameToInfo
                nodes).counts nodeM.Name
              = (countBounds (processAllNodes lib ipa pod (antiAffinityWith aff req pre post t w1)
                nodeNameToInfo nodes).counts nodes).2) ∧
          (∀ node ∈ nodes,
            load lib ipa.failureDomains nodes node.Name
                (allSteps lib ipa pod (antiAffinityWith aff req pre post t w) nodeNameToInfo)
              ≤ 2 ^ 52 ∧
            load lib ipa.failureDomains nodes node.Name
                (allSteps lib ipa pod (antiAffinityWith aff req pre post t w1) nodeNameToInfo)
              ≤ 2 ^ 52)) →
      scoreOf (finish (processAllNodes lib ipa pod (antiAffinityWith aff req pre post t w1)
            nodeNameToInfo nodes) nodes) nodeM.Name
          - scoreOf (finish (processAllNodes lib ipa pod (antiAffinityWith aff req pre post t w1)
            nodeNameToInfo nodes) nodes) nodeN.Name
        ≤ scoreOf (finish (processAllNodes lib ipa pod (antiAffinityWith aff req pre post t w)
            nodeNameToInfo nodes) nodes) nodeM.Name
          - scoreOf (finish (processAllNodes lib ipa pod (antiAffinityWith aff req pre post t w)
            nodeNameToInfo nodes) nodes) nodeN.Name) := by
  have hMc := counts_antiAffinityWith_le lib ipa pod aff req pre post t w w1 nodeNameToInfo
    nodes nodeM.Name hw hle hw1
  have hNc := counts_antiAffinityWith_outside lib ipa pod aff req pre post t w w1
    nodeNameToInfo nodes hnd nodeN hN hout
  have hfe := firstError_antiAffinityWith lib ipa pod aff req pre post t w w1 nodeNameToInfo
    nodes
  refine ⟨by rw [hNc]; linarith, fun hcase => ?_⟩
  rcases hcase with hb | ⟨hG | htop, hload⟩
  · have h1 := scoreOf_mono _ _ nodes hnd nodeM hM hfe.symm hb.symm hMc
    have h2 : scoreOf (finish (processAllNodes lib ipa pod
          (antiAffinityWith aff req pre post t w1) nodeNameToInfo nodes) nodes) nodeN.Name
        = scoreOf (finish (processAllNodes lib ipa pod (antiAffinityWith aff req pre post t w)
          nodeNameToInfo nodes) nodes) nodeN.Name := by
      rw [scoreOf_finish _ nodes hnd nodeN hN, scoreOf_finish _ nodes hnd nodeN hN, hfe, hb, hNc]
    rw [h2]
    linarith
  · have hd : (0 : ℚ) ≤ (w1 : ℚ) - (w : ℚ) := by
      have : (w : ℚ) ≤ (w1 : ℚ) := Int.cast_le.mpr hle
      linarith
    have hpow : (2 : ℚ) ^ 52 ≤ 2 ^ 53 := by norm_num
    have hcount : ∀ node ∈ nodes,
        (processAllNodes lib ipa pod (antiAffinityWith aff req pre post t w) nodeNameToInfo
            nodes).counts node.Name
          = (processAllNodes lib ipa pod (antiAffinityWith aff req pre post t w1) nodeNameToInfo
            nodes).counts node.Name
            + ((w1 : ℚ) - (w : ℚ)) * matchCount lib ipa pod t nodes node.Name
              (scannedPods lib (antiAffinityWith aff req pre post t w) nodeNameToInfo) := by
      intro node hn
      rw [counts_antiAffinityWith lib ipa pod aff req pre post t w w1 nodeNameToInfo nodes
          node.Name (le_trans (hload node hn).1 hpow) (le_trans (hload node hn).2 hpow),
        toInt32_mul_neg_one w hw (by omega), toInt32_mul_neg_one w1 (by omega) hw1,
        ofInt_of_int32 (-w) (by omega) (by omega), ofInt_of_int32 (-w1) (by omega) (by omega)]
      unfold matchCount
      push_cast
      ring
    have hGnn : ∀ name, 0 ≤ matchCount lib ipa pod t nodes name
        (scannedPods lib (antiAffinityWith aff req pre post t w) nodeNameToInfo) :=
      fun name => sum_matchGain_nonneg lib ipa pod t ipa.failureDomains nodes name _
    obtain ⟨s1, s2⟩ := scoreOf_shift
      (processAllNodes lib ipa pod (antiAffinityWith aff req pre post t w1) nodeNameToInfo nodes)
      (processAllNodes lib ipa pod (antiAffinityWith aff req pre post t w) nodeNameToInfo nodes)
      nodes hnd hfe.symm
      (((w1 : ℚ) - (w : ℚ)) * matchCount lib ipa pod t nodes nodeM.Name
        (scannedPods lib (antiAffinityWith aff req pre post t w) nodeNameToInfo))
      (mul_nonneg hd (hGnn _))
      (fun node _ => processAllNodes_counts_isInt lib ipa pod _ nodeNameToInfo nodes node.Name)
      (fun node _ => processAllNodes_counts_isInt lib ipa pod _ nodeNameToInfo nodes node.Name)
      (fun node hn => le_trans
        (processAllNodes_counts_abs_le lib ipa pod _ nodeNameToInfo nodes node.Name
          (le_trans (hload node hn).2 hpow)) (hload node hn).2)
      (fun node hn => le_trans
        (processAllNodes_counts_abs_le lib ipa pod _ nodeNameToInfo nodes node.Name
          (le_trans (hload node hn).1 hpow)) (hload node hn).1)
      (fun node hn => by
        rw [hcount node hn]
        have h1 := mul_nonneg hd (hGnn node.Name)
        have h2 := mul_le_mul_of_nonneg_left (hG node hn) hd
        constructor <;> linarith)
    have h1 := s1 nodeM hM (hcount nodeM hM)
    have h2 := s2 nodeN hN hNc.symm
    linarith
  · have hpow : (2 : ℚ) ^ 52 ≤ 2 ^ 53 := by norm_num
    exact scoreOf_bottom
      (processAllNodes lib ipa pod (antiAffinityWith aff req pre post t w) nodeNameToInfo nodes)
      (processAllNodes lib ipa pod (antiAffinityWith aff req pre post t w1) nodeNameToInfo nodes)
      nodes hnd hfe
      (fun node _ => processAllNodes_counts_isInt lib ipa pod _ nodeNameToInfo nodes node.Name)
      (fun node _ => processAllNodes_counts_isInt lib ipa pod _ nodeNameToInfo nodes node.Name)
      (fun node hn => le_trans
        (processAllNodes_counts_abs_le lib ipa pod _ nodeNameToInfo nodes node.Name
          (le_trans (hload node hn).1 hpow)) (hload node hn).1)
      (fun node hn => le_trans
        (processAllNodes_counts_abs_le lib ipa pod _ nodeNameToInfo nodes node.Name
          (le_trans (hload node hn).2 hpow)) (hload node hn).2)
      (fun node _ => counts_antiAffinityWith_le lib ipa pod aff req pre post t w w1
        nodeNameToInfo nodes node.Name hw hle hw1)
      nodeM nodeN hM hN htop hNc

theorem anti_affinity_weight_monotone_witness :
    ((-2147483648 : Int) < 1 ∧ (1 : Int) ≤ 2 ∧ (2 : Int) < 2147483648 ∧
      (threeNodes.map (·.Name)).Nodup ∧ zoneNode "m" "z1" ∈ threeNodes ∧
      zoneNode "n" "z2" ∈ threeNodes ∧
      inMatchingDomain labelLib threeNodeScorer (antiAffinityPod 1)
        (appTerm 1 "b").PodAffinityTerm
        (scannedPods labelLib
          (antiAffinityWith none [] [] [] (appTerm 1 "b").PodAffinityTerm 1)
          threeNodeInfos) (zoneNode "n" "z2") = false) ∧
    scoreOf (finish (processAllNodes labelLib threeNodeScorer (antiAffinityPod 1)
          (antiAffinityWith none [] [] [] (appTerm 1 "b").PodAffinityTerm 2)
          threeNodeInfos threeNodes) threeNodes) (zoneNode "m" "z1").Name
        - scoreOf (finish (processAllNodes labelLib threeNodeScorer (antiAffinityPod 1)
          (antiAffinityWith none [] [] [] (appTerm 1 "b").PodAffinityTerm 2)
          threeNodeInfos threeNodes) threeNodes) (zoneNode "n" "z2").Name
      ≤ scoreOf (finish (processAllNodes labelLib threeNodeScorer (antiAffinityPod 1)
          (antiAffinityWith none [] [] [] (appTerm 1 "b").PodAffinityTerm 1)
          threeNodeInfos threeNodes) threeNodes) (zoneNode "m" "z1").Name
        - scoreOf (finish (processAllNodes labelLib threeNodeScorer (antiAffinityPod 1)
          (antiAffinityWith none [] [] [] (appTerm 1 "b").PodAffinityTerm 1)
          threeNodeInfos threeNodes) threeNodes) (zoneNode "n" "z2").Name :=
  ⟨⟨by decide, by decide, by decide, by decide, by decide, by decide, by decide⟩,
   (anti_affinity_weight_monotone labelLib threeNodeScorer (antiAffinityPod 1) none []
     [] [] (appTerm 1 "b").PodAffinityTerm 1 2 threeNodeInfos threeNodes
     (by decide) (by decide) (by decide) (by decide) (zoneNode "m" "z1") (zoneNode "n" "z2")
     (by decide) (by decide) (by decide)).2 (Or.inr ⟨Or.inl (by decide!), by decide!⟩)⟩

/-! ## Independence of the schedule -/

section Schedule

variable {A : Type} (lib : Lib A)

theorem isSome_head?_eq_of_perm {β : Type} {l1 l2 : List β} (h : l1.Perm l2) :
    l1.head?.isSome = l2.head?.isSome := by
  cases l1 with
  | nil => rw [h.symm.eq_nil]
  | cons a l =>
    cases l2 with
    | nil => exact absurd h.eq_nil (List.cons_ne_nil _ _)
    | cons b l3 => rfl

theorem addedWeights_of_not_listed (fd : Topologies) (nodes : List Node) (name : String)
    (hn : name ∉ nodes.map (·.Name)) (steps : List Step) :
    addedWeights lib fd nodes name steps = [] := by
  unfold addedWeights
  rw [List.flatMap_eq_nil_iff]
  intro s _
  cases s with
  | add fixedNode topologyKey weight =>
    simp only
    rw [countP_name_of_not_mem nodes
      (fun x => lib.NodesHaveSameTopologyKey fd x fixedNode topologyKey) name hn]
    rfl
  | fail err => rfl

/-- While the load of every listed node is within the bound, so is that of
every name. -/
theorem load_le_of_listed (fd : Topologies) (nodes : List Node) (steps : List Step) (b : ℚ)
    (hb : 0 ≤ b) (h : ∀ node ∈ nodes, load lib fd nodes node.Name steps ≤ b) (name : String) :
    load lib fd nodes name steps ≤ b := by
  by_cases hn : name ∈ nodes.map (·.Name)
  · obtain ⟨node, hnode, rfl⟩ := List.mem_map.mp hn
    exact h node hnode
  · unfold load
    rw [addedWeights_of_not_listed lib fd nodes name hn]
    simpa using hb

/-- A rearranged schedule keeps the node list and the failure domains, and
records an error exactly when the schedule does. -/
theorem runSteps_perm (p : podAffinityPriorityMap) (s1 s2 : List Step) (h : s1.Perm s2) :
    (runSteps lib p s1).firstError.isSome = (runSteps lib p s2).firstError.isSome ∧
      (runSteps lib p s1).nodes = (runSteps lib p s2).nodes ∧
      (runSteps lib p s1).failureDomains = (runSteps lib p s2).failureDomains := by
  obtain ⟨a1, a2, a3, -⟩ := runSteps_spec lib p s1
  obtain ⟨b1, b2, b3, -⟩ := runSteps_spec lib p s2
  refine ⟨?_, a1.trans b1.symm, a2.trans b2.symm⟩
  rw [a3, b3]
  have hp : (stepErrors s1).Perm (stepErrors s2) := h.filterMap _
  cases p.firstError with
  | some e => rfl
  | none => exact isSome_head?_eq_of_perm hp

/-- A rearranged schedule of integer weights ends with the same counts, while
the absolute values of the weights added to any listed count sum to at most
`2^53`. -/
theorem runSteps_perm_counts (p : podAffinityPriorityMap) (s1 s2 : List Step) (h : s1.Perm s2)
    (hint : integerWeights s2) (hzero : ∀ name, p.counts name = 0)
    (hb : ∀ node ∈ p.nodes, load lib p.failureDomains p.nodes node.Name s2 ≤ 2 ^ 53) :
    (runSteps lib p s1).counts = (runSteps lib p s2).counts := by
  funext name
  have hb2 := load_le_of_listed lib p.failureDomains p.nodes s2 (2 ^ 53) (by norm_num) hb name
  have hb1 : load lib p.failureDomains p.nodes name s1 ≤ 2 ^ 53 := by
    rw [load_perm lib _ _ name h]
    exact hb2
  rw [runSteps_counts_exact lib p s1 (integerWeights_perm h hint) name
      ⟨0, by rw [hzero name]; simp⟩ (by rw [hzero name]; simpa using hb1),
    runSteps_counts_exact lib p s2 hint name
      ⟨0, by rw [hzero name]; simp⟩ (by rw [hzero name]; simpa using hb2),
    (h.map (stepDelta lib p.failureDomains p.nodes name)).sum_eq]

theorem finish_congr (p q : podAffinityPriorityMap) (nodes : List Node)
    (hc : p.counts = q.counts) (he : p.firstError.isSome = q.firstError.isSome)
    (hq : q.firstError = none) : finish p nodes = finish q nodes := by
  unfold finish
  rw [hq] at he
  cases hp : p.firstError with
  | some e => rw [hp] at he; cases he
  | none => rw [hq, hc]

end Schedule

section MapOrder

variable {A : Type} (lib : Lib A)

theorem lookup_of_mem {β : Type} (l : List (String × β)) (hnd : (l.map Prod.fst).Nodup)
    (name : String) (b : β) (h : (name, b) ∈ l) : l.lookup name = some b := by
  induction l with
  | nil => cases h
  | cons x l ih =>
    obtain ⟨k, v⟩ := x
    rw [List.map_cons, List.nodup_cons] at hnd
    rcases List.mem_cons.mp h with heq | hmem
    · cases heq
      simp [List.lookup_cons]
    · have hne : name ≠ k := by
        rintro rfl
        exact hnd.1 (List.mem_map.mpr ⟨(name, b), hmem, rfl⟩)
      have hk2 : (name == k) = false := by simpa using hne
      simp only [List.lookup_cons, hk2]
      exact ih hnd.2 hmem

theorem lookup_perm {β : Type} (l1 l2 : List (String × β)) (h : l1.Perm l2)
    (hnd : (l1.map Prod.fst).Nodup) (name : String) : l1.lookup name = l2.lookup name := by
  have hnd2 : (l2.map Prod.fst).Nodup := (h.map Prod.fst).nodup_iff.mp hnd
  cases h1 : l1.lookup name with
  | some b =>
    exact (lookup_of_mem l2 hnd2 name b (h.subset (mem_of_lookup l1 name b h1))).symm
  | none =>
    cases h2 : l2.lookup name with
    | none => rfl
    | some b =>
      rw [lookup_of_mem l1 hnd name b (h.symm.subset (mem_of_lookup l2 name b h2))] at h1
      cases h1

theorem scannedPods_perm (affinity : Option Affinity)
    (m1 m2 : List (String × NodeInfo A)) (h : m1.Perm m2) (hnd : (m1.map Prod.fst).Nodup) :
    (scannedPods lib affinity m1).Perm (scannedPods lib affinity m2) := by
  unfold scannedPods
  have hf : (fun name => podsToProcess lib affinity (nodeInfoAt m1 name))
      = (fun name => podsToProcess lib affinity (nodeInfoAt m2 name)) := by
    funext name
    unfold nodeInfoAt
    rw [lookup_perm m1 m2 h hnd name]
  rw [hf]
  exact (h.map Prod.fst).flatMap_right _

end MapOrder

/-- C9, as stated, fails for weights of large magnitude: with hard affinity
weight `2^53`, on `x` a resident pod that requires the zone of the scored pod
and prefers it with weight 1 and one that prefers it with weight 2, on `y` a
resident pod that requires it and prefers it with weight 2, the scorer returns
10 for both nodes, while processing the same resident pods in the reverse order
gives `y` the score 9: the `float64` additions round differently. -/
theorem order_rounding_counterexample :
    labelLib.GetAffinityFromPodAnnotations (appPod "new" "web" "").Annotations = .ok none ∧
      CalculateInterPodAffinityPriority labelLib (twoNodeScorer (2 ^ 53)) (appPod "new" "web" "")
        orderInfos twoNodes = .ok [⟨"x", 10⟩, ⟨"y", 10⟩] ∧
      (scannedPods labelLib none orderInfos).reverse.Perm (scannedPods labelLib none orderInfos) ∧
      finish ((scannedPods labelLib none orderInfos).reverse.foldl
          (processPodAndRecord labelLib (twoNodeScorer (2 ^ 53)) (appPod "new" "web" "") none)
          (newPodAffinityPriorityMap twoNodes (twoNodeScorer (2 ^ 53)).failureDomains)) twoNodes
        = .ok [⟨"x", 10⟩, ⟨"y", 9⟩] ∧
      (processAllNodes labelLib (twoNodeScorer (2 ^ 53)) (appPod "new" "web" "") none
        orderInfos twoNodes).counts "x" = 2 ^ 53 + 2 ∧
      ((scannedPods labelLib none orderInfos).reverse.foldl
          (processPodAndRecord labelLib (twoNodeScorer (2 ^ 53)) (appPod "new" "web" "") none)
          (newPodAffinityPriorityMap twoNodes (twoNodeScorer (2 ^ 53)).failureDomains)).counts
        "x" = 2 ^ 53 + 4 :=
  ⟨rfl, by decide!, List.reverse_perm _, by decide!, by decide!, by decide!⟩

/-- C9, amended: let the scored pod decode to `affinity`.  For every schedule
of the atomic map updates that rearranges those of the run in index order, for
every order of processing the resident pods, and for every enumeration order of
the node-info map (its keys being distinct), an error is recorded exactly when
`CalculateInterPodAffinityPriority` returns one; and when the absolute values
of the weights added to the count of any listed node sum to at most `2^53` (so
that no addition rounds), the accumulated counts are the same and a score list
that `CalculateInterPodAffinityPriority` returns is the score list of the
rearranged run. -/
theorem schedule_independence {A : Type} (lib : Lib A) (ipa : InterPodAffinity) (pod : Pod A)
    (affinity : Option Affinity) (nodeNameToInfo : List (String × NodeInfo A))
    (nodes : List Node)
    (ha : lib.GetAffinityFromPodAnnotations pod.Annotations = .ok affinity) :
    (∀ schedule : List Step, schedule.Perm (allSteps lib ipa pod affinity nodeNameToInfo) →
      ((runSteps lib (newPodAffinityPriorityMap nodes ipa.failureDomains)
            schedule).firstError.isSome = true ↔
          ∃ err, CalculateInterPodAffinityPriority lib ipa pod nodeNameToInfo nodes
            = .error err) ∧
        ((∀ node ∈ nodes, load lib ipa.failureDomains nodes node.Name
            (allSteps lib ipa pod affinity nodeNameToInfo) ≤ 2 ^ 53) →
          (runSteps lib (newPodAffinityPriorityMap nodes ipa.failureDomains) schedule).counts
              = (processAllNodes lib ipa pod affinity nodeNameToInfo nodes).counts ∧
            (∀ result, CalculateInterPodAffinityPriority lib ipa pod nodeNameToInfo nodes
                = .ok result →
              finish (runSteps lib (newPodAffinityPriorityMap nodes ipa.failureDomains)
                schedule) nodes = .ok result))) ∧
    (∀ order : List (Pod A), order.Perm (scannedPods lib affinity nodeNameToInfo) →
      ((order.foldl (processPodAndRecord lib ipa pod affinity)
            (newPodAffinityPriorityMap nodes ipa.failureDomains)).firstError.isSome = true ↔
          ∃ err, CalculateInterPodAffinityPriority lib ipa pod nodeNameToInfo nodes
            = .error err) ∧
        ((∀ node ∈ nodes, load lib ipa.failureDomains nodes node.Name
            (allSteps lib ipa pod affinity nodeNameToInfo) ≤ 2 ^ 53) →
          (order.foldl (processPodAndRecord lib ipa pod affinity)
                (newPodAffinityPriorityMap nodes ipa.failureDomains)).counts
              = (processAllNodes lib ipa pod affinity nodeNameToInfo nodes).counts ∧
            (∀ result, CalculateInterPodAffinityPriority lib ipa pod nodeNameToInfo nodes
                = .ok result →
              finish (order.foldl (processPodAndRecord lib ipa pod affinity)
                (newPodAffinityPriorityMap nodes ipa.failureDomains)) nodes = .ok result))) ∧
    (∀ reordered : List (String × NodeInfo A), reordered.Perm nodeNameToInfo →
      (nodeNameToInfo.map Prod.fst).Nodup →
      ((∃ err, CalculateInterPodAffinityPriority lib ipa pod reordered nodes = .error err) ↔
          ∃ err, CalculateInterPodAffinityPriority lib ipa pod nodeNameToInfo nodes
            = .error err) ∧
        ((∀ node ∈ nodes, load lib ipa.failureDomains nodes node.Name
            (allSteps lib ipa pod affinity nodeNameToInfo) ≤ 2 ^ 53) →
          (processAllNodes lib ipa pod affinity reordered nodes).counts
              = (processAllNodes lib ipa pod affinity nodeNameToInfo nodes).counts ∧
            (∀ result, CalculateInterPodAffinityPriority lib ipa pod nodeNameToInfo nodes
                = .ok result →
              CalculateInterPodAffinityPriority lib ipa pod reordered nodes = .ok result))) := by
  have hcalc : CalculateInterPodAffinityPriority lib ipa pod nodeNameToInfo nodes
      = finish (processAllNodes lib ipa pod affinity nodeNameToInfo nodes) nodes := by
    unfold CalculateInterPodAffinityPriority
    rw [ha]
  have herr : ∀ pm : podAffinityPriorityMap,
      (pm.firstError.isSome = true ↔ ∃ err, finish pm nodes = .error err) := by
    intro pm
    unfold finish
    cases pm.firstError with
    | none => simp
    | some e => simp
  have step : ∀ schedule : List Step,
      schedule.Perm (allSteps lib ipa pod affinity nodeNameToInfo) →
      ((runSteps lib (newPodAffinityPriorityMap nodes ipa.failureDomains)
            schedule).firstError.isSome = true ↔
          ∃ err, CalculateInterPodAffinityPriority lib ipa pod nodeNameToInfo nodes
            = .error err) ∧
        ((∀ node ∈ nodes, load lib ipa.failureDomains nodes node.Name
            (allSteps lib ipa pod affinity nodeNameToInfo) ≤ 2 ^ 53) →
          (runSteps lib (newPodAffinityPriorityMap nodes ipa.failureDomains) schedule).counts
              = (processAllNodes lib ipa pod affinity nodeNameToInfo nodes).counts ∧
            (∀ result, CalculateInterPodAffinityPriority lib ipa pod nodeNameToInfo nodes
                = .ok result →
              finish (runSteps lib (newPodAffinityPriorityMap nodes ipa.failureDomains)
                schedule) nodes = .ok result)) := by
    intro schedule hperm
    rw [hcalc, processAllNodes_eq_runSteps]
    obtain ⟨he, -, -⟩ :=
      runSteps_perm lib (newPodAffinityPriorityMap nodes ipa.failureDomains) _ _ hperm
    refine ⟨?_, fun hload => ?_⟩
    · rw [he]
      exact herr _
    · have hc := runSteps_perm_counts lib (newPodAffinityPriorityMap nodes ipa.failureDomains)
        _ _ hperm (integerWeights_allSteps lib ipa pod affinity nodeNameToInfo)
        (fun _ => rfl) hload
      refine ⟨hc, fun result hres => ?_⟩
      have hq : (runSteps lib (newPodAffinityPriorityMap nodes ipa.failureDomains)
          (allSteps lib ipa pod affinity nodeNameToInfo)).firstError = none := by
        cases hfe : (runSteps lib (newPodAffinityPriorityMap nodes ipa.failureDomains)
          (allSteps lib ipa pod affinity nodeNameToInfo)).firstError with
        | none => rfl
        | some e =>
          unfold finish at hres
          rw [hfe] at hres
          cases hres
      rw [finish_congr _ _ nodes hc he hq]
      exact hres
  have hfold : ∀ order : List (Pod A),
      order.foldl (processPodAndRecord lib ipa pod affinity)
        (newPodAffinityPriorityMap nodes ipa.failureDomains)
      = runSteps lib (newPodAffinityPriorityMap nodes ipa.failureDomains)
          (order.flatMap (podSteps lib ipa pod affinity)) := by
    intro order
    have h : processPodAndRecord lib ipa pod affinity
        = fun q e => runSteps lib q (podSteps lib ipa pod affinity e) := by
      funext q e
      exact processPodAndRecord_eq_runSteps lib ipa pod affinity q e
    rw [h, foldl_runSteps_flatMap]
  refine ⟨step, fun order hperm => ?_, fun reordered hperm hnd => ?_⟩
  · rw [hfold]
    exact step _ (hperm.flatMap_right _)
  · have hsteps : (allSteps lib ipa pod affinity reordered).Perm
        (allSteps lib ipa pod affinity nodeNameToInfo) := by
      unfold allSteps
      exact (scannedPods_perm lib affinity nodeNameToInfo reordered hperm.symm
        hnd).symm.flatMap_right _
    have hcalc2 : CalculateInterPodAffinityPriority lib ipa pod reordered nodes
        = finish (runSteps lib (newPodAffinityPriorityMap nodes ipa.failureDomains)
            (allSteps lib ipa pod affinity reordered)) nodes := by
      unfold CalculateInterPodAffinityPriority
      rw [ha]
      simp only [processAllNodes_eq_runSteps]
    obtain ⟨h1, h2⟩ := step _ hsteps
    refine ⟨?_, fun hload => ⟨?_, ?_⟩⟩
    · rw [hcalc2, ← herr]
      exact h1
    · rw [processAllNodes_eq_runSteps lib ipa pod affinity reordered]
      exact (h2 hload).1
    · intro result hres
      rw [hcalc2]
      exact (h2 hload).2 result hres

theorem schedule_independence_witness :
    (labelLib.GetAffinityFromPodAnnotations (affinityPod 2).Annotations = .ok (softAffinity 2) ∧
      (scannedPods labelLib (softAffinity 2) threeNodeInfos).reverse.Perm
        (scannedPods labelLib (softAffinity 2) threeNodeInfos) ∧
      (∀ node ∈ threeNodes, load labelLib threeNodeScorer.failureDomains threeNodes node.Name
        (allSteps labelLib threeNodeScorer (affinityPod 2) (softAffinity 2) threeNodeInfos)
          ≤ 2 ^ 53) ∧
      CalculateInterPodAffinityPriority labelLib threeNodeScorer (affinityPod 2) threeNodeInfos
        threeNodes = .ok [⟨"m", 7⟩, ⟨"n", 0⟩, ⟨"p", 10⟩]) ∧
    finish ((scannedPods labelLib (softAffinity 2) threeNodeInfos).reverse.foldl
        (processPodAndRecord labelLib threeNodeScorer (affinityPod 2) (softAffinity 2))
        (newPodAffinityPriorityMap threeNodes threeNodeScorer.failureDomains)) threeNodes
      = .ok [⟨"m", 7⟩, ⟨"n", 0⟩, ⟨"p", 10⟩] :=
  ⟨⟨rfl, List.reverse_perm _, by decide!, by decide!⟩,
   (((schedule_independence labelLib threeNodeScorer (affinityPod 2) (softAffinity 2)
      threeNodeInfos threeNodes rfl).2.1 _ (List.reverse_perm _)).2 (by decide!)).2 _
      (by decide!)⟩

/-! ## Visiting only the pods with affinity -/

section Restricted

variable {A : Type} (lib : Lib A)

theorem processAllResidents_eq_runSteps (ipa : InterPodAffinity) (pod : Pod A)
    (affinity : Option Affinity) (nodeNameToInfo : List (String × NodeInfo A))
    (nodes : List Node) :
    processAllResidents lib ipa pod affinity nodeNameToInfo nodes
      = runSteps lib (newPodAffinityPriorityMap nodes ipa.failureDomains)
          ((allResidents nodeNameToInfo).flatMap (podSteps lib ipa pod affinity)) := by
  unfold processAllResidents allResidents
  have h : processPodAndRecord lib ipa pod affinity
      = fun q e => runSteps lib q (podSteps lib ipa pod affinity e) := by
    funext q e
    exact processPodAndRecord_eq_runSteps lib ipa pod affinity q e
  rw [h]
  simp only [foldl_runSteps_flatMap]
  rw [List.flatMap_assoc]

theorem filter_flatMap_eq {β γ : Type} (l : List β) (f : β → List γ) (q : γ → Bool) :
    (l.flatMap f).filter q = l.flatMap (fun b => (f b).filter q) := by
  induction l with
  | nil => rfl
  | cons b l ih => simp only [List.flatMap_cons, List.filter_append, ih]

theorem scannedPods_of_no_constraints (affinity : Option Affinity)
    (h1 : affinity.bind (·.PodAffinity) = none) (h2 : affinity.bind (·.PodAntiAffinity) = none)
    (nodeNameToInfo : List (String × NodeInfo A)) :
    scannedPods lib affinity nodeNameToInfo
      = (allResidents nodeNameToInfo).filter (hasPodAffinityConstraints lib) := by
  unfold scannedPods allResidents podsToProcess NodeInfo.PodsWithAffinity NodeInfo.Pods
  rw [h1, h2, filter_flatMap_eq]
  simp

/-- A resident pod without affinity constraints takes no counting step when
the scored pod has no constraints either: its steps are at most one
`setError`. -/
theorem podSteps_of_no_constraints (ipa : InterPodAffinity) (pod : Pod A)
    (affinity : Option Affinity)
    (h1 : affinity.bind (·.PodAffinity) = none) (h2 : affinity.bind (·.PodAntiAffinity) = none)
    (e : Pod A) (he : hasPodAffinityConstraints lib e = false) :
    (podSteps lib ipa pod affinity e = [] ∨ ∃ err, podSteps lib ipa pod affinity e = [.fail err]) ∧
      ((∃ node, ipa.info e.NodeName = .ok node) →
        (∃ a, lib.GetAffinityFromPodAnnotations e.Annotations = .ok a) →
        podSteps lib ipa pod affinity e = []) := by
  unfold podSteps
  unfold hasPodAffinityConstraints at he
  cases hi : ipa.info e.NodeName with
  | error err =>
    refine ⟨Or.inr ⟨err, rfl⟩, ?_⟩
    rintro ⟨node, hnode⟩
    cases hnode
  | ok node =>
    cases hg : lib.GetAffinityFromPodAnnotations e.Annotations with
    | error err =>
      refine ⟨Or.inr ⟨err, rfl⟩, ?_⟩
      rintro - ⟨a, ha⟩
      cases ha
    | ok ea =>
      rw [hg] at he
      have h3 : ea.bind (·.PodAffinity) = none ∧ ea.bind (·.PodAntiAffinity) = none := by
        cases ea with
        | none => exact ⟨rfl, rfl⟩
        | some a =>
          simp only [Bool.or_eq_false_iff] at he
          refine ⟨?_, ?_⟩
          · cases hpa : a.PodAffinity with
            | none => simp [hpa]
            | some x => rw [hpa] at he; cases he.1
          · cases hpa : a.PodAntiAffinity with
            | none => simp [hpa]
            | some x => rw [hpa] at he; cases he.2
      have hnil : ((match affinity.bind (·.PodAffinity) with
            | some a => termsSteps lib a.PreferredDuringSchedulingIgnoredDuringExecution
                pod e node 1
            | none => [])
          ++ (match affinity.bind (·.PodAntiAffinity) with
            | some a => termsSteps lib a.PreferredDuringSchedulingIgnoredDuringExecution
                pod e node (-1)
            | none => [])
          ++ (match ea.bind (·.PodAffinity) with
            | some a => hardSteps lib ipa pod e node a
                ++ termsSteps lib a.PreferredDuringSchedulingIgnoredDuringExecution
                  e pod node 1
            | none => [])
          ++ (match ea.bind (·.PodAntiAffinity) with
            | some a => termsSteps lib a.PreferredDuringSchedulingIgnoredDuringExecution
                e pod node (-1)
            | none => [])) = ([] : List Step) := by
        rw [h1, h2, h3.1, h3.2]
        rfl
      exact ⟨Or.inl hnil, fun _ _ => hnil⟩

theorem flatMap_filter_of_nil {β γ : Type} (l : List β) (q : β → Bool) (f : β → List γ)
    (h : ∀ b ∈ l, q b = false → f b = []) :
    (l.filter q).flatMap f = l.flatMap f := by
  induction l with
  | nil => rfl
  | cons b l ih =>
    have ih2 := ih (fun x hx => h x (List.mem_cons_of_mem _ hx))
    cases hq : q b with
    | true => simp only [List.filter_cons, hq, if_true, List.flatMap_cons, ih2]
    | false =>
      simp only [List.filter_cons, hq, Bool.false_eq_true, if_false, List.flatMap_cons, ih2,
        h b (List.mem_cons_self _ _) hq, List.nil_append]

end Restricted

/-- C10, as stated, fails on the error outcome: for a scored pod without
affinity and a node whose only resident pod has no affinity either but is bound
to a node the cache does not hold, the scorer (which visits only the pods with
affinity) succeeds with score 0, while processing all resident pods records
the failed node-info lookup. -/
theorem pods_with_affinity_counterexample :
    labelLib.GetAffinityFromPodAnnotations (appPod "new" "a" "").Annotations = .ok none ∧
      hasPodAffinityConstraints labelLib strayPod = false ∧
      CalculateInterPodAffinityPriority labelLib threeNodeScorer (appPod "new" "a" "")
        strayInfos threeNodes = .ok [⟨"m", 0⟩, ⟨"n", 0⟩, ⟨"p", 0⟩] ∧
      finish (processAllNodes labelLib threeNodeScorer (appPod "new" "a" "") none strayInfos
        threeNodes) threeNodes = .ok [⟨"m", 0⟩, ⟨"n", 0⟩, ⟨"p", 0⟩] ∧
      finish (processAllResidents labelLib threeNodeScorer (appPod "new" "a" "") none strayInfos
        threeNodes) threeNodes = .error "node not found: gone" :=
  ⟨rfl, rfl, by decide!, by decide!, by decide!⟩

/-- C10, amended: when the scored pod has neither affinity nor anti-affinity
constraints, processing only the pods with affinity of each node yields exactly
the counts of processing all resident pods, and every run of the former that
records an error is matched by an error of the latter.  When processing all
resident pods records no error, both give the same score list; and when the
node-info lookup and the annotation parse succeed for every resident pod
without affinity constraints, the two runs end in the same state, hence in the
same error or scores. -/
theorem pods_with_affinity_refinement {A : Type} (lib : Lib A) (ipa : InterPodAffinity)
    (pod : Pod A) (affinity : Option Affinity) (nodeNameToInfo : List (String × NodeInfo A))
    (nodes : List Node)
    (h1 : affinity.bind (·.PodAffinity) = none)
    (h2 : affinity.bind (·.PodAntiAffinity) = none) :
    (processAllNodes lib ipa pod affinity nodeNameToInfo nodes).counts
        = (processAllResidents lib ipa pod affinity nodeNameToInfo nodes).counts ∧
      ((processAllNodes lib ipa pod affinity nodeNameToInfo nodes).firstError.isSome = true →
        (processAllResidents lib ipa pod affinity nodeNameToInfo nodes).firstError.isSome
          = true) ∧
      ((processAllResidents lib ipa pod affinity nodeNameToInfo nodes).firstError = none →
        finish (processAllNodes lib ipa pod affinity nodeNameToInfo nodes) nodes
          = finish (processAllResidents lib ipa pod affinity nodeNameToInfo nodes) nodes) ∧
      ((∀ e ∈ allResidents nodeNameToInfo, hasPodAffinityConstraints lib e = false →
          (∃ node, ipa.info e.NodeName = .ok node) ∧
            ∃ a, lib.GetAffinityFromPodAnnotations e.Annotations = .ok a) →
        processAllNodes lib ipa pod affinity nodeNameToInfo nodes
          = processAllResidents lib ipa pod affinity nodeNameToInfo nodes) := by
  have hcounts : (processAllNodes lib ipa pod affinity nodeNameToInfo nodes).counts
      = (processAllResidents lib ipa pod affinity nodeNameToInfo nodes).counts := by
    funext name
    rw [processAllNodes_eq_runSteps, processAllResidents_eq_runSteps,
      (runSteps_spec lib _ _).2.2.2 name, (runSteps_spec lib _ _).2.2.2 name]
    unfold allSteps
    rw [scannedPods_of_no_constraints lib affinity h1 h2, addedWeights_flatMap,
      addedWeights_flatMap]
    congr 1
    apply flatMap_filter_of_nil
    intro e _ he
    rcases (podSteps_of_no_constraints lib ipa pod affinity h1 h2 e he).1 with h | ⟨err, h⟩
    · rw [h]; rfl
    · rw [h]; rfl
  have herr : (processAllNodes lib ipa pod affinity nodeNameToInfo nodes).firstError.isSome
        = true →
      (processAllResidents lib ipa pod affinity nodeNameToInfo nodes).firstError.isSome
        = true := by
    rw [processAllNodes_firstError, processAllResidents_eq_runSteps,
      (runSteps_spec lib _ _).2.2.1]
    simp only [newPodAffinityPriorityMap, Option.none_orElse, List.head?_isSome]
    unfold allSteps
    rw [scannedPods_of_no_constraints lib affinity h1 h2]
    intro hne
    obtain ⟨err, hmem⟩ := List.exists_mem_of_ne_nil _ hne
    rw [stepErrors_flatMap, List.mem_flatMap] at hmem
    obtain ⟨e, he, hin⟩ := hmem
    intro hnil
    have : err ∈ stepErrors ((allResidents nodeNameToInfo).flatMap
        (podSteps lib ipa pod affinity)) := by
      rw [stepErrors_flatMap, List.mem_flatMap]
      exact ⟨e, List.mem_of_mem_filter he, hin⟩
    rw [hnil] at this
    cases this
  refine ⟨hcounts, herr, fun hnone => ?_, fun hok => ?_⟩
  · have hnone2 : (processAllNodes lib ipa pod affinity nodeNameToInfo nodes).firstError
        = none := by
      cases hfe : (processAllNodes lib ipa pod affinity nodeNameToInfo nodes).firstError with
      | none => rfl
      | some e =>
        have := herr (by rw [hfe]; rfl)
        rw [hnone] at this
        cases this
    unfold finish
    rw [hnone, hnone2, hcounts]
  · rw [processAllNodes_eq_runSteps, processAllResidents_eq_runSteps]
    unfold allSteps
    rw [scannedPods_of_no_constraints lib affinity h1 h2]
    congr 1
    apply flatMap_filter_of_nil
    intro e he hc
    exact (podSteps_of_no_constraints lib ipa pod affinity h1 h2 e hc).2 (hok e he hc).1
      (hok e he hc).2

theorem pods_with_affinity_refinement_witness :
    ((none : Option Affinity).bind (·.PodAffinity) = none ∧
      (none : Option Affinity).bind (·.PodAntiAffinity) = none ∧
      ∀ e ∈ allResidents threeNodeInfos, hasPodAffinityConstraints labelLib e = false →
        (∃ node, threeNodeScorer.info e.NodeName = .ok node) ∧
          ∃ a, labelLib.GetAffinityFromPodAnnotations e.Annotations = .ok a) ∧
    processAllNodes labelLib threeNodeScorer (appPod "new" "a" "") none threeNodeInfos threeNodes
      = processAllResidents labelLib threeNodeScorer (appPod "new" "a" "") none threeNodeInfos
        threeNodes :=
  have hok : ∀ e ∈ allResidents threeNodeInfos, hasPodAffinityConstraints labelLib e = false →
      (∃ node, threeNodeScorer.info e.NodeName = .ok node) ∧
        ∃ a, labelLib.GetAffinityFromPodAnnotations e.Annotations = .ok a := by
    intro e he _
    have hall : allResidents threeNodeInfos
        = [appPod "m1" "a" "m", appPod "m2" "b" "m", appPod "p1" "a" "p", appPod "p2" "a" "p"] :=
      rfl
    rw [hall] at he
    simp only [List.mem_cons, List.mem_singleton, List.not_mem_nil, or_false] at he
    rcases he with rfl | rfl | rfl | rfl
    · exact ⟨⟨zoneNode "m" "z1", by decide⟩, ⟨none, rfl⟩⟩
    · exact ⟨⟨zoneNode "m" "z1", by decide⟩, ⟨none, rfl⟩⟩
    · exact ⟨⟨zoneNode "p" "z3", by decide⟩, ⟨none, rfl⟩⟩
    · exact ⟨⟨zoneNode "p" "z3", by decide⟩, ⟨none, rfl⟩⟩
  ⟨⟨rfl, rfl, hok⟩,
   (pods_with_affinity_refinement labelLib threeNodeScorer (appPod "new" "a" "") none
      threeNodeInfos threeNodes rfl rfl).2.2.2 hok⟩

end Priorities

/-!
SSH tunnel pool (`pkg/ssh/ssh.go`)

A shallow embedding of `SecureTunnelList`.

Modelling conventions

* A `tunnel` is an interface value compared by identity: a handle.
* The map `adding` is the list of its keys (every stored value is `true`).
* Each function body that runs under `tunnelsLock` is one atomic transition.
  A function returns the new list together with its effects in program order:
  entries discarded, `Close` calls, goroutines started.
* Goroutines, health checks and their interleavings are the transitions of
  `System`; the results of `newSSHTunnel`, `Open` and of the health check are
  part of the event that runs them.
* `time.Duration` is an `int64` count of nanoseconds; the wrap-around of the
  multiplication is explicit (`wrapInt64`); division by zero panics (`none`).
* `mathrand.Intn(n)` is a parameter returning an index below `n`.
-/

namespace Ssh

/-- A Go `error` value. -/
abbrev Error := String

/-- The interface `tunnel`: a handle, compared by identity. -/
abbrev tunnel := Nat

/-- A `net.Conn`: a handle. -/
abbrev Conn := Nat

/-- The type `sshTunnelEntry`. -/
structure sshTunnelEntry where
  Address : String
  Tunnel : tunnel
deriving DecidableEq, Repr

/-- The type `SecureTunnelList`: the fields read by the pool operations. -/
structure SecureTunnelList where
  entries : List sshTunnelEntry
  adding : List String
  user : String
deriving DecidableEq, Repr

/-- An effect of a pool operation, in program order. -/
inductive Effect where
  /-- An entry leaves `l.entries`. -/
  | discard (e : sshTunnelEntry)
  /-- A call of `Close` on a tunnel. -/
  | close (t : tunnel)
  /-- The statement `go l.createAndAddTunnel(addr)`. -/
  | goCreate (addr : String)
  /-- The goroutine of `Update` that calls `Close` on a tunnel. -/
  | goClose (t : tunnel)
deriving DecidableEq, Repr

/-- The pool made by `NewSecureTunnelList`. -/
def NewSecureTunnelList (user : String) : SecureTunnelList :=
  { entries := [], adding := [], user := user }

/-- The expression `strings.Split(addr, ":")[0]`: the text before the first
colon. -/
def hostOf (addr : String) : String :=
  String.mk (addr.data.takeWhile (fun c => c != ':'))

/-- The error of `pickTunnel` on an empty pool. -/
def noTunnelsError (user : String) : Error :=
  "No SSH tunnels currently open. Were the targets able to accept an ssh-key for user \""
    ++ user ++ "\"?"

/-- The method `pickTunnel`; `intn` is `mathrand.Intn`. -/
def pickTunnel (intn : (n : Nat) → 0 < n → Fin n) (l : SecureTunnelList) (addr : String) :
    Except Error tunnel :=
  if h : l.entries.length = 0 then
    .error (noTunnelsError l.user)
  else
    match l.entries.find? (fun entry => entry.Address == addr) with
    | some entry => .ok entry.Tunnel
    | none => .ok (l.entries.get (intn l.entries.length (Nat.pos_of_ne_zero h))).Tunnel

/-- The method `Dial`; `tunnelDial` is the `Dial` method of the tunnels. -/
def Dial (intn : (n : Nat) → 0 < n → Fin n)
    (tunnelDial : tunnel → String → String → Except Error Conn)
    (l : SecureTunnelList) (net addr : String) : Except Error Conn :=
  match pickTunnel intn l (hostOf addr) with
  | .error err => .error err
  | .ok t => tunnelDial t net addr

/-- The statement `l.adding[addr] = true`. -/
def setAdding (adding : List String) (addr : String) : List String :=
  if addr ∈ adding then adding else addr :: adding

/-- The statement `delete(l.adding, addr)`. -/
def deleteAdding (adding : List String) (addr : String) : List String :=
  adding.filter (fun a => a != addr)

/-- The first loop of `Update`: the new `adding` and the creation goroutines
started, in order. -/
def updateAdditions (haveAddrsMap : List String) (addrs : List String) (adding : List String) :
    List String × List String :=
  addrs.foldl
    (fun st addr =>
      if addr ∈ haveAddrsMap then st
      else if addr ∈ st.1 then st
      else (setAdding st.1 addr, st.2 ++ [addr]))
    (adding, [])

/-- The second loop of `Update`: `newEntries` and the entries dropped, in
order. -/
def updateDeletions (wantAddrsMap : List String) (entries : List sshTunnelEntry) :
    List sshTunnelEntry × List sshTunnelEntry :=
  entries.foldl
    (fun st entry =>
      if entry.Address ∈ wantAddrsMap then (st.1 ++ [entry], st.2)
      else (st.1, st.2 ++ [entry]))
    ([], [])

/-- The method `Update`: the new list and its effects.  The creation
goroutines start in the first loop, the closing goroutines in the second, and
`l.entries = newEntries` discards the dropped entries last. -/
def Update (l : SecureTunnelList) (addrs : List String) : SecureTunnelList × List Effect :=
  let haveAddrsMap := l.entries.map (·.Address)
  let additions := updateAdditions haveAddrsMap addrs l.adding
  let deletions := updateDeletions addrs l.entries
  ({ l with entries := deletions.1, adding := additions.1 },
    additions.2.map Effect.goCreate
      ++ deletions.2.map (fun e => Effect.goClose e.Tunnel)
      ++ deletions.2.map Effect.discard)

/-- The method `createAndAddTunnel`; `newTunnel` is the result of
`l.tunnelCreator.newSSHTunnel` and `opened` that of `tunnel.Open`. -/
def createAndAddTunnel (l : SecureTunnelList) (addr : String) (newTunnel : Except Error tunnel)
    (opened : Option Error) : SecureTunnelList :=
  match newTunnel with
  | .error _ => l
  | .ok t =>
    match opened with
    | some _ => { l with adding := deleteAdding l.adding addr }
    | none =>
      { l with
        entries := l.entries ++ [{ Address := addr, Tunnel := t }]
        adding := deleteAdding l.adding addr }

/-- The loop of `removeAndReAdd`: the entries without the first one whose
tunnel is `t`, and that entry if there is one. -/
def removeFirst (t : tunnel) : List sshTunnelEntry → List sshTunnelEntry × Option sshTunnelEntry
  | [] => ([], none)
  | entry :: rest =>
    if entry.Tunnel = t then (rest, some entry)
    else ((entry :: (removeFirst t rest).1), (removeFirst t rest).2)

/-- The method `removeAndReAdd`: the new list and its effects. -/
def removeAndReAdd (l : SecureTunnelList) (e : sshTunnelEntry) :
    SecureTunnelList × List Effect :=
  match removeFirst e.Tunnel l.entries with
  | (rest, some entry) =>
    ({ l with entries := rest, adding := setAdding l.adding e.Address },
      [Effect.discard entry, Effect.close e.Tunnel, Effect.goCreate e.Address])
  | (_, none) => (l, [Effect.close e.Tunnel, Effect.goCreate e.Address])

/-- The constant `healthCheckPoll`, 1 minute in nanoseconds. -/
def healthCheckPoll : Int := 60000000000

/-- Conversion to `int64`: wrap into `[-2^63, 2^63)`. -/
def wrapInt64 (x : Int) : Int :=
  (x + 9223372036854775808) % 18446744073709551616 - 9223372036854775808

/-- Division of two `time.Duration` values: it panics (`none`) on a zero
divisor and truncates toward zero. -/
def durationDiv (a b : Int) : Option Int :=
  if b = 0 then none else some (Int.tdiv a b)

/-- The delay `healthCheckPoll * time.Duration(i) / time.Duration(numTunnels)`. -/
def healthCheckDelay (i numTunnels : Nat) : Option Int :=
  durationDiv (wrapInt64 (healthCheckPoll * wrapInt64 i)) (wrapInt64 numTunnels)

/-- The loop of the periodic function of `NewSecureTunnelList`, from index
`i` on: the calls `l.delayedHealthCheck(entry, delay)` it makes, or `none` when
a division panics. -/
def healthCheckFrom (numTunnels : Nat) : Nat → List sshTunnelEntry →
    Option (List (sshTunnelEntry × Int))
  | _, [] => some []
  | i, entry :: rest =>
    (healthCheckDelay i numTunnels).bind (fun delay =>
      (healthCheckFrom numTunnels (i + 1) rest).map (fun calls => (entry, delay) :: calls))

/-- One health-check round: the delayed health checks started. -/
def healthCheckRound (l : SecureTunnelList) : Option (List (sshTunnelEntry × Int)) :=
  healthCheckFrom l.entries.length 0 l.entries

/-- The pool together with the goroutines that have started and not yet run. -/
structure System where
  pool : SecureTunnelList
  /-- Started `createAndAddTunnel` goroutines, by address. -/
  creating : List String
  /-- Started closing goroutines of `Update`, by tunnel. -/
  closing : List tunnel
  /-- Started delayed health checks, by entry. -/
  checks : List sshTunnelEntry
  /-- The pool effects so far, in order. -/
  log : List Effect
deriving DecidableEq, Repr

/-- The addresses of the creation goroutines among some effects. -/
def createsOf (effects : List Effect) : List String :=
  effects.filterMap (fun x => match x with
    | .goCreate addr => some addr
    | _ => none)

/-- The tunnels of the closing goroutines among some effects. -/
def closeTasksOf (effects : List Effect) : List tunnel :=
  effects.filterMap (fun x => match x with
    | .goClose t => some t
    | _ => none)

/-- The tunnels on which some effects call `Close`. -/
def closeCallsOf (effects : List Effect) : List tunnel :=
  effects.filterMap (fun x => match x with
    | .close t => some t
    | _ => none)

/-- The entries that some effects discard. -/
def discardsOf (effects : List Effect) : List sshTunnelEntry :=
  effects.filterMap (fun x => match x with
    | .discard e => some e
    | _ => none)

/-- What can happen next in the system. -/
inductive Event where
  /-- A call of `Update`. -/
  | update (addrs : List String)
  /-- A started `createAndAddTunnel(addr)` runs, with the given results of
  `newSSHTunnel` and `Open`. -/
  | create (addr : String) (newTunnel : Except Error tunnel) (opened : Option Error)
  /-- A started closing goroutine calls `Close`. -/
  | closeTask (t : tunnel)
  /-- The periodic function starts a delayed health check per entry. -/
  | round
  /-- A started health check of `e` succeeds. -/
  | checkPasses (e : sshTunnelEntry)
  /-- A started health check of `e` fails: `removeAndReAdd(e)`. -/
  | checkFails (e : sshTunnelEntry)

/-- The system after an operation with the given result. -/
def applyEffects (s : System) (r : SecureTunnelList × List Effect) : System :=
  { s with
    pool := r.1
    creating := s.creating ++ createsOf r.2
    closing := s.closing ++ closeTasksOf r.2
    log := s.log ++ r.2 }

/-- One transition; `none` when the event is not enabled. -/
def step (s : System) : Event → Option System
  | .update addrs => some (applyEffects s (Update s.pool addrs))
  | .create addr newTunnel opened =>
    if addr ∈ s.creating then
      some { s with
        pool := createAndAddTunnel s.pool addr newTunnel opened
        creating := s.creating.erase addr }
    else none
  | .closeTask t =>
    if t ∈ s.closing then
      some { s with closing := s.closing.erase t, log := s.log ++ [Effect.close t] }
    else none
  | .round =>
    match healthCheckRound s.pool with
    | some calls => some { s with checks := s.checks ++ calls.map (·.1) }
    | none => none
  | .checkPasses e =>
    if e ∈ s.checks then some { s with checks := s.checks.erase e } else none
  | .checkFails e =>
    if e ∈ s.checks then
      some (applyEffects { s with checks := s.checks.erase e } (removeAndReAdd s.pool e))
    else none

/-- A sequence of transitions. -/
def run (s : System) : List Event → Option System
  | [] => some s
  | ev :: rest =>
    match step s ev with
    | some s1 => run s1 rest
    | none => none

/-- The system around the empty pool. -/
def initial (user : String) : System :=
  { pool := NewSecureTunnelList user, creating := [], closing := [], checks := [], log := [] }

/-- All started closing goroutines run. -/
def drainClosing (s : System) : System :=
  { s with closing := [], log := s.log ++ s.closing.map Effect.close }

/-! ## Concrete pools -/

/-- An `Intn` that returns the last index. -/
def lastIndex : (n : Nat) → 0 < n → Fin n := fun n h => ⟨n - 1, Nat.sub_lt h Nat.one_pos⟩

/-- An `Intn` that returns the first index. -/
def firstIndex : (n : Nat) → 0 < n → Fin n := fun _ h => ⟨0, h⟩

/-- Tunnels whose `Dial` fails, as that of an `sshTunnel` without client. -/
def brokenDial : tunnel → String → String → Except Error Conn :=
  fun _ _ _ => .error "tunnel has not been opened"

/-- Tunnels whose `Dial` returns a connection named after the tunnel. -/
def viaDial : tunnel → String → String → Except Error Conn :=
  fun t _ _ => .ok t

/-- A pool with tunnels 1 and 2 registered under `a:1` and `b:2`. -/
def portPool : SecureTunnelList :=
  { entries := [{ Address := "a:1", Tunnel := 1 }, { Address := "b:2", Tunnel := 2 }],
    adding := [], user := "core" }

/-- A pool with tunnels 1 and 2 registered under the hosts `a` and `b`. -/
def hostPool : SecureTunnelList :=
  { entries := [{ Address := "a", Tunnel := 1 }, { Address := "b", Tunnel := 2 }],
    adding := [], user := "core" }

/-- A history in which the health check of a removed entry fails late: the
tunnel 1 for `a` is opened and its health check starts; `a` is withdrawn and
listed again, and tunnel 2 is opened; the pending check of tunnel 1, which has
been closed, then fails, and the creation it starts opens tunnel 3. -/
def staleCheckHistory : List Event :=
  [Event.update ["a"],
   Event.create "a" (.ok 1) none,
   Event.round,
   Event.update [],
   Event.closeTask 1,
   Event.update ["a"],
   Event.create "a" (.ok 2) none,
   Event.checkFails { Address := "a", Tunnel := 1 },
   Event.create "a" (.ok 3) none]

/-- The call `Update(["a:1", "b:2"])`. -/
def updateBoth : Event := Event.update ["a:1", "b:2"]

/-- The call `Update(["a:1"])`. -/
def updateFirst : Event := Event.update ["a:1"]

/-- The creation goroutine for `a:1` runs and opens tunnel `t`. -/
def createdFirst (t : tunnel) : Event := Event.create "a:1" (.ok t) none

/-- The creation goroutine for `b:2` runs and opens tunnel `t`. -/
def createdSecond (t : tunnel) : Event := Event.create "b:2" (.ok t) none

/-! ## Picking a tunnel -/

theorem pickTunnel_of_nil (intn : (n : Nat) → 0 < n → Fin n) (l : SecureTunnelList)
    (addr : String) (h : l.entries = []) :
    pickTunnel intn l addr = .error (noTunnelsError l.user) := by
  unfold pickTunnel
  rw [dif_pos (by rw [h]; rfl)]

theorem pickTunnel_of_ne_nil (intn : (n : Nat) → 0 < n → Fin n) (l : SecureTunnelList)
    (addr : String) (h : l.entries ≠ []) :
    ∃ e ∈ l.entries, pickTunnel intn l addr = .ok e.Tunnel := by
  unfold pickTunnel
  have hlen : ¬ l.entries.length = 0 := fun h0 => h (List.length_eq_zero.mp h0)
  rw [dif_neg hlen]
  cases hf : l.entries.find? (fun entry => entry.Address == addr) with
  | some entry => exact ⟨entry, List.mem_of_find?_eq_some hf, rfl⟩
  | none => exact ⟨_, List.get_mem _ _ _, rfl⟩

theorem find?_first {β : Type} (p : β → Bool) (l : List β) (e : β) (h : l.find? p = some e) :
    ∃ pre post, l = pre ++ e :: post ∧ p e = true ∧ ∀ x ∈ pre, p x = false := by
  induction l with
  | nil => simp at h
  | cons x xs ih =>
    rw [List.find?_cons] at h
    cases hp : p x with
    | true =>
      rw [hp] at h
      cases h
      exact ⟨[], xs, rfl, hp, fun y hy => by cases hy⟩
    | false =>
      rw [hp] at h
      obtain ⟨pre, post, h1, h2, h3⟩ := ih h
      refine ⟨x :: pre, post, by rw [h1]; rfl, h2, fun y hy => ?_⟩
      rcases List.mem_cons.mp hy with rfl | hy
      · exact hp
      · exact h3 y hy

/-- C11, as stated, fails for `Dial`: on a pool with two entries whose tunnels
cannot dial, `Dial` returns an error although the list is not empty. -/
theorem dial_error_counterexample :
    hostPool.entries ≠ [] ∧
      Dial firstIndex brokenDial hostPool "tcp" "a:443" = .error "tunnel has not been opened" :=
  ⟨by decide, by decide⟩

/-- C11, amended: `pickTunnel` returns an error if and only if the entries
list is empty, and on a non-empty list it returns the tunnel of some current
entry; `Dial` returns that error on an empty list, and on a non-empty list it
returns whatever the `Dial` of the tunnel of some current entry returns, which
may be an error. -/
theorem pickTunnel_error_iff (intn : (n : Nat) → 0 < n → Fin n)
    (tunnelDial : tunnel → String → String → Except Error Conn) (l : SecureTunnelList) :
    (∀ addr, (∃ err, pickTunnel intn l addr = .error err) ↔ l.entries = []) ∧
      (l.entries ≠ [] → ∀ addr, ∃ e ∈ l.entries, pickTunnel intn l addr = .ok e.Tunnel) ∧
      (l.entries = [] → ∀ net addr,
        Dial intn tunnelDial l net addr = .error (noTunnelsError l.user)) ∧
      (l.entries ≠ [] → ∀ net addr, ∃ e ∈ l.entries,
        Dial intn tunnelDial l net addr = tunnelDial e.Tunnel net addr) := by
  refine ⟨fun addr => ⟨?_, fun h => ⟨_, pickTunnel_of_nil intn l addr h⟩⟩,
    fun h addr => pickTunnel_of_ne_nil intn l addr h, fun h net addr => ?_,
    fun h net addr => ?_⟩
  · rintro ⟨err, herr⟩
    by_contra hne
    obtain ⟨e, -, he⟩ := pickTunnel_of_ne_nil intn l addr hne
    rw [he] at herr
    cases herr
  · unfold Dial
    rw [pickTunnel_of_nil intn l (hostOf addr) h]
  · obtain ⟨e, hmem, he⟩ := pickTunnel_of_ne_nil intn l (hostOf addr) h
    refine ⟨e, hmem, ?_⟩
    unfold Dial
    rw [he]

theorem pickTunnel_error_iff_witness :
    hostPool.entries ≠ [] ∧
      ∀ addr, ∃ e ∈ hostPool.entries, pickTunnel lastIndex hostPool addr = .ok e.Tunnel :=
  ⟨by decide, (pickTunnel_error_iff lastIndex viaDial hostPool).2.1 (by decide)⟩

/-- C12, as stated, fails for entries registered with `host:port` addresses:
with entries for `a:1` and `b:2`, `Dial` to `a:1` takes the host `a`, finds no
entry whose `Address` equals it, and falls back to a random entry, here the
tunnel of `b:2`. -/
theorem dial_host_port_counterexample :
    hostOf "a:1" = "a" ∧
      (∃ e ∈ portPool.entries, hostOf e.Address = hostOf "a:1") ∧
      pickTunnel lastIndex portPool (hostOf "a:1") = .ok 2 ∧
      Dial lastIndex viaDial portPool "tcp" "a:1" = .ok 2 :=
  ⟨by decide, ⟨{ Address := "a:1", Tunnel := 1 }, by decide, by decide⟩, by decide, by decide⟩

/-- C12, amended: if the `Address` of some live entry equals the host of the
dial address (the text before its first colon), then `Dial` uses the tunnel of
the first such entry, whatever `Intn` would return; an entry whose `Address`
contains a colon is never matched. -/
theorem dial_prefers_matching_entry (intn : (n : Nat) → 0 < n → Fin n)
    (tunnelDial : tunnel → String → String → Except Error Conn) (l : SecureTunnelList)
    (net addr : String) (h : ∃ e ∈ l.entries, e.Address = hostOf addr) :
    (∃ pre e post, l.entries = pre ++ e :: post ∧ e.Address = hostOf addr ∧
        (∀ x ∈ pre, x.Address ≠ hostOf addr) ∧
        pickTunnel intn l (hostOf addr) = .ok e.Tunnel ∧
        Dial intn tunnelDial l net addr = tunnelDial e.Tunnel net addr) ∧
      ∀ x ∈ l.entries, ':' ∈ x.Address.data → x.Address ≠ hostOf addr := by
  constructor
  · obtain ⟨e0, hmem, he0⟩ := h
    have hlen : ¬ l.entries.length = 0 := fun h0 => by
      rw [List.length_eq_zero.mp h0] at hmem
      cases hmem
    cases hf : l.entries.find? (fun entry => entry.Address == hostOf addr) with
    | none =>
      rw [List.find?_eq_none] at hf
      have := hf e0 hmem
      simp [he0] at this
    | some e =>
      obtain ⟨pre, post, h1, h2, h3⟩ := find?_first _ l.entries e hf
      have hpick : pickTunnel intn l (hostOf addr) = .ok e.Tunnel := by
        unfold pickTunnel
        rw [dif_neg hlen, hf]
      refine ⟨pre, e, post, h1, by simpa using h2, fun x hx => by simpa using h3 x hx, hpick, ?_⟩
      unfold Dial
      rw [hpick]
  · intro x _ hcolon heq
    rw [heq] at hcolon
    unfold hostOf at hcolon
    have := List.mem_takeWhile_imp hcolon
    simp at this

theorem dial_prefers_matching_entry_witness :
    (∃ e ∈ hostPool.entries, e.Address = hostOf "a:443") ∧
      ∃ pre e post, hostPool.entries = pre ++ e :: post ∧ e.Address = hostOf "a:443" ∧
        (∀ x ∈ pre, x.Address ≠ hostOf "a:443") ∧
        pickTunnel lastIndex hostPool (hostOf "a:443") = .ok e.Tunnel ∧
        Dial lastIndex viaDial hostPool "tcp" "a:443" = viaDial e.Tunnel "tcp" "a:443" :=
  ⟨⟨{ Address := "a", Tunnel := 1 }, by decide, by decide⟩,
   (dial_prefers_matching_entry lastIndex viaDial hostPool "tcp" "a:443"
      ⟨{ Address := "a", Tunnel := 1 }, by decide, by decide⟩).1⟩

/-! ## The effects of `Update` -/

theorem createsOf_append (xs ys : List Effect) :
    createsOf (xs ++ ys) = createsOf xs ++ createsOf ys := by
  simp [createsOf, List.filterMap_append]

theorem closeTasksOf_append (xs ys : List Effect) :
    closeTasksOf (xs ++ ys) = closeTasksOf xs ++ closeTasksOf ys := by
  simp [closeTasksOf, List.filterMap_append]

theorem closeCallsOf_append (xs ys : List Effect) :
    closeCallsOf (xs ++ ys) = closeCallsOf xs ++ closeCallsOf ys := by
  simp [closeCallsOf, List.filterMap_append]

theorem discardsOf_append (xs ys : List Effect) :
    discardsOf (xs ++ ys) = discardsOf xs ++ discardsOf ys := by
  simp [discardsOf, List.filterMap_append]

theorem effects_of_goCreate (addrs : List String) :
    createsOf (addrs.map Effect.goCreate) = addrs ∧
      closeTasksOf (addrs.map Effect.goCreate) = [] ∧
      closeCallsOf (addrs.map Effect.goCreate) = [] ∧
      discardsOf (addrs.map Effect.goCreate) = [] := by
  induction addrs with
  | nil => exact ⟨rfl, rfl, rfl, rfl⟩
  | cons a l ih =>
    obtain ⟨h1, h2, h3, h4⟩ := ih
    refine ⟨?_, ?_, ?_, ?_⟩
    · simpa [createsOf] using h1
    · simp [closeTasksOf]
    · simp [closeCallsOf]
    · simp [discardsOf]

theorem effects_of_goClose (es : List sshTunnelEntry) :
    createsOf (es.map (fun e => Effect.goClose e.Tunnel)) = [] ∧
      closeTasksOf (es.map (fun e => Effect.goClose e.Tunnel)) = es.map (·.Tunnel) ∧
      closeCallsOf (es.map (fun e => Effect.goClose e.Tunnel)) = [] ∧
      discardsOf (es.map (fun e => Effect.goClose e.Tunnel)) = [] := by
  induction es with
  | nil => exact ⟨rfl, rfl, rfl, rfl⟩
  | cons a l ih =>
    obtain ⟨h1, h2, h3, h4⟩ := ih
    refine ⟨?_, ?_, ?_, ?_⟩
    · simp [createsOf]
    · simpa [closeTasksOf] using h2
    · simp [closeCallsOf]
    · simp [discardsOf]

theorem effects_of_discard (es : List sshTunnelEntry) :
    createsOf (es.map Effect.discard) = [] ∧
      closeTasksOf (es.map Effect.discard) = [] ∧
      closeCallsOf (es.map Effect.discard) = [] ∧
      discardsOf (es.map Effect.discard) = es := by
  induction es with
  | nil => exact ⟨rfl, rfl, rfl, rfl⟩
  | cons a l ih =>
    obtain ⟨h1, h2, h3, h4⟩ := ih
    refine ⟨?_, ?_, ?_, ?_⟩
    · simp [createsOf]
    · simp [closeTasksOf]
    · simp [closeCallsOf]
    · simpa [discardsOf] using h4

theorem updateDeletions_foldl (wantAddrsMap : List String) (entries : List sshTunnelEntry)
    (kept dropped : List sshTunnelEntry) :
    entries.foldl
        (fun st entry =>
          if entry.Address ∈ wantAddrsMap then (st.1 ++ [entry], st.2)
          else (st.1, st.2 ++ [entry]))
        (kept, dropped)
      = (kept ++ entries.filter (fun e => decide (e.Address ∈ wantAddrsMap)),
         dropped ++ entries.filter (fun e => decide (e.Address ∉ wantAddrsMap))) := by
  induction entries generalizing kept dropped with
  | nil => simp
  | cons e es ih =>
    rw [List.foldl_cons]
    by_cases h : e.Address ∈ wantAddrsMap
    · rw [if_pos h, ih]
      simp [List.filter_cons, h]
    · rw [if_neg h, ih]
      simp [List.filter_cons, h]

theorem updateDeletions_eq (wantAddrsMap : List String) (entries : List sshTunnelEntry) :
    updateDeletions wantAddrsMap entries
      = (entries.filter (fun e => decide (e.Address ∈ wantAddrsMap)),
         entries.filter (fun e => decide (e.Address ∉ wantAddrsMap))) := by
  unfold updateDeletions
  rw [updateDeletions_foldl]
  simp

theorem updateAdditions_foldl (haveAddrsMap addrs adding spawned : List String)
    (hsub : ∀ a ∈ spawned, a ∈ adding) (hnd : spawned.Nodup) :
    (∀ a, a ∈ (addrs.foldl
          (fun st addr =>
            if addr ∈ haveAddrsMap then st
            else if addr ∈ st.1 then st
            else (setAdding st.1 addr, st.2 ++ [addr]))
          (adding, spawned)).1 ↔ a ∈ adding ∨ (a ∈ addrs ∧ a ∉ haveAddrsMap)) ∧
      (∀ a, a ∈ (addrs.foldl
          (fun st addr =>
            if addr ∈ haveAddrsMap then st
            else if addr ∈ st.1 then st
            else (setAdding st.1 addr, st.2 ++ [addr]))
          (adding, spawned)).2 ↔
        a ∈ spawned ∨ (a ∈ addrs ∧ a ∉ haveAddrsMap ∧ a ∉ adding)) ∧
      (addrs.foldl
          (fun st addr =>
            if addr ∈ haveAddrsMap then st
            else if addr ∈ st.1 then st
            else (setAdding st.1 addr, st.2 ++ [addr]))
          (adding, spawned)).2.Nodup := by
  induction addrs generalizing adding spawned with
  | nil => simp [hnd]
  | cons addr rest ih =>
    rw [List.foldl_cons]
    by_cases h1 : addr ∈ haveAddrsMap
    · rw [if_pos h1]
      obtain ⟨i1, i2, i3⟩ := ih adding spawned hsub hnd
      refine ⟨fun a => ?_, fun a => ?_, i3⟩
      · rw [i1 a, List.mem_cons]
        constructor
        · rintro (h | ⟨h, hb⟩)
          · exact Or.inl h
          · exact Or.inr ⟨Or.inr h, hb⟩
        · rintro (h | ⟨h | h, hb⟩)
          · exact Or.inl h
          · exact absurd (h ▸ h1) hb
          · exact Or.inr ⟨h, hb⟩
      · rw [i2 a, List.mem_cons]
        constructor
        · rintro (h | ⟨h, hb, hc⟩)
          · exact Or.inl h
          · exact Or.inr ⟨Or.inr h, hb, hc⟩
        · rintro (h | ⟨h | h, hb, hc⟩)
          · exact Or.inl h
          · exact absurd (h ▸ h1) hb
          · exact Or.inr ⟨h, hb, hc⟩
    · rw [if_neg h1]
      by_cases h2 : addr ∈ adding
      · rw [if_pos h2]
        obtain ⟨i1, i2, i3⟩ := ih adding spawned hsub hnd
        refine ⟨fun a => ?_, fun a => ?_, i3⟩
        · rw [i1 a, List.mem_cons]
          constructor
          · rintro (h | ⟨h, hb⟩)
            · exact Or.inl h
            · exact Or.inr ⟨Or.inr h, hb⟩
          · rintro (h | ⟨h | h, hb⟩)
            · exact Or.inl h
            · exact Or.inl (h ▸ h2)
            · exact Or.inr ⟨h, hb⟩
        · rw [i2 a, List.mem_cons]
          constructor
          · rintro (h | ⟨h, hb, hc⟩)
            · exact Or.inl h
            · exact Or.inr ⟨Or.inr h, hb, hc⟩
          · rintro (h | ⟨h | h, hb, hc⟩)
            · exact Or.inl h
            · exact absurd (h ▸ h2) hc
            · exact Or.inr ⟨h, hb, hc⟩
      · rw [if_neg h2]
        have hs : setAdding adding addr = addr :: adding := by
          unfold setAdding
          rw [if_neg h2]
        rw [hs]
        have hsub2 : ∀ a ∈ spawned ++ [addr], a ∈ addr :: adding := by
          intro a ha
          rcases List.mem_append.mp ha with h | h
          · exact List.mem_cons_of_mem _ (hsub a h)
          · rw [List.mem_singleton.mp h]
            exact List.mem_cons_self _ _
        have hnd2 : (spawned ++ [addr]).Nodup := by
          rw [List.nodup_append]
          refine ⟨hnd, List.nodup_singleton _, ?_⟩
          intro a ha hb
          rw [List.mem_singleton.mp hb] at ha
          exact h2 (hsub _ ha)
        obtain ⟨i1, i2, i3⟩ := ih (addr :: adding) (spawned ++ [addr]) hsub2 hnd2
        refine ⟨fun a => ?_, fun a => ?_, i3⟩
        · rw [i1 a]
          simp only [List.mem_cons]
          constructor
          · rintro ((h | h) | ⟨h, hb⟩)
            · exact Or.inr ⟨Or.inl h, h ▸ h1⟩
            · exact Or.inl h
            · exact Or.inr ⟨Or.inr h, hb⟩
          · rintro (h | ⟨h | h, hb⟩)
            · exact Or.inl (Or.inr h)
            · exact Or.inl (Or.inl h)
            · exact Or.inr ⟨h, hb⟩
        · rw [i2 a]
          simp only [List.mem_append, List.mem_singleton, List.mem_cons, List.not_mem_nil, or_false,
            not_or]
          constructor
          · rintro ((h | h) | ⟨h, hb, hc, hd⟩)
            · exact Or.inl h
            · exact Or.inr ⟨Or.inl h, h ▸ h1, h ▸ h2⟩
            · exact Or.inr ⟨Or.inr h, hb, hd⟩
          · rintro (h | ⟨h | h, hb, hc⟩)
            · exact Or.inl (Or.inl h)
            · exact Or.inl (Or.inr h)
            · by_cases hq : a = addr
              · exact Or.inl (Or.inr hq)
              · exact Or.inr ⟨h, hb, hq, hc⟩

theorem updateAdditions_spec (haveAddrsMap addrs adding : List String) :
    (∀ a, a ∈ (updateAdditions haveAddrsMap addrs adding).1 ↔
        a ∈ adding ∨ (a ∈ addrs ∧ a ∉ haveAddrsMap)) ∧
      (∀ a, a ∈ (updateAdditions haveAddrsMap addrs adding).2 ↔
        a ∈ addrs ∧ a ∉ haveAddrsMap ∧ a ∉ adding) ∧
      (updateAdditions haveAddrsMap addrs adding).2.Nodup := by
  obtain ⟨h1, h2, h3⟩ := updateAdditions_foldl haveAddrsMap addrs adding []
    (fun a ha => by cases ha) List.nodup_nil
  refine ⟨h1, fun a => ?_, h3⟩
  have := h2 a
  simp only [List.not_mem_nil, false_or] at this
  exact this

theorem update_effects (l : SecureTunnelList) (addrs : List String) :
    createsOf (Update l addrs).2
        = (updateAdditions (l.entries.map (·.Address)) addrs l.adding).2 ∧
      closeTasksOf (Update l addrs).2
        = (l.entries.filter (fun e => decide (e.Address ∉ addrs))).map (·.Tunnel) ∧
      closeCallsOf (Update l addrs).2 = [] ∧
      discardsOf (Update l addrs).2
        = l.entries.filter (fun e => decide (e.Address ∉ addrs)) := by
  unfold Update
  simp only [updateDeletions_eq]
  obtain ⟨a1, a2, a3, a4⟩ := effects_of_goCreate
    (updateAdditions (l.entries.map (·.Address)) addrs l.adding).2
  obtain ⟨b1, b2, b3, b4⟩ := effects_of_goClose
    (l.entries.filter (fun e => decide (e.Address ∉ addrs)))
  obtain ⟨c1, c2, c3, c4⟩ := effects_of_discard
    (l.entries.filter (fun e => decide (e.Address ∉ addrs)))
  refine ⟨?_, ?_, ?_, ?_⟩
  · rw [createsOf_append, createsOf_append, a1, b1, c1]
    simp
  · rw [closeTasksOf_append, closeTasksOf_append, a2, b2, c2]
    simp
  · rw [closeCallsOf_append, closeCallsOf_append, a3, b3, c3]
    simp
  · rw [discardsOf_append, discardsOf_append, a4, b4, c4]
    simp

/-- The entries and effects of `Update`, in closed form. -/
theorem update_result (l : SecureTunnelList) (addrs : List String) :
    (Update l addrs).1.entries = l.entries.filter (fun e => decide (e.Address ∈ addrs)) ∧
      discardsOf (Update l addrs).2 = l.entries.filter (fun e => decide (e.Address ∉ addrs)) ∧
      closeTasksOf (Update l addrs).2
        = (l.entries.filter (fun e => decide (e.Address ∉ addrs))).map (·.Tunnel) ∧
      closeCallsOf (Update l addrs).2 = [] := by
  obtain ⟨-, h2, h3, h4⟩ := update_effects l addrs
  refine ⟨?_, h4, h2, h3⟩
  unfold Update
  simp only [updateDeletions_eq]

/-- C13: when `Update(addrs)` returns, the entries list is the sub-list of the
previous entries whose `Address` occurs in `addrs`, in their previous order;
the entries discarded are the previous entries whose `Address` does not occur
in `addrs`, a closing goroutine is started for the tunnel of each of them and
for no other, and `Update` itself calls no `Close`. -/
theorem update_entries (l : SecureTunnelList) (addrs : List String) :
    (Update l addrs).1.entries = l.entries.filter (fun e => decide (e.Address ∈ addrs)) ∧
      discardsOf (Update l addrs).2 = l.entries.filter (fun e => decide (e.Address ∉ addrs)) ∧
      closeTasksOf (Update l addrs).2
        = (l.entries.filter (fun e => decide (e.Address ∉ addrs))).map (·.Tunnel) ∧
      closeCallsOf (Update l addrs).2 = [] :=
  update_result l addrs

/-- The creation goroutines that `Update` starts, and `adding` afterwards. -/
theorem update_started (l : SecureTunnelList) (addrs : List String) :
    (createsOf (Update l addrs).2).Nodup ∧
      (∀ a, a ∈ createsOf (Update l addrs).2 ↔
        a ∈ addrs ∧ a ∉ l.entries.map (·.Address) ∧ a ∉ l.adding) ∧
      (∀ a, a ∈ (Update l addrs).1.adding ↔
        a ∈ l.adding ∨ a ∈ createsOf (Update l addrs).2) := by
  obtain ⟨h1, -, -, -⟩ := update_effects l addrs
  obtain ⟨s1, s2, s3⟩ := updateAdditions_spec (l.entries.map (·.Address)) addrs l.adding
  rw [h1]
  refine ⟨s3, s2, fun a => ?_⟩
  have hadd : (Update l addrs).1.adding
      = (updateAdditions (l.entries.map (·.Address)) addrs l.adding).1 := rfl
  rw [hadd, s1 a, s2 a]
  constructor
  · rintro (h | ⟨h, hb⟩)
    · exact Or.inl h
    · by_cases hc : a ∈ l.adding
      · exact Or.inl hc
      · exact Or.inr ⟨h, hb, hc⟩
  · rintro (h | ⟨h, hb, -⟩)
    · exact Or.inl h
    · exact Or.inr ⟨h, hb⟩

/-- C14: `Update(addrs)` starts exactly one creation goroutine for each
distinct address of `addrs` that is neither the address of a current entry nor
in `adding`, starts none for any other address, and the addresses in `adding`
afterwards are those that were in it before and those for which a creation
goroutine was started. -/
theorem update_creations (l : SecureTunnelList) (addrs : List String) :
    (createsOf (Update l addrs).2).Nodup ∧
      (∀ a, a ∈ createsOf (Update l addrs).2 ↔
        a ∈ addrs ∧ a ∉ l.entries.map (·.Address) ∧ a ∉ l.adding) ∧
      (∀ a, a ∈ (Update l addrs).1.adding ↔
        a ∈ l.adding ∨ a ∈ createsOf (Update l addrs).2) :=
  update_started l addrs

/-! ## Creation and health-check failure -/

theorem mem_deleteAdding (adding : List String) (addr a : String) :
    a ∈ deleteAdding adding addr ↔ a ∈ adding ∧ a ≠ addr := by
  unfold deleteAdding
  simp

/-- C17, as stated, fails when an entry for the address exists: after the
events of `staleCheckHistory` but the last, the list holds tunnel 2 for `a`
and a creation for `a` is pending; its `Open` fails, the entries are unchanged
and `a` is not in `adding`, and yet the next `Update(["a"])` starts no creation
goroutine. -/
theorem open_failure_no_retry_counterexample :
    ∃ s1 s2, run (initial "core") staleCheckHistory.dropLast = some s1 ∧
      step s1 (Event.create "a" (.ok 3) (some "connection refused")) = some s2 ∧
      s2.pool.entries = s1.pool.entries ∧
      s2.pool.entries = [{ Address := "a", Tunnel := 2 }] ∧
      "a" ∉ s2.pool.adding ∧
      createsOf (Update s2.pool ["a"]).2 = [] :=
  ⟨{ pool := { entries := [{ Address := "a", Tunnel := 2 }], adding := [], user := "core" },
      creating := ["a"], closing := [], checks := [],
      log := [Effect.goCreate "a", Effect.goClose 1, Effect.discard { Address := "a", Tunnel := 1 },
        Effect.close 1, Effect.goCreate "a", Effect.close 1, Effect.goCreate "a"] },
   { pool := { entries := [{ Address := "a", Tunnel := 2 }], adding := [], user := "core" },
      creating := [], closing := [], checks := [],
      log := [Effect.goCreate "a", Effect.goClose 1, Effect.discard { Address := "a", Tunnel := 1 },
        Effect.close 1, Effect.goCreate "a", Effect.close 1, Effect.goCreate "a"] },
   by decide, by decide, rfl, rfl, by decide, by decide⟩

/-- C17, amended: if `Open` fails inside `createAndAddTunnel(addr)`, then
afterwards `addr` is not in `adding`, the other addresses of `adding` and the
entries list are unchanged, and an `Update` of the resulting pool that lists
`addr` starts exactly one creation goroutine for it, provided no entry has
that address. -/
theorem open_failure_allows_retry (l : SecureTunnelList) (addr : String) (t : tunnel)
    (err : Error) (addrs : List String) (hin : addr ∈ addrs)
    (hno : addr ∉ l.entries.map (·.Address)) :
    addr ∉ (createAndAddTunnel l addr (.ok t) (some err)).adding ∧
      (∀ a, a ≠ addr →
        (a ∈ (createAndAddTunnel l addr (.ok t) (some err)).adding ↔ a ∈ l.adding)) ∧
      (createAndAddTunnel l addr (.ok t) (some err)).entries = l.entries ∧
      (createsOf (Update (createAndAddTunnel l addr (.ok t) (some err)) addrs).2).count addr
        = 1 := by
  have hadd : (createAndAddTunnel l addr (.ok t) (some err)).adding
      = deleteAdding l.adding addr := rfl
  have hent : (createAndAddTunnel l addr (.ok t) (some err)).entries = l.entries := rfl
  have hnot : addr ∉ (createAndAddTunnel l addr (.ok t) (some err)).adding := by
    rw [hadd, mem_deleteAdding]
    exact fun h => h.2 rfl
  refine ⟨hnot, fun a ha => ?_, hent, ?_⟩
  · rw [hadd, mem_deleteAdding]
    exact ⟨fun h => h.1, fun h => ⟨h, ha⟩⟩
  · obtain ⟨hnd, hmem, -⟩ :=
      update_started (createAndAddTunnel l addr (.ok t) (some err)) addrs
    apply List.count_eq_one_of_mem hnd
    rw [hmem, hent]
    exact ⟨hin, hno, hnot⟩

theorem open_failure_allows_retry_witness :
    ("a" ∈ ["a", "b"] ∧
      "a" ∉ ({ entries := [{ Address := "b", Tunnel := 2 }], adding := ["a"], user := "core" }
        : SecureTunnelList).entries.map (·.Address)) ∧
    "a" ∉ (createAndAddTunnel
        { entries := [{ Address := "b", Tunnel := 2 }], adding := ["a"], user := "core" }
        "a" (.ok 1) (some "connection refused")).adding ∧
      (createsOf (Update (createAndAddTunnel
          { entries := [{ Address := "b", Tunnel := 2 }], adding := ["a"], user := "core" }
          "a" (.ok 1) (some "connection refused")) ["a", "b"]).2).count "a" = 1 :=
  ⟨⟨by decide, by decide⟩,
   (open_failure_allows_retry
      { entries := [{ Address := "b", Tunnel := 2 }], adding := ["a"], user := "core" }
      "a" 1 "connection refused" ["a", "b"] (by decide) (by decide)).1,
   (open_failure_allows_retry
      { entries := [{ Address := "b", Tunnel := 2 }], adding := ["a"], user := "core" }
      "a" 1 "connection refused" ["a", "b"] (by decide) (by decide)).2.2.2⟩

theorem removeFirst_spec (t : tunnel) (entries : List sshTunnelEntry) :
    (removeFirst t entries).1.filter (fun x => decide (x.Tunnel ≠ t))
        = entries.filter (fun x => decide (x.Tunnel ≠ t)) ∧
      (removeFirst t entries).1.Sublist entries ∧
      entries.length
        = (removeFirst t entries).1.length + (if (removeFirst t entries).2.isSome then 1 else 0) ∧
      (∀ x, (removeFirst t entries).2 = some x → x.Tunnel = t ∧ x ∈ entries) ∧
      ((removeFirst t entries).2 = none → (removeFirst t entries).1 = entries) := by
  induction entries with
  | nil => simp [removeFirst]
  | cons e es ih =>
    obtain ⟨i1, i2, i3, i4, i5⟩ := ih
    unfold removeFirst
    by_cases h : e.Tunnel = t
    · simp only [h, if_true]
      refine ⟨?_, List.sublist_cons_self _ _, ?_, ?_, ?_⟩
      · simp [List.filter_cons, h]
      · simp
      · intro x hx
        cases hx
        exact ⟨h, List.mem_cons_self _ _⟩
      · intro hx
        cases hx
    · simp only [h, if_false]
      refine ⟨?_, i2.cons₂ _, ?_, ?_, ?_⟩
      · rw [List.filter_cons, List.filter_cons, i1]
      · simp only [List.length_cons]
        omega
      · intro x hx
        exact ⟨(i4 x hx).1, List.mem_cons_of_mem _ (i4 x hx).2⟩
      · intro hx
        rw [i5 hx]

/-- The effects of `removeAndReAdd`: the discard of the entry found, if any,
then the `Close` call and the creation goroutine. -/
theorem removeAndReAdd_effects (l : SecureTunnelList) (e : sshTunnelEntry) :
    (removeAndReAdd l e).1.entries = (removeFirst e.Tunnel l.entries).1 ∧
      (removeAndReAdd l e).2
        = ((removeFirst e.Tunnel l.entries).2.toList.map Effect.discard)
          ++ [Effect.close e.Tunnel, Effect.goCreate e.Address] := by
  unfold removeAndReAdd
  have h5 := (removeFirst_spec e.Tunnel l.entries).2.2.2.2
  generalize removeFirst e.Tunnel l.entries = r at h5
  obtain ⟨rest, found⟩ := r
  cases found with
  | some x => exact ⟨rfl, rfl⟩
  | none => exact ⟨(h5 rfl).symm, rfl⟩

/-- C18: `removeAndReAdd(e)` removes at most one entry, and only one whose
tunnel is `e.Tunnel`; the entries with another tunnel stay, unchanged and in
the same order; it calls `Close` once, on `e.Tunnel`, starts no closing
goroutine, and starts exactly one creation goroutine, for `e.Address`. -/
theorem removeAndReAdd_frame (l : SecureTunnelList) (e : sshTunnelEntry) :
    (removeAndReAdd l e).1.entries.filter (fun x => decide (x.Tunnel ≠ e.Tunnel))
        = l.entries.filter (fun x => decide (x.Tunnel ≠ e.Tunnel)) ∧
      (removeAndReAdd l e).1.entries.Sublist l.entries ∧
      l.entries.length ≤ (removeAndReAdd l e).1.entries.length + 1 ∧
      l.entries.length
        = (removeAndReAdd l e).1.entries.length + (discardsOf (removeAndReAdd l e).2).length ∧
      (∀ x ∈ discardsOf (removeAndReAdd l e).2, x.Tunnel = e.Tunnel ∧ x ∈ l.entries) ∧
      closeCallsOf (removeAndReAdd l e).2 = [e.Tunnel] ∧
      closeTasksOf (removeAndReAdd l e).2 = [] ∧
      createsOf (removeAndReAdd l e).2 = [e.Address] := by
  obtain ⟨h1, h2⟩ := removeAndReAdd_effects l e
  obtain ⟨s1, s2, s3, s4, -⟩ := removeFirst_spec e.Tunnel l.entries
  rw [h1, h2]
  cases hf : (removeFirst e.Tunnel l.entries).2 with
  | none =>
    rw [hf] at s3
    refine ⟨s1, s2, by simp at s3; omega, by simpa [discardsOf] using s3, ?_, rfl, rfl, rfl⟩
    intro x hx
    simp [discardsOf] at hx
  | some y =>
    rw [hf] at s3
    refine ⟨s1, s2, by simp at s3; omega, by simpa [discardsOf] using s3, ?_, rfl, rfl, rfl⟩
    intro x hx
    simp [discardsOf] at hx
    rw [hx]
    exact s4 y hf

/-- C19, as stated, fails: `removeAndReAdd` first discards the entry from the
list, under the lock, and calls `Close` on its tunnel afterwards. -/
theorem close_after_discard_counterexample :
    (removeAndReAdd hostPool { Address := "a", Tunnel := 1 }).1.entries
        = [{ Address := "b", Tunnel := 2 }] ∧
      (removeAndReAdd hostPool { Address := "a", Tunnel := 1 }).2
        = [Effect.discard { Address := "a", Tunnel := 1 }, Effect.close 1, Effect.goCreate "a"] ∧
      (removeAndReAdd hostPool { Address := "a", Tunnel := 1 }).2.indexOf
          (Effect.discard { Address := "a", Tunnel := 1 })
        < (removeAndReAdd hostPool { Address := "a", Tunnel := 1 }).2.indexOf (Effect.close 1) :=
  ⟨by decide, by decide, by decide⟩

/-- C19, amended: every removal of an entry is paired with a `Close` of its
tunnel, and no removal waits for that `Close`.  `removeAndReAdd` discards the entry
it finds, which has the tunnel `e.Tunnel`, and then calls `Close` on
`e.Tunnel`; `Update` calls no `Close` itself: for every dropped entry it starts
a goroutine that will call `Close` on the tunnel, and discards the entry
without waiting for it. -/
theorem close_follows_discard (l : SecureTunnelList) :
    (∀ e : sshTunnelEntry, ∃ found : List sshTunnelEntry,
      (removeAndReAdd l e).2
          = found.map Effect.discard ++ [Effect.close e.Tunnel, Effect.goCreate e.Address] ∧
        found.length + (removeAndReAdd l e).1.entries.length = l.entries.length ∧
        ∀ x ∈ found, x.Tunnel = e.Tunnel ∧ x ∈ l.entries) ∧
    (∀ addrs : List String,
      closeCallsOf (Update l addrs).2 = [] ∧
        ∀ x ∈ l.entries, x.Address ∉ addrs →
          x ∉ (Update l addrs).1.entries ∧ Effect.discard x ∈ (Update l addrs).2 ∧
            Effect.goClose x.Tunnel ∈ (Update l addrs).2) := by
  constructor
  · intro e
    obtain ⟨h1, h2⟩ := removeAndReAdd_effects l e
    obtain ⟨-, -, s3, s4, -⟩ := removeFirst_spec e.Tunnel l.entries
    refine ⟨(removeFirst e.Tunnel l.entries).2.toList, h2, ?_, ?_⟩
    · rw [h1, s3]
      cases (removeFirst e.Tunnel l.entries).2 with
      | none => simp
      | some y => simp; omega
    · intro x hx
      exact s4 x (by simpa using hx)
  · intro addrs
    obtain ⟨u1, -, -, u4⟩ := update_result l addrs
    refine ⟨u4, fun x hx hnot => ⟨?_, ?_, ?_⟩⟩
    · rw [u1, List.mem_filter]
      simp [hnot]
    · unfold Update
      simp only [updateDeletions_eq, List.mem_append, List.mem_map, List.mem_filter]
      exact Or.inr ⟨x, ⟨hx, by simpa using hnot⟩, rfl⟩
    · unfold Update
      simp only [updateDeletions_eq, List.mem_append, List.mem_map, List.mem_filter]
      exact Or.inl (Or.inr ⟨x, ⟨hx, by simpa using hnot⟩, rfl⟩)

/-! ## Histories -/

/-- C15: the code reaches a pool with two entries for one address.  In
`staleCheckHistory` every event is enabled, `removeAndReAdd` finds no entry
with the tunnel of the stale entry and still starts a creation for its address,
and the final entries are tunnels 2 and 3, both for `a`. -/
theorem duplicate_address_reachable :
    ∃ s, run (initial "core") staleCheckHistory = some s ∧
      s.pool.entries = [{ Address := "a", Tunnel := 2 }, { Address := "a", Tunnel := 3 }] ∧
      ¬ (s.pool.entries.map (·.Address)).Nodup :=
  ⟨{ pool :=
        { entries := [{ Address := "a", Tunnel := 2 }, { Address := "a", Tunnel := 3 }],
          adding := [], user := "core" },
      creating := [], closing := [], checks := [],
      log := [Effect.goCreate "a", Effect.goClose 1, Effect.discard { Address := "a", Tunnel := 1 },
        Effect.close 1, Effect.goCreate "a", Effect.close 1, Effect.goCreate "a"] },
   by decide, rfl, by decide⟩

/-- C16, as stated, fails: when both creations run after the second `Update`,
all goroutines have finished, the list holds an entry for `a:1` and one for
`b:2`, and `Close` has not been called on the tunnel of `b:2`. -/
theorem update_twice_counterexample :
    ∃ s, run (initial "core") [updateBoth, updateFirst, createdFirst 1, createdSecond 2]
        = some s ∧
      s.creating = [] ∧ s.closing = [] ∧
      s.pool.entries = [{ Address := "a:1", Tunnel := 1 }, { Address := "b:2", Tunnel := 2 }] ∧
      Effect.close 2 ∉ s.log :=
  ⟨{ pool :=
        { entries := [{ Address := "a:1", Tunnel := 1 }, { Address := "b:2", Tunnel := 2 }],
          adding := [], user := "core" },
      creating := [], closing := [], checks := [],
      log := [Effect.goCreate "a:1", Effect.goCreate "b:2"] },
   by decide, rfl, rfl, rfl, by decide⟩


/-- The six orders of three events. -/
theorem perm_three {β : Type} (x y z : β) (l : List β) (h : l.Perm [x, y, z]) :
    l = [x, y, z] ∨ l = [y, x, z] ∨ l = [y, z, x] ∨ l = [x, z, y] ∨ l = [z, x, y] ∨
      l = [z, y, x] := by
  have h1 := List.mem_permutations'.mpr h
  simpa [List.permutations', List.permutations'Aux] using h1

/-- C16, amended: after `Update(["a:1", "b:2"])`, let `Update(["a:1"])` and
the two creations run in any order, every open succeeding.  All events are
enabled, no creation is left, and the list has exactly one entry for `a:1`.
The entry for `b:2` is absent, and its tunnel closed once the closing
goroutines have run, exactly when its creation ran before the second `Update`;
when it ran after, the entry for `b:2` stays and its tunnel is never closed. -/
theorem update_twice_outcome (ta tb : tunnel) (order : List Event)
    (h : order.Perm [updateFirst, createdFirst ta, createdSecond tb]) :
    ∃ s, run (initial "core") (updateBoth :: order) = some s ∧
      s.creating = [] ∧
      s.pool.entries.filter (fun e => e.Address == "a:1") = [{ Address := "a:1", Tunnel := ta }] ∧
      (s.pool.entries = [{ Address := "a:1", Tunnel := ta }] ↔
        [createdSecond tb, updateFirst].Sublist order) ∧
      (Effect.close tb ∈ (drainClosing s).log ↔
        [createdSecond tb, updateFirst].Sublist order) ∧
      ({ Address := "b:2", Tunnel := tb } ∈ s.pool.entries ↔
        [updateFirst, createdSecond tb].Sublist order) := by
  rcases perm_three _ _ _ _ h with h | h | h | h | h | h <;> subst h
  · refine ⟨{ pool := { entries := [{ Address := "a:1", Tunnel := ta }, { Address := "b:2", Tunnel := tb }],
                        adding := [], user := "core" },
              creating := [], closing := [], checks := [],
              log := [Effect.goCreate "a:1", Effect.goCreate "b:2"] }, rfl, ?_⟩
    simp [updateFirst, createdFirst, createdSecond, drainClosing, List.sublist_cons_iff]
  · refine ⟨{ pool := { entries := [{ Address := "a:1", Tunnel := ta }, { Address := "b:2", Tunnel := tb }],
                        adding := [], user := "core" },
              creating := [], closing := [], checks := [],
              log := [Effect.goCreate "a:1", Effect.goCreate "b:2"] }, rfl, ?_⟩
    simp [updateFirst, createdFirst, createdSecond, drainClosing, List.sublist_cons_iff]
  · refine ⟨{ pool := { entries := [{ Address := "a:1", Tunnel := ta }],
                        adding := [], user := "core" },
              creating := [], closing := [tb], checks := [],
              log := [Effect.goCreate "a:1", Effect.goCreate "b:2", Effect.goClose tb,
                Effect.discard { Address := "b:2", Tunnel := tb }] }, rfl, ?_⟩
    simp [updateFirst, createdFirst, createdSecond, drainClosing, List.sublist_cons_iff]
  · refine ⟨{ pool := { entries := [{ Address := "b:2", Tunnel := tb }, { Address := "a:1", Tunnel := ta }],
                        adding := [], user := "core" },
              creating := [], closing := [], checks := [],
              log := [Effect.goCreate "a:1", Effect.goCreate "b:2"] }, rfl, ?_⟩
    simp [updateFirst, createdFirst, createdSecond, drainClosing, List.sublist_cons_iff]
  · refine ⟨{ pool := { entries := [{ Address := "a:1", Tunnel := ta }],
                        adding := [], user := "core" },
              creating := [], closing := [tb], checks := [],
              log := [Effect.goCreate "a:1", Effect.goCreate "b:2", Effect.goClose tb,
                Effect.discard { Address := "b:2", Tunnel := tb }] }, rfl, ?_⟩
    simp [updateFirst, createdFirst, createdSecond, drainClosing, List.sublist_cons_iff]
  · refine ⟨{ pool := { entries := [{ Address := "a:1", Tunnel := ta }],
                        adding := [], user := "core" },
              creating := [], closing := [tb], checks := [],
              log := [Effect.goCreate "a:1", Effect.goCreate "b:2", Effect.goClose tb,
                Effect.discard { Address := "b:2", Tunnel := tb }] }, rfl, ?_⟩
    simp [updateFirst, createdFirst, createdSecond, drainClosing, List.sublist_cons_iff]

/-- With the creation of `b:2` first and that of `a:1` last, the pool ends
with the single entry for `a:1` and the tunnel of `b:2` is closed. -/
theorem update_twice_outcome_witness :
    [createdSecond 2, updateFirst, createdFirst 1].Perm
        [updateFirst, createdFirst 1, createdSecond 2] ∧
    ∃ s, run (initial "core") (updateBoth :: [createdSecond 2, updateFirst, createdFirst 1])
        = some s ∧
      s.creating = [] ∧
      s.pool.entries.filter (fun e => e.Address == "a:1") = [{ Address := "a:1", Tunnel := 1 }] ∧
      (s.pool.entries = [{ Address := "a:1", Tunnel := 1 }] ↔
        [createdSecond 2, updateFirst].Sublist [createdSecond 2, updateFirst, createdFirst 1]) ∧
      (Effect.close 2 ∈ (drainClosing s).log ↔
        [createdSecond 2, updateFirst].Sublist [createdSecond 2, updateFirst, createdFirst 1]) ∧
      ({ Address := "b:2", Tunnel := 2 } ∈ s.pool.entries ↔
        [updateFirst, createdSecond 2].Sublist [createdSecond 2, updateFirst, createdFirst 1]) :=
  ⟨(List.Perm.swap updateFirst (createdSecond 2) [createdFirst 1]).trans
      ((List.Perm.swap (createdFirst 1) (createdSecond 2) []).cons updateFirst),
   update_twice_outcome 1 2 _
    ((List.Perm.swap updateFirst (createdSecond 2) [createdFirst 1]).trans
      ((List.Perm.swap (createdFirst 1) (createdSecond 2) []).cons updateFirst))⟩

/-! ## Health-check delays -/

/-- Conversion to `int64` keeps a value in range. -/
theorem wrapInt64_of_range (x : Int) (h1 : -9223372036854775808 ≤ x)
    (h2 : x < 9223372036854775808) : wrapInt64 x = x := by
  unfold wrapInt64
  omega

/-- Without overflow the computed delay is the quotient `healthCheckPoll * i / n`. -/
theorem healthCheckDelay_eq (i n : Nat) (hi : i < n)
    (hb : healthCheckPoll * ((n : Int) - 1) < 9223372036854775808) :
    healthCheckDelay i n = some (healthCheckPoll * (i : Int) / (n : Int)) := by
  unfold healthCheckPoll at hb
  have h1 : wrapInt64 (i : Int) = (i : Int) := wrapInt64_of_range _ (by omega) (by omega)
  have h2 : wrapInt64 (n : Int) = (n : Int) := wrapInt64_of_range _ (by omega) (by omega)
  have h3 : wrapInt64 (healthCheckPoll * (i : Int)) = healthCheckPoll * (i : Int) := by
    unfold healthCheckPoll
    exact wrapInt64_of_range _ (by omega) (by omega)
  have h4 : (n : Int) ≠ 0 := by omega
  have h5 : (0 : Int) ≤ healthCheckPoll * (i : Int) := by
    unfold healthCheckPoll
    omega
  unfold healthCheckDelay durationDiv
  rw [h1, h2, h3, if_neg h4, Int.tdiv_eq_ediv h5 (by omega)]

/-- Without overflow the loop of a round makes one call per entry, with the
quotient as delay. -/
theorem healthCheckFrom_eq (n : Nat)
    (hb : healthCheckPoll * ((n : Int) - 1) < 9223372036854775808) :
    ∀ (es : List sshTunnelEntry) (i : Nat), i + es.length ≤ n →
      healthCheckFrom n i es
        = some ((es.enumFrom i).map
            (fun p => (p.2, healthCheckPoll * (p.1 : Int) / (n : Int)))) := by
  intro es
  induction es with
  | nil => intro i _; rfl
  | cons e rest ih =>
    intro i hi
    simp only [List.length_cons] at hi
    have h1 := healthCheckDelay_eq i n (by omega) hb
    have h2 := ih (i + 1) (by omega)
    simp only [healthCheckFrom, h1, h2, List.enumFrom_cons, List.map_cons, Option.some_bind,
      Option.map_some']

/-- The ceiling of `p / n` times `n` is at least `p`. -/
theorem le_ceil_mul (p n : Int) (hn : 0 < n) : p ≤ (p + n - 1) / n * n := by
  have h1 := Int.ediv_add_emod' (p + n - 1) n
  have h2 := Int.emod_lt_of_pos (p + n - 1) hn
  omega

/-- C20, as stated, fails for a pool of 153722869 entries: the product
`healthCheckPoll * i` of the last index overflows `int64`, so its delay is
negative, while the delay of the index before is about a minute. -/
theorem delay_overflow_counterexample :
    healthCheckDelay 153722867 153722869 = some 59999999219 ∧
    healthCheckDelay 153722868 153722869 = some (-59999999048) ∧
    healthCheckPoll * 153722868 / 153722869 = 59999999609 := by
  decide!

/-- C20, amended: in a round over a pool of `n` entries with
`healthCheckPoll * (n - 1) < 2^63`, that is `n ≤ 153722868`, no division
panics and the entry at index `i` is checked after the delay
`healthCheckPoll * i / n`.  The delay of index 0 is 0, delays are
non-decreasing and below `healthCheckPoll`, and consecutive delays differ by
at most the ceiling of `healthCheckPoll / n`.  The round over the empty pool
makes no call, so it divides nothing. -/
theorem healthCheck_delays (l : SecureTunnelList)
    (hb : healthCheckPoll * ((l.entries.length : Int) - 1) < 9223372036854775808) :
    healthCheckRound l
        = some (l.entries.enum.map
            (fun p => (p.2, healthCheckPoll * (p.1 : Int) / (l.entries.length : Int)))) ∧
      healthCheckPoll * ((0 : Nat) : Int) / (l.entries.length : Int) = 0 ∧
      (∀ i j : Nat, i ≤ j → j < l.entries.length →
        healthCheckPoll * (i : Int) / (l.entries.length : Int)
          ≤ healthCheckPoll * (j : Int) / (l.entries.length : Int)) ∧
      (∀ i : Nat, i < l.entries.length →
        healthCheckPoll * (i : Int) / (l.entries.length : Int) < healthCheckPoll) ∧
      (∀ i : Nat, i + 1 < l.entries.length →
        healthCheckPoll * ((i + 1 : Nat) : Int) / (l.entries.length : Int)
            - healthCheckPoll * (i : Int) / (l.entries.length : Int)
          ≤ (healthCheckPoll + (l.entries.length : Int) - 1) / (l.entries.length : Int)) ∧
      (l.entries = [] → healthCheckRound l = some []) := by
  refine ⟨?_, ?_, ?_, ?_, ?_, ?_⟩
  · unfold healthCheckRound
    rw [healthCheckFrom_eq _ hb l.entries 0 (by omega)]
    rfl
  · simp
  · intro i j hij hj
    apply Int.ediv_le_ediv (by omega)
    unfold healthCheckPoll
    omega
  · intro i hi
    apply Int.ediv_lt_of_lt_mul (by omega)
    unfold healthCheckPoll
    have h1 : (i : Int) < (l.entries.length : Int) := by omega
    nlinarith
  · intro i hi
    have hn : (0 : Int) < (l.entries.length : Int) := by omega
    have h1 := le_ceil_mul healthCheckPoll (l.entries.length : Int) hn
    have h2 : healthCheckPoll * ((i + 1 : Nat) : Int)
        ≤ healthCheckPoll * (i : Int)
          + (healthCheckPoll + (l.entries.length : Int) - 1) / (l.entries.length : Int)
            * (l.entries.length : Int) := by
      push_cast
      linarith
    have h3 := Int.ediv_le_ediv hn h2
    rw [Int.add_mul_ediv_right _ _ (by omega)] at h3
    omega
  · intro h
    unfold healthCheckRound
    rw [h]
    rfl

/-- The round over the two-entry pool `hostPool` checks tunnel 1 at once and
tunnel 2 after thirty seconds. -/
theorem healthCheck_delays_witness :
    healthCheckPoll * ((hostPool.entries.length : Int) - 1) < 9223372036854775808 ∧
    healthCheckRound hostPool
      = some [({ Address := "a", Tunnel := 1 }, 0), ({ Address := "b", Tunnel := 2 }, 30000000000)] :=
  ⟨by decide!, (healthCheck_delays hostPool (by decide!)).1.trans (by decide!)⟩

end Ssh

/-!
Inter-pod affinity priority, continued: the terms the scorer reads and the
scores of equal counts.
-/

namespace Priorities

/-- A decoded affinity with the required terms of its pod affinity and pod
anti-affinity emptied; the rest, and which of the two are nil, is kept. -/
def withoutRequired (affinity : Option Affinity) : Option Affinity :=
  affinity.map (fun a =>
    { PodAffinity := a.PodAffinity.map (fun x =>
        { x with RequiredDuringSchedulingIgnoredDuringExecution := [] }),
      PodAntiAffinity := a.PodAntiAffinity.map (fun x =>
        { x with RequiredDuringSchedulingIgnoredDuringExecution := [] }) })

/-- A pod of namespace `default` that prefers, with weight 2, the zones of
pods `a` and requires the terms `req`. -/
def requiringPod (req : List PodAffinityTerm) : Pod (Except Error (Option Affinity)) :=
  { Name := "new", Namespace := "default", Labels := [],
    Annotations := .ok (affinityWith req [] [] (appTerm 2 "a").PodAffinityTerm none 2),
    NodeName := "" }

/-! ## Equal counts -/

/-- The two bounds are equal exactly when every listed node has count 0. -/
theorem countBounds_eq_iff (counts : String → float64) (nodes : List Node) :
    (countBounds counts nodes).1 = (countBounds counts nodes).2 ↔
      ∀ node ∈ nodes, counts node.Name = 0 := by
  obtain ⟨h1, h2, h3⟩ := countBounds_spec counts nodes
  constructor
  · intro h node hn
    obtain ⟨h4, h5⟩ := h3 node hn
    rw [h] at h2 h5
    exact le_antisymm (le_trans h5 h1) (le_trans h2 h4)
  · intro h
    rw [countBounds_eq] at h1 h2 ⊢
    have hmx : (nodes.map (fun n => counts n.Name)).foldr max 0 ≤ 0 :=
      foldr_max_le_of _ 0 le_rfl (fun x hx => by
        obtain ⟨n, hn, rfl⟩ := List.mem_map.mp hx
        exact le_of_eq (h n hn))
    have hmn : 0 ≤ (nodes.map (fun n => counts n.Name)).foldr min 0 :=
      foldr_min_ge_of _ 0 le_rfl (fun x hx => by
        obtain ⟨n, hn, rfl⟩ := List.mem_map.mp hx
        exact le_of_eq (h n hn).symm)
    exact (le_antisymm hmx h2).trans (le_antisymm hmn h1)

/-- The bounds of equal positive counts are the count and 0. -/
theorem countBounds_of_pos (counts : String → float64) (nodes : List Node) (c : float64)
    (hc : 0 < c) (hne : nodes ≠ []) (h : ∀ node ∈ nodes, counts node.Name = c) :
    countBounds counts nodes = (c, 0) := by
  obtain ⟨h1, h2, h3⟩ := countBounds_spec counts nodes
  obtain ⟨n0, hn0⟩ := List.exists_mem_of_ne_nil nodes hne
  have hge := (h3 n0 hn0).2
  rw [h n0 hn0] at hge
  rw [countBounds_eq] at h1 h2 hge ⊢
  have hmx : (nodes.map (fun n => counts n.Name)).foldr max 0 ≤ c :=
    foldr_max_le_of _ c (le_of_lt hc) (fun x hx => by
      obtain ⟨n, hn, rfl⟩ := List.mem_map.mp hx
      exact le_of_eq (h n hn))
  have hmn : 0 ≤ (nodes.map (fun n => counts n.Name)).foldr min 0 :=
    foldr_min_ge_of _ 0 le_rfl (fun x hx => by
      obtain ⟨n, hn, rfl⟩ := List.mem_map.mp hx
      rw [h n hn]
      exact le_of_lt hc)
  exact Prod.ext (le_antisymm hmx hge) (le_antisymm h1 hmn)

/-- The bounds of equal negative counts are 0 and the count. -/
theorem countBounds_of_neg (counts : String → float64) (nodes : List Node) (c : float64)
    (hc : c < 0) (hne : nodes ≠ []) (h : ∀ node ∈ nodes, counts node.Name = c) :
    countBounds counts nodes = (0, c) := by
  obtain ⟨h1, h2, h3⟩ := countBounds_spec counts nodes
  obtain ⟨n0, hn0⟩ := List.exists_mem_of_ne_nil nodes hne
  have hle := (h3 n0 hn0).1
  rw [h n0 hn0] at hle
  rw [countBounds_eq] at h1 h2 hle ⊢
  have hmx : (nodes.map (fun n => counts n.Name)).foldr max 0 ≤ 0 :=
    foldr_max_le_of _ 0 le_rfl (fun x hx => by
      obtain ⟨n, hn, rfl⟩ := List.mem_map.mp hx
      rw [h n hn]
      exact le_of_lt hc)
  have hmn : c ≤ (nodes.map (fun n => counts n.Name)).foldr min 0 :=
    foldr_min_ge_of _ c (le_of_lt hc) (fun x hx => by
      obtain ⟨n, hn, rfl⟩ := List.mem_map.mp hx
      exact le_of_eq (h n hn).symm)
  exact Prod.ext (le_antisymm hmx h2) (le_antisymm hle hmn)

/-- The `float64` score of the count that is `maxCount`, `minCount` being 0. -/
theorem fScore_of_pos (c : float64) (hc : 0 < c) : fScore c c 0 = 10 := by
  have hp : 0 < fsub c 0 := (fsub_pos_iff c 0).mpr hc
  unfold fScore
  rw [if_pos hp]
  unfold fmul fdiv
  rw [div_self (ne_of_gt hp), round64_one, mul_one, round64_ten]

/-- The `float64` score of the count that is `minCount`, `maxCount` being 0. -/
theorem fScore_of_neg (c : float64) (hc : c < 0) : fScore c 0 c = 0 := by
  have hp : 0 < fsub 0 c := (fsub_pos_iff 0 c).mpr hc
  unfold fScore
  rw [if_pos hp]
  have hz : fsub c c = 0 := by
    unfold fsub
    rw [sub_self, round64_zero]
  unfold fmul fdiv
  rw [hz, zero_div, round64_zero, mul_zero, round64_zero]

/-- The scores of equal positive counts are 10, those of equal negative
counts 0. -/
theorem scoreNodes_uniform (counts : String → float64) (nodes : List Node) (c : float64)
    (h : ∀ node ∈ nodes, counts node.Name = c) :
    (0 < c → scoreNodes counts nodes = nodes.map (fun node => { Host := node.Name, Score := 10 })) ∧
    (c < 0 → scoreNodes counts nodes = nodes.map (fun node => { Host := node.Name, Score := 0 })) := by
  rcases nodes.eq_nil_or_concat with hnil | ⟨_, _, hcons⟩
  · subst hnil
    exact ⟨fun _ => rfl, fun _ => rfl⟩
  · have hne : nodes ≠ [] := by
      rw [hcons]
      simp
    constructor
    · intro hc
      unfold scoreNodes
      rw [countBounds_of_pos counts nodes c hc hne h]
      apply List.map_congr_left
      intro node hn
      rw [h node hn, fScore_of_pos c hc]
      simp [truncToInt]
    · intro hc
      unfold scoreNodes
      rw [countBounds_of_neg counts nodes c hc hne h]
      apply List.map_congr_left
      intro node hn
      rw [h node hn, fScore_of_neg c hc]
      simp [truncToInt]

/-- C30: after a run without error, if every listed node has the same
strictly positive count, every score is 10; if every listed node has the same
strictly negative count, every score is 0; and `maxCount` equals `minCount`
exactly when the count of every listed node is 0. -/
theorem equal_counts_scores {A : Type} (lib : Lib A) (ipa : InterPodAffinity) (pod : Pod A)
    (nodeNameToInfo : List (String × NodeInfo A)) (nodes : List Node) (affinity : Option Affinity)
    (ha : lib.GetAffinityFromPodAnnotations pod.Annotations = .ok affinity)
    (he : (processAllNodes lib ipa pod affinity nodeNameToInfo nodes).firstError = none) :
    (∀ c : float64, 0 < c →
      (∀ node ∈ nodes,
        (processAllNodes lib ipa pod affinity nodeNameToInfo nodes).counts node.Name = c) →
      CalculateInterPodAffinityPriority lib ipa pod nodeNameToInfo nodes
        = .ok (nodes.map (fun node => { Host := node.Name, Score := 10 }))) ∧
    (∀ c : float64, c < 0 →
      (∀ node ∈ nodes,
        (processAllNodes lib ipa pod affinity nodeNameToInfo nodes).counts node.Name = c) →
      CalculateInterPodAffinityPriority lib ipa pod nodeNameToInfo nodes
        = .ok (nodes.map (fun node => { Host := node.Name, Score := 0 }))) ∧
    ((countBounds (processAllNodes lib ipa pod affinity nodeNameToInfo nodes).counts nodes).1
        = (countBounds (processAllNodes lib ipa pod affinity nodeNameToInfo nodes).counts nodes).2 ↔
      ∀ node ∈ nodes,
        (processAllNodes lib ipa pod affinity nodeNameToInfo nodes).counts node.Name = 0) := by
  have hcalc : CalculateInterPodAffinityPriority lib ipa pod nodeNameToInfo nodes
      = .ok (scoreNodes (processAllNodes lib ipa pod affinity nodeNameToInfo nodes).counts nodes) := by
    unfold CalculateInterPodAffinityPriority finish
    rw [ha]
    simp only [he]
  refine ⟨fun c hc h => ?_, fun c hc h => ?_, countBounds_eq_iff _ _⟩
  · rw [hcalc, (scoreNodes_uniform _ nodes c h).1 hc]
  · rw [hcalc, (scoreNodes_uniform _ nodes c h).2 hc]

/-- With the nodes `m` and `q` of zone `z1` listed, the pod `affinityPod 2`
finds the count 3 on both and scores both 10. -/
theorem equal_counts_scores_witness :
    CalculateInterPodAffinityPriority labelLib threeNodeScorer (affinityPod 2) threeNodeInfos
        [zoneNode "m" "z1", zoneNode "q" "z1"]
      = .ok [{ Host := "m", Score := 10 }, { Host := "q", Score := 10 }] :=
  (equal_counts_scores labelLib threeNodeScorer (affinityPod 2) threeNodeInfos
    [zoneNode "m" "z1", zoneNode "q" "z1"] (softAffinity 2) rfl (by decide!)).1 3 (by norm_num)
    (by decide!)

/-! ## The required terms of the scored pod -/

/-- The loop body of `processNode` reads the affinity of the scored pod only
outside its required terms, and the scored pod only through the helpers. -/
theorem processPodAndRecord_congr {A : Type} (lib : Lib A) (ipa : InterPodAffinity)
    (pod pod' : Pod A) (affinity affinity' : Option Affinity)
    (hsoft : withoutRequired affinity = withoutRequired affinity')
    (hns : ∀ term, lib.GetNamespacesFromPodAffinityTerm pod term
      = lib.GetNamespacesFromPodAffinityTerm pod' term)
    (hmatch : ∀ ns sel, lib.PodMatchesTermsNamespaceAndSelector pod ns sel
      = lib.PodMatchesTermsNamespaceAndSelector pod' ns sel) :
    processPodAndRecord lib ipa pod affinity = processPodAndRecord lib ipa pod' affinity' := by
  funext pm existingPod
  unfold processPodAndRecord processPod
  rcases affinity with _ | ⟨⟨_ | ⟨r1, p1⟩⟩, ⟨_ | ⟨r2, p2⟩⟩⟩ <;>
    rcases affinity' with _ | ⟨⟨_ | ⟨r3, p3⟩⟩, ⟨_ | ⟨r4, p4⟩⟩⟩ <;>
    simp [withoutRequired] at hsoft <;>
    simp only [Option.bind, processTerms, processTerm, hns, hmatch, hsoft]

theorem podsToProcess_congr {A : Type} (lib : Lib A) (affinity affinity' : Option Affinity)
    (hsoft : withoutRequired affinity = withoutRequired affinity') :
    podsToProcess lib affinity = podsToProcess lib affinity' := by
  funext nodeInfo
  unfold podsToProcess
  rcases affinity with _ | ⟨⟨_ | ⟨r1, p1⟩⟩, ⟨_ | ⟨r2, p2⟩⟩⟩ <;>
    rcases affinity' with _ | ⟨⟨_ | ⟨r3, p3⟩⟩, ⟨_ | ⟨r4, p4⟩⟩⟩ <;>
    simp [withoutRequired] at hsoft <;>
    rfl

/-- C27: two scored pods whose decoded affinities are identical except for the
required terms of their pod affinity and pod anti-affinity, and which have the
same namespace and labels, get the same result on the same nodes, the helpers
reading only the namespace and the labels of a pod. -/
theorem required_terms_not_read {A : Type} (lib : Lib A) (ipa : InterPodAffinity)
    (pod pod' : Pod A) (nodeNameToInfo : List (String × NodeInfo A)) (nodes : List Node)
    (affinity affinity' : Option Affinity)
    (hlib : ∀ p q : Pod A, p.Namespace = q.Namespace → p.Labels = q.Labels →
      (∀ term, lib.GetNamespacesFromPodAffinityTerm p term
        = lib.GetNamespacesFromPodAffinityTerm q term) ∧
      (∀ ns sel, lib.PodMatchesTermsNamespaceAndSelector p ns sel
        = lib.PodMatchesTermsNamespaceAndSelector q ns sel))
    (hnamespace : pod.Namespace = pod'.Namespace) (hlabels : pod.Labels = pod'.Labels)
    (ha : lib.GetAffinityFromPodAnnotations pod.Annotations = .ok affinity)
    (ha' : lib.GetAffinityFromPodAnnotations pod'.Annotations = .ok affinity')
    (hsoft : withoutRequired affinity = withoutRequired affinity') :
    CalculateInterPodAffinityPriority lib ipa pod nodeNameToInfo nodes
      = CalculateInterPodAffinityPriority lib ipa pod' nodeNameToInfo nodes := by
  obtain ⟨hns, hmatch⟩ := hlib pod pod' hnamespace hlabels
  have hpp := processPodAndRecord_congr lib ipa pod pod' affinity affinity' hsoft hns hmatch
  have hpods := podsToProcess_congr lib affinity affinity' hsoft
  have hnodeEq : processNode lib ipa pod affinity nodeNameToInfo
      = processNode lib ipa pod' affinity' nodeNameToInfo := by
    funext pm name
    unfold processNode
    rw [hpp, hpods]
  unfold CalculateInterPodAffinityPriority
  rw [ha, ha']
  simp only [processAllNodes, hnodeEq]

/-- The pod that requires nothing and the pod that requires the term of pods
`b` get the same result on `threeNodes`. -/
theorem required_terms_not_read_witness :
    CalculateInterPodAffinityPriority labelLib threeNodeScorer (requiringPod [])
        threeNodeInfos threeNodes
      = CalculateInterPodAffinityPriority labelLib threeNodeScorer
        (requiringPod [(appTerm 1 "b").PodAffinityTerm]) threeNodeInfos threeNodes :=
  required_terms_not_read labelLib threeNodeScorer (requiringPod [])
    (requiringPod [(appTerm 1 "b").PodAffinityTerm]) threeNodeInfos threeNodes
    (affinityWith [] [] [] (appTerm 2 "a").PodAffinityTerm none 2)
    (affinityWith [(appTerm 1 "b").PodAffinityTerm] [] [] (appTerm 2 "a").PodAffinityTerm none 2)
    (fun p q h1 h2 =>
      ⟨fun term => by simp [labelLib, h1], fun ns sel => by simp [labelLib, h1, h2]⟩)
    rfl rfl rfl rfl rfl

end Priorities

/-!
SSH tunnel pool, continued: a failing tunnel creator.
-/

namespace Ssh

/-- Whether an event is a run of `createAndAddTunnel(addr)` in which
`newSSHTunnel` succeeds. -/
def passesCreator (addr : String) : Event → Bool
  | .create a (.ok _) _ => a == addr
  | _ => false

/-- A history that leaves a creation for `a` pending with `a` marked in
`adding` and a second health check of the removed entry pending: tunnel 1 is
opened for `a`, two rounds start a check of its entry each, and the first
check fails. -/
def leakHistory : List Event :=
  [Event.update ["a"],
   Event.create "a" (.ok 1) none,
   Event.round,
   Event.round,
   Event.checkFails { Address := "a", Tunnel := 1 }]

/-- The state `leakHistory` leads to. -/
def leakState : System :=
  { pool := { entries := [], adding := ["a"], user := "core" },
    creating := ["a"], closing := [], checks := [{ Address := "a", Tunnel := 1 }],
    log := [Effect.goCreate "a", Effect.discard { Address := "a", Tunnel := 1 }, Effect.close 1,
      Effect.goCreate "a"] }

/-- The state after `newSSHTunnel` has failed in `leakState`. -/
def leakedState : System := { leakState with creating := [] }

/-! ## A failing tunnel creator -/

theorem mem_setAdding (adding : List String) (addr a : String) (h : a ∈ adding) :
    a ∈ setAdding adding addr := by
  unfold setAdding
  split_ifs
  · exact h
  · exact List.mem_cons_of_mem _ h

/-- No transition other than a `createAndAddTunnel(addr)` that gets past
`newSSHTunnel` takes `addr` out of `adding`. -/
theorem adding_preserved_step (s s' : System) (ev : Event) (addr : String)
    (h : addr ∈ s.pool.adding) (hp : passesCreator addr ev = false)
    (hs : step s ev = some s') : addr ∈ s'.pool.adding := by
  cases ev with
  | update addrs =>
    simp only [step, Option.some.injEq] at hs
    rw [← hs]
    exact ((update_started s.pool addrs).2.2 addr).mpr (Or.inl h)
  | create a newTunnel opened =>
    simp only [step] at hs
    split_ifs at hs with hc
    simp only [Option.some.injEq] at hs
    rw [← hs]
    cases newTunnel with
    | error err => exact h
    | ok t =>
      have hne : addr ≠ a := by
        intro heq
        simp [passesCreator, heq] at hp
      cases opened with
      | some err => exact (mem_deleteAdding _ _ _).mpr ⟨h, hne⟩
      | none => exact (mem_deleteAdding _ _ _).mpr ⟨h, hne⟩
  | closeTask t =>
    simp only [step] at hs
    split_ifs at hs with hc
    simp only [Option.some.injEq] at hs
    rw [← hs]
    exact h
  | round =>
    simp only [step] at hs
    cases hr : healthCheckRound s.pool with
    | none => simp [hr] at hs
    | some calls =>
      simp only [hr, Option.some.injEq] at hs
      rw [← hs]
      exact h
  | checkPasses e =>
    simp only [step] at hs
    split_ifs at hs with hc
    simp only [Option.some.injEq] at hs
    rw [← hs]
    exact h
  | checkFails e =>
    simp only [step] at hs
    split_ifs at hs with hc
    simp only [Option.some.injEq] at hs
    rw [← hs]
    show addr ∈ (removeAndReAdd s.pool e).1.adding
    unfold removeAndReAdd
    generalize removeFirst e.Tunnel s.pool.entries = r
    obtain ⟨rest, found⟩ := r
    cases found with
    | some x => exact mem_setAdding _ _ _ h
    | none => exact h

theorem adding_preserved_run (addr : String) (evs : List Event) :
    ∀ s s' : System, addr ∈ s.pool.adding →
      evs.all (fun ev => !passesCreator addr ev) = true →
      run s evs = some s' → addr ∈ s'.pool.adding := by
  induction evs with
  | nil =>
    intro s s' h _ hr
    simp only [run, Option.some.injEq] at hr
    rw [← hr]
    exact h
  | cons ev rest ih =>
    intro s s' h hev hr
    simp only [List.all_cons, Bool.and_eq_true, Bool.not_eq_true'] at hev
    simp only [run] at hr
    cases hs : step s ev with
    | none => simp [hs] at hr
    | some s1 =>
      simp only [hs] at hr
      exact ih s1 s' (adding_preserved_step s s1 ev addr h hev.1 hs) hev.2 hr

/-- C28, as stated, fails: after `leakHistory`, `newSSHTunnel` fails for `a`
and leaves `a` in `adding`; the second health check of the removed entry then
fails, the creation it starts fails in `Open` and takes `a` out of `adding`,
and the next `Update(["a"])` starts a creation for `a`. -/
theorem creator_failure_retry_counterexample :
    run (initial "core") leakHistory = some leakState ∧
      step leakState (Event.create "a" (.error "dial failed") none) = some leakedState ∧
      leakedState.pool = leakState.pool ∧ "a" ∈ leakedState.pool.adding ∧
      ∃ s, run leakedState
          [Event.checkFails { Address := "a", Tunnel := 1 },
           Event.create "a" (.ok 2) (some "handshake failed")] = some s ∧
        createsOf (Update s.pool ["a"]).2 = ["a"] :=
  ⟨by decide, by decide, rfl, by decide,
   { pool := { entries := [], adding := [], user := "core" },
     creating := [], closing := [], checks := [],
     log := [Effect.goCreate "a", Effect.discard { Address := "a", Tunnel := 1 }, Effect.close 1,
       Effect.goCreate "a", Effect.close 1, Effect.goCreate "a"] },
   by decide, by decide⟩

/-- C28, amended: if `newSSHTunnel` fails inside `createAndAddTunnel(addr)`,
the pool is unchanged, so a marker for `addr` in `adding` stays set and the
entries are the same.  The marker then stays set, and every `Update` starts no
creation for `addr`, for as long as no `createAndAddTunnel(addr)` gets past
`newSSHTunnel`; `Update` starts none, health-check failure handling can. -/
theorem creator_failure_blocks_update (s0 s1 s2 : System) (addr : String) (err : Error)
    (opened : Option Error) (evs : List Event)
    (hmark : addr ∈ s0.pool.adding)
    (hstep : step s0 (Event.create addr (.error err) opened) = some s1)
    (hev : evs.all (fun ev => !passesCreator addr ev) = true)
    (hrun : run s1 evs = some s2) :
    s1.pool = s0.pool ∧
      createAndAddTunnel s0.pool addr (.error err) opened = s0.pool ∧
      addr ∈ s2.pool.adding ∧
      ∀ addrs, addr ∉ createsOf (Update s2.pool addrs).2 ∧ addr ∈ (Update s2.pool addrs).1.adding := by
  have hpool : s1.pool = s0.pool := by
    simp only [step] at hstep
    split_ifs at hstep with hc
    simp only [Option.some.injEq] at hstep
    rw [← hstep]
    rfl
  have h1 : addr ∈ s1.pool.adding := by
    rw [hpool]
    exact hmark
  have h2 := adding_preserved_run addr evs s1 s2 h1 hev hrun
  refine ⟨hpool, rfl, h2, fun addrs => ⟨?_, ?_⟩⟩
  · intro hmem
    exact (((update_started s2.pool addrs).2.1 addr).mp hmem).2.2 h2
  · exact ((update_started s2.pool addrs).2.2 addr).mpr (Or.inl h2)

/-- After the failure in `leakState`, two `Update` calls listing `a`, a round
and the creation of a tunnel for `b` leave `a` marked, and no `Update` starts a
creation for `a`. -/
theorem creator_failure_blocks_update_witness :
    "a" ∈ (Update
        { entries := [{ Address := "b", Tunnel := 5 }], adding := ["a"], user := "core" }
        ["a"]).1.adding ∧
      "a" ∉ createsOf (Update
        { entries := [{ Address := "b", Tunnel := 5 }], adding := ["a"], user := "core" }
        ["a"]).2 :=
  have h := creator_failure_blocks_update leakState leakedState
    { pool := { entries := [{ Address := "b", Tunnel := 5 }], adding := ["a"], user := "core" },
      creating := [], closing := [], checks := [{ Address := "a", Tunnel := 1 }],
      log := [Effect.goCreate "a", Effect.discard { Address := "a", Tunnel := 1 }, Effect.close 1,
        Effect.goCreate "a", Effect.goCreate "b"] }
    "a" "dial failed" none
    [Event.update ["a"], Event.round, Event.update ["a", "b"], Event.create "b" (.ok 5) none]
    (by decide) (by decide) (by decide) (by decide)
  ⟨(h.2.2.2 ["a"]).2, (h.2.2.2 ["a"]).1⟩

end Ssh

/-!
CPU topology discovery (`pkg/kubelet/cpumanager/topology/topology.go`)

A shallow embedding of `Discover`.  The machine description of cadvisor is
given by the fields `Discover` reads; the map `CPUDetails` is a list of
bindings in which an assignment replaces the binding of its key; the three
nested loops are folds over an explicit loop state.
-/

namespace Topology

/-- A Go `error` value. -/
abbrev Error := String

/-- The type `cadvisorapi.Core`, restricted to the fields read. -/
structure Core where
  Id : Int
  Threads : List Int
deriving DecidableEq, Repr

/-- The type `cadvisorapi.Node`, a socket, restricted to the fields read. -/
structure Node where
  Id : Int
  Cores : List Core
deriving DecidableEq, Repr

/-- The type `cadvisorapi.MachineInfo`, restricted to the fields read;
`Topology` is its field `Topology`. -/
structure MachineInfo where
  NumCores : Int
  Topology : List Node
deriving DecidableEq, Repr

/-- The type `CPUInfo`. -/
structure CPUInfo where
  SocketID : Int
  CoreID : Int
deriving DecidableEq, Repr

/-- The type `CPUDetails`, a map from CPU ID to `CPUInfo`. -/
abbrev CPUDetails := List (Int × CPUInfo)

/-- The type `CPUTopology`. -/
structure CPUTopology where
  NumCPUs : Int
  NumCores : Int
  HyperThreading : Bool
  NumSockets : Int
  CPUtopoDetails : CPUDetails
  NumReservedCores : Int
deriving DecidableEq, Repr

/-- The map assignment `d[cpu] = info`. -/
def setDetail (d : CPUDetails) (cpu : Int) (info : CPUInfo) : CPUDetails :=
  (cpu, info) :: d.filter (fun kv => kv.1 != cpu)

/-- The local variables of `Discover` that its loops update. -/
structure DiscoverState where
  CPUtopoDetails : CPUDetails
  htEnabled : Bool
  numPhysicalCores : Int
deriving DecidableEq, Repr

/-- The body of the loop over `core.Threads`. -/
def discoverThread (socket : Node) (core : Core) (st : DiscoverState) (cpu : Int) :
    DiscoverState :=
  { st with
    CPUtopoDetails :=
      setDetail st.CPUtopoDetails cpu { CoreID := core.Id, SocketID := socket.Id }
    htEnabled := if !st.htEnabled && core.Threads.length != 1 then true else st.htEnabled }

/-- The body of the loop over `socket.Cores`. -/
def discoverCore (socket : Node) (st : DiscoverState) (core : Core) : DiscoverState :=
  core.Threads.foldl (discoverThread socket core) st

/-- The body of the loop over `machineInfo.Topology`. -/
def discoverSocket (st : DiscoverState) (socket : Node) : DiscoverState :=
  socket.Cores.foldl (discoverCore socket)
    { st with numPhysicalCores := st.numPhysicalCores + socket.Cores.length }

/-- The function `Discover`; the nil topology of the error case is the
absence of a value. -/
def Discover (machineInfo : MachineInfo) : Except Error CPUTopology :=
  if machineInfo.NumCores = 0 then .error "could not detect number of cpus"
  else
    let st := machineInfo.Topology.foldl discoverSocket
      { CPUtopoDetails := [], htEnabled := false, numPhysicalCores := 0 }
    .ok
      { NumCPUs := machineInfo.NumCores,
        NumSockets := machineInfo.Topology.length,
        NumCores := st.numPhysicalCores,
        HyperThreading := st.htEnabled,
        CPUtopoDetails := st.CPUtopoDetails,
        NumReservedCores := 0 }

/-- A machine with one socket whose only core reports no thread. -/
def threadlessMachine : MachineInfo :=
  { NumCores := 1, Topology := [{ Id := 0, Cores := [{ Id := 0, Threads := [] }] }] }

/-- A machine with one socket of two cores, the second with two threads. -/
def smtMachine : MachineInfo :=
  { NumCores := 3,
    Topology := [{ Id := 0, Cores := [{ Id := 0, Threads := [0] }, { Id := 1, Threads := [1, 2] }] }] }

/-! ## Hyper-threading detection -/

theorem discoverCore_htEnabled (socket : Node) (core : Core) (st : DiscoverState) :
    (discoverCore socket st core).htEnabled
      = (st.htEnabled || decide (2 ≤ core.Threads.length)) := by
  unfold discoverCore
  have key : ∀ (ts : List Int) (s : DiscoverState),
      (ts.foldl (discoverThread socket core) s).htEnabled
        = (s.htEnabled || (!ts.isEmpty && core.Threads.length != 1)) := by
    intro ts
    induction ts with
    | nil => intro s; simp
    | cons t ts ih =>
      intro s
      rw [List.foldl_cons, ih]
      cases hs : s.htEnabled <;> cases hl : (core.Threads.length != 1) <;>
        simp [discoverThread, hs, hl]
  rw [key]
  cases hth : core.Threads with
  | nil => simp
  | cons t ts =>
    cases ts with
    | nil => simp
    | cons u us => simp

theorem discoverSocket_htEnabled (st : DiscoverState) (socket : Node) :
    (discoverSocket st socket).htEnabled
      = (st.htEnabled || socket.Cores.any (fun core => decide (2 ≤ core.Threads.length))) := by
  unfold discoverSocket
  have key : ∀ (cs : List Core) (s : DiscoverState),
      (cs.foldl (discoverCore socket) s).htEnabled
        = (s.htEnabled || cs.any (fun core => decide (2 ≤ core.Threads.length))) := by
    intro cs
    induction cs with
    | nil => intro s; simp
    | cons c cs ih =>
      intro s
      rw [List.foldl_cons, ih, discoverCore_htEnabled, List.any_cons, Bool.or_assoc]
  rw [key]

theorem discover_htEnabled (sockets : List Node) (st : DiscoverState) :
    (sockets.foldl discoverSocket st).htEnabled
      = (st.htEnabled
        || sockets.any (fun socket =>
            socket.Cores.any (fun core => decide (2 ≤ core.Threads.length)))) := by
  induction sockets generalizing st with
  | nil => simp
  | cons s ss ih =>
    rw [List.foldl_cons, ih, discoverSocket_htEnabled, List.any_cons, Bool.or_assoc]

/-- C21, as stated, fails for a core without threads: its number of threads
differs from 1, and `Discover` leaves `HyperThreading` false, the test being
made once per thread. -/
theorem threadless_core_counterexample :
    threadlessMachine.NumCores ≠ 0 ∧
      (∃ socket ∈ threadlessMachine.Topology, ∃ core ∈ socket.Cores, core.Threads.length ≠ 1) ∧
      Discover threadlessMachine
        = .ok { NumCPUs := 1, NumCores := 1, HyperThreading := false, NumSockets := 1,
                CPUtopoDetails := [], NumReservedCores := 0 } :=
  ⟨by decide, ⟨{ Id := 0, Cores := [{ Id := 0, Threads := [] }] }, by decide,
    { Id := 0, Threads := [] }, by decide, by decide⟩, by decide⟩

/-- C21, amended: for a machine info with `NumCores != 0`, `Discover`
succeeds and sets `HyperThreading` to true if and only if some core of some
socket of the machine topology reports two or more threads; for
`NumCores == 0` it returns an error and no topology. -/
theorem discover_hyperThreading (machineInfo : MachineInfo) :
    (machineInfo.NumCores ≠ 0 →
      ∃ topo, Discover machineInfo = .ok topo ∧
        (topo.HyperThreading = true ↔
          ∃ socket ∈ machineInfo.Topology, ∃ core ∈ socket.Cores, 2 ≤ core.Threads.length)) ∧
    (machineInfo.NumCores = 0 →
      Discover machineInfo = .error "could not detect number of cpus") := by
  constructor
  · intro h
    refine ⟨_, by unfold Discover; rw [if_neg h], ?_⟩
    simp only [discover_htEnabled, Bool.false_or, List.any_eq_true, decide_eq_true_eq]
  · intro h
    unfold Discover
    rw [if_pos h]

/-- On `smtMachine`, whose second core reports two threads, `Discover`
succeeds with `HyperThreading` set. -/
theorem discover_hyperThreading_witness :
    smtMachine.NumCores ≠ 0 ∧
      ∃ topo, Discover smtMachine = .ok topo ∧
        (topo.HyperThreading = true ↔
          ∃ socket ∈ smtMachine.Topology, ∃ core ∈ socket.Cores, 2 ≤ core.Threads.length) :=
  ⟨by decide, (discover_hyperThreading smtMachine).1 (by decide)⟩

end Topology

/-!
Default toleration seconds
(`plugin/pkg/admission/defaulttolerationseconds/admission.go`)

A shallow embedding of `Plugin.Admit`.  The pod is passed explicitly and
returned with the error.  The two taint keys of package `algorithm` and the
function `helper.AddOrUpdateTolerationInPod` are declared outside the embedded
source and are parameters, bundled in `Lib`.
-/

namespace DefaultTolerationSeconds

/-- A Go `error` value. -/
abbrev Error := String

/-- The type `api.Toleration`; `TolerationSeconds` is a `*int64`. -/
structure Toleration where
  Key : String
  Operator : String
  Value : String
  Effect : String
  TolerationSeconds : Option Int
deriving DecidableEq, Repr

/-- The type `api.Pod`, restricted to `Spec.Tolerations`. -/
structure Pod where
  Tolerations : List Toleration
deriving DecidableEq, Repr

/-- The type `schema.GroupResource`. -/
structure GroupResource where
  Group : String
  Resource : String
deriving DecidableEq, Repr

/-- The value of `attributes.GetObject()`: a `*api.Pod`, or an object of
another type, given by the name of its type. -/
inductive Object where
  | pod (p : Pod)
  | other (typeName : String)
deriving DecidableEq, Repr

/-- The interface `admission.Attributes`, restricted to the methods called. -/
structure Attributes where
  /-- The value of `GetResource().GroupResource()`. -/
  Resource : GroupResource
  /-- The value of `GetSubresource()`. -/
  Subresource : String
  /-- The value of `GetObject()`. -/
  Object : Object
deriving DecidableEq, Repr

/-- The type `Plugin`, restricted to the two configured durations. -/
structure Plugin where
  notReadyTolerationSeconds : Option Int
  unreachableTolerationSeconds : Option Int
deriving DecidableEq, Repr

/-- The declarations of other packages used by `Admit`. -/
structure Lib where
  /-- The constant `algorithm.TaintNodeNotReady`. -/
  TaintNodeNotReady : String
  /-- The constant `algorithm.TaintNodeUnreachable`. -/
  TaintNodeUnreachable : String
  /-- The function `helper.AddOrUpdateTolerationInPod`: the pod afterwards. -/
  AddOrUpdateTolerationInPod : Pod → Toleration → Pod

/-- The value `api.Resource("pods")`: the resource `pods` of the core group. -/
def podsResource : GroupResource := { Group := "", Resource := "pods" }

/-- The constant `api.TaintEffectNoExecute`. -/
def TaintEffectNoExecute : String := "NoExecute"

/-- The constant `api.TolerationOpExists`. -/
def TolerationOpExists : String := "Exists"

/-- The test of the loop of `Admit`, for the taint key `key`. -/
def toleratesKey (key : String) (toleration : Toleration) : Bool :=
  (toleration.Key == key || toleration.Key.length == 0) &&
    (toleration.Effect == TaintEffectNoExecute || toleration.Effect.length == 0)

/-- The loop of `Admit`: `(toleratesNodeNotReady, toleratesNodeUnreachable)`. -/
def scanTolerations (lib : Lib) (tolerations : List Toleration) : Bool × Bool :=
  tolerations.foldl
    (fun flags toleration =>
      (if toleratesKey lib.TaintNodeNotReady toleration then true else flags.1,
       if toleratesKey lib.TaintNodeUnreachable toleration then true else flags.2))
    (false, false)

/-- The toleration `Admit` adds for the taint key `key`. -/
def defaultToleration (key : String) (seconds : Option Int) : Toleration :=
  { Key := key, Operator := TolerationOpExists, Value := "", Effect := TaintEffectNoExecute,
    TolerationSeconds := seconds }

/-- The method `Plugin.Admit`: the returned error and the object afterwards. -/
def Admit (lib : Lib) (p : Plugin) (attributes : Attributes) : Option Error × Object :=
  if attributes.Resource != podsResource then (none, attributes.Object)
  else if attributes.Subresource.length > 0 then (none, attributes.Object)
  else
    match attributes.Object with
    | .other typeName => (some ("expected *api.Pod but got " ++ typeName), .other typeName)
    | .pod pod =>
      let flags := scanTolerations lib pod.Tolerations
      if flags.1 && flags.2 then (none, .pod pod)
      else
        let pod1 :=
          if !flags.1 then
            lib.AddOrUpdateTolerationInPod pod
              (defaultToleration lib.TaintNodeNotReady p.notReadyTolerationSeconds)
          else pod
        let pod2 :=
          if !flags.2 then
            lib.AddOrUpdateTolerationInPod pod1
              (defaultToleration lib.TaintNodeUnreachable p.unreachableTolerationSeconds)
          else pod1
        (none, .pod pod2)

/-! ## A concrete instance -/

/-- Two tolerations agree on key, effect, operator and value. -/
def matchToleration (a b : Toleration) : Bool :=
  a.Key == b.Key && a.Effect == b.Effect && a.Operator == b.Operator && a.Value == b.Value

/-- An instance of the helper, for evaluating `Admit` on concrete inputs: the
pod is left alone when it holds the toleration already; otherwise the
tolerations that agree with it on key, effect, operator and value are replaced
by it, and it is appended when there is none. -/
def addOrUpdate (pod : Pod) (toleration : Toleration) : Pod :=
  if pod.Tolerations.any (fun x => x == toleration) then pod
  else if pod.Tolerations.any (matchToleration toleration) then
    { Tolerations := pod.Tolerations.map (fun x =>
        if matchToleration toleration x then toleration else x) }
  else { Tolerations := pod.Tolerations ++ [toleration] }

/-- The helper `addOrUpdate` with the taint keys of the node controller. -/
def nodeLib : Lib :=
  { TaintNodeNotReady := "node.alpha.kubernetes.io/notReady",
    TaintNodeUnreachable := "node.alpha.kubernetes.io/unreachable",
    AddOrUpdateTolerationInPod := addOrUpdate }

/-- A plugin configured with 300 seconds for both taints. -/
def defaultPlugin : Plugin :=
  { notReadyTolerationSeconds := some 300, unreachableTolerationSeconds := some 300 }

/-- A toleration of the taint `notReady:NoExecute` for 10 seconds. -/
def notReadyFor10 : Toleration :=
  { Key := "node.alpha.kubernetes.io/notReady", Operator := "Exists", Value := "",
    Effect := "NoExecute", TolerationSeconds := some 10 }

/-- A request to create a pod that tolerates `notReady:NoExecute`. -/
def notReadyRequest : Attributes :=
  { Resource := podsResource, Subresource := "",
    Object := .pod { Tolerations := [notReadyFor10] } }

/-! ## The tolerations after `Admit` -/

theorem scanTolerations_eq (lib : Lib) (tolerations : List Toleration) :
    scanTolerations lib tolerations
      = (tolerations.any (toleratesKey lib.TaintNodeNotReady),
         tolerations.any (toleratesKey lib.TaintNodeUnreachable)) := by
  unfold scanTolerations
  have key : ∀ (ts : List Toleration) (flags : Bool × Bool),
      ts.foldl
        (fun flags toleration =>
          (if toleratesKey lib.TaintNodeNotReady toleration then true else flags.1,
           if toleratesKey lib.TaintNodeUnreachable toleration then true else flags.2))
        flags
        = (flags.1 || ts.any (toleratesKey lib.TaintNodeNotReady),
           flags.2 || ts.any (toleratesKey lib.TaintNodeUnreachable)) := by
    intro ts
    induction ts with
    | nil => intro flags; simp
    | cons t ts ih =>
      intro flags
      rw [List.foldl_cons, ih]
      cases h1 : toleratesKey lib.TaintNodeNotReady t <;>
        cases h2 : toleratesKey lib.TaintNodeUnreachable t <;>
        simp [h1, h2]
  rw [key]
  simp

/-- A toleration that passes the test for one taint key and not for another
carries the first key, which differs from the second. -/
theorem key_of_toleratesKey (k1 k2 : String) (x : Toleration)
    (h1 : toleratesKey k1 x = true) (h2 : toleratesKey k2 x = false) :
    x.Key = k1 ∧ x.Key ≠ k2 := by
  unfold toleratesKey at h1 h2
  simp only [Bool.and_eq_true, Bool.or_eq_true, beq_iff_eq, Bool.and_eq_false_iff,
    Bool.or_eq_false_iff, beq_eq_false_iff_ne, ne_eq] at h1 h2
  obtain ⟨hk, he⟩ := h1
  rcases h2 with ⟨hk2, hl2⟩ | ⟨he2, hl2⟩
  · rcases hk with hk | hk
    · exact ⟨hk, hk2⟩
    · exact absurd hk hl2
  · rcases he with he | he
    · exact absurd he he2
    · exact absurd he hl2

/-- The instance `addOrUpdate` keeps the tolerations with another key and adds
nothing but the given toleration. -/
theorem addOrUpdate_frame (pod : Pod) (tol x : Toleration) :
    (x ∈ pod.Tolerations → x.Key ≠ tol.Key → x ∈ (addOrUpdate pod tol).Tolerations) ∧
      (x ∈ (addOrUpdate pod tol).Tolerations → x ∈ pod.Tolerations ∨ x = tol) := by
  unfold addOrUpdate
  split_ifs with h1 h2
  · exact ⟨fun h _ => h, fun h => Or.inl h⟩
  · constructor
    · intro hx hk
      refine List.mem_map.mpr ⟨x, hx, ?_⟩
      have hm : matchToleration tol x = false := by
        unfold matchToleration
        have : (tol.Key == x.Key) = false := by
          rw [beq_eq_false_iff_ne]
          exact fun h => hk h.symm
        simp [this]
      simp [hm]
    · intro hx
      obtain ⟨y, hy, hxy⟩ := List.mem_map.mp hx
      split_ifs at hxy
      · exact Or.inr hxy.symm
      · rw [← hxy]
        exact Or.inl hy
  · constructor
    · intro hx _
      exact List.mem_append_left _ hx
    · intro hx
      simpa using hx

/-- C26: a request that is not for the resource `pods`, or that targets a
subresource, is admitted with the object unchanged; so is a pod that tolerates
both taints.  If the pod tolerates `notReady:NoExecute`, `Admit` returns nil,
every toleration of the pod that passes the test for that taint is still among
its tolerations, and any toleration that was not is the default one for
`unreachable`; likewise with the two taints exchanged.  The helper is taken to
keep the tolerations with another key and to add nothing but its argument. -/
theorem admit_keeps_tolerations (lib : Lib) (p : Plugin) (attributes : Attributes)
    (hhelper : ∀ pod tol x,
      (x ∈ pod.Tolerations → x.Key ≠ tol.Key →
        x ∈ (lib.AddOrUpdateTolerationInPod pod tol).Tolerations) ∧
      (x ∈ (lib.AddOrUpdateTolerationInPod pod tol).Tolerations →
        x ∈ pod.Tolerations ∨ x = tol)) :
    (attributes.Resource ≠ podsResource ∨ attributes.Subresource.length > 0 →
      Admit lib p attributes = (none, attributes.Object)) ∧
    ∀ pod, attributes.Object = .pod pod →
      (pod.Tolerations.any (toleratesKey lib.TaintNodeNotReady) = true →
        pod.Tolerations.any (toleratesKey lib.TaintNodeUnreachable) = true →
        Admit lib p attributes = (none, .pod pod)) ∧
      (pod.Tolerations.any (toleratesKey lib.TaintNodeNotReady) = true →
        ∃ pod', Admit lib p attributes = (none, .pod pod') ∧
          (∀ x ∈ pod.Tolerations, toleratesKey lib.TaintNodeNotReady x = true →
            x ∈ pod'.Tolerations) ∧
          (∀ x ∈ pod'.Tolerations, x ∈ pod.Tolerations ∨
            x = defaultToleration lib.TaintNodeUnreachable p.unreachableTolerationSeconds)) ∧
      (pod.Tolerations.any (toleratesKey lib.TaintNodeUnreachable) = true →
        ∃ pod', Admit lib p attributes = (none, .pod pod') ∧
          (∀ x ∈ pod.Tolerations, toleratesKey lib.TaintNodeUnreachable x = true →
            x ∈ pod'.Tolerations) ∧
          (∀ x ∈ pod'.Tolerations, x ∈ pod.Tolerations ∨
            x = defaultToleration lib.TaintNodeNotReady p.notReadyTolerationSeconds)) := by
  have hskip : attributes.Resource ≠ podsResource ∨ attributes.Subresource.length > 0 →
      Admit lib p attributes = (none, attributes.Object) := by
    intro h
    unfold Admit
    by_cases hr : attributes.Resource = podsResource
    · have hs : attributes.Subresource.length > 0 := by
        rcases h with h | h
        · exact absurd hr h
        · exact h
      simp [hr, hs]
    · simp [hr]
  refine ⟨hskip, fun pod hobj => ?_⟩
  by_cases hgo : attributes.Resource ≠ podsResource ∨ attributes.Subresource.length > 0
  · have hAdmit := hskip hgo
    rw [hobj] at hAdmit
    exact ⟨fun _ _ => hAdmit,
      fun _ => ⟨pod, hAdmit, fun x hx _ => hx, fun x hx => Or.inl hx⟩,
      fun _ => ⟨pod, hAdmit, fun x hx _ => hx, fun x hx => Or.inl hx⟩⟩
  · simp only [not_or, ne_eq, not_not, gt_iff_lt, not_lt, Nat.le_zero_eq] at hgo
    obtain ⟨hr, hs⟩ := hgo
    have hbody : Admit lib p attributes =
        if pod.Tolerations.any (toleratesKey lib.TaintNodeNotReady)
            && pod.Tolerations.any (toleratesKey lib.TaintNodeUnreachable) then (none, .pod pod)
        else
          (none, .pod
            (if !pod.Tolerations.any (toleratesKey lib.TaintNodeUnreachable) then
              lib.AddOrUpdateTolerationInPod
                (if !pod.Tolerations.any (toleratesKey lib.TaintNodeNotReady) then
                  lib.AddOrUpdateTolerationInPod pod
                    (defaultToleration lib.TaintNodeNotReady p.notReadyTolerationSeconds)
                else pod)
                (defaultToleration lib.TaintNodeUnreachable p.unreachableTolerationSeconds)
            else
              (if !pod.Tolerations.any (toleratesKey lib.TaintNodeNotReady) then
                lib.AddOrUpdateTolerationInPod pod
                  (defaultToleration lib.TaintNodeNotReady p.notReadyTolerationSeconds)
              else pod))) := by
      unfold Admit
      simp [hr, hs, hobj, scanTolerations_eq]
    refine ⟨fun h1 h2 => ?_, fun h1 => ?_, fun h2 => ?_⟩
    · rw [hbody]
      simp [h1, h2]
    · cases h2 : pod.Tolerations.any (toleratesKey lib.TaintNodeUnreachable) with
      | true =>
        refine ⟨pod, ?_, fun x hx _ => hx, fun x hx => Or.inl hx⟩
        rw [hbody]
        simp [h1, h2]
      | false =>
        refine ⟨lib.AddOrUpdateTolerationInPod pod
          (defaultToleration lib.TaintNodeUnreachable p.unreachableTolerationSeconds), ?_, ?_, ?_⟩
        · rw [hbody]
          simp [h1, h2]
        · intro x hx hnr
          have hx2 : toleratesKey lib.TaintNodeUnreachable x = false := by
            rw [List.any_eq_false] at h2
            simpa using h2 x hx
          exact (hhelper pod _ x).1 hx (key_of_toleratesKey _ _ x hnr hx2).2
        · intro x hx
          exact (hhelper pod _ x).2 hx
    · cases h1 : pod.Tolerations.any (toleratesKey lib.TaintNodeNotReady) with
      | true =>
        refine ⟨pod, ?_, fun x hx _ => hx, fun x hx => Or.inl hx⟩
        rw [hbody]
        simp [h1, h2]
      | false =>
        refine ⟨lib.AddOrUpdateTolerationInPod pod
          (defaultToleration lib.TaintNodeNotReady p.notReadyTolerationSeconds), ?_, ?_, ?_⟩
        · rw [hbody]
          simp [h1, h2]
        · intro x hx hur
          have hx1 : toleratesKey lib.TaintNodeNotReady x = false := by
            rw [List.any_eq_false] at h1
            simpa using h1 x hx
          exact (hhelper pod _ x).1 hx (key_of_toleratesKey _ _ x hur hx1).2
        · intro x hx
          exact (hhelper pod _ x).2 hx

/-- A pod that tolerates `notReady:NoExecute` for 10 seconds keeps that
toleration and receives the default one for `unreachable` only. -/
theorem admit_keeps_tolerations_witness :
    Admit nodeLib defaultPlugin notReadyRequest
      = (none, .pod { Tolerations :=
          [notReadyFor10,
           defaultToleration "node.alpha.kubernetes.io/unreachable" (some 300)] }) ∧
    ∃ pod', Admit nodeLib defaultPlugin notReadyRequest = (none, .pod pod') ∧
      (∀ x ∈ [notReadyFor10], toleratesKey nodeLib.TaintNodeNotReady x = true →
        x ∈ pod'.Tolerations) ∧
      (∀ x ∈ pod'.Tolerations, x ∈ [notReadyFor10] ∨
        x = defaultToleration nodeLib.TaintNodeUnreachable
          defaultPlugin.unreachableTolerationSeconds) :=
  ⟨by decide,
   ((admit_keeps_tolerations nodeLib defaultPlugin notReadyRequest
      (fun pod tol x => addOrUpdate_frame pod tol x)).2
      { Tolerations := [notReadyFor10] } rfl).2.1 (by decide)⟩

end DefaultTolerationSeconds

/-!
Pruning of unspecified fields
(`staging/src/k8s.io/apiextensions-apiserver/pkg/apiserver/pruning/prune.go`)

A shallow embedding of `Prune`.  The data is a JSON tree as returned by
`json.Unmarshal`; `prune` updates it in place and the embedding returns the
updated tree.  A Go map is the list of its bindings, visited in list order;
the outcome of the loop does not depend on the order, every field being
treated on its own.  `validate.NewFieldKey(obj, field)` identifies the map
`obj` by its identity, which every object of the tree carries as a number.
-/

namespace Pruning

/-- A JSON value that is neither an object nor an array. -/
inductive Scalar where
  | null
  | bool (b : Bool)
  | number (digits : String)
  | string (s : String)
deriving DecidableEq, Repr

/-- A value as returned by `json.Unmarshal`: a `map[string]interface{}` with
the identity of the map, a `[]interface{}`, or a scalar. -/
inductive JSON where
  | object (id : Nat) (fields : List (String × JSON))
  | array (items : List JSON)
  | scalar (v : Scalar)

/-- The value of an OpenAPI extension, an `interface{}`: a `bool` or a value
of another type, given by its text. -/
inductive ExtensionValue where
  | bool (b : Bool)
  | other (text : String)
deriving DecidableEq, Repr

/-- The type `spec.Schema`, restricted to its `Extensions`. -/
structure Schema where
  Extensions : List (String × ExtensionValue)
deriving DecidableEq, Repr

/-- The map `result.FieldSchemata()`: the schemata stored under the key
`validate.NewFieldKey(obj, field)`, if any. -/
abbrev FieldSchemata := Nat → String → Option (List Schema)

/-- The type `validate.Result`, restricted to what `Prune` reads. -/
structure Result where
  data : JSON
  fieldSchemata : FieldSchemata

/-- The constant `ExtensionNoPrune`. -/
def ExtensionNoPrune : String := "x-kubernetes-no-prune"

/-- The inner loop of `prune`: whether some schema carries the extension
`ExtensionNoPrune` with the boolean value true (`doPrune` is then false). -/
def noPrune (schemata : List Schema) : Bool :=
  schemata.any (fun s =>
    match s.Extensions.lookup ExtensionNoPrune with
    | some (.bool b) => b
    | _ => false)

mutual

/-- The function `prune`: the data afterwards. -/
def prune (fieldSchemata : FieldSchemata) : JSON → JSON
  | .object id fields => .object id (pruneFields fieldSchemata id fields)
  | .array items => .array (pruneItems fieldSchemata items)
  | .scalar v => .scalar v

/-- The loop of `prune` over the fields of the object `id`. -/
def pruneFields (fieldSchemata : FieldSchemata) (id : Nat) :
    List (String × JSON) → List (String × JSON)
  | [] => []
  | (field, val) :: rest =>
    match fieldSchemata id field with
    | none => pruneFields fieldSchemata id rest
    | some schemata =>
      if schemata.length = 0 then pruneFields fieldSchemata id rest
      else if noPrune schemata then (field, val) :: pruneFields fieldSchemata id rest
      else (field, prune fieldSchemata val) :: pruneFields fieldSchemata id rest

/-- The loop of `prune` over the items of an array. -/
def pruneItems (fieldSchemata : FieldSchemata) : List JSON → List JSON
  | [] => []
  | item :: rest => prune fieldSchemata item :: pruneItems fieldSchemata rest

end

/-- The function `Prune`: the result with its data pruned. -/
def Prune (r : Result) : Result :=
  { r with data := prune r.fieldSchemata r.data }

/-! ## Positions in the data -/

/-- Whether the field schemata hold a non-empty schema list for a field. -/
def hasSchema (fieldSchemata : FieldSchemata) (id : Nat) (field : String) : Bool :=
  match fieldSchemata id field with
  | none => false
  | some schemata => schemata.length != 0

/-- Whether a field is marked no-prune by one of its schemata. -/
def markedNoPrune (fieldSchemata : FieldSchemata) (id : Nat) (field : String) : Bool :=
  match fieldSchemata id field with
  | none => false
  | some schemata => noPrune schemata

/-- One step down the data: into a field of an object or an item of an array. -/
inductive Step where
  | field (name : String)
  | index (i : Nat)
deriving DecidableEq, Repr

/-- The value one step below a value, if there is one. -/
def child : JSON → Step → Option JSON
  | .object _ fields, .field name => fields.lookup name
  | .array items, .index i => items[i]?
  | _, _ => none

/-- The value at a path below a value, if there is one. -/
def descend : JSON → List Step → Option JSON
  | node, [] => some node
  | node, step :: rest =>
    match child node step with
    | none => none
    | some next => descend next rest

/-- Whether a step leads through a list item or through a field that has a
schema and is not marked no-prune. -/
def continues (fieldSchemata : FieldSchemata) : JSON → Step → Bool
  | .object id _, .field name =>
    hasSchema fieldSchemata id name && !markedNoPrune fieldSchemata id name
  | .array _, .index _ => true
  | _, _ => false

/-- Whether a path exists below a value and leads through list items and
through fields that have a schema and are not marked no-prune only. -/
def reached (fieldSchemata : FieldSchemata) : JSON → List Step → Bool
  | _, [] => true
  | node, step :: rest =>
    match child node step with
    | none => false
    | some next => continues fieldSchemata node step && reached fieldSchemata next rest

/-- What `prune` makes of the binding of a field of the object `id`. -/
def pruneBinding (fieldSchemata : FieldSchemata) (id : Nat) (kv : String × JSON) :
    Option (String × JSON) :=
  if hasSchema fieldSchemata id kv.1 then
    if markedNoPrune fieldSchemata id kv.1 then some kv
    else some (kv.1, prune fieldSchemata kv.2)
  else none

/-! ## A concrete instance -/

/-- A schema without extensions. -/
def plainSchema : Schema := { Extensions := [] }

/-- A schema that carries `x-kubernetes-no-prune: true`. -/
def noPruneSchema : Schema := { Extensions := [(ExtensionNoPrune, .bool true)] }

/-- A schema that carries `x-kubernetes-no-prune: "true"`, a string. -/
def textSchema : Schema := { Extensions := [(ExtensionNoPrune, .other "true")] }

/-- A custom resource with a specified `spec` (object 1), an unspecified
field `unknown` and a list `items` holding object 4.  Inside `spec`, `raw`
(object 2) is marked no-prune and `loose` (object 3) carries the extension
with a string value. -/
def exampleData : JSON :=
  .object 0
    [("spec", .object 1
        [("replicas", .scalar (.number "3")),
         ("junk", .scalar (.string "x")),
         ("raw", .object 2 [("anything", .scalar (.bool true))]),
         ("loose", .object 3 [("stray", .scalar .null)])]),
     ("unknown", .scalar (.string "u")),
     ("items", .array [.object 4 [("a", .scalar .null), ("b", .scalar .null)]])]

/-- The field schemata of the example. -/
def exampleSchemata : FieldSchemata := fun id field =>
  match id, field with
  | 0, "spec" => some [plainSchema]
  | 0, "items" => some [plainSchema]
  | 1, "replicas" => some [plainSchema]
  | 1, "raw" => some [plainSchema, noPruneSchema]
  | 1, "loose" => some [textSchema]
  | 1, "junk" => some []
  | 4, "a" => some [plainSchema]
  | _, _ => none

/-- The validation result of the example. -/
def exampleResult : Result := { data := exampleData, fieldSchemata := exampleSchemata }

/-! ## The data after `Prune` -/

theorem pruneFields_eq (fieldSchemata : FieldSchemata) (id : Nat) (fields : List (String × JSON)) :
    pruneFields fieldSchemata id fields = fields.filterMap (pruneBinding fieldSchemata id) := by
  induction fields with
  | nil => simp [pruneFields]
  | cons kv rest ih =>
    obtain ⟨field, val⟩ := kv
    rw [pruneFields, List.filterMap_cons, ih]
    unfold pruneBinding hasSchema markedNoPrune
    cases h : fieldSchemata id field with
    | none => simp
    | some schemata =>
      by_cases h0 : schemata.length = 0
      · simp [h0]
      · by_cases h1 : noPrune schemata = true
        · simp [h0, h1]
        · simp [h0, h1]

theorem pruneItems_eq (fieldSchemata : FieldSchemata) (items : List JSON) :
    pruneItems fieldSchemata items = items.map (prune fieldSchemata) := by
  induction items with
  | nil => simp [pruneItems]
  | cons item rest ih => rw [pruneItems, ih, List.map_cons]

theorem lookup_pruneFields (fieldSchemata : FieldSchemata) (id : Nat)
    (fields : List (String × JSON)) (name : String) :
    (pruneFields fieldSchemata id fields).lookup name
      = if hasSchema fieldSchemata id name then
          if markedNoPrune fieldSchemata id name then fields.lookup name
          else (fields.lookup name).map (prune fieldSchemata)
        else none := by
  rw [pruneFields_eq]
  induction fields with
  | nil => simp
  | cons kv rest ih =>
    obtain ⟨field, val⟩ := kv
    rw [List.filterMap_cons]
    by_cases hk : name = field
    · subst hk
      unfold pruneBinding
      by_cases h1 : hasSchema fieldSchemata id name = true
      · by_cases h2 : markedNoPrune fieldSchemata id name = true
        · simp [h1, h2, List.lookup]
        · simp [h1, h2, List.lookup]
      · simp only [h1, if_false] at ih ⊢
        exact ih
    · have hne : (name == field) = false := by
        rw [beq_eq_false_iff_ne]
        exact hk
      rw [List.lookup, hne]
      unfold pruneBinding
      by_cases h1 : hasSchema fieldSchemata id field = true
      · by_cases h2 : markedNoPrune fieldSchemata id field = true
        · simp only [h1, h2, if_true, List.lookup, hne]
          exact ih
        · simp only [h1, h2, if_true, if_false, List.lookup, hne]
          exact ih
      · simp only [h1, if_false]
        exact ih

theorem child_prune (fieldSchemata : FieldSchemata) (node : JSON) (step : Step)
    (h : continues fieldSchemata node step = true) :
    child (prune fieldSchemata node) step = (child node step).map (prune fieldSchemata) := by
  cases node with
  | object id fields =>
    cases step with
    | field name =>
      simp only [continues, Bool.and_eq_true, Bool.not_eq_true'] at h
      rw [prune]
      simp only [child]
      rw [lookup_pruneFields, if_pos h.1, h.2]
      simp
    | index i => simp [continues] at h
  | array items =>
    cases step with
    | field name => simp [continues] at h
    | index i =>
      rw [prune]
      simp only [child]
      rw [pruneItems_eq, List.getElem?_map]
  | scalar v => simp [continues] at h

theorem descend_prune (fieldSchemata : FieldSchemata) (path : List Step) :
    ∀ node : JSON, reached fieldSchemata node path = true →
      descend (prune fieldSchemata node) path
        = (descend node path).map (prune fieldSchemata) := by
  induction path with
  | nil => intro node _; simp [descend]
  | cons step rest ih =>
    intro node h
    simp only [reached] at h
    cases hc : child node step with
    | none => simp [hc] at h
    | some next =>
      simp only [hc, Bool.and_eq_true] at h
      simp only [descend, child_prune fieldSchemata node step h.1, hc, Option.map_some']
      exact ih next h.2

theorem descend_append (node : JSON) (path : List Step) (step : Step) :
    descend node (path ++ [step]) = (descend node path).bind (fun n => child n step) := by
  induction path generalizing node with
  | nil =>
    simp only [List.nil_append, descend, Option.some_bind]
    cases child node step <;> rfl
  | cons s rest ih =>
    simp only [List.cons_append, descend]
    cases child node s with
    | none => rfl
    | some next => exact ih next

theorem mem_keys_pruneFields (fieldSchemata : FieldSchemata) (id : Nat)
    (fields : List (String × JSON)) :
    (pruneFields fieldSchemata id fields).map Prod.fst
      = (fields.filter (fun kv => hasSchema fieldSchemata id kv.1)).map Prod.fst := by
  rw [pruneFields_eq]
  induction fields with
  | nil => rfl
  | cons kv rest ih =>
    rw [List.filterMap_cons, List.filter_cons]
    by_cases h1 : hasSchema fieldSchemata id kv.1 = true
    · by_cases h2 : markedNoPrune fieldSchemata id kv.1 = true
      · have hb : pruneBinding fieldSchemata id kv = some kv := by
          simp [pruneBinding, h1, h2]
        simp only [hb, h1, if_true, List.map_cons, ih]
      · have hb : pruneBinding fieldSchemata id kv = some (kv.1, prune fieldSchemata kv.2) := by
          simp [pruneBinding, h1, h2]
        simp only [hb, h1, if_true, List.map_cons, ih]
    · have hb : pruneBinding fieldSchemata id kv = none := by
        simp [pruneBinding, h1]
      simp only [hb, h1]
      exact ih

/-- C24: after `Prune(r)`, every object of the data that is reached from the
root through list items and through fields that have a schema and are not
marked no-prune keeps its identity and contains exactly those of its original
fields for which the field schemata hold a non-empty schema list, in their
order. -/
theorem prune_keeps_specified_fields (r : Result) (path : List Step) (id : Nat)
    (fields : List (String × JSON))
    (hreach : reached r.fieldSchemata r.data path = true)
    (hobj : descend r.data path = some (.object id fields)) :
    ∃ fields', descend (Prune r).data path = some (.object id fields') ∧
      fields'.map Prod.fst
        = (fields.filter (fun kv => hasSchema r.fieldSchemata id kv.1)).map Prod.fst ∧
      ∀ name, name ∈ fields'.map Prod.fst ↔
        name ∈ fields.map Prod.fst ∧ hasSchema r.fieldSchemata id name = true := by
  refine ⟨pruneFields r.fieldSchemata id fields, ?_, mem_keys_pruneFields _ _ _, fun name => ?_⟩
  · show descend (prune r.fieldSchemata r.data) path = _
    rw [descend_prune r.fieldSchemata path r.data hreach, hobj, Option.map_some', prune]
  · rw [mem_keys_pruneFields]
    simp only [List.mem_map, List.mem_filter]
    constructor
    · rintro ⟨kv, ⟨hmem, hs⟩, rfl⟩
      exact ⟨⟨kv, hmem, rfl⟩, hs⟩
    · rintro ⟨⟨kv, hmem, rfl⟩, hs⟩
      exact ⟨kv, ⟨hmem, hs⟩, rfl⟩

/-- In the example, `spec` keeps `replicas`, `raw` and `loose` and loses
`junk`, whose schema list is empty. -/
theorem prune_keeps_specified_fields_witness :
    reached exampleResult.fieldSchemata exampleResult.data [Step.field "spec"] = true ∧
      ∃ fields', descend (Prune exampleResult).data [Step.field "spec"]
          = some (.object 1 fields') ∧
        fields'.map Prod.fst = ["replicas", "raw", "loose"] :=
  ⟨by decide,
   (prune_keeps_specified_fields exampleResult [Step.field "spec"] 1
      [("replicas", .scalar (.number "3")),
       ("junk", .scalar (.string "x")),
       ("raw", .object 2 [("anything", .scalar (.bool true))]),
       ("loose", .object 3 [("stray", .scalar .null)])]
      (by decide) rfl).imp (fun _ h => ⟨h.1, h.2.1.trans (by decide)⟩)⟩

/-- C25: in an object that pruning reaches, a field one of whose schemata
carries `x-kubernetes-no-prune` with the boolean value true is kept with its
value unchanged; a field that has a schema and no schema with that value of
the extension, the extension being absent, false or not a boolean, is kept and
its value is pruned in turn. -/
theorem no_prune_keeps_value (r : Result) (path : List Step) (id : Nat)
    (fields : List (String × JSON)) (name : String)
    (hreach : reached r.fieldSchemata r.data path = true)
    (hobj : descend r.data path = some (.object id fields)) :
    (markedNoPrune r.fieldSchemata id name = true ↔
      ∃ schemata, r.fieldSchemata id name = some schemata ∧
        ∃ s ∈ schemata, s.Extensions.lookup ExtensionNoPrune = some (.bool true)) ∧
    (markedNoPrune r.fieldSchemata id name = true →
      descend (Prune r).data (path ++ [Step.field name]) = fields.lookup name) ∧
    (hasSchema r.fieldSchemata id name = true → markedNoPrune r.fieldSchemata id name = false →
      descend (Prune r).data (path ++ [Step.field name])
        = (fields.lookup name).map (prune r.fieldSchemata)) := by
  have hdesc : descend (Prune r).data (path ++ [Step.field name])
      = (pruneFields r.fieldSchemata id fields).lookup name := by
    show descend (prune r.fieldSchemata r.data) (path ++ [Step.field name]) = _
    rw [descend_append, descend_prune r.fieldSchemata path r.data hreach, hobj,
      Option.map_some', prune]
    rfl
  refine ⟨?_, fun hm => ?_, fun hs hm => ?_⟩
  · unfold markedNoPrune
    cases hf : r.fieldSchemata id name with
    | none => simp
    | some schemata =>
      simp only [noPrune, List.any_eq_true, Option.some.injEq, exists_eq_left']
      constructor
      · rintro ⟨s, hs, hv⟩
        refine ⟨s, hs, ?_⟩
        cases hl : s.Extensions.lookup ExtensionNoPrune with
        | none => simp [hl] at hv
        | some v =>
          cases v with
          | bool b =>
            simp only [hl] at hv
            rw [hv]
          | other t => simp [hl] at hv
      · rintro ⟨s, hs, hv⟩
        exact ⟨s, hs, by simp [hv]⟩
  · have hs : hasSchema r.fieldSchemata id name = true := by
      unfold markedNoPrune at hm
      unfold hasSchema
      cases hf : r.fieldSchemata id name with
      | none => simp [hf] at hm
      | some schemata =>
        simp only [hf] at hm
        cases schemata with
        | nil => simp [noPrune] at hm
        | cons s ss => simp
    rw [hdesc, lookup_pruneFields, if_pos hs, if_pos hm]
  · rw [hdesc, lookup_pruneFields, if_pos hs, hm]
    simp

/-- In the example, `raw` is kept whole by its second schema, and `loose`,
whose extension is a string, loses its unspecified field. -/
theorem no_prune_keeps_value_witness :
    descend (Prune exampleResult).data [Step.field "spec", Step.field "raw"]
        = some (.object 2 [("anything", .scalar (.bool true))]) ∧
      descend (Prune exampleResult).data [Step.field "spec", Step.field "loose"]
        = some (.object 3 []) :=
  ⟨((no_prune_keeps_value exampleResult [Step.field "spec"] 1
      [("replicas", .scalar (.number "3")),
       ("junk", .scalar (.string "x")),
       ("raw", .object 2 [("anything", .scalar (.bool true))]),
       ("loose", .object 3 [("stray", .scalar .null)])]
      "raw" (by decide) rfl).2.1 (by decide)).trans rfl,
   ((no_prune_keeps_value exampleResult [Step.field "spec"] 1
      [("replicas", .scalar (.number "3")),
       ("junk", .scalar (.string "x")),
       ("raw", .object 2 [("anything", .scalar (.bool true))]),
       ("loose", .object 3 [("stray", .scalar .null)])]
      "loose" (by decide) rfl).2.2 (by decide) (by decide)).trans rfl⟩

end Pruning

/-!
JSONPath template parser (`pkg/util/jsonpath/parser.go`)

A shallow embedding of `Parse` and of the methods of `Parser`.

Modelling conventions

* A Go `string` is the list of its bytes; positions are byte offsets, of type
  `int`.  A slice expression whose bounds are out of range panics; a panic is
  an outcome of its own.
* The parser state is passed explicitly.  A `*ListNode` is the path of the
  list node below `Root`.
* Every method ends in a call of another method, so a run is a sequence of
  method entries: `step` runs one method up to the call it ends in, and `exec`
  follows the calls, at most as many as its first argument allows.  The loops
  that scan the input re-enter their method once per iteration.
* The three prefixes tested by `parseInsideAction` start with different bytes,
  so the order in which the `range` over the map visits them is immaterial.
* The node types are declared in `node.go`, outside the embedded source, and
  are given by their constructors.  The functions of the packages `unicode`,
  `unicode/utf8`, `strconv` and `regexp` are parameters, bundled in `Lib`.
-/

namespace Jsonpath

/-- A Go `byte`. -/
abbrev byte := Nat

/-- A Go `string`. -/
abbrev GoString := List byte

/-- A Go `rune`. -/
abbrev rune := Int

/-- A `float64` value, given by the rational number it denotes; the parser
stores it and does no arithmetic on it. -/
abbrev float64 := ℚ

/-- The constant `eof`. -/
def eof : rune := -1

/-- The bytes of a string of ASCII characters. -/
def ascii (s : String) : GoString := s.data.map Char.toNat

/-- The constant `leftDelim`, `"${"`. -/
def leftDelim : GoString := [36, 123]

/-- The constant `rightDelim`, `"}"`. -/
def rightDelim : GoString := [125]

/-- The errors of the parser, one per `fmt.Errorf` call. -/
inductive ParseError where
  /-- The message `unclosed action`. -/
  | unclosedAction
  /-- The message `unrecognized charactor in action`, with the rune. -/
  | unrecognizedCharacter (r : rune)
  /-- The message `cannot parse number`, with the text. -/
  | cannotParseNumber (value : GoString)
  /-- The message `unterminated array string`. -/
  | unterminatedArray
  /-- The message `union of non-intergers`. -/
  | unionOfNonIntegers
  /-- The message `incorrect array index`. -/
  | incorrectArrayIndex
  /-- The message `unterminated filter`. -/
  | unterminatedFilter
  /-- The message `unclosed array expect ]`. -/
  | unclosedArray
  /-- The message `unterminated quoted string`. -/
  | unterminatedQuote
deriving DecidableEq, Repr

/-- The type `ParamsEntry`. -/
structure ParamsEntry where
  Value : Int
  Exists : Bool
deriving DecidableEq, Repr

/-- The node types, by their constructors `newText`, `newList`, `newField`,
`newWildcard`, `newRecursive`, `newInt`, `newFloat`, `newUnion`, `newArray`
and `newFilter`.  A list node holds its `Nodes`; the two sides of a filter are
list nodes or nil. -/
inductive Node where
  | text (Text : GoString)
  | list (Nodes : List Node)
  | field (Value : GoString)
  | wildcard
  | recursive
  | int (Value : Int)
  | float (Value : float64)
  | union (Values : List Int)
  | array (Params : List ParamsEntry)
  | filter (Left : Option (List Node)) (Right : Option (List Node)) (Operator : GoString)

/-- The functions of other packages called by the parser. -/
structure Lib where
  /-- The function `utf8.DecodeRuneInString`: the rune and its width. -/
  DecodeRuneInString : GoString → rune × Int
  /-- The function `unicode.IsDigit`. -/
  IsDigit : rune → Bool
  /-- The function `unicode.IsLetter`. -/
  IsLetter : rune → Bool
  /-- The function `strconv.Atoi`: `.ok i` is the value `i` with a nil error,
  `.error i` the value `i` returned together with an error. -/
  Atoi : GoString → Except Int Int
  /-- The function `strconv.ParseFloat` for 64 bits; `none` is an error. -/
  ParseFloat : GoString → Option float64
  /-- The three groups that `FindStringSubmatch` finds for the regular
  expression of `parseArray`; `none` is no match. -/
  FindSliceSubmatch : GoString → Option (GoString × GoString × GoString)
  /-- The three groups that `FindStringSubmatch` finds for the regular
  expression of `parseFilter`; `none` is no match. -/
  FindFilterSubmatch : GoString → Option (GoString × GoString × GoString)

/-- The type `Parser`.  `Root` holds the nodes of the root list node; `cur`
is passed as an argument throughout and is not a field of the embedding. -/
structure Parser where
  Name : String
  Root : List Node
  input : GoString
  pos : Int
  start : Int
  width : Int

/-- A `*ListNode`: the path of the list node below `Root`, `[]` being `Root`
itself. -/
abbrev Cursor := List Nat

/-- The function `NewParser`, followed by the assignments of `Parser.Parse`. -/
def NewParser (name : String) (text : GoString) : Parser :=
  { Name := name, Root := [], input := text, pos := 0, start := 0, width := 0 }

/-- The slice expression `s[lo:hi]`; `none` is the panic on bounds out of
range. -/
def slice (s : GoString) (lo hi : Int) : Option GoString :=
  if 0 ≤ lo ∧ lo ≤ hi ∧ hi ≤ s.length then some ((s.drop lo.toNat).take (hi - lo).toNat)
  else none

/-- The function `strings.HasPrefix`. -/
def HasPrefix (s pre : GoString) : Bool := pre.isPrefixOf s

/-- The function `strings.Split(text, ",")`. -/
def splitComma : GoString → List GoString
  | [] => [[]]
  | b :: rest =>
    if b = 44 then [] :: splitComma rest
    else
      match splitComma rest with
      | [] => [[b]]
      | first :: others => (b :: first) :: others

/-- The function `isSpace`. -/
def isSpace (r : rune) : Bool := r == 32 || r == 9

/-- The function `isEndOfLine`. -/
def isEndOfLine (r : rune) : Bool := r == 13 || r == 10

/-- The function `isTerminator`. -/
def isTerminator (r : rune) : Bool :=
  if isSpace r || isEndOfLine r then true
  else r == eof || r == 46 || r == 44 || r == 91 || r == 93 || r == 36 || r == 64

/-- The function `isAlphaNumeric`. -/
def isAlphaNumeric (lib : Lib) (r : rune) : Bool :=
  r == 95 || lib.IsLetter r || lib.IsDigit r

/-- Replace the element at index `i` of a list. -/
def modifyAt {β : Type} (f : β → β) : Nat → List β → List β
  | _, [] => []
  | 0, x :: xs => f x :: xs
  | i + 1, x :: xs => x :: modifyAt f i xs

/-- The method `ListNode.append` on the list node at the path `cur`. -/
def appendAt (nodes : List Node) : Cursor → Node → List Node
  | [], n => nodes ++ [n]
  | i :: rest, n =>
    match nodes[i]? with
    | some (.list inner) => modifyAt (fun _ => Node.list (appendAt inner rest n)) i nodes
    | _ => nodes

/-- The number of nodes of the list node at the path `cur`. -/
def lengthAt (nodes : List Node) : Cursor → Nat
  | [] => nodes.length
  | i :: rest =>
    match nodes[i]? with
    | some (.list inner) => lengthAt inner rest
    | _ => 0

/-- The methods of `Parser` that take `cur`; a method with a scanning loop
after a first part has a second entry for the loop. -/
inductive Method where
  | parseText
  | parseLeftDelim
  | parseInsideAction
  | parseRightDelim
  | parseRecursive
  | parseNumber
  | parseNumberLoop
  | parseArray
  | parseFilter
  | parseFilterLoop
  | parseQuote
  | parseField
  | parseFieldLoop
deriving DecidableEq, Repr

/-- How a method ends: in the call of a method, in a `return`, in a panic, or,
for `parseFilter`, in the nested `Parse` calls for a filter without operator
(`exist`) or with one (`compare`). -/
inductive Next where
  | call (m : Method) (cur : Cursor) (p : Parser)
  | done (p : Parser) (err : Option ParseError)
  | panic (p : Parser)
  | exist (cur : Cursor) (p : Parser) (text : GoString)
  | compare (cur : Cursor) (p : Parser) (left op right : GoString)

/-- The outcome of a run: `Parse` returns the parser and an error, or it
panics, or the run is longer than allowed. -/
inductive Outcome where
  | returned (p : Parser) (err : Option ParseError)
  | panicked (p : Parser)
  | unfinished

/-- The slice expression `p.input[p.pos:]`. -/
def rest (p : Parser) : Option GoString := slice p.input p.pos p.input.length

/-- The method `consumeText`. -/
def consumeText (p : Parser) : Option (GoString × Parser) :=
  match slice p.input p.start p.pos with
  | none => none
  | some value => some (value, { p with start := p.pos })

/-- The method `next`. -/
def next (lib : Lib) (p : Parser) : Option (rune × Parser) :=
  if p.pos ≥ p.input.length then some (eof, p)
  else
    match rest p with
    | none => none
    | some s =>
      some ((lib.DecodeRuneInString s).1,
        { p with width := (lib.DecodeRuneInString s).2, pos := p.pos + (lib.DecodeRuneInString s).2 })

/-- The method `backup`. -/
def backup (p : Parser) : Parser := { p with pos := p.pos - p.width }

/-- The method `peek`. -/
def peek (lib : Lib) (p : Parser) : Option (rune × Parser) :=
  match next lib p with
  | none => none
  | some (r, q) => some (r, backup q)

/-- The statement `cur.append(node)`. -/
def append (p : Parser) (cur : Cursor) (node : Node) : Parser :=
  { p with Root := appendAt p.Root cur node }

/-- The end of `parseText`, after the loop. -/
def parseTextEnd (p : Parser) (cur : Cursor) : Next :=
  if p.pos > p.start then
    match consumeText p with
    | none => .panic p
    | some (value, q) => .done (append q cur (.text value)) none
  else .done p none

/-- The method `parseText`, one iteration of its loop. -/
def parseText (lib : Lib) (p : Parser) (cur : Cursor) : Next :=
  match rest p with
  | none => .panic p
  | some s =>
    if HasPrefix s leftDelim then
      if p.pos > p.start then
        match consumeText p with
        | none => .panic p
        | some (value, q) => .call .parseLeftDelim cur (append q cur (.text value))
      else .call .parseLeftDelim cur p
    else
      match next lib p with
      | none => .panic p
      | some (r, q) => if r = eof then parseTextEnd q cur else .call .parseText cur q

/-- The method `parseLeftDelim`. -/
def parseLeftDelim (p : Parser) (cur : Cursor) : Next :=
  match consumeText { p with pos := p.pos + leftDelim.length } with
  | none => .panic { p with pos := p.pos + leftDelim.length }
  | some (_, q) =>
    .call .parseInsideAction (cur ++ [lengthAt q.Root cur]) (append q cur (.list []))

/-- The method `parseInsideAction`. -/
def parseInsideAction (lib : Lib) (p : Parser) (cur : Cursor) : Next :=
  match rest p with
  | none => .panic p
  | some s =>
    if HasPrefix s rightDelim then .call .parseRightDelim cur p
    else if HasPrefix s [91, 63, 40] then .call .parseFilter cur p
    else if HasPrefix s [46, 46] then .call .parseRecursive cur p
    else
      match next lib p with
      | none => .panic p
      | some (r, q) =>
        if r = eof || isEndOfLine r then .done q (some .unclosedAction)
        else if r = 64 then
          match consumeText q with
          | none => .panic q
          | some (_, q1) => .call .parseInsideAction cur q1
        else if r = 91 then .call .parseArray cur q
        else if r = 34 then .call .parseQuote cur q
        else if r = 46 then .call .parseField cur q
        else if r = 43 || r = 45 || lib.IsDigit r then .call .parseNumber cur (backup q)
        else .done q (some (.unrecognizedCharacter r))

/-- The method `parseRightDelim`. -/
def parseRightDelim (p : Parser) : Next :=
  match consumeText { p with pos := p.pos + rightDelim.length } with
  | none => .panic { p with pos := p.pos + rightDelim.length }
  | some (_, q) => .call .parseText [] q

/-- The method `parseRecursive`. -/
def parseRecursive (lib : Lib) (p : Parser) (cur : Cursor) : Next :=
  match consumeText { p with pos := p.pos + 2 } with
  | none => .panic { p with pos := p.pos + 2 }
  | some (_, q) =>
    match peek lib (append q cur .recursive) with
    | none => .panic (append q cur .recursive)
    | some (r, q1) =>
      if isAlphaNumeric lib r then .call .parseField cur q1
      else .call .parseInsideAction cur q1

/-- The method `parseNumber`, up to its loop. -/
def parseNumber (lib : Lib) (p : Parser) (cur : Cursor) : Next :=
  match peek lib p with
  | none => .panic p
  | some (r, q) =>
    if r = 43 || r = 45 then
      match next lib q with
      | none => .panic q
      | some (_, q1) => .call .parseNumberLoop cur q1
    else .call .parseNumberLoop cur q

/-- The method `parseNumber`, one iteration of its loop and what follows it. -/
def parseNumberLoop (lib : Lib) (p : Parser) (cur : Cursor) : Next :=
  match next lib p with
  | none => .panic p
  | some (r, q) =>
    if r ≠ 46 && !lib.IsDigit r then
      match consumeText (backup q) with
      | none => .panic (backup q)
      | some (value, q1) =>
        match lib.Atoi value with
        | .ok i => .call .parseInsideAction cur (append q1 cur (.int i))
        | .error _ =>
          match lib.ParseFloat value with
          | some d => .call .parseInsideAction cur (append q1 cur (.float d))
          | none => .done q1 (some (.cannotParseNumber value))
    else .call .parseNumberLoop cur q

/-- The loop over `strs` in `parseArray`: the integers, or `none` when one is
not an integer. -/
def unionValues (lib : Lib) : List GoString → Option (List Int)
  | [] => some []
  | str :: strs =>
    match lib.Atoi str with
    | .error _ => none
    | .ok i =>
      match unionValues lib strs with
      | none => none
      | some values => some (i :: values)

/-- The entry of `params` for a group of the slice expression; the error of
`strconv.Atoi` is dropped and the value it returns is kept. -/
def paramsEntry (lib : Lib) (value : GoString) : ParamsEntry :=
  if value ≠ [] then
    { Exists := true,
      Value := match lib.Atoi value with
        | .ok i => i
        | .error i => i }
  else { Exists := false, Value := 0 }

/-- The statement `value[i] = value[i][1:]` for a non-empty group. -/
def stripColon (value : GoString) : GoString :=
  if value ≠ [] then value.drop 1 else value

/-- The method `parseArray`, after its loop. -/
def parseArrayEnd (lib : Lib) (p : Parser) (cur : Cursor) : Next :=
  match consumeText p with
  | none => .panic p
  | some (text0, q) =>
    match slice text0 1 (text0.length - 1) with
    | none => .panic q
    | some text1 =>
      let text := if text1 = [42] then [58] else text1
      let strs := splitComma text
      if strs.length > 1 then
        match unionValues lib strs with
        | none => .done q (some .unionOfNonIntegers)
        | some value => .call .parseInsideAction cur (append q cur (.union value))
      else
        match lib.FindSliceSubmatch text with
        | none => .done q (some .incorrectArrayIndex)
        | some (v0, v1, v2) =>
          .call .parseInsideAction cur
            (append q cur
              (.array [paramsEntry lib v0, paramsEntry lib (stripColon v1),
                paramsEntry lib (stripColon v2)]))

/-- The method `parseArray`, one iteration of its loop. -/
def parseArray (lib : Lib) (p : Parser) (cur : Cursor) : Next :=
  match next lib p with
  | none => .panic p
  | some (r, q) =>
    if r = eof || r = 10 then .done q (some .unterminatedArray)
    else if r = 93 then parseArrayEnd lib q cur
    else .call .parseArray cur q

/-- The method `parseFilter`, up to its loop. -/
def parseFilter (p : Parser) (cur : Cursor) : Next :=
  match consumeText { p with pos := p.pos + 3 } with
  | none => .panic { p with pos := p.pos + 3 }
  | some (_, q) => .call .parseFilterLoop cur q

/-- The method `parseFilter`, one iteration of its loop and what follows it up
to the nested `Parse` calls. -/
def parseFilterLoop (lib : Lib) (p : Parser) (cur : Cursor) : Next :=
  match next lib p with
  | none => .panic p
  | some (r, q) =>
    if r = eof || r = 10 then .done q (some .unterminatedFilter)
    else if r = 41 then
      match next lib q with
      | none => .panic q
      | some (r1, q1) =>
        if r1 ≠ 93 then .done q1 (some .unclosedArray)
        else
          match consumeText q1 with
          | none => .panic q1
          | some (text0, q2) =>
            match slice text0 0 (text0.length - 2) with
            | none => .panic q2
            | some text =>
              match lib.FindFilterSubmatch text with
              | none => .exist cur q2 text
              | some (left, op, right) => .compare cur q2 left op right
    else .call .parseFilterLoop cur q

/-- The method `parseQuote`, one iteration of its loop and what follows it. -/
def parseQuote (lib : Lib) (p : Parser) (cur : Cursor) : Next :=
  match next lib p with
  | none => .panic p
  | some (r, q) =>
    if r = eof || r = 10 then .done q (some .unterminatedQuote)
    else if r = 34 then
      match consumeText q with
      | none => .panic q
      | some (value, q1) =>
        match slice value 1 (value.length - 1) with
        | none => .panic q1
        | some inner => .call .parseInsideAction cur (append q1 cur (.text inner))
    else .call .parseQuote cur q

/-- The method `parseField`, up to its loop. -/
def parseField (p : Parser) (cur : Cursor) : Next :=
  match consumeText p with
  | none => .panic p
  | some (_, q) => .call .parseFieldLoop cur q

/-- The method `parseField`, one iteration of its loop and what follows it. -/
def parseFieldLoop (lib : Lib) (p : Parser) (cur : Cursor) : Next :=
  match next lib p with
  | none => .panic p
  | some (r, q) =>
    if isTerminator r then
      match consumeText (backup q) with
      | none => .panic (backup q)
      | some (value, q1) =>
        if value = [42] then .call .parseInsideAction cur (append q1 cur .wildcard)
        else .call .parseInsideAction cur (append q1 cur (.field value))
    else .call .parseFieldLoop cur q

/-- One method entry, up to the call the method ends in. -/
def step (lib : Lib) (m : Method) (cur : Cursor) (p : Parser) : Next :=
  match m with
  | .parseText => parseText lib p cur
  | .parseLeftDelim => parseLeftDelim p cur
  | .parseInsideAction => parseInsideAction lib p cur
  | .parseRightDelim => parseRightDelim p
  | .parseRecursive => parseRecursive lib p cur
  | .parseNumber => parseNumber lib p cur
  | .parseNumberLoop => parseNumberLoop lib p cur
  | .parseArray => parseArray lib p cur
  | .parseFilter => parseFilter p cur
  | .parseFilterLoop => parseFilterLoop lib p cur
  | .parseQuote => parseQuote lib p cur
  | .parseField => parseField p cur
  | .parseFieldLoop => parseFieldLoop lib p cur

/-- The text `fmt.Sprintf("${%s}", text)`. -/
def wrapAction (text : GoString) : GoString := leftDelim ++ text ++ rightDelim

/-- A run from a method entry, of at most `fuel` method entries; a nested
`Parse` of `parseFilter` counts with its own entries. -/
def exec (lib : Lib) : Nat → Method → Cursor → Parser → Outcome
  | 0, _, _, _ => .unfinished
  | fuel + 1, m, cur, p =>
    match step lib m cur p with
    | .call m1 cur1 p1 => exec lib fuel m1 cur1 p1
    | .done p1 err => .returned p1 err
    | .panic p1 => .panicked p1
    | .exist cur1 p1 text =>
      match exec lib fuel .parseText [] (NewParser "text" (wrapAction text)) with
      | .returned parser none =>
        exec lib fuel .parseInsideAction cur1
          (append p1 cur1 (.filter (some parser.Root) none (ascii "exist")))
      | .returned _ (some err) => .returned p1 (some err)
      | .panicked _ => .panicked p1
      | .unfinished => .unfinished
    | .compare cur1 p1 left op right =>
      match exec lib fuel .parseText [] (NewParser "left" (wrapAction left)) with
      | .returned leftParser none =>
        match exec lib fuel .parseText [] (NewParser "right" (wrapAction right)) with
        | .returned rightParser none =>
          exec lib fuel .parseInsideAction cur1
            (append p1 cur1 (.filter (some leftParser.Root) (some rightParser.Root) op))
        | .returned _ (some err) => .returned p1 (some err)
        | .panicked _ => .panicked p1
        | .unfinished => .unfinished
      | .returned _ (some err) => .returned p1 (some err)
      | .panicked _ => .panicked p1
      | .unfinished => .unfinished

/-- The function `Parse`, run for at most `fuel` method entries. -/
def Parse (lib : Lib) (fuel : Nat) (name : String) (text : GoString) : Outcome :=
  exec lib fuel .parseText [] (NewParser name text)

/-! ## A concrete instance -/

/-- An instance of the library functions for evaluating the parser on ASCII
input: a byte below 128 decodes to itself with width 1, as in UTF-8; any
other byte is taken for an invalid encoding (`utf8.RuneError`, width 1);
digits and letters are the ASCII ones; numbers and the two regular expressions
are not interpreted. -/
def asciiLib : Lib :=
  { DecodeRuneInString := fun s =>
      match s with
      | [] => (65533, 0)
      | b :: _ => if b < 128 then (b, 1) else (65533, 1)
    IsDigit := fun r => decide (48 ≤ r ∧ r ≤ 57)
    IsLetter := fun r => decide ((65 ≤ r ∧ r ≤ 90) ∨ (97 ≤ r ∧ r ≤ 122))
    Atoi := fun _ => .error 0
    ParseFloat := fun _ => none
    FindSliceSubmatch := fun _ => none
    FindFilterSubmatch := fun _ => none }

/-! ## Notions used in the statements -/

/-- The function `strings.Contains`. -/
def Contains (s sub : GoString) : Bool :=
  match s with
  | [] => HasPrefix [] sub
  | b :: s1 => HasPrefix (b :: s1) sub || Contains s1 sub

/-- What the parser relies on in `utf8.DecodeRuneInString`: a byte below 128
is decoded as itself with width 1; otherwise the rune is at least 128 and the
bytes it spans, at least one, are all at least 128. -/
def DecodesUTF8 (lib : Lib) : Prop :=
  (∀ (b : byte) (s : GoString), b < 128 → lib.DecodeRuneInString (b :: s) = ((b : Int), 1)) ∧
  (∀ (b : byte) (s : GoString), 128 ≤ b →
    128 ≤ (lib.DecodeRuneInString (b :: s)).1 ∧ 1 ≤ (lib.DecodeRuneInString (b :: s)).2 ∧
    (lib.DecodeRuneInString (b :: s)).2
      ≤ (((b :: s).takeWhile (fun c => decide (128 ≤ c))).length : Int))

/-- A run from the first method entry arrives at the second. -/
def Reaches (lib : Lib) (a b : Method × Cursor × Parser) : Prop :=
  ∃ k, ∀ n, exec lib (n + k) a.1 a.2.1 a.2.2 = exec lib n b.1 b.2.1 b.2.2

/-- The state of a parser: the input is `consumed`, up to `start`, followed
by `scanned`, up to `pos`, followed by `post`, and `Root` holds `root`. -/
def Holds (p : Parser) (consumed scanned post : GoString) (root : List Node) : Prop :=
  p.input = consumed ++ scanned ++ post ∧ p.start = consumed.length ∧
    p.pos = (consumed ++ scanned).length ∧ p.Root = root

/-- The nodes for a literal text: none when it is empty. -/
def textRoot (t : GoString) : List Node := if t = [] then [] else [.text t]

/-- Whether a method runs inside an action: every method but `parseText` and
`parseLeftDelim`. -/
def insideAction : Method → Bool
  | .parseText => false
  | .parseLeftDelim => false
  | _ => true

/-- What holds at every method entry of a run of `Parse`: `parseText` and
`parseLeftDelim` are entered with `Root` as the current list, and inside an
action `Root` is not empty. -/
def Entered (m : Method) (cur : Cursor) (p : Parser) : Prop :=
  (insideAction m = false → cur = []) ∧ (insideAction m = true → p.Root ≠ [])

/-- The same for the end of a method: a call satisfies `Entered`, and an
error or a nested `Parse` comes with a `Root` that is not empty. -/
def Kept : Next → Prop
  | .call m cur p => Entered m cur p
  | .done p (some _) => p.Root ≠ []
  | .done _ none => True
  | .panic _ => True
  | .exist _ p _ => p.Root ≠ []
  | .compare _ p _ _ _ => p.Root ≠ []


/-! ## Runs -/

theorem Reaches.refl (lib : Lib) (a : Method × Cursor × Parser) : Reaches lib a a :=
  ⟨0, fun _ => rfl⟩

theorem Reaches.trans {lib : Lib} {a b c : Method × Cursor × Parser}
    (h1 : Reaches lib a b) (h2 : Reaches lib b c) : Reaches lib a c := by
  obtain ⟨k1, h1⟩ := h1
  obtain ⟨k2, h2⟩ := h2
  refine ⟨k2 + k1, fun n => ?_⟩
  rw [← Nat.add_assoc, h1, h2]

theorem Reaches.of_step {lib : Lib} {m m1 : Method} {cur cur1 : Cursor} {p p1 : Parser}
    (h : step lib m cur p = .call m1 cur1 p1) : Reaches lib (m, cur, p) (m1, cur1, p1) :=
  ⟨1, fun n => by simp only [exec, h]⟩

theorem Reaches.returned {lib : Lib} {a : Method × Cursor × Parser} {m : Method} {cur : Cursor}
    {p p1 : Parser} {err : Option ParseError}
    (h1 : Reaches lib a (m, cur, p)) (h2 : step lib m cur p = .done p1 err) :
    ∃ k, ∀ n, k ≤ n → exec lib n a.1 a.2.1 a.2.2 = .returned p1 err := by
  obtain ⟨k, h1⟩ := h1
  refine ⟨k + 1, fun n hn => ?_⟩
  obtain ⟨d, rfl⟩ := Nat.exists_eq_add_of_le hn
  have : k + 1 + d = (d + 1) + k := by omega
  rw [this, h1]
  simp only [exec, h2]

theorem Reaches.panicked {lib : Lib} {a : Method × Cursor × Parser} {m : Method} {cur : Cursor}
    {p p1 : Parser}
    (h1 : Reaches lib a (m, cur, p)) (h2 : step lib m cur p = .panic p1) :
    ∃ k, ∀ n, k ≤ n → exec lib n a.1 a.2.1 a.2.2 = .panicked p1 := by
  obtain ⟨k, h1⟩ := h1
  refine ⟨k + 1, fun n hn => ?_⟩
  obtain ⟨d, rfl⟩ := Nat.exists_eq_add_of_le hn
  have : k + 1 + d = (d + 1) + k := by omega
  rw [this, h1]
  simp only [exec, h2]

/-! ## Slices -/

theorem slice_mid (pre mid post : GoString) :
    slice (pre ++ mid ++ post) pre.length (pre.length + mid.length) = some mid := by
  unfold slice
  have h1 : (0 : Int) ≤ pre.length := Int.natCast_nonneg _
  have h2 : (pre.length : Int) ≤ pre.length + mid.length := by omega
  have h3 : ((pre.length : Int) + mid.length) ≤ ((pre ++ mid ++ post).length : Int) := by
    simp only [List.length_append, Nat.cast_add]
    omega
  rw [if_pos ⟨h1, h2, h3⟩]
  have h4 : ((pre.length : Int) + mid.length - pre.length).toNat = mid.length := by omega
  rw [h4, Int.toNat_natCast, List.append_assoc, List.drop_left, List.take_left]

theorem slice_tail (pre post : GoString) :
    slice (pre ++ post) pre.length ((pre ++ post).length) = some post := by
  have h := slice_mid pre post []
  simp only [List.append_nil] at h
  rw [← h]
  simp

theorem takeWhile_length_le (u d : GoString) (hd : d = [] ∨ ∃ c d1, d = c :: d1 ∧ c < 128) :
    ((u ++ d).takeWhile (fun c => decide (128 ≤ c))).length ≤ u.length := by
  induction u with
  | nil =>
    rcases hd with rfl | ⟨c, d1, rfl, hc⟩
    · simp
    · have : ¬ 128 ≤ c := Nat.not_le.mpr hc
      simp [List.takeWhile_cons, this]
  | cons b u ih =>
    rw [List.cons_append, List.takeWhile_cons]
    by_cases hb : 128 ≤ b
    · simp only [hb, decide_True, if_true, List.length_cons]
      exact Nat.succ_le_succ ih
    · simp [hb]

/-- A rune decoded inside a text, before its end or before a byte below 128,
spans between one byte and the rest of the text; it is the byte itself, below
128, or at least 128. -/
theorem decode_inside (lib : Lib) (hdec : DecodesUTF8 lib) (b : Nat) (u d : GoString)
    (hd : d = [] ∨ ∃ c d1, d = c :: d1 ∧ c < 128) :
    1 ≤ (lib.DecodeRuneInString (b :: u ++ d)).2 ∧
      (lib.DecodeRuneInString (b :: u ++ d)).2 ≤ ((b :: u).length : Int) ∧
      ((lib.DecodeRuneInString (b :: u ++ d)).1 = (b : Int) ∧ b < 128 ∧
          (lib.DecodeRuneInString (b :: u ++ d)).2 = 1
        ∨ 128 ≤ (lib.DecodeRuneInString (b :: u ++ d)).1) := by
  rw [List.cons_append]
  by_cases hb : b < 128
  · have h := hdec.1 b (u ++ d) hb
    have hlen : (1 : Int) ≤ ((b :: u).length : Int) := by
      rw [List.length_cons]
      push_cast
      have := Int.natCast_nonneg u.length
      linarith
    refine ⟨?_, ?_, Or.inl ⟨?_, hb, ?_⟩⟩
    · rw [h]
    · rw [h]
      exact hlen
    · rw [h]
    · rw [h]
  · have h := hdec.2 b (u ++ d) (Nat.le_of_not_lt hb)
    refine ⟨h.2.1, ?_, Or.inr h.1⟩
    have hl := takeWhile_length_le (b :: u) d hd
    rw [List.cons_append] at hl
    have hl2 : (((b :: (u ++ d)).takeWhile (fun c => decide (128 ≤ c))).length : Int)
        ≤ ((b :: u).length : Int) := by exact_mod_cast hl
    exact le_trans h.2.2 hl2

theorem rest_eq (p : Parser) (pre s : GoString) (hin : p.input = pre ++ s)
    (hpos : p.pos = pre.length) : rest p = some s := by
  unfold rest
  rw [hin, hpos]
  exact slice_tail pre s

theorem consumeText_eq (p : Parser) (pre mid post : GoString) (hin : p.input = pre ++ mid ++ post)
    (hstart : p.start = pre.length) (hpos : p.pos = pre.length + mid.length) :
    consumeText p = some (mid, { p with start := p.pos }) := by
  unfold consumeText
  rw [hin, hstart, hpos, slice_mid]

theorem next_eof (lib : Lib) (p : Parser) (h : p.pos = p.input.length) :
    next lib p = some (eof, p) := by
  unfold next
  rw [if_pos (by rw [h])]

/-- Reading a rune inside a text, before its end or before a byte below 128. -/
theorem next_inside (lib : Lib) (hdec : DecodesUTF8 lib) (b : Nat) (u pre d : GoString)
    (hd : d = [] ∨ ∃ c d1, d = c :: d1 ∧ c < 128) (p : Parser)
    (hin : p.input = pre ++ (b :: u) ++ d) (hpos : p.pos = pre.length) :
    ∃ (r : Int) (w : Nat), next lib p = some (r, { p with width := w, pos := p.pos + w }) ∧
      1 ≤ w ∧ w ≤ (b :: u).length ∧ (r = (b : Int) ∧ b < 128 ∧ w = 1 ∨ 128 ≤ r) := by
  obtain ⟨h1, h2, h3⟩ := decode_inside lib hdec b u d hd
  have hrest : rest p = some (b :: u ++ d) := by
    apply rest_eq p pre
    · rw [hin, List.append_assoc]
    · exact hpos
  have hlt : ¬ p.pos ≥ p.input.length := by
    rw [hin, hpos]
    simp only [List.length_append, List.length_cons, Nat.cast_add, Nat.cast_one, ge_iff_le, not_le]
    have := Int.natCast_nonneg u.length
    have := Int.natCast_nonneg d.length
    linarith
  have hw : ((lib.DecodeRuneInString (b :: u ++ d)).2.toNat : Int)
      = (lib.DecodeRuneInString (b :: u ++ d)).2 := Int.toNat_of_nonneg (by linarith)
  refine ⟨(lib.DecodeRuneInString (b :: u ++ d)).1, (lib.DecodeRuneInString (b :: u ++ d)).2.toNat,
    ?_, ?_, ?_, ?_⟩
  · unfold next
    rw [if_neg hlt, hrest]
    simp only [hw]
  · have : (1 : Int) ≤ ((lib.DecodeRuneInString (b :: u ++ d)).2.toNat : Int) := by
      rw [hw]
      exact h1
    exact_mod_cast this
  · have : ((lib.DecodeRuneInString (b :: u ++ d)).2.toNat : Int) ≤ ((b :: u).length : Int) := by
      rw [hw]
      exact h2
    exact_mod_cast this
  · rcases h3 with ⟨h4, h5, h6⟩ | h4
    · refine Or.inl ⟨h4, h5, ?_⟩
      rw [h6]
      rfl
    · exact Or.inr h4

theorem isTerminator_of_ge (r : Int) (h : 128 ≤ r) : isTerminator r = false := by
  have hx : ∀ c : Int, c < 128 → (r == c) = false := fun c hc => by
    rw [beq_eq_false_iff_ne]
    omega
  simp [isTerminator, isSpace, isEndOfLine, eof, hx]

/-- The loop of `parseText` walks over a text without left delimiter. -/
theorem scan_text (lib : Lib) (hdec : DecodesUTF8 lib) (cur : Cursor) (d : GoString)
    (hd : d = [] ∨ ∃ c d1, d = c :: d1 ∧ c < 128) :
    ∀ (k : Nat) (u pre : GoString), u.length ≤ k →
      (∀ u1 u2, u = u1 ++ u2 → u2 ≠ [] → HasPrefix (u2 ++ d) leftDelim = false) →
      ∀ p : Parser, p.input = pre ++ u ++ d → p.pos = pre.length →
        ∃ q, Reaches lib (.parseText, cur, p) (.parseText, cur, q) ∧ q.input = p.input ∧
          q.pos = (pre ++ u).length ∧ q.start = p.start ∧ q.Root = p.Root := by
  intro k
  induction k with
  | zero =>
    intro u pre hk _ p _ hpos
    have hu : u = [] := List.eq_nil_of_length_eq_zero (Nat.le_zero.mp hk)
    subst hu
    exact ⟨p, Reaches.refl _ _, rfl, by simpa using hpos, rfl, rfl⟩
  | succ k ih =>
    intro u pre hk hfree p hin hpos
    cases u with
    | nil => exact ⟨p, Reaches.refl _ _, rfl, by simpa using hpos, rfl, rfl⟩
    | cons b u =>
      obtain ⟨r, w, hnext, hw1, hw2, hr⟩ := next_inside lib hdec b u pre d hd p hin hpos
      have hrest : rest p = some (b :: u ++ d) := by
        apply rest_eq p pre
        · rw [hin, List.append_assoc]
        · exact hpos
      have hno : HasPrefix (b :: u ++ d) leftDelim = false :=
        hfree [] (b :: u) rfl (List.cons_ne_nil _ _)
      have hne : r ≠ eof := by
        unfold eof
        rcases hr with ⟨h1, -, -⟩ | h1
        · rw [h1]
          have := Int.natCast_nonneg b
          omega
        · omega
      have hstep : step lib .parseText cur p
          = .call .parseText cur { p with width := w, pos := p.pos + w } := by
        simp only [step, parseText, hrest, hno, hnext, hne, if_false, Bool.false_eq_true]
      have hsplit : (b :: u) = (b :: u).take w ++ (b :: u).drop w := (List.take_append_drop _ _).symm
      have hlen : ((b :: u).drop w).length ≤ k := by
        rw [List.length_drop]
        simp only [List.length_cons] at hk hw2 ⊢
        omega
      have htake : ((b :: u).take w).length = w := by
        rw [List.length_take]
        exact Nat.min_eq_left hw2
      obtain ⟨q, hq1, hq2, hq3, hq4, hq5⟩ :=
        ih ((b :: u).drop w) (pre ++ (b :: u).take w) hlen
          (fun u1 u2 h12 hne2 =>
            hfree ((b :: u).take w ++ u1) u2 (by rw [List.append_assoc, ← h12, ← hsplit]) hne2)
          { p with width := w, pos := p.pos + w }
          (by
            show p.input = _
            have hcat : (b :: u) ++ d = (b :: u).take w ++ ((b :: u).drop w ++ d) := by
              rw [← List.append_assoc, List.take_append_drop]
            rw [hin, List.append_assoc pre, hcat]
            simp only [List.append_assoc])
          (by
            show p.pos + w = _
            rw [hpos, List.length_append, htake]
            push_cast
            rfl)
      refine ⟨q, (Reaches.of_step hstep).trans hq1, hq2, ?_, hq4, hq5⟩
      rw [hq3, List.append_assoc, ← hsplit]

/-- The loop of `parseField` walks over a text without terminator. -/
theorem scan_field (lib : Lib) (hdec : DecodesUTF8 lib) (cur : Cursor) (d : GoString)
    (hd : d = [] ∨ ∃ c d1, d = c :: d1 ∧ c < 128) :
    ∀ (k : Nat) (u pre : GoString), u.length ≤ k →
      (∀ c ∈ u, isTerminator ((c : Nat) : Int) = false) →
      ∀ p : Parser, p.input = pre ++ u ++ d → p.pos = pre.length →
        ∃ q, Reaches lib (.parseFieldLoop, cur, p) (.parseFieldLoop, cur, q) ∧
          q.input = p.input ∧ q.pos = (pre ++ u).length ∧ q.start = p.start ∧
          q.Root = p.Root := by
  intro k
  induction k with
  | zero =>
    intro u pre hk _ p _ hpos
    have hu : u = [] := List.eq_nil_of_length_eq_zero (Nat.le_zero.mp hk)
    subst hu
    exact ⟨p, Reaches.refl _ _, rfl, by simpa using hpos, rfl, rfl⟩
  | succ k ih =>
    intro u pre hk hfree p hin hpos
    cases u with
    | nil => exact ⟨p, Reaches.refl _ _, rfl, by simpa using hpos, rfl, rfl⟩
    | cons b u =>
      obtain ⟨r, w, hnext, hw1, hw2, hr⟩ := next_inside lib hdec b u pre d hd p hin hpos
      have hterm : isTerminator r = false := by
        rcases hr with ⟨h1, -, -⟩ | h1
        · rw [h1]
          exact hfree b (List.mem_cons_self _ _)
        · exact isTerminator_of_ge r h1
      have hstep : step lib .parseFieldLoop cur p
          = .call .parseFieldLoop cur { p with width := w, pos := p.pos + w } := by
        simp only [step, parseFieldLoop, hnext, hterm, if_false, Bool.false_eq_true]
      have hlen : ((b :: u).drop w).length ≤ k := by
        rw [List.length_drop]
        simp only [List.length_cons] at hk hw2 ⊢
        omega
      have htake : ((b :: u).take w).length = w := by
        rw [List.length_take]
        exact Nat.min_eq_left hw2
      obtain ⟨q, hq1, hq2, hq3, hq4, hq5⟩ :=
        ih ((b :: u).drop w) (pre ++ (b :: u).take w) hlen
          (fun c hc => hfree c (List.mem_of_mem_drop hc))
          { p with width := w, pos := p.pos + w }
          (by
            show p.input = _
            have hcat : (b :: u) ++ d = (b :: u).take w ++ ((b :: u).drop w ++ d) := by
              rw [← List.append_assoc, List.take_append_drop]
            rw [hin, List.append_assoc pre, hcat]
            simp only [List.append_assoc])
          (by
            show p.pos + w = _
            rw [hpos, List.length_append, htake]
            push_cast
            rfl)
      refine ⟨q, (Reaches.of_step hstep).trans hq1, hq2, ?_, hq4, hq5⟩
      rw [hq3, List.append_assoc, List.take_append_drop]

theorem Holds.rest {p : Parser} {consumed scanned post : GoString} {root : List Node}
    (h : Holds p consumed scanned post root) : rest p = some post :=
  rest_eq p (consumed ++ scanned) post h.1 h.2.2.1

theorem Holds.consume {p : Parser} {consumed scanned post : GoString} {root : List Node}
    (h : Holds p consumed scanned post root) :
    consumeText p = some (scanned, { p with start := p.pos }) ∧
      Holds { p with start := p.pos } (consumed ++ scanned) [] post root := by
  refine ⟨consumeText_eq p consumed scanned post h.1 h.2.1 ?_, ?_, ?_, ?_, h.2.2.2⟩
  · rw [h.2.2.1, List.length_append]
    push_cast
    rfl
  · show p.input = _
    rw [h.1, List.append_nil]
  · show p.pos = _
    exact h.2.2.1
  · show p.pos = _
    rw [h.2.2.1, List.append_nil]

/-- Moving `pos` over the next bytes of the input. -/
theorem Holds.advance {p : Parser} {consumed scanned post : GoString} {root : List Node}
    (h : Holds p consumed scanned post root) (over post1 : GoString) (w : Int)
    (hpost : post = over ++ post1) (hover : (over.length : Int) = w) :
    Holds { p with pos := p.pos + w } consumed (scanned ++ over) post1 root := by
  refine ⟨?_, h.2.1, ?_, h.2.2.2⟩
  · show p.input = _
    rw [h.1, hpost]
    simp only [List.append_assoc]
  · show p.pos + w = _
    rw [h.2.2.1, ← hover]
    simp only [List.length_append]
    push_cast
    ring

theorem Holds.next_ascii (lib : Lib) (hdec : DecodesUTF8 lib) {p : Parser}
    {consumed scanned post : GoString} {root : List Node} (b : Nat) (hb : b < 128)
    (h : Holds p consumed scanned (b :: post) root) :
    next lib p = some ((b : Int), { p with width := 1, pos := p.pos + 1 }) ∧
      Holds { p with width := 1, pos := p.pos + 1 } consumed (scanned ++ [b]) post root := by
  have hlt : ¬ p.pos ≥ p.input.length := by
    rw [h.1, h.2.2.1]
    simp only [List.length_append, List.length_cons, Nat.cast_add, Nat.cast_one, ge_iff_le, not_le]
    have := Int.natCast_nonneg post.length
    linarith
  constructor
  · unfold next
    rw [if_neg hlt, h.rest]
    simp only [hdec.1 b post hb]
  · exact Holds.advance (p := { p with width := 1 }) h [b] post 1 rfl rfl

theorem Holds.next_at_end (lib : Lib) {p : Parser} {consumed scanned : GoString} {root : List Node}
    (h : Holds p consumed scanned [] root) : next lib p = some (eof, p) := by
  apply Jsonpath.next_eof
  rw [h.1, h.2.2.1, List.append_nil]

theorem modifyAt_length {β : Type} (f : β → β) (l : List β) (x : β) :
    modifyAt f l.length (l ++ [x]) = l ++ [f x] := by
  induction l with
  | nil => rfl
  | cons a l ih =>
    rw [List.length_cons, List.cons_append, modifyAt, ih, List.cons_append]

/-- Appending to the list node that was appended last to `Root`. -/
theorem appendAt_last (root inner : List Node) (n : Node) :
    appendAt (root ++ [.list inner]) [root.length] n = root ++ [.list (inner ++ [n])] := by
  simp only [appendAt, List.getElem?_concat_length, modifyAt_length]

theorem hasPrefix_of_not_contains (t : GoString) (h : Contains t leftDelim = false) :
    ∀ u1 u2 : GoString, t = u1 ++ u2 → u2 ≠ [] → HasPrefix u2 leftDelim = false := by
  intro u1
  induction u1 generalizing t with
  | nil =>
    intro u2 ht hne
    rw [List.nil_append] at ht
    subst ht
    cases t with
    | nil => exact absurd rfl hne
    | cons b s =>
      simp only [Contains, Bool.or_eq_false_iff] at h
      exact h.1
  | cons a u1 ih =>
    intro u2 ht hne
    subst ht
    simp only [List.cons_append, Contains, Bool.or_eq_false_iff] at h
    exact ih (u1 ++ u2) h.2 u2 rfl hne

/-- No left delimiter starts inside a text that does not contain one, whatever
follows the text, if that starts with the byte of `$` or is empty. -/
theorem no_delim_inside (t d : GoString) (h : Contains t leftDelim = false)
    (hd : d = [] ∨ ∃ d1, d = 36 :: d1) :
    ∀ u1 u2 : GoString, t = u1 ++ u2 → u2 ≠ [] → HasPrefix (u2 ++ d) leftDelim = false := by
  intro u1 u2 ht hne
  have h2 := hasPrefix_of_not_contains t h u1 u2 ht hne
  cases u2 with
  | nil => exact absurd rfl hne
  | cons x u2 =>
    cases u2 with
    | nil =>
      rcases hd with rfl | ⟨d1, rfl⟩
      · simpa using h2
      · simp [HasPrefix, leftDelim, List.isPrefixOf]
    | cons y u2 =>
      simpa [HasPrefix, leftDelim, List.isPrefixOf] using h2

/-- Phase 1: `parseText` walks over the literal text. -/
theorem text_phase (lib : Lib) (hdec : DecodesUTF8 lib) (t d : GoString) (root : List Node)
    (hfree : Contains t leftDelim = false) (hd : d = [] ∨ ∃ d1, d = 36 :: d1) (p : Parser)
    (h : Holds p [] [] (t ++ d) root) :
    ∃ q, Reaches lib (.parseText, [], p) (.parseText, [], q) ∧ Holds q [] t d root := by
  have hd2 : d = [] ∨ ∃ c d1, d = c :: d1 ∧ c < 128 := by
    rcases hd with rfl | ⟨d1, rfl⟩
    · exact Or.inl rfl
    · exact Or.inr ⟨36, d1, rfl, by norm_num⟩
  obtain ⟨q, hq1, hq2, hq3, hq4, hq5⟩ :=
    scan_text lib hdec [] d hd2 t.length t [] le_rfl (no_delim_inside t d hfree hd) p
      (by simpa using h.1) (by simpa using h.2.2.1)
  refine ⟨q, hq1, ?_, ?_, ?_, ?_⟩
  · rw [hq2]
    simpa using h.1
  · rw [hq4]
    exact h.2.1
  · exact hq3
  · rw [hq5]
    exact h.2.2.2

/-- The end of `parseText`: at the end of the input it appends the text
scanned, if any, and returns nil. -/
theorem text_end (lib : Lib) (p : Parser) (consumed scanned : GoString) (root : List Node)
    (h : Holds p consumed scanned [] root) :
    ∃ q, step lib .parseText [] p = .done q none ∧ q.Root = root ++ textRoot scanned := by
  have hrest := h.rest
  have hnext := h.next_at_end lib
  have hno : HasPrefix [] leftDelim = false := rfl
  obtain ⟨hcons, -⟩ := h.consume
  by_cases hs : scanned = []
  · have hle : ¬ p.pos > p.start := by
      rw [h.2.1, h.2.2.1, hs]
      simp
    refine ⟨p, ?_, ?_⟩
    · simp only [step, parseText, hrest, hno, hnext, parseTextEnd, hle, if_true, if_false,
        Bool.false_eq_true]
    · rw [h.2.2.2, hs]
      simp [textRoot]
  · have hgt : p.pos > p.start := by
      rw [h.2.1, h.2.2.1, List.length_append]
      have : 0 < scanned.length := List.length_pos.mpr hs
      push_cast
      omega
    refine ⟨append { p with start := p.pos } [] (.text scanned), ?_, ?_⟩
    · simp only [step, parseText, hrest, hno, hnext, parseTextEnd, hgt, hcons, if_true, if_false,
        Bool.false_eq_true]
    · show appendAt p.Root [] (.text scanned) = _
      rw [h.2.2.2]
      simp [textRoot, hs, appendAt]

/-- Phase 2: at a left delimiter `parseText` appends the text scanned, if any,
and `parseLeftDelim` appends a list node and makes it the current one. -/
theorem delim_phase (lib : Lib) (p : Parser) (consumed scanned d : GoString) (root : List Node)
    (h : Holds p consumed scanned (36 :: 123 :: d) root) :
    ∃ q, Reaches lib (.parseText, [], p)
        (.parseInsideAction, [(root ++ textRoot scanned).length], q) ∧
      Holds q (consumed ++ scanned ++ [36, 123]) [] d (root ++ textRoot scanned ++ [.list []]) := by
  have hrest := h.rest
  have hyes : HasPrefix (36 :: 123 :: d) leftDelim = true := by
    simp [HasPrefix, leftDelim, List.isPrefixOf]
  obtain ⟨hcons, hafter⟩ := h.consume
  -- the state at the entry of `parseLeftDelim`
  have hfirst : ∃ q1, step lib .parseText [] p = .call .parseLeftDelim [] q1 ∧
      Holds q1 (consumed ++ scanned) [] (36 :: 123 :: d) (root ++ textRoot scanned) := by
    by_cases hs : scanned = []
    · have hle : ¬ p.pos > p.start := by
        rw [h.2.1, h.2.2.1, hs]
        simp
      refine ⟨p, ?_, ?_⟩
      · simp only [step, parseText, hrest, hyes, hle, if_true, if_false]
      · subst hs
        simpa [textRoot, Holds] using h
    · have hgt : p.pos > p.start := by
        rw [h.2.1, h.2.2.1, List.length_append]
        have : 0 < scanned.length := List.length_pos.mpr hs
        push_cast
        omega
      refine ⟨append { p with start := p.pos } [] (.text scanned), ?_, ?_⟩
      · simp only [step, parseText, hrest, hyes, hgt, hcons, if_true]
      · refine ⟨hafter.1, hafter.2.1, hafter.2.2.1, ?_⟩
        show appendAt p.Root [] (.text scanned) = _
        rw [h.2.2.2]
        simp [textRoot, hs, appendAt]
  obtain ⟨q1, hstep1, hq1⟩ := hfirst
  have hadv := hq1.advance [36, 123] d (leftDelim.length : Int) rfl rfl
  obtain ⟨hcons2, hafter2⟩ := hadv.consume
  refine ⟨append { q1 with pos := q1.pos + leftDelim.length, start := q1.pos + leftDelim.length }
      [] (.list []), ?_, ?_⟩
  · refine (Reaches.of_step hstep1).trans (Reaches.of_step ?_)
    simp only [step, parseLeftDelim, hcons2]
    rw [show ({ q1 with pos := q1.pos + leftDelim.length, start := q1.pos + leftDelim.length }
        : Parser).Root = root ++ textRoot scanned from hq1.2.2.2]
    rfl
  · refine ⟨?_, ?_, ?_, ?_⟩
    · show q1.input = _
      rw [hq1.1]
      simp
    · show q1.pos + leftDelim.length = _
      have := hafter2.2.1
      simpa using this
    · show q1.pos + leftDelim.length = _
      have := hafter2.2.2.1
      simpa using this
    · show appendAt q1.Root [] (.list []) = _
      rw [hq1.2.2.2]
      rfl

/-- Inside the action, `parseInsideAction` reads a dot that is not followed by
a second one: it starts a field. -/
theorem dot_step (lib : Lib) (hdec : DecodesUTF8 lib) (cur : Cursor) (p : Parser)
    (consumed post : GoString) (root : List Node)
    (hpost : ∀ post1, post ≠ 46 :: post1)
    (h : Holds p consumed [] (46 :: post) root) :
    ∃ q, step lib .parseInsideAction cur p = .call .parseField cur q ∧
      Holds q consumed [46] post root ∧ q.width = 1 := by
  have hrest := h.rest
  have hp1 : HasPrefix (46 :: post) rightDelim = false := by
    simp [HasPrefix, rightDelim, List.isPrefixOf]
  have hp2 : HasPrefix (46 :: post) [91, 63, 40] = false := by
    simp [HasPrefix, List.isPrefixOf]
  have hp3 : HasPrefix (46 :: post) [46, 46] = false := by
    cases post with
    | nil => simp [HasPrefix, List.isPrefixOf]
    | cons c post =>
      have hc : c ≠ 46 := fun h46 => hpost post (by rw [h46])
      simp [HasPrefix, List.isPrefixOf, Ne.symm hc]
  obtain ⟨hnext1, h1⟩ := h.next_ascii lib hdec 46 (by norm_num)
  refine ⟨{ p with width := 1, pos := p.pos + 1 }, ?_, by simpa using h1, rfl⟩
  simp only [step, parseInsideAction, hrest, hp1, hp2, hp3, hnext1, Bool.false_eq_true, if_false]
  simp [eof, isEndOfLine]

/-- A field does not start with a dot, nor does the right delimiter. -/
theorem field_not_dot (f : GoString) (hf : ∀ c ∈ f, isTerminator ((c : Nat) : Int) = false) :
    ∀ post1, f ++ [125] ≠ 46 :: post1 := by
  intro post1 h
  cases f with
  | nil => simp at h
  | cons c f =>
    simp only [List.cons_append, List.cons.injEq] at h
    have := hf c (List.mem_cons_self _ _)
    rw [h.1] at this
    simp [isTerminator, isSpace, isEndOfLine, eof] at this

/-- The first part of `parseField` consumes what has been scanned. -/
theorem field_step (lib : Lib) (cur : Cursor) (p : Parser) (consumed scanned post : GoString)
    (root : List Node) (h : Holds p consumed scanned post root) :
    ∃ q, step lib .parseField cur p = .call .parseFieldLoop cur q ∧
      Holds q (consumed ++ scanned) [] post root ∧ q.width = p.width := by
  obtain ⟨hcons, h1⟩ := h.consume
  exact ⟨_, by simp only [step, parseField, hcons], h1, rfl⟩

/-- The loop of `parseField` walks over the field. -/
theorem field_scan (lib : Lib) (hdec : DecodesUTF8 lib) (cur : Cursor) (p : Parser)
    (consumed f : GoString) (root : List Node)
    (hf : ∀ c ∈ f, isTerminator ((c : Nat) : Int) = false)
    (h : Holds p consumed [] (f ++ [125]) root) :
    ∃ q, Reaches lib (.parseFieldLoop, cur, p) (.parseFieldLoop, cur, q) ∧
      Holds q consumed f [125] root := by
  obtain ⟨q, hreach, hq1, hq2, hq3, hq4⟩ :=
    scan_field lib hdec cur [125] (Or.inr ⟨125, [], rfl, by norm_num⟩) f.length f
      consumed le_rfl hf p (by simpa using h.1) (by simpa using h.2.2.1)
  refine ⟨q, hreach, ?_, ?_, hq2, ?_⟩
  · rw [hq1]
    simpa using h.1
  · rw [hq3]
    exact h.2.1
  · rw [hq4]
    exact h.2.2.2

/-- The loop of `parseField` reads the right delimiter, which is no
terminator. -/
theorem close_step (lib : Lib) (hdec : DecodesUTF8 lib) (cur : Cursor) (p : Parser)
    (consumed f : GoString) (root : List Node) (h : Holds p consumed f [125] root) :
    ∃ q, step lib .parseFieldLoop cur p = .call .parseFieldLoop cur q ∧
      Holds q consumed (f ++ [125]) [] root ∧ q.width = 1 := by
  obtain ⟨hnext, h1⟩ := h.next_ascii lib hdec 125 (by norm_num)
  have hterm : isTerminator ((125 : Nat) : Int) = false := by
    simp [isTerminator, isSpace, isEndOfLine, eof]
  refine ⟨{ p with width := 1, pos := p.pos + 1 }, ?_, h1, rfl⟩
  simp only [step, parseFieldLoop, hnext, hterm, Bool.false_eq_true, if_false]

/-- At the end of the input the loop of `parseField` ends: `backup` steps
back by the width of the right delimiter, and the field is appended. -/
theorem back_step (lib : Lib) (p : Parser) (consumed f : GoString) (root inner : List Node)
    (hstar : f ≠ [42]) (h : Holds p consumed (f ++ [125]) [] (root ++ [.list inner]))
    (hw : p.width = 1) :
    ∃ q, step lib .parseFieldLoop [root.length] p = .call .parseInsideAction [root.length] q ∧
      Holds q (consumed ++ f) [] [125] (root ++ [.list (inner ++ [.field f])]) := by
  have hnext := h.next_at_end lib
  have hterm : isTerminator eof = true := by
    simp [isTerminator, isSpace, isEndOfLine, eof]
  have hback : Holds (backup p) consumed f [125] (root ++ [.list inner]) := by
    refine ⟨?_, h.2.1, ?_, h.2.2.2⟩
    · show p.input = _
      rw [h.1]
      simp
    · show p.pos - p.width = _
      rw [h.2.2.1, hw]
      simp only [List.length_append, List.length_singleton]
      push_cast
      ring
  obtain ⟨hcons, h1⟩ := hback.consume
  refine ⟨append { backup p with start := (backup p).pos } [root.length] (.field f), ?_, ?_⟩
  · simp only [step, parseFieldLoop, hnext, hterm, hcons, hstar, if_true, if_false]
  · refine ⟨h1.1, h1.2.1, h1.2.2.1, ?_⟩
    show appendAt p.Root [root.length] (.field f) = _
    rw [h.2.2.2, appendAt_last]

/-- The right delimiter ends the action: `parseRightDelim` consumes it and
calls `parseText` on `Root`. -/
theorem right_steps (lib : Lib) (cur : Cursor) (p : Parser) (consumed : GoString)
    (root : List Node) (h : Holds p consumed [] [125] root) :
    ∃ q, Reaches lib (.parseInsideAction, cur, p) (.parseText, [], q) ∧
      Holds q (consumed ++ [125]) [] [] root := by
  have hrest := h.rest
  have hp : HasPrefix [125] rightDelim = true := by
    simp [HasPrefix, rightDelim, List.isPrefixOf]
  have hstep1 : step lib .parseInsideAction cur p = .call .parseRightDelim cur p := by
    simp only [step, parseInsideAction, hrest, hp, if_true]
  have hadv := h.advance [125] [] (rightDelim.length : Int) rfl rfl
  obtain ⟨hcons, h1⟩ := hadv.consume
  refine ⟨_, (Reaches.of_step hstep1).trans (Reaches.of_step ?_), by simpa using h1⟩
  simp only [step, parseRightDelim, hcons]

/-- Phase 3: inside the action, `.` starts a field, which `parseField` scans
up to the end of the input; the `backup` at the end steps back over the right
delimiter, which `parseRightDelim` then consumes. -/
theorem field_phase (lib : Lib) (hdec : DecodesUTF8 lib) (p : Parser) (consumed f : GoString)
    (root inner : List Node)
    (hf : ∀ c ∈ f, isTerminator ((c : Nat) : Int) = false) (hstar : f ≠ [42])
    (h : Holds p consumed [] (46 :: (f ++ [125])) (root ++ [.list inner])) :
    ∃ q, Reaches lib (.parseInsideAction, [root.length], p) (.parseText, [], q) ∧
      Holds q (consumed ++ [46] ++ f ++ [125]) [] [] (root ++ [.list (inner ++ [.field f])]) := by
  obtain ⟨q1, hs1, h1, -⟩ :=
    dot_step lib hdec [root.length] p consumed (f ++ [125]) _ (field_not_dot f hf) h
  obtain ⟨q2, hs2, h2, -⟩ := field_step lib [root.length] q1 consumed [46] _ _ h1
  obtain ⟨q3, hr3, h3⟩ := field_scan lib hdec [root.length] q2 _ f _ hf h2
  obtain ⟨q4, hs4, h4, hw4⟩ := close_step lib hdec [root.length] q3 _ f _ h3
  obtain ⟨q5, hs5, h5⟩ := back_step lib q4 _ f root inner hstar h4 hw4
  obtain ⟨q6, hr6, h6⟩ := right_steps lib [root.length] q5 _ _ h5
  exact ⟨q6, (Reaches.of_step hs1).trans ((Reaches.of_step hs2).trans (hr3.trans
    ((Reaches.of_step hs4).trans ((Reaches.of_step hs5).trans hr6)))), h6⟩

/-- The loop of `parseText` and its end on a text without left delimiter. -/
theorem parse_plain_run (lib : Lib) (hdec : DecodesUTF8 lib) (name : String) (t : GoString)
    (ht : Contains t leftDelim = false) :
    ∃ k, ∀ n, k ≤ n → ∃ p, Parse lib n name t = .returned p none ∧ p.Root = textRoot t := by
  have h0 : Holds (NewParser name t) [] [] (t ++ []) [] := by
    refine ⟨?_, rfl, rfl, rfl⟩
    show t = _
    simp
  obtain ⟨q1, hr1, hq1⟩ := text_phase lib hdec t [] [] ht (Or.inl rfl) _ h0
  obtain ⟨q2, hstep, hroot⟩ := text_end lib q1 [] t [] hq1
  obtain ⟨k, hk⟩ := hr1.returned hstep
  exact ⟨k, fun n hn => ⟨q2, hk n hn, by simpa using hroot⟩⟩

/-- The run of `Parse` on a literal text followed by one field action. -/
theorem parse_field_run (lib : Lib) (hdec : DecodesUTF8 lib) (name : String) (t f : GoString)
    (ht : Contains t leftDelim = false)
    (hf : ∀ c ∈ f, isTerminator ((c : Nat) : Int) = false) (hstar : f ≠ [42]) :
    ∃ k, ∀ n, k ≤ n →
      ∃ p, Parse lib n name (t ++ leftDelim ++ [46] ++ f ++ rightDelim) = .returned p none ∧
        p.Root = textRoot t ++ [.list [.field f]] := by
  have h0 : Holds (NewParser name (t ++ leftDelim ++ [46] ++ f ++ rightDelim)) [] []
      (t ++ (36 :: 123 :: 46 :: (f ++ [125]))) [] := by
    refine ⟨?_, rfl, rfl, rfl⟩
    show t ++ leftDelim ++ [46] ++ f ++ rightDelim = _
    simp [leftDelim, rightDelim]
  obtain ⟨q1, hr1, hq1⟩ :=
    text_phase lib hdec t (36 :: 123 :: 46 :: (f ++ [125])) [] ht (Or.inr ⟨_, rfl⟩) _ h0
  obtain ⟨q2, hr2, hq2⟩ := delim_phase lib q1 [] t (46 :: (f ++ [125])) [] hq1
  obtain ⟨q3, hr3, hq3⟩ :=
    field_phase lib hdec q2 ([] ++ t ++ [36, 123]) f ([] ++ textRoot t) [] hf hstar hq2
  obtain ⟨q4, hstep, hroot⟩ := text_end lib q3 _ [] _ hq3
  obtain ⟨k, hk⟩ := (hr1.trans (hr2.trans hr3)).returned hstep
  exact ⟨k, fun n hn => ⟨q4, hk n hn, by simpa [textRoot] using hroot⟩⟩

/-! ## Errors and the nodes kept -/

theorem modifyAt_ne_nil {β : Type} (f : β → β) (i : Nat) (l : List β) (h : l ≠ []) :
    modifyAt f i l ≠ [] := by
  cases l with
  | nil => exact absurd rfl h
  | cons x xs =>
    cases i with
    | zero => simp [modifyAt]
    | succ i => simp [modifyAt]

theorem appendAt_ne_nil (nodes : List Node) (cur : Cursor) (n : Node)
    (h : cur = [] ∨ nodes ≠ []) : appendAt nodes cur n ≠ [] := by
  cases cur with
  | nil => simp [appendAt]
  | cons i cur1 =>
    have hne : nodes ≠ [] := by
      rcases h with h | h
      · cases h
      · exact h
    simp only [appendAt]
    split
    · exact modifyAt_ne_nil _ _ _ hne
    · exact hne

theorem consumeText_root (p q : Parser) (v : GoString) (h : consumeText p = some (v, q)) :
    q.Root = p.Root := by
  unfold consumeText at h
  split at h
  · cases h
  · simp only [Option.some.injEq, Prod.mk.injEq] at h
    rw [← h.2]

theorem next_root (lib : Lib) (p q : Parser) (r : rune) (h : next lib p = some (r, q)) :
    q.Root = p.Root := by
  unfold next at h
  split at h
  · simp only [Option.some.injEq, Prod.mk.injEq] at h
    rw [← h.2]
  · split at h
    · cases h
    · simp only [Option.some.injEq, Prod.mk.injEq] at h
      rw [← h.2]

theorem peek_root (lib : Lib) (p q : Parser) (r : rune) (h : peek lib p = some (r, q)) :
    q.Root = p.Root := by
  unfold peek at h
  split at h
  · cases h
  · rename_i r1 q1 hn
    simp only [Option.some.injEq, Prod.mk.injEq] at h
    rw [← h.2]
    exact next_root lib p q1 r1 hn

theorem kept_call (m : Method) (cur : Cursor) (p : Parser) (hm : insideAction m = true)
    (h : p.Root ≠ []) : Kept (.call m cur p) :=
  ⟨fun h0 => absurd (hm.symm.trans h0) (by decide), fun _ => h⟩

theorem append_root_ne_nil (p : Parser) (cur : Cursor) (n : Node) (h : cur = [] ∨ p.Root ≠ []) :
    (append p cur n).Root ≠ [] :=
  appendAt_ne_nil p.Root cur n h

theorem parseText_kept (lib : Lib) (p : Parser) : Kept (parseText lib p []) := by
  unfold parseText
  split
  · trivial
  · split
    · split
      · split
        · trivial
        · exact ⟨fun _ => rfl, fun h0 => by cases h0⟩
      · exact ⟨fun _ => rfl, fun h0 => by cases h0⟩
    · split
      · trivial
      · split
        · unfold parseTextEnd
          split
          · split
            · trivial
            · trivial
          · trivial
        · exact ⟨fun _ => rfl, fun h0 => by cases h0⟩

theorem parseLeftDelim_kept (p : Parser) : Kept (parseLeftDelim p []) := by
  unfold parseLeftDelim
  split
  · trivial
  · exact kept_call _ _ _ rfl (append_root_ne_nil _ _ _ (Or.inl rfl))

theorem parseInsideAction_kept (lib : Lib) (p : Parser) (cur : Cursor) (h : p.Root ≠ []) :
    Kept (parseInsideAction lib p cur) := by
  unfold parseInsideAction
  split
  · trivial
  · split
    · exact kept_call _ _ _ rfl h
    · split
      · exact kept_call _ _ _ rfl h
      · split
        · exact kept_call _ _ _ rfl h
        · split
          · trivial
          · rename_i r q hn
            have hq : q.Root ≠ [] := by
              rw [next_root lib p q r hn]
              exact h
            split
            · exact hq
            · split
              · split
                · trivial
                · rename_i v q1 hc
                  exact kept_call _ _ _ rfl (by rw [consumeText_root q q1 v hc]; exact hq)
              · split
                · exact kept_call _ _ _ rfl hq
                · split
                  · exact kept_call _ _ _ rfl hq
                  · split
                    · exact kept_call _ _ _ rfl hq
                    · split
                      · exact kept_call _ _ _ rfl hq
                      · exact hq

theorem parseRightDelim_kept (p : Parser) : Kept (parseRightDelim p) := by
  unfold parseRightDelim
  split
  · trivial
  · exact ⟨fun _ => rfl, fun h0 => by cases h0⟩

theorem parseRecursive_kept (lib : Lib) (p : Parser) (cur : Cursor) (h : p.Root ≠ []) :
    Kept (parseRecursive lib p cur) := by
  unfold parseRecursive
  split
  · trivial
  · rename_i v q hc
    have hq : q.Root ≠ [] := by
      rw [consumeText_root _ q v hc]
      exact h
    split
    · trivial
    · rename_i r q1 hp
      have hq1 : q1.Root ≠ [] := by
        rw [peek_root lib _ q1 r hp]
        exact append_root_ne_nil _ _ _ (Or.inr hq)
      split
      · exact kept_call _ _ _ rfl hq1
      · exact kept_call _ _ _ rfl hq1

theorem parseNumber_kept (lib : Lib) (p : Parser) (cur : Cursor) (h : p.Root ≠ []) :
    Kept (parseNumber lib p cur) := by
  unfold parseNumber
  split
  · trivial
  · rename_i r q hp
    have hq : q.Root ≠ [] := by
      rw [peek_root lib p q r hp]
      exact h
    split
    · split
      · trivial
      · rename_i r1 q1 hn
        exact kept_call _ _ _ rfl (by rw [next_root lib q q1 r1 hn]; exact hq)
    · exact kept_call _ _ _ rfl hq

theorem parseNumberLoop_kept (lib : Lib) (p : Parser) (cur : Cursor) (h : p.Root ≠ []) :
    Kept (parseNumberLoop lib p cur) := by
  unfold parseNumberLoop
  split
  · trivial
  · rename_i r q hn
    have hq : q.Root ≠ [] := by
      rw [next_root lib p q r hn]
      exact h
    split
    · split
      · trivial
      · rename_i v q1 hc
        have hq1 : q1.Root ≠ [] := by
          rw [consumeText_root _ q1 v hc]
          exact hq
        split
        · exact kept_call _ _ _ rfl (append_root_ne_nil _ _ _ (Or.inr hq1))
        · split
          · exact kept_call _ _ _ rfl (append_root_ne_nil _ _ _ (Or.inr hq1))
          · exact hq1
    · exact kept_call _ _ _ rfl hq

theorem parseArrayEnd_kept (lib : Lib) (p : Parser) (cur : Cursor) (h : p.Root ≠ []) :
    Kept (parseArrayEnd lib p cur) := by
  unfold parseArrayEnd
  split
  · trivial
  · rename_i v q hc
    have hq : q.Root ≠ [] := by
      rw [consumeText_root _ q v hc]
      exact h
    split
    · trivial
    · simp only []
      repeat' split
      all_goals first
        | exact hq
        | exact kept_call _ _ _ rfl (append_root_ne_nil _ _ _ (Or.inr hq))

theorem parseArray_kept (lib : Lib) (p : Parser) (cur : Cursor) (h : p.Root ≠ []) :
    Kept (parseArray lib p cur) := by
  unfold parseArray
  split
  · trivial
  · rename_i r q hn
    have hq : q.Root ≠ [] := by
      rw [next_root lib p q r hn]
      exact h
    split
    · exact hq
    · split
      · exact parseArrayEnd_kept lib q cur hq
      · exact kept_call _ _ _ rfl hq

theorem parseFilter_kept (p : Parser) (cur : Cursor) (h : p.Root ≠ []) :
    Kept (parseFilter p cur) := by
  unfold parseFilter
  split
  · trivial
  · rename_i v q hc
    exact kept_call _ _ _ rfl (by rw [consumeText_root _ q v hc]; exact h)

theorem parseFilterLoop_kept (lib : Lib) (p : Parser) (cur : Cursor) (h : p.Root ≠ []) :
    Kept (parseFilterLoop lib p cur) := by
  unfold parseFilterLoop
  split
  · trivial
  · rename_i r q hn
    have hq : q.Root ≠ [] := by
      rw [next_root lib p q r hn]
      exact h
    split
    · exact hq
    · split
      · split
        · trivial
        · rename_i r1 q1 hn1
          have hq1 : q1.Root ≠ [] := by
            rw [next_root lib q q1 r1 hn1]
            exact hq
          split
          · exact hq1
          · split
            · trivial
            · rename_i v q2 hc
              have hq2 : q2.Root ≠ [] := by
                rw [consumeText_root _ q2 v hc]
                exact hq1
              split
              · trivial
              · split
                · exact hq2
                · exact hq2
      · exact kept_call _ _ _ rfl hq

theorem parseQuote_kept (lib : Lib) (p : Parser) (cur : Cursor) (h : p.Root ≠ []) :
    Kept (parseQuote lib p cur) := by
  unfold parseQuote
  split
  · trivial
  · rename_i r q hn
    have hq : q.Root ≠ [] := by
      rw [next_root lib p q r hn]
      exact h
    split
    · exact hq
    · split
      · split
        · trivial
        · rename_i v q1 hc
          have hq1 : q1.Root ≠ [] := by
            rw [consumeText_root _ q1 v hc]
            exact hq
          split
          · trivial
          · exact kept_call _ _ _ rfl (append_root_ne_nil _ _ _ (Or.inr hq1))
      · exact kept_call _ _ _ rfl hq

theorem parseField_kept (p : Parser) (cur : Cursor) (h : p.Root ≠ []) :
    Kept (parseField p cur) := by
  unfold parseField
  split
  · trivial
  · rename_i v q hc
    exact kept_call _ _ _ rfl (by rw [consumeText_root _ q v hc]; exact h)

theorem parseFieldLoop_kept (lib : Lib) (p : Parser) (cur : Cursor) (h : p.Root ≠ []) :
    Kept (parseFieldLoop lib p cur) := by
  unfold parseFieldLoop
  split
  · trivial
  · rename_i r q hn
    have hq : q.Root ≠ [] := by
      rw [next_root lib p q r hn]
      exact h
    split
    · split
      · trivial
      · rename_i v q1 hc
        have hq1 : q1.Root ≠ [] := by
          rw [consumeText_root _ q1 v hc]
          exact hq
        split
        · exact kept_call _ _ _ rfl (append_root_ne_nil _ _ _ (Or.inr hq1))
        · exact kept_call _ _ _ rfl (append_root_ne_nil _ _ _ (Or.inr hq1))
    · exact kept_call _ _ _ rfl hq

/-- Every method keeps what holds at its entry. -/
theorem step_kept (lib : Lib) (m : Method) (cur : Cursor) (p : Parser) (h : Entered m cur p) :
    Kept (step lib m cur p) := by
  cases m with
  | parseText =>
    have hc : cur = [] := h.1 rfl
    subst hc
    exact parseText_kept lib p
  | parseLeftDelim =>
    have hc : cur = [] := h.1 rfl
    subst hc
    exact parseLeftDelim_kept p
  | parseInsideAction => exact parseInsideAction_kept lib p cur (h.2 rfl)
  | parseRightDelim => exact parseRightDelim_kept p
  | parseRecursive => exact parseRecursive_kept lib p cur (h.2 rfl)
  | parseNumber => exact parseNumber_kept lib p cur (h.2 rfl)
  | parseNumberLoop => exact parseNumberLoop_kept lib p cur (h.2 rfl)
  | parseArray => exact parseArray_kept lib p cur (h.2 rfl)
  | parseFilter => exact parseFilter_kept p cur (h.2 rfl)
  | parseFilterLoop => exact parseFilterLoop_kept lib p cur (h.2 rfl)
  | parseQuote => exact parseQuote_kept lib p cur (h.2 rfl)
  | parseField => exact parseField_kept p cur (h.2 rfl)
  | parseFieldLoop => exact parseFieldLoop_kept lib p cur (h.2 rfl)

/-- A run that returns an error returns a parser whose `Root` is not empty. -/
theorem exec_error_root (lib : Lib) :
    ∀ (n : Nat) (m : Method) (cur : Cursor) (p : Parser), Entered m cur p →
      ∀ (q : Parser) (e : ParseError), exec lib n m cur p = .returned q (some e) →
        q.Root ≠ [] := by
  intro n
  induction n with
  | zero =>
    intro m cur p _ q e h
    simp [exec] at h
  | succ n ih =>
    intro m cur p hent q e h
    have hk := step_kept lib m cur p hent
    cases hs : step lib m cur p with
    | call m1 cur1 p1 =>
      rw [hs] at hk
      simp only [exec, hs] at h
      exact ih m1 cur1 p1 hk q e h
    | done p1 err =>
      rw [hs] at hk
      simp only [exec, hs, Outcome.returned.injEq] at h
      obtain ⟨h1, h2⟩ := h
      subst h1
      subst h2
      exact hk
    | panic p1 => simp [exec, hs] at h
    | exist cur1 p1 text =>
      rw [hs] at hk
      simp only [exec, hs] at h
      cases hsub : exec lib n .parseText [] (NewParser "text" (wrapAction text)) with
      | returned parser err1 =>
        cases err1 with
        | none =>
          simp only [hsub] at h
          exact ih .parseInsideAction cur1 _
            (kept_call .parseInsideAction cur1 _ rfl (append_root_ne_nil _ _ _ (Or.inr hk))) q e h
        | some e1 =>
          simp only [hsub, Outcome.returned.injEq] at h
          rw [← h.1]
          exact hk
      | panicked p2 => simp [hsub] at h
      | unfinished => simp [hsub] at h
    | compare cur1 p1 left op right =>
      rw [hs] at hk
      simp only [exec, hs] at h
      cases hleft : exec lib n .parseText [] (NewParser "left" (wrapAction left)) with
      | returned leftParser err1 =>
        cases err1 with
        | none =>
          simp only [hleft] at h
          cases hright : exec lib n .parseText [] (NewParser "right" (wrapAction right)) with
          | returned rightParser err2 =>
            cases err2 with
            | none =>
              simp only [hright] at h
              exact ih .parseInsideAction cur1 _
                (kept_call .parseInsideAction cur1 _ rfl (append_root_ne_nil _ _ _ (Or.inr hk))) q e h
            | some e2 =>
              simp only [hright, Outcome.returned.injEq] at h
              rw [← h.1]
              exact hk
          | panicked p2 => simp [hright] at h
          | unfinished => simp [hright] at h
        | some e1 =>
          simp only [hleft, Outcome.returned.injEq] at h
          rw [← h.1]
          exact hk
      | panicked p2 => simp [hleft] at h
      | unfinished => simp [hleft] at h

/-- Whenever `Parse` returns an error, the `Root` of the parser it returns is
not empty. -/
theorem parse_error_root (lib : Lib) (n : Nat) (name : String) (text : GoString) (p : Parser)
    (e : ParseError) (h : Parse lib n name text = .returned p (some e)) : p.Root ≠ [] :=
  exec_error_root lib n .parseText [] (NewParser name text)
    ⟨fun _ => rfl, fun h0 => absurd h0 (by decide)⟩ p e h

/-! ## The outcome of `Parse` -/

/-- The instance `asciiLib` decodes as the parser expects. -/
theorem asciiLib_decodes : DecodesUTF8 asciiLib := by
  constructor
  · intro b s hb
    simp [asciiLib, hb]
  · intro b s hb
    have hnot : ¬ b < 128 := Nat.not_lt.mpr hb
    simp [asciiLib, hnot, List.takeWhile_cons, hb]

/-- C22: the code returns a parser that is not empty with an error.
Whenever `Parse` returns an error, on any text, the `Root` of the parser it
returns is not empty.  In particular, for every text `t` without left
delimiter, `Parse` of `t` followed by a left delimiter returns the error
`unclosed action` together with a parser whose `Root` holds the text node of
`t`, if `t` is not empty, and the list node of the action. -/
theorem parse_error_keeps_nodes (lib : Lib) (hdec : DecodesUTF8 lib) (name : String)
    (t : GoString) (ht : Contains t leftDelim = false) :
    (∀ (text : GoString) (n : Nat) (p : Parser) (e : ParseError),
      Parse lib n name text = .returned p (some e) → p.Root ≠ []) ∧
    ∃ k, ∀ n, k ≤ n →
      ∃ p, Parse lib n name (t ++ leftDelim) = .returned p (some .unclosedAction) ∧
        p.Root = textRoot t ++ [.list []] := by
  refine ⟨fun text n p e h => parse_error_root lib n name text p e h, ?_⟩
  have h0 : Holds (NewParser name (t ++ leftDelim)) [] [] (t ++ (36 :: 123 :: [])) [] :=
    ⟨rfl, rfl, rfl, rfl⟩
  obtain ⟨q1, hr1, hq1⟩ := text_phase lib hdec t (36 :: 123 :: []) [] ht (Or.inr ⟨_, rfl⟩) _ h0
  obtain ⟨q2, hr2, hq2⟩ := delim_phase lib q1 [] t [] [] hq1
  have hrest := hq2.rest
  have hnext := hq2.next_at_end lib
  have hstep : step lib .parseInsideAction [([] ++ textRoot t).length] q2
      = .done q2 (some .unclosedAction) := by
    simp [step, parseInsideAction, hrest, hnext, HasPrefix, rightDelim, List.isPrefixOf]
  obtain ⟨k, hk⟩ := (hr1.trans hr2).returned hstep
  refine ⟨k, fun n hn => ⟨q2, hk n hn, ?_⟩⟩
  simpa using hq2.2.2.2

/-- On the text `hello ` followed by a left delimiter, `Parse` returns an
error and a parser with two nodes. -/
theorem parse_error_keeps_nodes_witness :
    ∃ k, ∀ n, k ≤ n →
      ∃ p, Parse asciiLib n "template" (ascii "hello " ++ leftDelim)
          = .returned p (some .unclosedAction) ∧
        p.Root = [.text (ascii "hello "), .list []] :=
  (parse_error_keeps_nodes asciiLib asciiLib_decodes "template" (ascii "hello ")
    (by decide)).2.imp
    (fun _ h n hn => (h n hn).imp (fun _ hp => ⟨hp.1, hp.2.trans rfl⟩))

/-- C23: for every literal text `t` that does not contain the left delimiter
and every field name `f` other than `*` without terminator, also one with the
byte of the right delimiter in it, `Parse` of `t`, the left delimiter, a dot,
`f` and the right delimiter returns no error, with `Root` holding the text node
of `t`, omitted when `t` is empty, and a list node holding the field `f`; and
`Parse` of `t` alone returns no error, with `Root` holding the text node of
`t`, omitted when `t` is empty.  Both hold for every run that is long
enough. -/
theorem parse_text_and_field (lib : Lib) (hdec : DecodesUTF8 lib) (name : String)
    (t f : GoString) (ht : Contains t leftDelim = false)
    (hf : ∀ c ∈ f, isTerminator ((c : Nat) : Int) = false) (hstar : f ≠ [42]) :
    (∃ k, ∀ n, k ≤ n →
      ∃ p, Parse lib n name (t ++ leftDelim ++ [46] ++ f ++ rightDelim) = .returned p none ∧
        p.Root = textRoot t ++ [.list [.field f]]) ∧
    (∃ k, ∀ n, k ≤ n → ∃ p, Parse lib n name t = .returned p none ∧ p.Root = textRoot t) :=
  ⟨parse_field_run lib hdec name t f ht hf hstar, parse_plain_run lib hdec name t ht⟩

/-- The template of the test `variable`: the text `hello ` and the field
`Name`. -/
theorem parse_text_and_field_witness :
    ∃ k, ∀ n, k ≤ n →
      ∃ p, Parse asciiLib n "variable"
          (ascii "hello " ++ leftDelim ++ [46] ++ ascii "Name" ++ rightDelim)
          = .returned p none ∧
        p.Root = [.text (ascii "hello "), .list [.field (ascii "Name")]] :=
  (parse_text_and_field asciiLib asciiLib_decodes "variable" (ascii "hello ") (ascii "Name")
    (by decide) (by decide) (by decide)).1.imp
    (fun _ h n hn => (h n hn).imp (fun _ hp => ⟨hp.1, hp.2.trans rfl⟩))

/-- C29: the code panics on an input that ends right after the dot of a
field.  For every text `t` without left delimiter, `Parse` of `t`, the left
delimiter and a dot does not return: `parseField` sets `start` to the end of
the input, `next` returns `eof` without setting `width`, `backup` steps back
over the dot, and `consumeText` evaluates `input[start:pos]` with
`pos < start`. -/
theorem parse_panics_in_field (lib : Lib) (hdec : DecodesUTF8 lib) (name : String)
    (t : GoString) (ht : Contains t leftDelim = false) :
    ∃ k, ∀ n, k ≤ n →
      ∃ p, Parse lib n name (t ++ leftDelim ++ [46]) = .panicked p ∧
        p.pos < p.start ∧ slice p.input p.start p.pos = none := by
  have h0 : Holds (NewParser name (t ++ leftDelim ++ [46])) [] [] (t ++ (36 :: 123 :: [46])) [] := by
    refine ⟨?_, rfl, rfl, rfl⟩
    show t ++ leftDelim ++ [46] = _
    simp [leftDelim]
  obtain ⟨q1, hr1, hq1⟩ := text_phase lib hdec t (36 :: 123 :: [46]) [] ht (Or.inr ⟨_, rfl⟩) _ h0
  obtain ⟨q2, hr2, hq2⟩ := delim_phase lib q1 [] t [46] [] hq1
  obtain ⟨q3, hs3, hq3, hw3⟩ :=
    dot_step lib hdec [([] ++ textRoot t).length] q2 _ [] _ (fun _ h => by simp at h) hq2
  obtain ⟨q4, hs4, hq4, hw4⟩ := field_step lib [([] ++ textRoot t).length] q3 _ [46] _ _ hq3
  have hnext := hq4.next_at_end lib
  have hterm : isTerminator eof = true := by
    simp [isTerminator, isSpace, isEndOfLine, eof]
  have hlt : (backup q4).pos < (backup q4).start := by
    show q4.pos - q4.width < q4.start
    rw [hw4, hw3, hq4.2.1, hq4.2.2.1]
    simp
  have hslice : slice (backup q4).input (backup q4).start (backup q4).pos = none := by
    unfold slice
    rw [if_neg]
    intro h
    exact absurd h.2.1 (not_le.mpr hlt)
  have hstep : step lib .parseFieldLoop [([] ++ textRoot t).length] q4 = .panic (backup q4) := by
    simp only [step, parseFieldLoop, hnext, hterm, if_true, consumeText, hslice]
  obtain ⟨k, hk⟩ :=
    (hr1.trans (hr2.trans ((Reaches.of_step hs3).trans (Reaches.of_step hs4)))).panicked hstep
  exact ⟨k, fun n hn => ⟨backup q4, hk n hn, hlt, hslice⟩⟩

/-- On the left delimiter followed by a dot, every run of five method entries
or more ends in the panic, with `pos` 2 and `start` 3. -/
theorem parse_panics_in_field_witness :
    (∃ k, ∀ n, k ≤ n →
      ∃ p, Parse asciiLib n "template" ([] ++ leftDelim ++ [46]) = .panicked p ∧
        p.pos < p.start ∧ slice p.input p.start p.pos = none) ∧
    ∃ p, Parse asciiLib 5 "template" (ascii "$\x7b.") = .panicked p ∧ p.pos = 2 ∧ p.start = 3 :=
  ⟨parse_panics_in_field asciiLib asciiLib_decodes "template" [] (by decide),
   ⟨_, rfl, rfl, rfl⟩⟩

end Jsonpath
